import Mathlib

/-!
# FAT32 layer of the kernel (`kernel/fat32.c`) over the buffer cache (`kernel/bio.c`)

Shallow embedding.  The device is seen through the write-through buffer cache:
every function of `fat32.c` that changes a buffer calls `bwrite` before `brelse`,
so `bread(0, sec)` is modelled as reading sector `sec` of the store and
`bread; modify; bwrite; brelse` as updating it.  There is a single volume
(device 0): `root.dev` is 0 and `eget` copies the parent's `dev`.

Machine integers are naturals; wrap-around of `uint32` arithmetic is written
`% U32` where the source computes in 32 bits.  A panic is the result `none`.
-/

set_option autoImplicit false

namespace Fat32

/-! ## Constants -/

/-- Two to the power 32, the modulus of `uint32` arithmetic. -/
def U32 : Nat := 4294967296

/-- Modelled from the spec: the end-of-chain sentinel `FAT32_EOC` of `libs/fat32.h`
(the header is not part of the sources); "any value ≥ 0x0FFFFFF8". -/
def FAT32_EOC : Nat := 0x0ffffff8

/-- Modelled from the spec: attribute bit READ_ONLY 0x01 (`libs/fat32.h`). -/
def ATTR_READ_ONLY : Nat := 0x01
/-- Modelled from the spec: attribute bit HIDDEN 0x02 (`libs/fat32.h`). -/
def ATTR_HIDDEN : Nat := 0x02
/-- Modelled from the spec: attribute bit SYSTEM 0x04 (`libs/fat32.h`). -/
def ATTR_SYSTEM : Nat := 0x04
/-- Modelled from the spec: attribute bit VOLUME_ID 0x08 (`libs/fat32.h`). -/
def ATTR_VOLUME_ID : Nat := 0x08
/-- Modelled from the spec: attribute bit DIRECTORY 0x10 (`libs/fat32.h`). -/
def ATTR_DIRECTORY : Nat := 0x10
/-- Modelled from the spec: attribute bit ARCHIVE 0x20 (`libs/fat32.h`). -/
def ATTR_ARCHIVE : Nat := 0x20
/-- Modelled from the spec: `LONG_NAME = 0x0F` marks a long-name entry (`libs/fat32.h`). -/
def ATTR_LONG_NAME : Nat := 0x0F
/-- Modelled from the spec: `LAST_LONG_ENTRY = 0x40` (`libs/fat32.h`). -/
def LAST_LONG_ENTRY : Nat := 0x40
/-- Modelled from the spec: the empty-slot marker 0xE5 (`libs/fat32.h`). -/
def EMPTY_ENTRY : Nat := 0xe5
/-- Modelled from the spec: the end-of-directory marker 0x00 (`libs/fat32.h`). -/
def END_OF_ENTRY : Nat := 0x00
/-- Modelled from the spec: a long-name entry carries 13 UCS-2 code units (`libs/fat32.h`). -/
def CHAR_LONG_NAME : Nat := 13
/-- Modelled from the spec: a short name has 11 bytes (`libs/fat32.h`). -/
def CHAR_SHORT_NAME : Nat := 11
/-- Modelled from the spec: the bound `FAT32_MAX_FILENAME` on the length of a filename
(`libs/fat32.h`); 255 is the longest name of the FAT32 long-name format. -/
def FAT32_MAX_FILENAME : Nat := 255

/-! ## The device and the volume parameters -/

/-- Sectors of device 0: sector number, byte offset in the sector, byte. -/
abbrev Disk := Nat → Nat → Nat

/-- The static `fat` structure of `fat32.c` (derived values and the `bpb` fields), together with
`BSIZE`, the sector size of the buffer cache (`libs/buf.h`, not part of the sources), which is
carried here as a parameter of the volume. -/
structure Fat where
  first_data_sec : Nat
  data_sec_cnt : Nat
  data_clus_cnt : Nat
  byts_per_clus : Nat
  byts_per_sec : Nat
  sec_per_clus : Nat
  rsvd_sec_cnt : Nat
  fat_cnt : Nat
  hidd_sec : Nat
  tot_sec : Nat
  fat_sz : Nat
  root_clus : Nat
  BSIZE : Nat

/-- Little-endian `uint32` load `*(uint32 *)(b->data + off)` from sector `sec`. -/
def get32 (d : Disk) (sec off : Nat) : Nat :=
  d sec off % 256 + 256 * (d sec (off + 1) % 256) + 65536 * (d sec (off + 2) % 256)
    + 16777216 * (d sec (off + 3) % 256)

/-- Little-endian `uint32` store `*(uint32 *)(b->data + off) = v` into sector `sec`, written through. -/
def put32 (d : Disk) (sec off v : Nat) : Disk :=
  fun s o =>
    if s = sec then
      if o = off then v % 256
      else if o = off + 1 then v / 256 % 256
      else if o = off + 2 then v / 65536 % 256
      else if o = off + 3 then v / 16777216 % 256
      else d s o
    else d s o

/-- Copy of `m` bytes `src 0 .. src (m-1)` to offset `o0` of sector `sec`, written through. -/
def blit (d : Disk) (sec o0 m : Nat) (src : Nat → Nat) : Disk :=
  fun s o => if s = sec ∧ o0 ≤ o ∧ o < o0 + m then src (o - o0) else d s o

/-- The `m` bytes at offset `o0` of sector `sec`. -/
def peek (d : Disk) (sec o0 m : Nat) : List Nat :=
  (List.range m).map (fun i => d sec (o0 + i))

/-! ## FAT table and cluster allocator -/

/-- Source `first_sec_of_clus`: `((cluster - 2) * sec_per_clus) + first_data_sec` in `uint32`. -/
def first_sec_of_clus (fat : Fat) (cluster : Nat) : Nat :=
  (((cluster + U32 - 2) % U32) * fat.sec_per_clus + fat.first_data_sec) % U32

/-- Source `fat_sec_of_clus`:
`rsvd_sec_cnt + (cluster << 2) / byts_per_sec + fat_sz * (fat_num - 1)` in `uint32`. -/
def fat_sec_of_clus (fat : Fat) (cluster fat_num : Nat) : Nat :=
  (fat.rsvd_sec_cnt + ((cluster * 4) % U32) / fat.byts_per_sec
    + fat.fat_sz * ((fat_num + U32 - 1) % U32)) % U32

/-- Source `fat_offset_of_clus`: `(cluster << 2) % byts_per_sec`. -/
def fat_offset_of_clus (fat : Fat) (cluster : Nat) : Nat :=
  ((cluster * 4) % U32) % fat.byts_per_sec

/-- Source `read_fat`. -/
def read_fat (fat : Fat) (d : Disk) (cluster : Nat) : Nat :=
  if cluster ≥ FAT32_EOC then cluster
  else if cluster > (fat.data_clus_cnt + 1) % U32 then 0
  else get32 d (fat_sec_of_clus fat cluster 1) (fat_offset_of_clus fat cluster)

/-- Source `write_fat`: the new store and the return value (0 or -1). -/
def write_fat (fat : Fat) (d : Disk) (cluster content : Nat) : Disk × Int :=
  if cluster > (fat.data_clus_cnt + 1) % U32 then (d, -1)
  else (put32 d (fat_sec_of_clus fat cluster 1) (fat_offset_of_clus fat cluster) content, 0)

/-- One step of `zero_clus`: `memset(b->data, 0, BSIZE); bwrite(b)` on sector `sec`. -/
def zero_sec (fat : Fat) (d : Disk) (sec : Nat) : Disk :=
  fun s o => if s = sec ∧ o < fat.BSIZE then 0 else d s o

/-- Source `zero_clus`: the `sec_per_clus` sectors from `first_sec_of_clus(cluster)` are zeroed,
`sec++` being `uint32`. -/
def zero_clus (fat : Fat) (d : Disk) (cluster : Nat) : Disk :=
  (List.range fat.sec_per_clus).foldl
    (fun acc i => zero_sec fat acc ((first_sec_of_clus fat cluster + i) % U32)) d

/-- The inner loop of `alloc_clus` on the FAT sector `sec`, from index `j` with `k` turns left:
the first `j` whose 4-byte slot is 0. -/
def alloc_find_slot (d : Disk) (sec : Nat) : Nat → Nat → Option Nat
  | 0, _ => none
  | k + 1, j => if get32 d sec (4 * j) = 0 then some j else alloc_find_slot d sec k (j + 1)

/-- The outer loop of `alloc_clus` from sector index `i` with `k` turns left: the first `(i, j)`
whose slot in sector `rsvd_sec_cnt + i` is 0 (`sec++` being `uint32`). -/
def alloc_find (fat : Fat) (d : Disk) : Nat → Nat → Option (Nat × Nat)
  | 0, _ => none
  | k + 1, i =>
    match alloc_find_slot d ((fat.rsvd_sec_cnt + i) % U32) (fat.byts_per_sec / 4) 0 with
    | some j => some (i, j)
    | none => alloc_find fat d k (i + 1)

/-- Source `alloc_clus` (`dev` is device 0): the cluster number returned and the new store, or
`none` for `panic("no clusters")`. -/
def alloc_clus (fat : Fat) (d : Disk) : Option (Nat × Disk) :=
  match alloc_find fat d fat.fat_sz 0 with
  | none => none
  | some (i, j) =>
    let d1 := put32 d ((fat.rsvd_sec_cnt + i) % U32) (4 * j) (FAT32_EOC + 7)
    let clus := (i * (fat.byts_per_sec / 4) + j) % U32
    some (clus, zero_clus fat d1 clus)

/-- Source `free_clus`. -/
def free_clus (fat : Fat) (d : Disk) (cluster : Nat) : Disk :=
  (write_fat fat d cluster 0).1

/-! ## Cluster input and output -/

/-- Modelled from the spec: the copy primitive `copy(user_flag, user_addr, kernel_ptr, n, direction)`
(`either_copyin`, `either_copyout`; process code, not part of the sources), which "returns -1 on
fault".  The memory region at the caller's address is given by its bytes `src` (read by a copy-in)
and by `bad pos m`, telling whether copying `m` bytes at position `pos` of the region faults. -/
structure Copy where
  src : Nat → Nat
  bad : Nat → Nat → Bool

/-- A region of kernel memory (`user` flag 0): the copy is a `memmove` and never faults. -/
def Copy.kernel (src : Nat → Nat) : Copy := ⟨src, fun _ _ => false⟩

/-- Result of `rw_clus`: the store, the bytes copied out in order, and the byte count returned. -/
structure RwRes where
  disk : Disk
  out : List Nat
  tot : Nat

/-- The `for` loop of `rw_clus`; `data` is the position reached in the memory region. -/
def rw_clus_loop (fat : Fat) (write : Bool) (cp : Copy) (n : Nat) :
    Nat → Disk → List Nat → Nat → Nat → Nat → Nat → RwRes
  | 0, d, out, _, _, _, tot => ⟨d, out, tot⟩
  | fuel + 1, d, out, sec, off, data, tot =>
    if tot < n then
      let m0 := fat.BSIZE - off % fat.BSIZE
      let m := if n - tot < m0 then n - tot else m0
      if write then
        if cp.bad data m then ⟨d, out, tot⟩
        else
          rw_clus_loop fat write cp n fuel
            (blit d sec (off % fat.BSIZE) m (fun i => cp.src (data + i))) out
            ((sec + 1) % U32) ((off + m) % U32) (data + m) ((tot + m) % U32)
      else
        if cp.bad data m then ⟨d, out, tot⟩
        else
          rw_clus_loop fat write cp n fuel d (out ++ peek d sec (off % fat.BSIZE) m)
            ((sec + 1) % U32) ((off + m) % U32) (data + m) ((tot + m) % U32)
    else ⟨d, out, tot⟩

/-- Source `rw_clus`; `none` is `panic("offset out of range")`.  Every turn of the loop moves at
least one byte, so `n` turns are enough. -/
def rw_clus (fat : Fat) (d : Disk) (cluster : Nat) (write : Bool) (cp : Copy)
    (data off n : Nat) : Option RwRes :=
  if (off + n) % U32 > fat.byts_per_clus then none
  else
    some (rw_clus_loop fat write cp n n d []
      ((first_sec_of_clus fat cluster + off / fat.byts_per_sec) % U32)
      (off % fat.byts_per_sec) data 0)

/-! ## Directory entries in memory -/

/-- A pointer to a `struct dirent`: null, the static `root`, or a slot of `ecache.entries`. -/
inductive Ptr where
  | null : Ptr
  | root : Ptr
  | slot : Nat → Ptr
  deriving DecidableEq, Repr

/-- Modelled from the spec: `struct dirent` of `libs/fat32.h` (the header is not part of the
sources), with the fields named as `fat32.c` uses them (`attr` is the field `attribute`).  `filename` is the character array as it
stands (a string ends at its first 0 byte, or at the end of the list); the `prev`/`next` links are
kept as the order of the cache list, and the sleep-lock is not modelled. -/
structure Dirent where
  filename : List Nat
  attr : Nat
  first_clus : Nat
  file_size : Nat
  cur_clus : Nat
  clus_cnt : Nat
  dev : Nat
  dirty : Nat
  valid : Int
  ref : Int
  off : Nat
  parent : Ptr

/-- Value of a `uint32` converted to `int`. -/
def toInt32 (x : Nat) : Int :=
  if x % U32 < 2147483648 then ((x % U32 : Nat) : Int) else ((x % U32 : Nat) : Int) - 4294967296

/-- Value of an `int` converted to `uint32`. -/
def ofInt32 (x : Int) : Nat := (x % 4294967296).toNat

/-- Result of `reloc_clus`: the store, the entry and the value returned. -/
structure RelocRes where
  disk : Disk
  ent : Dirent
  ret : Int

/-- The first `while` loop of `reloc_clus`, `k` being `clus_num - entry->clus_cnt`, the number of
turns left.  `clus` is an `int`, so the end-of-chain test is a signed comparison.  The result is
`none` on a panic, otherwise the store, the entry and whether the loop ran to its end (`false`:
the function returns -1). -/
def reloc_fwd (fat : Fat) (alloc : Bool) : Nat → Disk → Dirent → Option (Disk × Dirent × Bool)
  | 0, d, e => some (d, e, true)
  | k + 1, d, e =>
    let clus := read_fat fat d e.cur_clus
    if toInt32 clus ≥ (FAT32_EOC : Int) then
      if alloc then
        match alloc_clus fat d with
        | none => none
        | some (c, d1) =>
          reloc_fwd fat alloc k (write_fat fat d1 e.cur_clus c).1
            { e with cur_clus := c, clus_cnt := e.clus_cnt + 1 }
      else some (d, { e with cur_clus := e.first_clus, clus_cnt := 0 }, false)
    else reloc_fwd fat alloc k d { e with cur_clus := clus, clus_cnt := e.clus_cnt + 1 }

/-- The second `while` loop of `reloc_clus`, `k` being the number of turns left; `none` is
`panic("reloc_clus")`. -/
def reloc_back (fat : Fat) (d : Disk) : Nat → Dirent → Option Dirent
  | 0, e => some e
  | k + 1, e =>
    let c := read_fat fat d e.cur_clus
    if c ≥ FAT32_EOC then none
    else reloc_back fat d k { e with cur_clus := c, clus_cnt := e.clus_cnt + 1 }

/-- Source `reloc_clus`. -/
def reloc_clus (fat : Fat) (d : Disk) (entry : Dirent) (off : Nat) (alloc : Bool) :
    Option RelocRes :=
  let clus_num := off / fat.byts_per_clus
  match reloc_fwd fat alloc (clus_num - entry.clus_cnt) d entry with
  | none => none
  | some (d1, e1, false) => some ⟨d1, e1, -1⟩
  | some (d1, e1, true) =>
    if clus_num < e1.clus_cnt then
      match reloc_back fat d1 clus_num { e1 with cur_clus := e1.first_clus, clus_cnt := 0 } with
      | none => none
      | some e2 => some ⟨d1, e2, ((off % fat.byts_per_clus : Nat) : Int)⟩
    else some ⟨d1, e1, ((off % fat.byts_per_clus : Nat) : Int)⟩

/-! ## File input and output -/

/-- Result of `eread` and `ewrite`: the store, the entry, the bytes copied out in order (what the
destination holds from its start), and the `int` returned. -/
structure IoRes where
  disk : Disk
  ent : Dirent
  out : List Nat
  ret : Int

/-- The `for` loop of `eread`; `n` is the clamped count and the destination has advanced by
`tot`.  The result carries `tot`.  `none` is a panic, or the loop not ending. -/
def eread_loop (fat : Fat) (cp : Copy) (n : Nat) :
    Nat → Disk → Dirent → List Nat → Nat → Nat → Option (Disk × Dirent × List Nat × Nat)
  | 0, d, e, out, _, tot =>
    if e.cur_clus < FAT32_EOC ∧ tot < n then none else some (d, e, out, tot)
  | fuel + 1, d, e, out, off, tot =>
    if e.cur_clus < FAT32_EOC ∧ tot < n then
      match reloc_clus fat d e off false with
      | none => none
      | some r =>
        let m0 := fat.byts_per_clus - off % fat.byts_per_clus
        let m := if n - tot < m0 then n - tot else m0
        match rw_clus fat r.disk r.ent.cur_clus false cp tot (off % fat.byts_per_clus) m with
        | none => none
        | some w =>
          if w.tot ≠ m then some (w.disk, r.ent, out ++ w.out, tot)
          else eread_loop fat cp n fuel w.disk r.ent (out ++ w.out)
                 ((off + m) % U32) ((tot + m) % U32)
    else some (d, e, out, tot)

/-- Source `eread`.  Every turn of the loop moves at least one byte, so `n` turns are enough. -/
def eread (fat : Fat) (d : Disk) (entry : Dirent) (cp : Copy) (off n : Nat) : Option IoRes :=
  if off > entry.file_size ∨ (off + n) % U32 < off ∨ entry.attr &&& ATTR_DIRECTORY ≠ 0 then
    some ⟨d, entry, [], 0⟩
  else
    let n1 := if (off + n) % U32 > entry.file_size then entry.file_size - off else n
    match eread_loop fat cp n1 n1 d entry [] off 0 with
    | none => none
    | some (d1, e1, out, tot) => some ⟨d1, e1, out, toInt32 tot⟩

/-- The `for` loop of `ewrite`; the source has advanced by `tot`.  The result carries the final
`off` and `tot`. -/
def ewrite_loop (fat : Fat) (cp : Copy) (n : Nat) :
    Nat → Disk → Dirent → Nat → Nat → Option (Disk × Dirent × Nat × Nat)
  | 0, d, e, off, tot => if tot < n then none else some (d, e, off, tot)
  | fuel + 1, d, e, off, tot =>
    if tot < n then
      match reloc_clus fat d e off true with
      | none => none
      | some r =>
        let m0 := fat.byts_per_clus - off % fat.byts_per_clus
        let m := if n - tot < m0 then n - tot else m0
        match rw_clus fat r.disk r.ent.cur_clus true cp tot (off % fat.byts_per_clus) m with
        | none => none
        | some w =>
          if w.tot ≠ m then some (w.disk, r.ent, off, tot)
          else ewrite_loop fat cp n fuel w.disk r.ent ((off + m) % U32) ((tot + m) % U32)
    else some (d, e, off, tot)

/-- The block `if (entry->first_clus == 0) { ... }` of `ewrite`: a file without a first cluster
is given one. -/
def ewrite_first (fat : Fat) (d : Disk) (entry : Dirent) : Option (Disk × Dirent) :=
  if entry.first_clus = 0 then
    match alloc_clus fat d with
    | none => none
    | some (c, d1) =>
      some (d1, { entry with cur_clus := c, first_clus := c, clus_cnt := 0, dirty := 1 })
  else some (d, entry)

/-- Source `ewrite`. -/
def ewrite (fat : Fat) (d : Disk) (entry : Dirent) (cp : Copy) (off n : Nat) : Option IoRes :=
  if off > entry.file_size ∨ (off + n) % U32 < off ∨ off + n > 0xffffffff
      ∨ entry.attr &&& ATTR_READ_ONLY ≠ 0 then
    some ⟨d, entry, [], -1⟩
  else
    match ewrite_first fat d entry with
    | none => none
    | some (d1, e1) =>
      match ewrite_loop fat cp n n d1 e1 off 0 with
      | none => none
      | some (d2, e2, off2, tot) =>
        let e3 := if n > 0 ∧ off2 > e2.file_size then
                    { e2 with file_size := off2, dirty := 1 } else e2
        some ⟨d2, e3, [], toInt32 tot⟩

/-- The `for` loop of `etrunc`; `none` when the loop has not ended within `fuel` turns. -/
def etrunc_loop (fat : Fat) : Nat → Disk → Nat → Option Disk
  | 0, d, clus => if clus ≥ 2 ∧ clus < FAT32_EOC then none else some d
  | fuel + 1, d, clus =>
    if clus ≥ 2 ∧ clus < FAT32_EOC then
      etrunc_loop fat fuel (free_clus fat d clus) (read_fat fat d clus)
    else some d

/-- Source `etrunc`, its loop run for at most `fuel` turns. -/
def etrunc (fat : Fat) (fuel : Nat) (d : Disk) (entry : Dirent) : Option (Disk × Dirent) :=
  match etrunc_loop fat fuel d entry.first_clus with
  | none => none
  | some d1 => some (d1, { entry with file_size := 0, first_clus := 0, dirty := 1 })

/-! ## Strings -/

/-- The C string held in a character array: the bytes before the first 0. -/
def cstr (buf : List Nat) : List Nat := buf.takeWhile (fun c => c ≠ 0)

/-- Library `strlen`. -/
def strlen (buf : List Nat) : Nat := (cstr buf).length

/-- Library `strncmp(a, b, n) == 0`. -/
def strncmp_eq (a b : List Nat) (n : Nat) : Bool := (cstr a).take n == (cstr b).take n

/-- Library `strncpy(dst, src, n)`: the `n` bytes stored at `dst`. -/
def strncpy (src : List Nat) (n : Nat) : List Nat :=
  (cstr src).take n ++ List.replicate (n - ((cstr src).take n).length) 0

/-- Store of `bytes` at index `idx` of a character array; a store that falls outside the array is
not a store into the field and is left out. -/
def buf_store (buf : List Nat) (idx : Int) (bytes : List Nat) : List Nat :=
  (List.range buf.length).map (fun (k : Nat) =>
    if idx ≤ (k : Int) ∧ (k : Int) < idx + bytes.length then bytes.getD ((k : Int) - idx).toNat 0
    else buf.getD k 0)

/-- The last `while` loop of `formatname` on the reversed string: the spaces at the end are cut
off when a character other than a space is found, otherwise the string is left as it is. -/
def trim_tail (r : List Nat) : List Nat :=
  if r.all (fun c => c = 0x20) then r
  else (r.reverse.dropWhile (fun c => c = 0x20)).reverse

/-- Source `formatname`; `none` is the null pointer.  `char` is unsigned on this target
(RISC-V), so `c < 0x20` is a comparison of byte values. -/
def formatname (name : List Nat) : Option (List Nat) :=
  let r := (cstr name).dropWhile (fun c => c = 0x20 ∨ c = 0x2e)
  if r.any (fun c => c < 0x20 ∨ c ∈ [0x22, 0x2a, 0x2f, 0x3a, 0x3c, 0x3e, 0x3f, 0x5c, 0x7c]) then none
  else some (trim_tail r)

/-! ## Directory-entry codec -/

/-- The main `while` loop of `generate_shortname`.  `name` is the string, `pos` the index the
pointer `name` has reached, `p` the index the pointer `p` points at (`none`: null), `out` the
array `shortname`.  The result is `i` and the array. -/
def generate_shortname_loop (name : List Nat) :
    Nat → Nat → Nat → Option Nat → List Nat → Nat × List Nat
  | 0, i, _, _, out => (i, out)
  | fuel + 1, i, pos, p, out =>
    if i < CHAR_SHORT_NAME then
      let c := name.getD pos 0
      if c = 0 then (i, out)
      else
        match (if i = 8 then p else none) with
        | some pi =>
          if pi + 1 < pos + 1 then (i, out)
          else generate_shortname_loop name fuel i (pi + 1) none out
        | none =>
          if c = 0x20 then generate_shortname_loop name fuel i (pos + 1) p out
          else if c = 0x2e then
            if (match p with | none => true | some pi => decide (pos + 1 > pi)) then
              generate_shortname_loop name fuel 8 (pos + 1) none
                (buf_store out i (List.replicate (8 - i) 0x20))
            else generate_shortname_loop name fuel i (pos + 1) p out
          else
            let c1 := if 0x61 ≤ c ∧ c ≤ 0x7a then c - 0x20
                      else if c ∈ [0x2b, 0x2c, 0x3b, 0x3d, 0x5b, 0x5d] then 0x5f else c
            generate_shortname_loop name fuel (i + 1) (pos + 1) p (buf_store out i [c1])
    else (i, out)

/-- Source `generate_shortname` applied to an array `shortname` that `emake` has cleared
(12 bytes of 0): the array afterwards.  The pointer `name` moves forward by at least one character
in every turn of the loop. -/
def generate_shortname (name : List Nat) : List Nat :=
  let s := cstr name
  let p0 : Nat := match (List.range s.length).reverse.find? (fun j => s.getD j 0 = 0x2e) with
    | some j => j
    | none => 0
  let r := generate_shortname_loop s (s.length + 1) 0 0 (some p0) (List.replicate 12 0)
  buf_store r.2 r.1 (List.replicate (CHAR_SHORT_NAME - r.1) 0x20)

/-- Source `cal_checksum` over the 11 bytes at `shortname`. -/
def cal_checksum (shortname : List Nat) : Nat :=
  (List.range CHAR_SHORT_NAME).foldl
    (fun sum k => ((if sum &&& 1 ≠ 0 then 0x80 else 0) + (sum >>> 1) + shortname.getD k 0 % 256) % 256) 0

/-- Bytes of a `uint16`, little-endian. -/
def le16 (v : Nat) : List Nat := [v % 256, v / 256 % 256]

/-- Bytes of a `uint32`, little-endian. -/
def le32 (v : Nat) : List Nat := [v % 256, v / 256 % 256, v / 65536 % 256, v / 16777216 % 256]

/-- The 32 bytes of a `short_name_entry_t` cleared by `memset` and then given its name (11 bytes),
attribute, first cluster and size. -/
def sne_bytes (name : List Nat) (attr first_clus file_size : Nat) : List Nat :=
  name ++ [attr] ++ List.replicate 8 0 ++ le16 (first_clus / 65536 % 65536) ++ List.replicate 4 0
    ++ le16 (first_clus % 65536) ++ le32 file_size

/-- The inner `for` loop of `emake` over the 13 code units of a long-name entry: the 26 bytes
stored through `w`; `p` is the index reached in the filename, `k` the number of units left. -/
def lne_chars (fname : List Nat) : Nat → Nat → Bool → List Nat
  | 0, _, _ => []
  | k + 1, p, true => 0xff :: 0xff :: lne_chars fname k p true
  | k + 1, p, false => fname.getD p 0 :: 0 :: lne_chars fname k (p + 1) (fname.getD p 0 = 0)

/-- The 32 bytes of the `long_name_entry_t` that `emake` builds in turn `i` of its loop. -/
def lne_bytes (fname : List Nat) (entcnt checksum i : Nat) : List Nat :=
  let order := if i % 256 = entcnt then (i % 256) ||| LAST_LONG_ENTRY else i % 256
  let w := lne_chars fname CHAR_LONG_NAME ((i - 1) * CHAR_LONG_NAME) false
  [order] ++ w.take 10 ++ [ATTR_LONG_NAME, 0, checksum] ++ (w.drop 10).take 12 ++ [0, 0]
    ++ w.drop 22

/-- The pair `off2 = reloc_clus(dp, off, 1); rw_clus(dp->cur_clus, 1, 0, &de, off2, sizeof(de))`
of `emake`. -/
def emake_put (fat : Fat) (d : Disk) (dp : Dirent) (off : Nat) (de : List Nat) :
    Option (Disk × Dirent) :=
  match reloc_clus fat d dp off true with
  | none => none
  | some r =>
    match rw_clus fat r.disk r.ent.cur_clus true (Copy.kernel (fun i => de.getD i 0)) 0
        (ofInt32 r.ret) 32 with
    | none => none
    | some w => some (w.disk, r.ent)

/-- The loop `for (int i = entcnt; i > 0; i--)` of `emake`; the result carries the final `off`. -/
def emake_lnes (fat : Fat) (fname : List Nat) (entcnt checksum : Nat) :
    Nat → Disk → Dirent → Nat → Option (Disk × Dirent × Nat)
  | 0, d, dp, off => some (d, dp, off)
  | i + 1, d, dp, off =>
    match emake_put fat d dp off (lne_bytes fname entcnt checksum (i + 1)) with
    | none => none
    | some (d1, dp1) => emake_lnes fat fname entcnt checksum i d1 dp1 ((off + 32) % U32)

/-- Source `emake`: the store and the directory `dp` afterwards (`ep` is only read; the fields
read are not those `reloc_clus` changes, so `ep` may be `dp` itself). -/
def emake (fat : Fat) (d : Disk) (dp ep : Dirent) (off : Nat) : Option (Disk × Dirent) :=
  if dp.attr &&& ATTR_DIRECTORY = 0 then none
  else if off % 32 ≠ 0 then none
  else if off ≤ 32 then
    let nm : List Nat := if off = 0 then 0x2e :: List.replicate 10 0x20
                         else 0x2e :: 0x2e :: List.replicate 9 0x20
    emake_put fat d dp off (sne_bytes nm ATTR_DIRECTORY ep.first_clus 0)
  else
    let entcnt := (strlen ep.filename + CHAR_LONG_NAME - 1) / CHAR_LONG_NAME
    let shortname := generate_shortname ep.filename
    match emake_lnes fat ep.filename entcnt (cal_checksum shortname) entcnt d dp off with
    | none => none
    | some (d1, dp1, off1) =>
      emake_put fat d1 dp1 off1
        (sne_bytes (strncpy shortname CHAR_SHORT_NAME) ep.attr ep.first_clus ep.file_size)

/-- The records `emake` writes for an entry at an offset above 32, in the order of the
directory: the long-name entries of the turns `entcnt`, ..., 1 of its loop, then the short-name
entry. -/
def emake_recs (ep : Dirent) : List (List Nat) :=
  (List.range ((strlen ep.filename + CHAR_LONG_NAME - 1) / CHAR_LONG_NAME)).map
      (fun k => lne_bytes ep.filename ((strlen ep.filename + CHAR_LONG_NAME - 1) / CHAR_LONG_NAME)
        (cal_checksum (generate_shortname ep.filename))
        ((strlen ep.filename + CHAR_LONG_NAME - 1) / CHAR_LONG_NAME - k))
    ++ [sne_bytes (strncpy (generate_shortname ep.filename) CHAR_SHORT_NAME) ep.attr
          ep.first_clus ep.file_size]

/-- Modelled from the spec: `snstr` of the string library (not part of the sources), which turns
UCS-2 code units into characters: "13 UCS-2 code units", "Name bytes beyond the terminating null
are filled with 0xFF".  The units before the first 0 unit give their low bytes, the rest of the
`len` characters is 0. -/
def snstr (src : List Nat) : List Nat :=
  (src.takeWhile (fun u => u ≠ 0)).map (fun u => u % 256)
    ++ List.replicate (src.length - (src.takeWhile (fun u => u ≠ 0)).length) 0

/-- The `cnt` UCS-2 code units (little-endian) at byte `o` of a directory record. -/
def units_at (de : List Nat) (o cnt : Nat) : List Nat :=
  (List.range cnt).map (fun k => de.getD (o + 2 * k) 0 + 256 * de.getD (o + 2 * k + 1) 0)

/-- Source `read_entry_name`: the character array `filename` after the call with
`buffer = filename + base`. -/
def read_entry_name (filename : List Nat) (base : Int) (de : List Nat) : List Nat :=
  if de.getD 11 0 = ATTR_LONG_NAME then
    buf_store (buf_store (buf_store filename base (snstr (units_at de 1 5)))
      (base + 5) (snstr (units_at de 14 6))) (base + 11) (snstr (units_at de 28 2))
  else
    let b := (de.take 8).takeWhile (fun c => c ≠ 0x20)
    let dot : List Nat := if de.getD 8 0 ≠ 0x20 then [0x2e] else []
    let ext := ((de.drop 8).take 3).takeWhile (fun c => c ≠ 0x20)
    buf_store (buf_store filename base (List.replicate (CHAR_SHORT_NAME + 2) 0)) base
      (b ++ dot ++ ext)

/-- Source `read_entry_info`. -/
def read_entry_info (entry : Dirent) (de : List Nat) : Dirent :=
  let fc := ((de.getD 20 0 + 256 * de.getD 21 0) * 65536) ||| (de.getD 26 0 + 256 * de.getD 27 0)
  { entry with
    attr := de.getD 11 0
    first_clus := fc
    file_size := de.getD 28 0 + 256 * de.getD 29 0 + 65536 * de.getD 30 0 + 16777216 * de.getD 31 0
    cur_clus := fc
    clus_cnt := 0 }

/-- Result of `enext`: the directory, the entry, the value of `*count`, and the value returned. -/
structure EnextRes where
  dp : Dirent
  ep : Dirent
  count : Int
  ret : Int

/-- The `for` loop of `enext`.  `cnt` is the local counter, `cptr` tells whether the local pointer
`count` is non-null, `count` is the value of `*count`.  Reading does not change the store
(`reloc_clus` without allocation and `rw_clus` in read mode write nothing).  `none` is a panic, a
store through the null `count`, or the loop not ending within `fuel` turns. -/
def enext_loop (fat : Fat) (d : Disk) :
    Nat → Dirent → Dirent → Nat → Int → Bool → Int → Option EnextRes
  | 0, _, _, _, _, _, _ => none
  | fuel + 1, dp, ep, off, cnt, cptr, count =>
    match reloc_clus fat d dp off false with
    | none => none
    | some r =>
      if r.ret = -1 then some ⟨r.ent, ep, count, -1⟩
      else
        match rw_clus fat d r.ent.cur_clus false (Copy.kernel (fun _ => 0)) 0 (ofInt32 r.ret) 32 with
        | none => none
        | some w =>
          let de := w.out
          if w.tot ≠ 32 ∨ de.getD 0 0 = END_OF_ENTRY then some ⟨r.ent, ep, count, -1⟩
          else if de.getD 0 0 = EMPTY_ENTRY then
            enext_loop fat d fuel r.ent ep ((off + 32) % U32) (cnt + 1) cptr count
          else if cnt ≠ 0 then
            if cptr then some ⟨r.ent, ep, cnt, 0⟩ else none
          else if de.getD 11 0 = ATTR_LONG_NAME then
            let lcnt : Nat := de.getD 0 0 &&& (0xffffffff - LAST_LONG_ENTRY)
            let nm := read_entry_name ep.filename (((lcnt : Int) - 1) * CHAR_LONG_NAME) de
            if de.getD 0 0 &&& LAST_LONG_ENTRY ≠ 0 then
              if cptr then
                enext_loop fat d fuel r.ent { ep with filename := nm } ((off + 32) % U32) cnt
                  false ((lcnt : Int) + 1)
              else none
            else
              enext_loop fat d fuel r.ent { ep with filename := nm } ((off + 32) % U32) cnt
                cptr count
          else
            if cptr then
              some ⟨r.ent, read_entry_info { ep with filename := read_entry_name ep.filename 0 de } de,
                1, 1⟩
            else some ⟨r.ent, read_entry_info ep de, count, 1⟩

/-- Source `enext`, called with a non-null `count` whose target holds `count`. -/
def enext (fat : Fat) (fuel : Nat) (d : Disk) (dp ep : Dirent) (off : Nat) (count : Int) :
    Option EnextRes :=
  if dp.attr &&& ATTR_DIRECTORY = 0 then none
  else if ep.valid ≠ 0 then none
  else if off % 32 ≠ 0 then none
  else if dp.valid ≠ 1 then some ⟨dp, ep, count, -1⟩
  else
    enext_loop fat d fuel dp
      { ep with filename := List.replicate (FAT32_MAX_FILENAME + 1) 0 } off 0 true count

/-- The assignments of `eupdate` to `de.sne.fst_clus_hi`, `de.sne.fst_clus_lo` and
`de.sne.file_size` in the 32 bytes `de`. -/
def sne_patch (de : List Nat) (first_clus file_size : Nat) : List Nat :=
  de.take 20 ++ le16 (first_clus / 65536 % 65536) ++ (de.drop 22).take 4
    ++ le16 (first_clus % 65536) ++ le32 file_size

/-- Source `eupdate` on the entry and the entry `entry->parent` points to: the store, the parent
and the entry afterwards.  The two reads leave the store as it is. -/
def eupdate (fat : Fat) (d : Disk) (parent entry : Dirent) : Option (Disk × Dirent × Dirent) :=
  if entry.dirty = 0 ∨ entry.valid ≠ 1 then some (d, parent, entry)
  else
    match reloc_clus fat d parent entry.off false with
    | none => none
    | some r1 =>
      match rw_clus fat d r1.ent.cur_clus false (Copy.kernel (fun _ => 0)) 0 (ofInt32 r1.ret) 1 with
      | none => none
      | some w1 =>
        let entcnt : Nat := w1.out.getD 0 0 &&& (0xffffffff - LAST_LONG_ENTRY)
        match reloc_clus fat d r1.ent ((entry.off + (entcnt * 32) % U32) % U32) false with
        | none => none
        | some r2 =>
          match rw_clus fat d r2.ent.cur_clus false (Copy.kernel (fun _ => 0)) 0
              (ofInt32 r2.ret) 32 with
          | none => none
          | some w2 =>
            let de := sne_patch w2.out entry.first_clus entry.file_size
            match rw_clus fat d r2.ent.cur_clus true (Copy.kernel (fun i => de.getD i 0)) 0
                (ofInt32 r2.ret) 32 with
            | none => none
            | some w3 => some (w3.disk, r2.ent, { entry with dirty := 0 })

/-- The `for` loop of `eremove`, `k` being the number of turns left. -/
def eremove_loop (fat : Fat) : Nat → Disk → Dirent → Nat → Nat → Option (Disk × Dirent)
  | 0, d, parent, _, _ => some (d, parent)
  | k + 1, d, parent, off, off2 =>
    match rw_clus fat d parent.cur_clus true (Copy.kernel (fun _ => EMPTY_ENTRY)) 0 off2 1 with
    | none => none
    | some w =>
      match reloc_clus fat w.disk parent ((off + 32) % U32) false with
      | none => none
      | some r => eremove_loop fat k w.disk r.ent ((off + 32) % U32) (ofInt32 r.ret)

/-- Source `eremove` on the entry and the entry `entry->parent` points to: the store, the parent
and the entry afterwards. -/
def eremove (fat : Fat) (d : Disk) (parent entry : Dirent) : Option (Disk × Dirent × Dirent) :=
  if entry.valid ≠ 1 then some (d, parent, entry)
  else
    match reloc_clus fat d parent entry.off false with
    | none => none
    | some r1 =>
      match rw_clus fat d r1.ent.cur_clus false (Copy.kernel (fun _ => 0)) 0 (ofInt32 r1.ret) 1 with
      | none => none
      | some w1 =>
        let entcnt : Nat := w1.out.getD 0 0 &&& (0xffffffff - LAST_LONG_ENTRY)
        match eremove_loop fat (entcnt + 1) d r1.ent entry.off (ofInt32 r1.ret) with
        | none => none
        | some (d1, p1) => some (d1, p1, { entry with valid := -1 })

/-! ## Entry cache -/

/-- The file system state: the store, the static `root`, the array `ecache.entries`, and the cache
list as the slot numbers met from `root.next` along `next` (back to front: along `prev`). -/
structure FS where
  disk : Disk
  root : Dirent
  entries : List Dirent
  lru : List Nat

/-- The entry a pointer points to; `none` for the null pointer or a slot out of range. -/
def FS.get (s : FS) : Ptr → Option Dirent
  | .null => none
  | .root => some s.root
  | .slot i => s.entries[i]?

/-- Assignment to the entry a pointer points to. -/
def FS.set (s : FS) (p : Ptr) (e : Dirent) : FS :=
  match p with
  | .null => s
  | .root => { s with root := e }
  | .slot i => { s with entries := s.entries.set i e }

/-- Source `eget`; `name = none` is a null `name`.  `none` is a panic (or a null `parent`). -/
def eget (s : FS) (parent : Ptr) (name : Option (List Nat)) : Option (FS × Ptr) :=
  let hit : Option Nat :=
    match name with
    | none => none
    | some nm =>
      s.lru.find? (fun i =>
        match s.entries[i]? with
        | some ep => decide (ep.valid = 1) && decide (ep.parent = parent)
                       && strncmp_eq ep.filename nm FAT32_MAX_FILENAME
        | none => false)
  match hit with
  | some i =>
    match s.entries[i]? with
    | none => none
    | some ep =>
      let s1 := s.set (.slot i) { ep with ref := ep.ref + 1 }
      if ep.ref = 0 then
        match s1.get ep.parent with
        | none => none
        | some pp => some (s1.set ep.parent { pp with ref := pp.ref + 1 }, .slot i)
      else some (s1, .slot i)
  | none =>
    match s.lru.reverse.find? (fun i =>
        match s.entries[i]? with
        | some ep => decide (ep.ref = 0)
        | none => false) with
    | none => none
    | some i =>
      match s.entries[i]?, s.get parent with
      | some ep, some par =>
        some (s.set (.slot i) { ep with ref := 1, dev := par.dev, off := 0, valid := 0, dirty := 0 },
              .slot i)
      | _, _ => none

/-- Source `edup`. -/
def edup (s : FS) (entry : Ptr) : FS × Ptr :=
  match s.get entry with
  | none => (s, entry)
  | some e => (s.set entry { e with ref := e.ref + 1 }, entry)

/-- Source `eput`; `fuel` bounds the depth of the recursion along `parent` and the turns of the
loop of `etrunc`.  `none` is a panic (`elock`, `eunlock`), a null pointer, or the bound reached. -/
def eput (fat : Fat) : Nat → FS → Ptr → Option FS
  | 0, _, _ => none
  | fuel + 1, s, entry =>
    match s.get entry with
    | none => none
    | some e =>
      if entry ≠ .root ∧ e.valid ≠ 0 ∧ e.ref = 1 then
        let s1 : FS := match entry with
          | .slot i => { s with lru := i :: s.lru.erase i }
          | _ => s
        let s2 : Option FS :=
          if e.valid = -1 then
            match etrunc fat fuel s1.disk e with
            | none => none
            | some (d1, e1) => some ({ s1 with disk := d1 }.set entry e1)
          else
            match s1.get e.parent with
            | none => none
            | some par =>
              if par.ref < 1 then none
              else
                match eupdate fat s1.disk par e with
                | none => none
                | some (d1, par1, e1) =>
                  some (({ s1 with disk := d1 }.set e.parent par1).set entry e1)
        match s2 with
        | none => none
        | some s3 =>
          match s3.get entry with
          | none => none
          | some e3 =>
            let s4 := s3.set entry { e3 with ref := e3.ref - 1 }
            if e3.ref - 1 = 0 then eput fat fuel s4 e3.parent else some s4
      else some (s.set entry { e with ref := e.ref - 1 })

/-- Result of `dirlookup`: the state, the pointer returned, and the value of the variable `poff`
points to (unchanged input when `poff` is null). -/
structure DlRes where
  fs : FS
  ret : Ptr
  poff : Nat

/-- The `while` loop of `dirlookup` with what follows it.  `type` is assigned the value of the
comparison `enext(...) != -1`.  `pptr` tells whether the local pointer `poff` is non-null, `pval`
is the value of its target. -/
def dirlookup_loop (fat : Fat) (ef : Nat) (filename : List Nat) (entcnt : Int) (dp ep : Ptr) :
    Nat → FS → Nat → Int → Bool → Nat → Option DlRes
  | 0, _, _, _, _, _ => none
  | fuel + 1, s, off, count, pptr, pval =>
    match s.get dp, s.get ep with
    | some dpe, some epe =>
      match enext fat ef s.disk dpe epe off count with
      | none => none
      | some r =>
        let s1 := (s.set dp r.dp).set ep r.ep
        let type : Int := if r.ret ≠ -1 then 1 else 0
        if type ≠ 0 then
          if type = 0 then
            if pptr ∧ r.count ≥ entcnt then
              dirlookup_loop fat ef filename entcnt dp ep fuel s1
                ((off + ofInt32 (r.count * 32)) % U32) r.count false off
            else
              dirlookup_loop fat ef filename entcnt dp ep fuel s1
                ((off + ofInt32 (r.count * 32)) % U32) r.count pptr pval
          else if strncmp_eq filename r.ep.filename FAT32_MAX_FILENAME then
            let s2 := (edup s1 dp).1
            match s2.get ep with
            | none => none
            | some e2 => some ⟨s2.set ep { e2 with parent := dp, off := off, valid := 1 }, ep, pval⟩
          else
            dirlookup_loop fat ef filename entcnt dp ep fuel s1
              ((off + ofInt32 (r.count * 32)) % U32) r.count pptr pval
        else
          match eput fat ef s1 ep with
          | none => none
          | some s2 => some ⟨s2, .null, if pptr then off else pval⟩
    | _, _ => none

/-- Source `dirlookup`; `poff = none` is a null `poff`, `poff = some v` a pointer to a variable
holding `v`.  `fuel` bounds the loops.  The caller holds a reference on `dp`, so the slot `eget`
hands out is not `dp`. -/
def dirlookup (fat : Fat) (fuel : Nat) (s : FS) (dp : Ptr) (filename : List Nat)
    (poff : Option Nat) : Option DlRes :=
  match s.get dp with
  | none => none
  | some dpe =>
    if dpe.attr &&& ATTR_DIRECTORY = 0 then none
    else if strncmp_eq filename [0x2e] FAT32_MAX_FILENAME then
      some ⟨(edup s dp).1, dp, poff.getD 0⟩
    else if strncmp_eq filename [0x2e, 0x2e] FAT32_MAX_FILENAME then
      if dp = .root then some ⟨(edup s .root).1, .root, poff.getD 0⟩
      else some ⟨(edup s dpe.parent).1, dpe.parent, poff.getD 0⟩
    else if dpe.valid ≠ 1 then some ⟨s, .null, poff.getD 0⟩
    else
      match eget s dp (some filename) with
      | none => none
      | some (s1, ep) =>
        match s1.get ep, s1.get dp with
        | some epe, some dpe1 =>
          if epe.valid = 1 then some ⟨s1, ep, poff.getD 0⟩
          else
            let entcnt : Int := ((strlen filename + CHAR_LONG_NAME - 1) / CHAR_LONG_NAME + 1 : Nat)
            match reloc_clus fat s1.disk dpe1 0 false with
            | none => none
            | some r =>
              dirlookup_loop fat fuel filename entcnt dp ep fuel (s1.set dp r.ent) 0 0
                poff.isSome (poff.getD 0)
        | _, _ => none

/-- Source `ealloc`; the pointer returned is null when the name is rejected or `dp` is not live. -/
def ealloc (fat : Fat) (fuel : Nat) (s : FS) (dp : Ptr) (name : List Nat) (attr : Nat) :
    Option (FS × Ptr) :=
  match s.get dp with
  | none => none
  | some dpe =>
    if dpe.attr &&& ATTR_DIRECTORY = 0 then none
    else if dpe.valid ≠ 1 then some (s, .null)
    else
      match formatname name with
      | none => some (s, .null)
      | some nm =>
        match dirlookup fat fuel s dp nm (some 0) with
        | none => none
        | some r =>
          if r.ret ≠ .null then some (r.fs, r.ret)
          else
            match eget r.fs dp (some nm) with
            | none => none
            | some (s1, ep) =>
              match s1.get ep with
              | none => none
              | some epe =>
                if epe.ref < 1 then none
                else
                  let s2 := (edup s1 dp).1
                  let e1 : Dirent :=
                    { epe with attr := attr % 256, file_size := 0, first_clus := 0, parent := dp,
                               off := r.poff, clus_cnt := 0, cur_clus := 0, dirty := 0,
                               filename := strncpy nm FAT32_MAX_FILENAME ++ [0] }
                  let made : Option (Disk × Dirent) :=
                    if attr = ATTR_DIRECTORY then
                      match alloc_clus fat s2.disk with
                      | none => none
                      | some (c, d1) =>
                        let e2 := { e1 with attr := e1.attr ||| ATTR_DIRECTORY, cur_clus := c,
                                            first_clus := c }
                        match emake fat d1 e2 e2 0 with
                        | none => none
                        | some (d2, e3) =>
                          match s2.get dp with
                          | none => none
                          | some dpe2 => emake fat d2 e3 dpe2 32
                    else some (s2.disk, { e1 with attr := e1.attr ||| ATTR_ARCHIVE })
                  match made, s2.get dp with
                  | some (d3, e4), some dpe3 =>
                    match emake fat d3 dpe3 e4 r.poff with
                    | none => none
                    | some (d4, dpe4) =>
                      some ((({ s2 with disk := d4 }.set dp dpe4).set ep { e4 with valid := 1 }), ep)
                  | _, _ => none

/-! ## Well-formedness of the volume, of cluster chains and of the state -/

/-- The layout of a volume as `fat32_init` accepts and derives it: `byts_per_sec` is `BSIZE`
(otherwise `fat32_init` panics), sectors hold whole FAT slots, `byts_per_clus` is the product
computed by `fat32_init`, table number 1 lies before the data region
(`first_data_sec = rsvd_sec_cnt + fat_cnt * fat_sz`), the data clusters lie within the sectors a
`uint32` numbers, the table has a slot for every data cluster, and a cluster number is never an
end-of-chain value. -/
structure VolOK (fat : Fat) : Prop where
  bps : fat.byts_per_sec = fat.BSIZE
  bpos : 0 < fat.BSIZE
  b4 : fat.BSIZE % 4 = 0
  spc : 0 < fat.sec_per_clus
  bpc : fat.byts_per_clus = fat.sec_per_clus * fat.BSIZE
  bpclt : fat.byts_per_clus < U32
  fatreg : fat.rsvd_sec_cnt + fat.fat_sz ≤ fat.first_data_sec
  datareg : fat.first_data_sec + fat.data_clus_cnt * fat.sec_per_clus ≤ U32
  slots : fat.data_clus_cnt + 2 ≤ fat.fat_sz * (fat.BSIZE / 4)
  dcc : fat.data_clus_cnt + 1 < FAT32_EOC

/-- A cluster number that names a data cluster: `2 .. data_clus_cnt + 1`. -/
def ValidClus (fat : Fat) (c : Nat) : Prop := 2 ≤ c ∧ c ≤ fat.data_clus_cnt + 1

/-- Slot `c` of FAT number 1, wherever `c` lies in the table: sector `c / (BSIZE / 4)` of the
table, byte `4 * (c % (BSIZE / 4))`. -/
def fat_ent (fat : Fat) (d : Disk) (c : Nat) : Nat :=
  get32 d (fat.rsvd_sec_cnt + c / (fat.BSIZE / 4)) (4 * (c % (fat.BSIZE / 4)))

/-- Two stores agree on the reserved sectors and FAT number 1. -/
def FatSame (fat : Fat) (d d' : Disk) : Prop :=
  ∀ s o, s < fat.rsvd_sec_cnt + fat.fat_sz → d' s o = d s o

/-- The free data clusters (those whose slot of the table holds 0), in increasing order. -/
def free_clusters (fat : Fat) (d : Disk) : List Nat :=
  (List.range' 2 fat.data_clus_cnt).filter (fun c => decide (fat_ent fat d c = 0))

/-- The two reserved slots 0 and 1 of the table hold their non-zero marks. -/
def RsvdOK (fat : Fat) (d : Disk) : Prop := fat_ent fat d 0 ≠ 0 ∧ fat_ent fat d 1 ≠ 0

/-- The store after `alloc_clus` has claimed cluster `c`. -/
def alloc_store (fat : Fat) (d : Disk) (c : Nat) : Disk :=
  zero_clus fat (write_fat fat d c (FAT32_EOC + 7)).1 c

/-- Byte `p` of data cluster `c`. -/
def cbyte (fat : Fat) (d : Disk) (c p : Nat) : Nat :=
  d (first_sec_of_clus fat c + p / fat.BSIZE) (p % fat.BSIZE)

/-- What a write of `r` bytes `src 0 .. src (r-1)` at position `P` of the run of sectors that
starts at sector `S` (sectors of `B` bytes) makes of the store `d`: the bytes written are there,
and every other byte is as it was. -/
def Wrote (B S P r : Nat) (src : Nat → Nat) (d d' : Disk) : Prop :=
  (∀ q, q < r → d' (S + (P + q) / B) ((P + q) % B) = src q) ∧
  (∀ s o, (∀ q, q < r → ¬ (s = S + (P + q) / B ∧ o = (P + q) % B)) → d' s o = d s o)

/-- The list `cs` is the cluster chain that starts at its head: every member is a data cluster,
every member's FAT entry is the next member, and the entry of the last one is an end-of-chain
value (at least `FAT32_EOC`). -/
def IsChain (fat : Fat) (d : Disk) : List Nat → Prop
  | [] => False
  | [c] => ValidClus fat c ∧ FAT32_EOC ≤ read_fat fat d c
  | c :: c' :: rest => ValidClus fat c ∧ read_fat fat d c = c' ∧ IsChain fat d (c' :: rest)

/-- The cluster cursor of an entry agrees with the chain `cs` of its file: `first_clus` is the
head, and `cur_clus` is the member number `clus_cnt`. -/
def Cursor (e : Dirent) (cs : List Nat) : Prop :=
  e.first_clus = cs.getD 0 0 ∧ e.clus_cnt < cs.length ∧ e.cur_clus = cs.getD e.clus_cnt 0

/-- The entry `e` and the store agree on the file: `cs` is its cluster chain, the end-of-chain
value that closes it is non-negative as an `int` (as `reloc_clus` reads it), and the cursor of
`e` lies on the chain. -/
structure FileOK (fat : Fat) (d : Disk) (e : Dirent) (cs : List Nat) : Prop where
  chain : IsChain fat d cs
  endv : read_fat fat d (cs.getD (cs.length - 1) 0) < 2147483648
  cur : Cursor e cs

/-- The store `d'` is `d` after the chain `cs` has been grown by the first `a` free clusters:
the reserved slots and the remaining free clusters, the grown chain, the data of the clusters
that were in use (unchanged) and of the new ones (zero). -/
structure Grew (fat : Fat) (d : Disk) (cs : List Nat) (d' : Disk) (a : Nat) : Prop where
  enough : a ≤ (free_clusters fat d).length
  rsvd : RsvdOK fat d'
  free : free_clusters fat d' = (free_clusters fat d).drop a
  chain : IsChain fat d' (cs ++ (free_clusters fat d).take a)
  endv : read_fat fat d' ((cs ++ (free_clusters fat d).take a).getD (cs.length + a - 1) 0)
           < 2147483648
  old : ∀ c, ValidClus fat c → c ∉ (free_clusters fat d).take a →
          ∀ p, p < fat.byts_per_clus → cbyte fat d' c p = cbyte fat d c p
  new : ∀ c, c ∈ (free_clusters fat d).take a →
          ∀ p, p < fat.byts_per_clus → cbyte fat d' c p = 0

/-- The entry `e'` is `e` with its cursor moved: every other field is the same. -/
def SameFile (e e' : Dirent) : Prop :=
  e' = { e with cur_clus := e'.cur_clus, clus_cnt := e'.clus_cnt }

/-- The entries above the entry `p` points to are at rest; `anc` lists the pointers `parent`,
`parent->parent`, ... as far as `eput` goes up from `p`.  Every entry on the way that `eput`
releases for the last time (`ref == 1`) is in use, not removed and has nothing to write back, its
parent can be locked, and no entry comes twice; the walk ends at `root`, at an unused entry, or
at an entry that keeps a reference. -/
def AncOK (s : FS) : Ptr → List Ptr → Prop
  | p, [] => ∃ e, s.get p = some e ∧ (p = .root ∨ e.valid = 0 ∨ e.ref ≠ 1)
  | p, q :: rest =>
    ∃ e par, s.get p = some e ∧ p ≠ .root ∧ e.ref = 1 ∧ e.valid ≠ 0 ∧ e.valid ≠ -1
      ∧ (e.dirty = 0 ∨ e.valid ≠ 1) ∧ e.parent = q ∧ s.get q = some par ∧ 1 ≤ par.ref
      ∧ p ∉ q :: rest ∧ AncOK s q rest

/-- Reference definition, in the words of the specification: `rotate_right_8` "rotates the
8-bit value right by one bit". -/
def rotate_right_8 (x : Nat) : Nat := ((x >>> 1) ||| (x <<< 7)) % 256

/-- Reference definition, in the words of the specification: the FAT32 checksum of an 11-byte
name, "folding sum := (rotate_right_8(sum) + s[i]) mod 256 over i = 0..10 starting from
sum = 0". -/
def checksum_ref (s : List Nat) : Nat :=
  (List.range 11).foldl (fun sum i => (rotate_right_8 sum + s.getD i 0) % 256) 0

/-- Reference definition, in the words of the specification, of the result of `formatname`:
with `r` the input without its leading run of spaces and dots, NULL (`none`) if `r` contains a
byte below 0x20 or one of the nine characters `" * / : < > ? \ |`, otherwise `r` with its
trailing spaces removed. -/
def formatname_ref (name : List Nat) : Option (List Nat) :=
  let r : List Nat := (cstr name).dropWhile (fun c => c = 0x20 ∨ c = 0x2e)
  if ∃ c ∈ r, c < 0x20 ∨ c = 0x22 ∨ c = 0x2a ∨ c = 0x2f ∨ c = 0x3a ∨ c = 0x3c ∨ c = 0x3e
      ∨ c = 0x3f ∨ c = 0x5c ∨ c = 0x7c then none
  else some (r.rdropWhile (fun c => c = 0x20))

/-- Byte `p` of the file whose cluster chain is `cs`. -/
def fbyte (fat : Fat) (d : Disk) (cs : List Nat) (p : Nat) : Nat :=
  cbyte fat d (cs.getD (p / fat.byts_per_clus) 0) (p % fat.byts_per_clus)

/-! ## Concrete volumes -/

/-- Byte `k` (0 to 3) of the little-endian `uint32` value `v`. -/
def byte_of (v k : Nat) : Nat :=
  if k = 0 then v % 256 else if k = 1 then v / 256 % 256
  else if k = 2 then v / 65536 % 256 else v / 16777216 % 256

/-- The store of a volume whose FAT number 1 holds the value `v c` in slot `c` and whose other
sectors hold `dat`. -/
def mk_disk (fat : Fat) (v : Nat → Nat) (dat : Disk) : Disk :=
  fun s o =>
    if fat.rsvd_sec_cnt ≤ s ∧ s < fat.rsvd_sec_cnt + fat.fat_sz ∧ o < fat.BSIZE then
      byte_of (v ((s - fat.rsvd_sec_cnt) * (fat.BSIZE / 4) + o / 4)) (o % 4)
    else dat s o

/-- An entry with every field 0 and no parent. -/
def Dirent.zero : Dirent :=
  { filename := [], attr := 0, first_clus := 0, file_size := 0, cur_clus := 0, clus_cnt := 0,
    dev := 0, dirty := 0, valid := 0, ref := 0, off := 0, parent := .null }

/-- A small volume: 512-byte sectors, one sector per cluster, one reserved sector, one FAT of one
sector, eight data clusters from sector 2. -/
def demo_fat : Fat :=
  { first_data_sec := 2, data_sec_cnt := 8, data_clus_cnt := 8, byts_per_clus := 512,
    byts_per_sec := 512, sec_per_clus := 1, rsvd_sec_cnt := 1, fat_cnt := 1, hidd_sec := 0,
    tot_sec := 10, fat_sz := 1, root_clus := 2, BSIZE := 512 }

/-- The store of the small volume when only the root directory (cluster 2, empty) is in use. -/
def demo_disk : Disk :=
  mk_disk demo_fat (fun c => if c ≤ 2 then 0x0fffffff else 0) (fun _ _ => 0)

/-- A new, empty regular file on the small volume. -/
def demo_file : Dirent := { Dirent.zero with attr := ATTR_ARCHIVE, valid := 1, ref := 1 }

/-- The bytes of the string "Hello, world!" (and 0 after them). -/
def hello : Nat → Nat :=
  fun i => [0x48, 0x65, 0x6c, 0x6c, 0x6f, 0x2c, 0x20, 0x77, 0x6f, 0x72, 0x6c, 0x64, 0x21].getD i 0

/-- The store of the small volume when the root directory (cluster 2) and one file (cluster 3,
sector 3, holding "Hello, world!") are in use. -/
def demo_disk_file : Disk :=
  mk_disk demo_fat (fun c => if c ≤ 3 then 0x0fffffff else 0)
    (fun s o => if s = 3 then hello o else 0)

/-- The entry of the 13-byte file in cluster 3 of the small volume. -/
def demo_file13 : Dirent :=
  { Dirent.zero with attr := ATTR_ARCHIVE, first_clus := 3, cur_clus := 3, file_size := 13,
                     valid := 1, ref := 1 }

/-- The root directory of the small volume, as `fat32_init` sets it up. -/
def demo_root : Dirent :=
  { Dirent.zero with attr := ATTR_DIRECTORY ||| ATTR_SYSTEM, first_clus := 2, cur_clus := 2,
                     valid := 1 }

/-- The 33 bytes of the name "a_long_filename_over_13_chars.txt" and the 0 that ends it. -/
def long_name : List Nat :=
  [0x61, 0x5f, 0x6c, 0x6f, 0x6e, 0x67, 0x5f, 0x66, 0x69, 0x6c, 0x65, 0x6e, 0x61, 0x6d, 0x65, 0x5f,
   0x6f, 0x76, 0x65, 0x72, 0x5f, 0x31, 0x33, 0x5f, 0x63, 0x68, 0x61, 0x72, 0x73, 0x2e, 0x74, 0x78,
   0x74, 0]

/-- An entry for a new, empty file of that name, placed at offset 64 of its directory. -/
def demo_long : Dirent :=
  { Dirent.zero with filename := long_name, attr := ATTR_ARCHIVE, valid := 1, ref := 1,
                     off := 64 }

/-- The same entry after a write has given it the cluster 3 and 13 bytes. -/
def demo_upd : Dirent := { demo_long with first_clus := 3, file_size := 13, dirty := 1 }

/-- The store of the small volume after `emake` has written the records of `demo_long` at offset
64 of the root directory. -/
def demo_dir_disk : Disk :=
  ((emake demo_fat demo_disk demo_root demo_long 64).map Prod.fst).getD demo_disk

/-- The entry of the file in cluster 3 after `eremove` (`valid == -1`), one reference left, in
the directory of slot 1. -/
def demo_gone : Dirent := { demo_file13 with valid := -1, parent := .slot 1 }

/-- A directory under `root` whose only reference is the one of the entry in it. -/
def demo_sub : Dirent :=
  { Dirent.zero with attr := ATTR_DIRECTORY, first_clus := 4, cur_clus := 4, valid := 1, ref := 1,
                     parent := .root }

/-- A state of the small volume with the file in cluster 3: slot 0 holds the removed entry,
slot 1 its directory. -/
def demo_fs : FS :=
  { disk := demo_disk_file, root := { demo_root with ref := 1 }, entries := [demo_gone, demo_sub],
    lru := [0, 1] }

/-- A state of the small volume whose root directory is empty (its cluster holds only 0 bytes),
with two unused slots in the entry cache. -/
def demo_cache : FS :=
  { disk := demo_disk, root := { demo_root with ref := 1 }, entries := List.replicate 2 Dirent.zero,
    lru := [0, 1] }

/-- An entry whose name is the three bytes E5 90 8D (one character in UTF-8). -/
def demo_kanji : Dirent :=
  { Dirent.zero with filename := [0xe5, 0x90, 0x8d, 0], attr := ATTR_ARCHIVE, first_clus := 3,
                     file_size := 13 }

/-- An entry for an empty file whose name is the one character `c`. -/
def one_char (c : Nat) : Dirent := { Dirent.zero with filename := [c, 0], attr := ATTR_ARCHIVE }

/-- The 512 bytes of a directory that fills its cluster: the two records of the file "a", two
free slots (first byte 0xE5) at offset 64, and the two records each of the files "d", "e", "f",
"g", "h", "i" from offset 128. -/
def full_dir : List Nat :=
  (emake_recs (one_char 0x61) ++ List.replicate 2 (EMPTY_ENTRY :: List.replicate 31 0)
    ++ ([0x64, 0x65, 0x66, 0x67, 0x68, 0x69].map (fun c => emake_recs (one_char c))).flatten).flatten

/-- The state of the small volume whose root directory (cluster 2 only) holds `full_dir`. -/
def full_fs : FS :=
  { demo_cache with
    disk := mk_disk demo_fat (fun c => if c ≤ 2 then 0x0fffffff else 0)
              (fun s o => if s = 2 then full_dir.getD o 0 else 0) }

/-- A large volume: 512-byte sectors, 128 sectors per cluster, 32 reserved sectors, one FAT of 257
sectors, 32768 data clusters of 64 KiB. -/
def big_fat : Fat :=
  { first_data_sec := 289, data_sec_cnt := 4194304, data_clus_cnt := 32768,
    byts_per_clus := 65536, byts_per_sec := 512, sec_per_clus := 128, rsvd_sec_cnt := 32,
    fat_cnt := 1, hidd_sec := 0, tot_sec := 4194593, fat_sz := 257, root_clus := 2, BSIZE := 512 }

/-- The store of the large volume when one file holds all its clusters, 2 to 32769 in order. -/
def big_disk : Disk :=
  mk_disk big_fat (fun c => if 2 ≤ c ∧ c < 32769 then c + 1 else 0x0fffffff) (fun _ _ => 0)

/-- The chain of the file on the large volume. -/
def big_chain : List Nat := List.range' 2 32768

/-- The entry of the file on the large volume: 2 GiB, cursor at its first cluster. -/
def big_file : Dirent :=
  { Dirent.zero with attr := ATTR_ARCHIVE, first_clus := 2, cur_clus := 2,
                     file_size := 2147483648, valid := 1, ref := 1 }

/-! ## Buffer cache (`bio.c`) -/

/-- Modelled from the spec: `struct buf` of `libs/buf.h` (the header is not part of the
sources), with the fields `bio.c` uses: "owning device id, sector number, validity flag (data
matches disk), reference count, sector-sized payload".  `dev`, `sectorno` and `refcnt` are
unsigned 32-bit numbers.  The links `prev`/`next` are held by the list of `BCache`; sleep-locks are not
part of the state. -/
structure Buf where
  valid : Nat
  dev : Nat
  sectorno : Nat
  refcnt : Nat
  data : Nat → Nat

/-- The static `bcache` with its device: the array `buf`, the list through `prev`/`next` as the
indices met from `head.next` along `next` (backwards: from `head.prev` along `prev`), the
contents of the device by sector, and the sectors `disk_read` has fetched, the last one first. -/
structure BCache where
  buf : List Buf
  order : List Nat
  device : Nat → Nat → Nat
  reads : List Nat

/-- Source `binit`: every buffer of the array, in turn, gets `refcnt = 0` and the key
`(~0, ~0)` and is linked in at `head.next`.  `valid` and `data` are not assigned. -/
def binit (c : BCache) : BCache :=
  { c with
    buf := c.buf.map (fun b => { b with refcnt := 0, sectorno := 0xffffffff, dev := 0xffffffff })
    order := (List.range c.buf.length).foldl (fun o i => i :: o) [] }

/-- The test `b->dev == dev && b->sectorno == sectorno` on buffer `i`. -/
def has_key (c : BCache) (dev sectorno i : Nat) : Bool :=
  match c.buf[i]? with
  | some b => decide (b.dev = dev ∧ b.sectorno = sectorno)
  | none => false

/-- The test `b->refcnt == 0` on buffer `i`. -/
def is_free (c : BCache) (i : Nat) : Bool :=
  match c.buf[i]? with
  | some b => decide (b.refcnt = 0)
  | none => false

/-- Assignment to buffer `i` of the array. -/
def BCache.set (c : BCache) (i : Nat) (b : Buf) : BCache := { c with buf := c.buf.set i b }

/-- Source `bget`: the state and the index of the buffer returned; `none` is
`panic("bget: no buffers")`.  The first loop runs from `head.next` along `next`, the second from
`head.prev` along `prev`. -/
def bget (c : BCache) (dev sectorno : Nat) : Option (BCache × Nat) :=
  match c.order.find? (has_key c dev sectorno) with
  | some i =>
    match c.buf[i]? with
    | some b => some (c.set i { b with refcnt := (b.refcnt + 1) % U32 }, i)
    | none => none
  | none =>
    match c.order.reverse.find? (is_free c) with
    | some i =>
      match c.buf[i]? with
      | some b =>
        some (c.set i { b with dev := dev, sectorno := sectorno, valid := 0, refcnt := 1 }, i)
      | none => none
    | none => none

/-- Modelled from the spec: `disk_read` of `libs/disk.h` (not part of the sources), by which
`bread` does "synchronously read from device": the payload of buffer `i` becomes the sector
`sectorno` of the device. -/
def disk_read (c : BCache) (i : Nat) : BCache :=
  match c.buf[i]? with
  | some b => { c.set i { b with data := c.device b.sectorno } with reads := b.sectorno :: c.reads }
  | none => c

/-- Source `bread`. -/
def bread (c : BCache) (dev sectorno : Nat) : Option (BCache × Nat) :=
  match bget c dev sectorno with
  | none => none
  | some (c1, i) =>
    match c1.buf[i]? with
    | none => none
    | some b =>
      if b.valid = 0 then
        match (disk_read c1 i).buf[i]? with
        | some b1 => some ((disk_read c1 i).set i { b1 with valid := 1 }, i)
        | none => none
      else some (c1, i)

/-- Source `brelse` on buffer `i`, whose sleep-lock the caller holds (otherwise
`panic("brelse")`); `none` for an index outside the array. -/
def brelse (c : BCache) (i : Nat) : Option BCache :=
  match c.buf[i]? with
  | none => none
  | some b =>
    let c1 := c.set i { b with refcnt := (b.refcnt + U32 - 1) % U32 }
    if (b.refcnt + U32 - 1) % U32 = 0 then some { c1 with order := i :: c1.order.erase i }
    else some c1

/-- Source `bpin` on buffer `i`. -/
def bpin (c : BCache) (i : Nat) : Option BCache :=
  match c.buf[i]? with
  | none => none
  | some b => some (c.set i { b with refcnt := (b.refcnt + 1) % U32 })

/-- Source `bunpin` on buffer `i`. -/
def bunpin (c : BCache) (i : Nat) : Option BCache :=
  match c.buf[i]? with
  | none => none
  | some b => some (c.set i { b with refcnt := (b.refcnt + U32 - 1) % U32 })

/-- The caller holds buffer `i`: it has got it from `bread` and not released it, so the buffer
counts the reference. -/
def Held (c : BCache) (i : Nat) : Prop := ∃ b, c.buf[i]? = some b ∧ 0 < b.refcnt

/-- The states of the cache reachable from `binit` through `bread`, and `brelse`, `bpin` and
`bunpin` applied to buffers the caller holds. -/
inductive Reach : BCache → Prop
  | init (c : BCache) : Reach (binit c)
  | bread (c c1 : BCache) (dev sectorno i : Nat) :
      Reach c → bread c dev sectorno = some (c1, i) → Reach c1
  | brelse (c c1 : BCache) (i : Nat) : Reach c → Held c i → brelse c i = some c1 → Reach c1
  | bpin (c c1 : BCache) (i : Nat) : Reach c → Held c i → bpin c i = some c1 → Reach c1
  | bunpin (c c1 : BCache) (i : Nat) : Reach c → Held c i → bunpin c i = some c1 → Reach c1

/-- The static storage of a cache of `NBUF = 4` buffers before `binit` (all fields 0), on a
device whose sector `s` holds the byte `s % 256` everywhere. -/
def cache4 : BCache :=
  { buf := List.replicate 4 { valid := 0, dev := 0, sectorno := 0, refcnt := 0, data := fun _ => 0 },
    order := [], device := fun s _ => s % 256, reads := [] }

/-- The pair `bread(dev, sectorno); brelse` on the buffer returned. -/
def bread_brelse (c : BCache) (dev sectorno : Nat) : Option BCache :=
  match bread c dev sectorno with
  | none => none
  | some (c1, i) => brelse c1 i

/-- The pairs `bread(0, s); brelse` for the sectors `s` of a list, in turn. -/
def lru_run : List Nat → BCache → Option BCache
  | [], c => some c
  | s :: rest, c =>
    match bread_brelse c 0 s with
    | none => none
    | some c1 => lru_run rest c1

/-- What is seen of buffer `i`: its key, `refcnt`, `valid`, and the first byte of its payload. -/
def buf_view (c : BCache) (i : Nat) : Option (Nat × Nat × Nat × Nat × Nat) :=
  (c.buf[i]?).map (fun b => (b.dev, b.sectorno, b.refcnt, b.valid, b.data 0))

/-- Of the buffers `i` and `j`, with `i` met before `j` from `head.next`: if they have the same
key, `j` is not referenced. -/
def KeyRel (c : BCache) (i j : Nat) : Prop :=
  ∀ bi bj, c.buf[i]? = some bi → c.buf[j]? = some bj → bi.dev = bj.dev →
    bi.sectorno = bj.sectorno → bj.refcnt = 0

/-- The invariant of the cache: the list holds every buffer of the array once, and among the
buffers with the same key only the first one of the list can be referenced. -/
structure CacheInv (c : BCache) : Prop where
  nodup : c.order.Nodup
  perm : ∀ i, i ∈ c.order ↔ i < c.buf.length
  first : c.order.Pairwise (KeyRel c)

/-- The cache of four buffers after `binit` and `bread(0, 10)`: the caller holds buffer 0. -/
def held4 : BCache := ((bread (binit cache4) 0 10).map Prod.fst).getD cache4

/-- A region of user memory that holds the bytes of `hello` and of which only the first 512
bytes can be read: a copy that starts at position 512 or beyond faults. -/
def faulty : Copy := ⟨hello, fun pos _ => decide (512 ≤ pos)⟩

/-- The file of the large volume when it holds one byte less than 2 GiB. -/
def big_file2 : Dirent := { big_file with file_size := 2147483647 }

/-- The cluster reached from `c` by `k` applications of `read_fat`. -/
def fat_steps (fat : Fat) (d : Disk) : Nat → Nat → Nat
  | 0, c => c
  | k + 1, c => read_fat fat d (fat_steps fat d k c)

/-- The cursor invariant of an entry: `cur_clus` is the cluster reached from `first_clus` by
exactly `clus_cnt` applications of `read_fat`. -/
def CursorOK (fat : Fat) (d : Disk) (e : Dirent) : Prop :=
  e.cur_clus = fat_steps fat d e.clus_cnt e.first_clus

/-- Test `eget` applies to slot `i` when it looks for `nm` under `parent`. -/
def cache_hit (s : FS) (parent : Ptr) (nm : List Nat) (i : Nat) : Bool :=
  match s.entries[i]? with
  | some ep => decide (ep.valid = 1) && decide (ep.parent = parent)
                 && strncmp_eq ep.filename nm FAT32_MAX_FILENAME
  | none => false

/-- The state `s2` is `s` but for the entry `j` points to, as far as a search of the cache goes:
the store, the cache list and the number of slots are the same, and every other entry has the same
`valid`, `parent`, `filename` and `attr`. -/
def Keeps (s s2 : FS) (j : Ptr) : Prop :=
  s2.lru = s.lru ∧ s2.disk = s.disk ∧ s2.entries.length = s.entries.length ∧
  ∀ x : Ptr, x ≠ j → ∀ e, s.get x = some e →
    ∃ e2, s2.get x = some e2 ∧ e2.valid = e.valid ∧ e2.parent = e.parent
      ∧ e2.filename = e.filename ∧ e2.attr = e.attr

/-- The store of the small volume when every data cluster (2 to 9) is in use: slots 0 to 9 of the
table hold 0x0FFFFFFF, the slots after them (the table has 128) hold 0. -/
def demo_disk_full : Disk :=
  mk_disk demo_fat (fun c => if c ≤ 9 then 0x0fffffff else 0) (fun _ _ => 0)

/-- The store of the small volume whose table holds 0 in slot 1 and 0x0FFFFFFF in every other
slot. -/
def demo_disk_slot1 : Disk :=
  mk_disk demo_fat (fun c => if c = 1 then 0 else 0x0fffffff) (fun _ _ => 0)

/-- The store of the small volume with a file in cluster 3 whose FAT entry is 0xFFFFFFFF. -/
def demo_disk_hi : Disk :=
  mk_disk demo_fat (fun c => if c ≤ 2 then 0x0fffffff else if c = 3 then 0xffffffff else 0)
    (fun _ _ => 0)

/-- The cluster numbers `2 .. data_clus_cnt + 1` whose FAT entry, as `read_fat` returns it, is
not 0. -/
def used_clusters (fat : Fat) (d : Disk) : List Nat :=
  (List.range' 2 fat.data_clus_cnt).filter (fun c => decide (read_fat fat d c ≠ 0))

/-- The byte `generate_shortname` stores for the character `c` of the name: a lowercase letter
is made uppercase (`c += 'A' - 'a'`), one of `+ , ; = [ ]` becomes `_`, any other character is
stored as it is. -/
def short_char (c : Nat) : Nat :=
  if 0x61 ≤ c ∧ c ≤ 0x7a then c - 0x20
  else if c ∈ [0x2b, 0x2c, 0x3b, 0x3d, 0x5b, 0x5d] then 0x5f else c

/-- The 9 bytes of the name "hello.txt" and the 0 that ends it. -/
def hello_txt : List Nat := [0x68, 0x65, 0x6c, 0x6c, 0x6f, 0x2e, 0x74, 0x78, 0x74, 0]

/-- The 32 bytes of a short-name entry "HELLO   TXT": archive, first cluster 3, 13 bytes. -/
def hello_sne : List Nat :=
  sne_bytes [0x48, 0x45, 0x4c, 0x4c, 0x4f, 0x20, 0x20, 0x20, 0x54, 0x58, 0x54] ATTR_ARCHIVE 3 13

/-- The state of the small volume whose root directory holds one record, the short-name entry
`hello_sne` with no long-name entries before it, the file being in cluster 3. -/
def sne_fs : FS :=
  { demo_cache with
    disk := mk_disk demo_fat (fun c => if c ≤ 3 then 0x0fffffff else 0)
              (fun s o => if s = 2 then hello_sne.getD o 0 else if s = 3 then hello o else 0) }

/-- The name "HELLO.TXT". -/
def hello_upper : List Nat := [0x48, 0x45, 0x4c, 0x4c, 0x4f, 0x2e, 0x54, 0x58, 0x54]

/-! ## Path lookup -/

/-- Source `skipelem` on the string `path` (its bytes before the 0): `none` is the null pointer
returned when no element is left, otherwise the rest of the path after the element and the
slashes that follow it, and the string stored in `name` (at most `FAT32_MAX_FILENAME` bytes). -/
def skipelem (path : List Nat) : Option (List Nat × List Nat) :=
  let p1 := path.dropWhile (fun c => c = 0x2f)
  if p1.isEmpty then none
  else
    some ((p1.dropWhile (fun c => c ≠ 0x2f)).dropWhile (fun c => c = 0x2f),
      (p1.takeWhile (fun c => c ≠ 0x2f)).take FAT32_MAX_FILENAME)

/-- Result of `lookup_path`: the state, the pointer returned and the string in `name`. -/
structure PathRes where
  fs : FS
  ret : Ptr
  name : List Nat

/-- The `while` loop of `lookup_path` with what follows it, `k` bounding its turns.  `elock` and
`eunlock` panic on a null entry or one with `ref < 1`; the sleep-lock itself is not modelled.
`fuel` bounds the loops of `dirlookup` and `eput`. -/
def lookup_loop (fat : Fat) (fuel : Nat) (parent : Bool) :
    Nat → FS → Ptr → List Nat → List Nat → Option PathRes
  | 0, _, _, _, _ => none
  | k + 1, s, entry, path, name =>
    match skipelem path with
    | none =>
      if parent then
        match eput fat fuel s entry with
        | none => none
        | some s1 => some ⟨s1, .null, name⟩
      else some ⟨s, entry, name⟩
    | some (rest, nm) =>
      match s.get entry with
      | none => none
      | some e =>
        if e.ref < 1 then none
        else if e.attr &&& ATTR_DIRECTORY = 0 then
          match eput fat fuel s entry with
          | none => none
          | some s1 => some ⟨s1, .null, nm⟩
        else if parent ∧ rest.isEmpty then some ⟨s, entry, nm⟩
        else
          match dirlookup fat fuel s entry nm none with
          | none => none
          | some r =>
            match r.fs.get entry with
            | none => none
            | some e1 =>
              if e1.ref < 1 then none
              else
                match eput fat fuel r.fs entry with
                | none => none
                | some s1 =>
                  if r.ret = .null then some ⟨s1, .null, nm⟩
                  else lookup_loop fat fuel parent k s1 r.ret rest nm

/-- Source `lookup_path`; `cwd` is `myproc()->cwd`, `parent` the flag, `name` what the buffer
`name` holds before the call.  Every turn of the loop takes at least one byte of the path. -/
def lookup_path (fat : Fat) (fuel : Nat) (s : FS) (cwd : Ptr) (path : List Nat) (parent : Bool)
    (name : List Nat) : Option PathRes :=
  let p := cstr path
  if p.head? = some 0x2f then
    lookup_loop fat fuel parent (p.length + 1) (edup s .root).1 .root p name
  else if ¬ p.isEmpty then
    lookup_loop fat fuel parent (p.length + 1) (edup s cwd).1 cwd p name
  else some ⟨s, .null, name⟩

/-- Source `ename`: the state and the pointer returned. -/
def ename (fat : Fat) (fuel : Nat) (s : FS) (cwd : Ptr) (path : List Nat) : Option (FS × Ptr) :=
  (lookup_path fat fuel s cwd path false []).map (fun r => (r.fs, r.ret))

/-- Source `enameparent`. -/
def enameparent (fat : Fat) (fuel : Nat) (s : FS) (cwd : Ptr) (path name : List Nat) :
    Option PathRes :=
  lookup_path fat fuel s cwd path true name

/-- Source `fat32_init`, the part after the boot sector has been read: `root` and the `n` entries
of `ecache.entries` (`ENTRY_CACHE_NUM`, from a header that is not part of the sources), each put
at the head of the list in turn; `d` is the store. -/
def fat32_init (fat : Fat) (n : Nat) (d : Disk) : FS :=
  { disk := d,
    root := { Dirent.zero with attr := ATTR_DIRECTORY ||| ATTR_SYSTEM, first_clus := fat.root_clus,
                               cur_clus := fat.root_clus, valid := 1 },
    entries := List.replicate n Dirent.zero,
    lru := (List.range n).reverse }

/-! ## Reference counts of the entry cache -/

/-- The slot `i` is a referenced child of the entry `p` points to: it is in use (`valid != 0`),
its `ref` is above 0 and its `parent` is `p`. -/
def child (s : FS) (p : Ptr) (i : Nat) : Bool :=
  match s.entries[i]? with
  | some e => decide (e.valid ≠ 0) && decide (0 < e.ref) && decide (e.parent = p)
  | none => false

/-- The number of referenced children of the entry `p` points to. -/
def pins (s : FS) (p : Ptr) : Nat := (List.range s.entries.length).countP (child s p)

/-- The slot `i` is in use and referenced. -/
def active (s : FS) (i : Nat) : Bool :=
  match s.entries[i]? with
  | some e => decide (e.valid ≠ 0) && decide (0 < e.ref)
  | none => false

/-- The bookkeeping of references in the state `s`, `H` listing the references that callers
hold (one occurrence for each reference).  A held entry is `root` or a slot in use; every
referenced slot in use has as parent `root` or a referenced slot in use that lies above it
(`rk` falls along `parent`); and the `ref` of every entry is the number of references held on it
plus the number of its referenced children. -/
structure Inv (s : FS) (H : List Ptr) : Prop where
  held : ∀ x ∈ H, x = .root ∨ ∃ i e, x = .slot i ∧ s.entries[i]? = some e ∧ e.valid ≠ 0
  rank : ∃ rk : Nat → Nat, ∀ i e, s.entries[i]? = some e → e.valid ≠ 0 → 0 < e.ref →
    e.parent = .root ∨ ∃ k, e.parent = .slot k ∧ active s k = true ∧ rk k < rk i
  cnt : ∀ p e, s.get p = some e → e.ref = (H.count p : Int) + (pins s p : Int)

/-- The pointer `x` may be passed to a call: it is `root`, or a slot whose `ref` is above 0. -/
def Live (s : FS) (x : Ptr) : Prop :=
  x = .root ∨ ∃ (i : Nat) (e : Dirent), x = .slot i ∧ s.entries[i]? = some e ∧ 0 < e.ref

/-- The states of the entry cache reached from `fat32_init` by calls of `edup`, `eput`,
`dirlookup`, `ealloc`, `ename` and `enameparent` that return, together with the references the
callers hold.  An entry passed to `edup`, `dirlookup` or `ealloc`, and the working directory of
`ename` and `enameparent`, is `root` or a slot whose `ref` is above 0; `eput` gives up a
reference that is held; a pointer returned that is not null is a new reference. -/
inductive CacheReach (fat : Fat) (n : Nat) : FS → List Ptr → Prop
  | init (d : Disk) : CacheReach fat n (fat32_init fat n d) []
  | edup (s : FS) (H : List Ptr) (x : Ptr) : CacheReach fat n s H → Live s x →
      CacheReach fat n (edup s x).1 (x :: H)
  | eput (s : FS) (H : List Ptr) (x : Ptr) (fuel : Nat) (s1 : FS) : CacheReach fat n s H →
      x ∈ H → eput fat fuel s x = some s1 → CacheReach fat n s1 (H.erase x)
  | dirlookup (s : FS) (H : List Ptr) (dp : Ptr) (fuel : Nat) (name : List Nat)
      (poff : Option Nat) (r : DlRes) : CacheReach fat n s H → Live s dp →
      dirlookup fat fuel s dp name poff = some r →
      CacheReach fat n r.fs (if r.ret = .null then H else r.ret :: H)
  | ealloc (s : FS) (H : List Ptr) (dp : Ptr) (fuel : Nat) (name : List Nat) (attr : Nat)
      (s1 : FS) (p : Ptr) : CacheReach fat n s H → Live s dp →
      ealloc fat fuel s dp name attr = some (s1, p) →
      CacheReach fat n s1 (if p = .null then H else p :: H)
  | ename (s : FS) (H : List Ptr) (cwd : Ptr) (fuel : Nat) (path : List Nat) (s1 : FS) (p : Ptr) :
      CacheReach fat n s H → Live s cwd →
      ename fat fuel s cwd path = some (s1, p) →
      CacheReach fat n s1 (if p = .null then H else p :: H)
  | enameparent (s : FS) (H : List Ptr) (cwd : Ptr) (fuel : Nat) (path name : List Nat)
      (r : PathRes) : CacheReach fat n s H → Live s cwd →
      enameparent fat fuel s cwd path name = some r →
      CacheReach fat n r.fs (if r.ret = .null then H else r.ret :: H)

/-- What the bookkeeping of references reads of an entry: `valid`, `ref` and `parent`. -/
def rcv (e : Dirent) : Int × Int × Ptr := (e.valid, e.ref, e.parent)

/-- The states `s` and `s2` have the same entries as far as `valid`, `ref` and `parent` go. -/
def MEq (s s2 : FS) : Prop := ∀ p, (s2.get p).map rcv = (s.get p).map rcv

/-- From `s` to `s2` every slot whose `ref` is above 0 keeps `valid` and `parent`. -/
def Mod0 (s s2 : FS) : Prop :=
  ∀ (i : Nat) (e : Dirent), s.entries[i]? = some e → 0 < e.ref →
    ∃ e2, s2.entries[i]? = some e2 ∧ e2.valid = e.valid ∧ e2.parent = e.parent

/-- From `s` to `s2` every slot in use whose `ref` is above 0 keeps `valid` and `parent`. -/
def Kept (s s2 : FS) : Prop :=
  ∀ (i : Nat) (e : Dirent), s.entries[i]? = some e → e.valid ≠ 0 → 0 < e.ref →
    ∃ e2, s2.entries[i]? = some e2 ∧ e2.valid = e.valid ∧ e2.parent = e.parent

/-- From `s` to `s2` every entry keeps `valid` and `parent`. -/
def SameVP (s s2 : FS) : Prop :=
  ∀ (p : Ptr) (e : Dirent), s.get p = some e →
    ∃ e2, s2.get p = some e2 ∧ e2.valid = e.valid ∧ e2.parent = e.parent

end Fat32

/-! # Theorems -/

namespace Fat32

theorem get32_lt (d : Disk) (s o : Nat) : get32 d s o < U32 := by
  unfold get32 U32; omega

theorem get32_put32_same (d : Disk) (s o v : Nat) : get32 (put32 d s o v) s o = v % U32 := by
  simp [get32, put32, U32]; omega

theorem put32_other (d : Disk) (s o v s' o' : Nat) (h : s' ≠ s ∨ o' < o ∨ o + 4 ≤ o') :
    put32 d s o v s' o' = d s' o' := by
  unfold put32
  by_cases hs : s' = s
  · have h1 : o' ≠ o := by omega
    have h2 : o' ≠ o + 1 := by omega
    have h3 : o' ≠ o + 2 := by omega
    have h4 : o' ≠ o + 3 := by omega
    simp [hs, h1, h2, h3, h4]
  · simp [hs]

theorem get32_put32_other (d : Disk) (s o v s' o' : Nat)
    (h : s' ≠ s ∨ o' + 4 ≤ o ∨ o + 4 ≤ o') :
    get32 (put32 d s o v) s' o' = get32 d s' o' := by
  unfold get32
  rw [put32_other d s o v s' o' (by omega), put32_other d s o v s' (o' + 1) (by omega),
    put32_other d s o v s' (o' + 2) (by omega), put32_other d s o v s' (o' + 3) (by omega)]

theorem get32_congr (d d' : Disk) (s o : Nat) (h : ∀ k, k < 4 → d' s (o + k) = d s (o + k)) :
    get32 d' s o = get32 d s o := by
  unfold get32
  have h0 := h 0 (by omega)
  simp only [Nat.add_zero] at h0
  rw [h0, h 1 (by omega), h 2 (by omega), h 3 (by omega)]

/-! ## Layout arithmetic -/

theorem mul4_div (c B : Nat) (h4 : B % 4 = 0) : c * 4 / B = c / (B / 4) := by
  obtain ⟨e, rfl⟩ : ∃ e, B = e * 4 := ⟨B / 4, by omega⟩
  rcases Nat.eq_zero_or_pos e with h | h
  · subst h; simp
  · rw [Nat.mul_div_mul_right _ _ (by omega : 0 < 4)]; simp

theorem mul4_mod (c B : Nat) (h4 : B % 4 = 0) : c * 4 % B = (c % (B / 4)) * 4 := by
  obtain ⟨e, rfl⟩ : ∃ e, B = e * 4 := ⟨B / 4, by omega⟩
  rw [Nat.mul_mod_mul_right]; simp

theorem fat_sec_eq (fat : Fat) (hv : VolOK fat) (c : Nat) (hc : c * 4 < U32) :
    fat_sec_of_clus fat c 1 = (fat.rsvd_sec_cnt + c / (fat.BSIZE / 4)) % U32 := by
  unfold fat_sec_of_clus
  rw [hv.bps, Nat.mod_eq_of_lt hc, mul4_div _ _ hv.b4]
  simp [U32]

theorem fat_off_eq (fat : Fat) (hv : VolOK fat) (c : Nat) (hc : c * 4 < U32) :
    fat_offset_of_clus fat c = 4 * (c % (fat.BSIZE / 4)) := by
  unfold fat_offset_of_clus
  rw [hv.bps, Nat.mod_eq_of_lt hc, mul4_mod _ _ hv.b4, Nat.mul_comm]

theorem eps_pos (fat : Fat) (hv : VolOK fat) : 0 < fat.BSIZE / 4 := by
  have := hv.bpos; have := hv.b4; omega

theorem slot_sec_lt (fat : Fat) (hv : VolOK fat) (c : Nat) (hc : c ≤ fat.data_clus_cnt + 1) :
    c / (fat.BSIZE / 4) < fat.fat_sz := by
  have h := hv.slots
  rw [Nat.div_lt_iff_lt_mul (eps_pos fat hv)]
  omega

theorem fat_sz_bound (fat : Fat) (hv : VolOK fat) : fat.rsvd_sec_cnt + fat.fat_sz ≤ U32 := by
  have h1 := hv.fatreg
  have h2 := hv.datareg
  have : fat.first_data_sec ≤ U32 := by omega
  omega

/-! ## The table -/

theorem dcc_mod (fat : Fat) (hv : VolOK fat) :
    (fat.data_clus_cnt + 1) % U32 = fat.data_clus_cnt + 1 := by
  have := hv.dcc; unfold FAT32_EOC at this; unfold U32; omega

theorem read_fat_eq (fat : Fat) (hv : VolOK fat) (d : Disk) (c : Nat)
    (hc : c ≤ fat.data_clus_cnt + 1) : read_fat fat d c = fat_ent fat d c := by
  have hd := hv.dcc
  have h1 : ¬ c ≥ FAT32_EOC := by omega
  have h2 : ¬ c > (fat.data_clus_cnt + 1) % U32 := by rw [dcc_mod fat hv]; omega
  have h3 : c * 4 < U32 := by unfold FAT32_EOC at hd; unfold U32; omega
  have h4 := slot_sec_lt fat hv c hc
  have h5 := fat_sz_bound fat hv
  unfold read_fat fat_ent
  rw [if_neg h1, if_neg h2, fat_sec_eq fat hv c h3, fat_off_eq fat hv c h3,
    Nat.mod_eq_of_lt (by omega)]

theorem read_fat_eoc (fat : Fat) (d : Disk) (c : Nat) (hc : FAT32_EOC ≤ c) :
    read_fat fat d c = c := by
  unfold read_fat; rw [if_pos hc]

theorem read_fat_big (fat : Fat) (hv : VolOK fat) (d : Disk) (c : Nat)
    (h1 : c < FAT32_EOC) (h2 : fat.data_clus_cnt + 1 < c) : read_fat fat d c = 0 := by
  unfold read_fat
  rw [if_neg (by omega), if_pos (by rw [dcc_mod fat hv]; omega)]

theorem read_fat_lt (fat : Fat) (d : Disk) (c : Nat) (hc : c < U32) : read_fat fat d c < U32 := by
  unfold read_fat
  split
  · exact hc
  · split
    · unfold U32; omega
    · exact get32_lt _ _ _

theorem write_fat_eq (fat : Fat) (hv : VolOK fat) (d : Disk) (c v : Nat)
    (hc : c ≤ fat.data_clus_cnt + 1) :
    write_fat fat d c v
      = (put32 d (fat.rsvd_sec_cnt + c / (fat.BSIZE / 4)) (4 * (c % (fat.BSIZE / 4))) v, 0) := by
  have hd := hv.dcc
  have h2 : ¬ c > (fat.data_clus_cnt + 1) % U32 := by rw [dcc_mod fat hv]; omega
  have h3 : c * 4 < U32 := by unfold FAT32_EOC at hd; unfold U32; omega
  have h4 := slot_sec_lt fat hv c hc
  have h5 := fat_sz_bound fat hv
  unfold write_fat
  rw [if_neg h2, fat_sec_eq fat hv c h3, fat_off_eq fat hv c h3, Nat.mod_eq_of_lt (by omega)]

theorem write_fat_big (fat : Fat) (hv : VolOK fat) (d : Disk) (c v : Nat)
    (hc : fat.data_clus_cnt + 1 < c) : write_fat fat d c v = (d, -1) := by
  unfold write_fat
  rw [if_pos (by rw [dcc_mod fat hv]; omega)]

/-- Distinct slots of the table do not overlap. -/
theorem slot_ne (e c c' : Nat) (h : c ≠ c') :
    c / e ≠ c' / e ∨ 4 * (c % e) + 4 ≤ 4 * (c' % e) ∨ 4 * (c' % e) + 4 ≤ 4 * (c % e) := by
  by_cases hq : c / e = c' / e
  · have h1 := Nat.div_add_mod c e
    have h2 := Nat.div_add_mod c' e
    rw [hq] at h1
    have : c % e ≠ c' % e := by
      intro hm; rw [hm] at h1; omega
    omega
  · exact Or.inl hq

theorem fat_ent_put_same (fat : Fat) (d : Disk) (c v : Nat) :
    fat_ent fat (put32 d (fat.rsvd_sec_cnt + c / (fat.BSIZE / 4)) (4 * (c % (fat.BSIZE / 4))) v) c
      = v % U32 := by
  unfold fat_ent; exact get32_put32_same _ _ _ _

theorem fat_ent_put_other (fat : Fat) (d : Disk) (c c' v : Nat) (h : c' ≠ c) :
    fat_ent fat (put32 d (fat.rsvd_sec_cnt + c / (fat.BSIZE / 4)) (4 * (c % (fat.BSIZE / 4))) v) c'
      = fat_ent fat d c' := by
  unfold fat_ent
  apply get32_put32_other
  rcases slot_ne (fat.BSIZE / 4) c' c h with h1 | h1 | h1
  · left; omega
  · right; left; exact h1
  · right; right; exact h1

theorem read_fat_write_same (fat : Fat) (hv : VolOK fat) (d : Disk) (c v : Nat)
    (hc : c ≤ fat.data_clus_cnt + 1) (hvv : v < U32) :
    read_fat fat (write_fat fat d c v).1 c = v := by
  rw [write_fat_eq fat hv d c v hc, read_fat_eq fat hv _ c hc]
  simp only [fat_ent_put_same]
  exact Nat.mod_eq_of_lt hvv

theorem read_fat_write_other (fat : Fat) (hv : VolOK fat) (d : Disk) (c c' v : Nat)
    (h : c' ≠ c) : read_fat fat (write_fat fat d c v).1 c' = read_fat fat d c' := by
  by_cases hc : c ≤ fat.data_clus_cnt + 1
  · rw [write_fat_eq fat hv d c v hc]
    by_cases hc' : c' ≤ fat.data_clus_cnt + 1
    · rw [read_fat_eq fat hv _ c' hc', read_fat_eq fat hv _ c' hc']
      exact fat_ent_put_other fat d c c' v h
    · unfold read_fat
      split
      · rfl
      · rw [if_pos (by rw [dcc_mod fat hv]; omega), if_pos (by rw [dcc_mod fat hv]; omega)]
  · rw [write_fat_big fat hv d c v (by omega)]

theorem fat_ent_same (fat : Fat) (d d' : Disk) (h : FatSame fat d d') (c : Nat)
    (hc : c / (fat.BSIZE / 4) < fat.fat_sz) : fat_ent fat d' c = fat_ent fat d c := by
  unfold fat_ent
  apply get32_congr
  intro k _
  exact h _ _ (by omega)

theorem read_fat_same (fat : Fat) (hv : VolOK fat) (d d' : Disk) (h : FatSame fat d d') (c : Nat) :
    read_fat fat d' c = read_fat fat d c := by
  by_cases hc : c ≤ fat.data_clus_cnt + 1
  · rw [read_fat_eq fat hv _ c hc, read_fat_eq fat hv _ c hc]
    exact fat_ent_same fat d d' h c (slot_sec_lt fat hv c hc)
  · unfold read_fat
    split
    · rfl
    · rw [if_pos (by rw [dcc_mod fat hv]; omega), if_pos (by rw [dcc_mod fat hv]; omega)]

theorem fatSame_refl (fat : Fat) (d : Disk) : FatSame fat d d := fun _ _ _ => rfl

theorem fatSame_trans {fat : Fat} {d1 d2 d3 : Disk} (h1 : FatSame fat d1 d2)
    (h2 : FatSame fat d2 d3) : FatSame fat d1 d3 :=
  fun s o hs => (h2 s o hs).trans (h1 s o hs)

/-! ## Data clusters -/

theorem first_sec_eq (fat : Fat) (hv : VolOK fat) (c : Nat) (hc : ValidClus fat c) :
    first_sec_of_clus fat c = fat.first_data_sec + (c - 2) * fat.sec_per_clus := by
  obtain ⟨h2, h3⟩ := hc
  have hd := hv.dcc
  have hr := hv.datareg
  have hs := hv.spc
  have hm : (c - 2) * fat.sec_per_clus + fat.sec_per_clus ≤ fat.data_clus_cnt * fat.sec_per_clus := by
    have : (c - 2 + 1) * fat.sec_per_clus ≤ fat.data_clus_cnt * fat.sec_per_clus :=
      Nat.mul_le_mul_right _ (by omega)
    rw [Nat.add_mul] at this; omega
  unfold first_sec_of_clus
  have h4 : (c + U32 - 2) % U32 = c - 2 := by
    unfold FAT32_EOC at hd; unfold U32; omega
  rw [h4, Nat.mod_eq_of_lt (by omega)]
  omega

theorem first_sec_range (fat : Fat) (hv : VolOK fat) (c : Nat) (hc : ValidClus fat c) :
    fat.first_data_sec ≤ first_sec_of_clus fat c
      ∧ first_sec_of_clus fat c + fat.sec_per_clus ≤ U32 := by
  rw [first_sec_eq fat hv c hc]
  obtain ⟨h2, h3⟩ := hc
  have hr := hv.datareg
  have hm : (c - 2) * fat.sec_per_clus + fat.sec_per_clus ≤ fat.data_clus_cnt * fat.sec_per_clus := by
    have : (c - 2 + 1) * fat.sec_per_clus ≤ fat.data_clus_cnt * fat.sec_per_clus :=
      Nat.mul_le_mul_right _ (by omega)
    rw [Nat.add_mul] at this; omega
  omega

theorem first_sec_lt (fat : Fat) (hv : VolOK fat) (c c' : Nat) (hc : ValidClus fat c)
    (hc' : ValidClus fat c') (h : c < c') :
    first_sec_of_clus fat c + fat.sec_per_clus ≤ first_sec_of_clus fat c' := by
  rw [first_sec_eq fat hv c hc, first_sec_eq fat hv c' hc']
  have : (c - 2 + 1) * fat.sec_per_clus ≤ (c' - 2) * fat.sec_per_clus :=
    Nat.mul_le_mul_right _ (by have := hc.1; omega)
  rw [Nat.add_mul] at this; omega

/-- Sectors of distinct data clusters are distinct. -/
theorem clus_sec_ne (fat : Fat) (hv : VolOK fat) (c c' k k' : Nat) (hc : ValidClus fat c)
    (hc' : ValidClus fat c') (h : c ≠ c') (hk : k < fat.sec_per_clus) (hk' : k' < fat.sec_per_clus) :
    first_sec_of_clus fat c + k ≠ first_sec_of_clus fat c' + k' := by
  rcases Nat.lt_or_gt_of_ne h with h1 | h1
  · have := first_sec_lt fat hv c c' hc hc' h1; omega
  · have := first_sec_lt fat hv c' c hc' hc h1; omega

/-! ## Positions in a run of sectors -/

theorem pos_in_sec (B P i : Nat) (hB : 0 < B) (hi : i < B - P % B) :
    (P + i) / B = P / B ∧ (P + i) % B = P % B + i := by
  have h := Nat.div_add_mod P B
  have hlt : P % B + i < B := by omega
  have e : P + i = B * (P / B) + (P % B + i) := by omega
  constructor
  · rw [e, Nat.mul_add_div hB, Nat.div_eq_of_lt hlt]; simp
  · rw [e, Nat.mul_add_mod, Nat.mod_eq_of_lt hlt]

theorem pos_next_sec (B P : Nat) (hB : 0 < B) :
    (P + (B - P % B)) / B = P / B + 1 ∧ (P + (B - P % B)) % B = 0 := by
  have h := Nat.div_add_mod P B
  have hm : P % B < B := Nat.mod_lt _ hB
  have e : P + (B - P % B) = B * (P / B + 1) := by rw [Nat.mul_add, Nat.mul_one]; omega
  constructor
  · rw [e, Nat.mul_div_cancel_left _ hB]
  · rw [e, Nat.mul_mod_right]

theorem pos_inj (B p p' : Nat) (h1 : p / B = p' / B) (h2 : p % B = p' % B) : p = p' := by
  have a := Nat.div_add_mod p B
  have b := Nat.div_add_mod p' B
  rw [h1, h2] at a; omega

theorem mod_mod_eq (B a b : Nat) (h : a % B = b % B) (m : Nat) : (a + m) % B = (b + m) % B := by
  rw [Nat.add_mod, h, ← Nat.add_mod]

/-! ## `rw_clus` -/

theorem rw_loop_done (fat : Fat) (w : Bool) (cp : Copy) (n fuel : Nat) (d : Disk) (out : List Nat)
    (sec off data tot : Nat) (h : ¬ tot < n) :
    rw_clus_loop fat w cp n fuel d out sec off data tot = ⟨d, out, tot⟩ := by
  cases fuel with
  | zero => rfl
  | succ k => simp [rw_clus_loop, h]

/-- The loop of `rw_clus` in read mode, from position `P` of the run of sectors that starts at
sector `S`: it copies out the `n - tot` bytes from position `P` on. -/
theorem rw_loop_read (fat : Fat) (hB : 0 < fat.BSIZE) (cp : Copy)
    (hbad : ∀ a m, cp.bad a m = false) (n S : Nat) (hn : n < U32) :
    ∀ (fuel : Nat) (d : Disk) (out : List Nat) (sec off data tot P : Nat),
      n - tot ≤ fuel → tot ≤ n → sec = S + P / fat.BSIZE → off % fat.BSIZE = P % fat.BSIZE →
      off + (n - tot) < U32 →
      (∀ q, q < n - tot → S + (P + q) / fat.BSIZE < U32) →
      rw_clus_loop fat false cp n fuel d out sec off data tot
        = ⟨d, out ++ (List.range (n - tot)).map
              (fun q => d (S + (P + q) / fat.BSIZE) ((P + q) % fat.BSIZE)), n⟩ := by
  intro fuel
  induction fuel with
  | zero =>
    intro d out sec off data tot P hf ht _ _ _ _
    have : n - tot = 0 := by omega
    have e : tot = n := by omega
    simp [rw_clus_loop, this, e]
  | succ k ih =>
    intro d out sec off data tot P hf ht hsec hoff hwr hw
    by_cases hlt : tot < n
    · have hmB : P % fat.BSIZE < fat.BSIZE := Nat.mod_lt _ hB
      simp only [rw_clus_loop, if_pos hlt, hbad, Bool.false_eq_true, if_false]
      by_cases hr : n - tot < fat.BSIZE - off % fat.BSIZE
      · -- the last turn
        simp only [if_pos hr]
        have e1 : (tot + (n - tot)) % U32 = n := by
          rw [Nat.mod_eq_of_lt (by omega)]; omega
        rw [e1, rw_loop_done fat false cp n k d _ _ _ _ n (by omega)]
        congr 2
        unfold peek
        apply List.map_congr_left
        intro q hq
        have hq' : q < n - tot := List.mem_range.mp hq
        rw [hoff] at hr
        obtain ⟨a, b⟩ := pos_in_sec fat.BSIZE P q hB (by omega)
        rw [a, b, hsec, hoff]
      · simp only [if_neg hr]
        rw [hoff] at hr
        have hm : fat.BSIZE - off % fat.BSIZE = fat.BSIZE - P % fat.BSIZE := by rw [hoff]
        rw [hm]
        set m := fat.BSIZE - P % fat.BSIZE with hmdef
        have hmpos : 0 < m := by omega
        have hmle : m ≤ n - tot := by omega
        obtain ⟨a, b⟩ := pos_next_sec fat.BSIZE P hB
        rw [← hmdef] at a b
        have e1 : (tot + m) % U32 = tot + m := Nat.mod_eq_of_lt (by omega)
        have e2 : (off + m) % U32 = off + m := Nat.mod_eq_of_lt (by omega)
        rw [e1, e2]
        by_cases hfin : tot + m = n
        · rw [hfin, rw_loop_done fat false cp n k d _ _ _ _ n (by omega)]
          congr 2
          have : n - tot = m := by omega
          rw [this]
          unfold peek
          apply List.map_congr_left
          intro q hq
          have hq' : q < m := List.mem_range.mp hq
          obtain ⟨a', b'⟩ := pos_in_sec fat.BSIZE P q hB (by omega)
          rw [a', b', hsec, hoff]
        · have hs1 : (sec + 1) % U32 = S + (P + m) / fat.BSIZE := by
            have := hw m (by omega)
            rw [a] at this ⊢
            rw [hsec, Nat.mod_eq_of_lt (by omega)]; omega
          have hoff' : (off + m) % fat.BSIZE = (P + m) % fat.BSIZE :=
            mod_mod_eq _ _ _ hoff m
          rw [ih d _ ((sec + 1) % U32) (off + m) (data + m) (tot + m) (P + m) (by omega) (by omega)
            hs1 hoff' (by omega) (by
              intro q hq
              have := hw (m + q) (by omega)
              rw [Nat.add_assoc]; exact this)]
          have hsplit : n - tot = m + (n - (tot + m)) := by omega
          rw [hsplit, List.range_add, List.map_append, List.append_assoc]
          have hA : peek d sec (off % fat.BSIZE) m
              = (List.range m).map
                  (fun q => d (S + (P + q) / fat.BSIZE) ((P + q) % fat.BSIZE)) := by
            unfold peek
            apply List.map_congr_left
            intro q hq
            have hq' : q < m := List.mem_range.mp hq
            obtain ⟨a', b'⟩ := pos_in_sec fat.BSIZE P q hB (by omega)
            rw [a', b', hsec, hoff]
          rw [hA, List.map_map]
          congr 3
          apply List.map_congr_left
          intro q _
          simp only [Function.comp, Nat.add_assoc]
    · have e : tot = n := by omega
      rw [rw_loop_done fat false cp n _ d out sec off data tot hlt]
      simp [e]

/-- The loop of `rw_clus` in write mode, from position `P` of the run of sectors that starts at
sector `S`. -/
theorem rw_loop_write (fat : Fat) (hB : 0 < fat.BSIZE) (cp : Copy)
    (hbad : ∀ a m, cp.bad a m = false) (n S : Nat) (hn : n < U32) :
    ∀ (fuel : Nat) (d : Disk) (out : List Nat) (sec off data tot P : Nat),
      n - tot ≤ fuel → tot ≤ n → sec = S + P / fat.BSIZE → off % fat.BSIZE = P % fat.BSIZE →
      off + (n - tot) < U32 →
      (∀ q, q < n - tot → S + (P + q) / fat.BSIZE < U32) →
      ∃ d', rw_clus_loop fat true cp n fuel d out sec off data tot = ⟨d', out, n⟩
        ∧ Wrote fat.BSIZE S P (n - tot) (fun q => cp.src (data + q)) d d' := by
  intro fuel
  induction fuel with
  | zero =>
    intro d out sec off data tot P hf ht _ _ _ _
    have h0 : n - tot = 0 := by omega
    have e : tot = n := by omega
    refine ⟨d, by simp [rw_clus_loop, e], ?_, ?_⟩
    · intro q hq; omega
    · intro s o _; rfl
  | succ k ih =>
    intro d out sec off data tot P hf ht hsec hoff hwr hw
    by_cases hlt : tot < n
    · have hmB : P % fat.BSIZE < fat.BSIZE := Nat.mod_lt _ hB
      simp only [rw_clus_loop, if_pos hlt, hbad, Bool.false_eq_true, if_false]
      rw [hoff]
      generalize hmdef : (if n - tot < fat.BSIZE - P % fat.BSIZE then n - tot
        else fat.BSIZE - P % fat.BSIZE) = m
      have hm1 : m ≤ fat.BSIZE - P % fat.BSIZE := by rw [← hmdef]; split <;> omega
      have hm2 : m ≤ n - tot := by rw [← hmdef]; split <;> omega
      have hm3 : 0 < m := by rw [← hmdef]; split <;> omega
      have hm4 : tot + m < n → m = fat.BSIZE - P % fat.BSIZE := by
        rw [← hmdef]; split <;> omega
      have e1 : (tot + m) % U32 = tot + m := Nat.mod_eq_of_lt (by omega)
      have e2 : (off + m) % U32 = off + m := Nat.mod_eq_of_lt (by omega)
      rw [e1, e2]
      -- the sector written in this turn
      have hblit : ∀ q, q < m →
          blit d sec (P % fat.BSIZE) m (fun i => cp.src (data + i))
            (S + (P + q) / fat.BSIZE) ((P + q) % fat.BSIZE) = cp.src (data + q) := by
        intro q hq
        obtain ⟨a', b'⟩ := pos_in_sec fat.BSIZE P q hB (by omega)
        rw [a', b', ← hsec]
        unfold blit
        rw [if_pos ⟨rfl, by omega, by omega⟩]
        congr 1; omega
      have hblit2 : ∀ s o, (∀ q, q < m → ¬ (s = S + (P + q) / fat.BSIZE ∧ o = (P + q) % fat.BSIZE)) →
          blit d sec (P % fat.BSIZE) m (fun i => cp.src (data + i)) s o = d s o := by
        intro s o h
        unfold blit
        rw [if_neg]
        rintro ⟨hs, ho1, ho2⟩
        apply h (o - P % fat.BSIZE) (by omega)
        obtain ⟨a', b'⟩ := pos_in_sec fat.BSIZE P (o - P % fat.BSIZE) hB (by omega)
        rw [a', b', ← hsec]
        exact ⟨hs, by omega⟩
      by_cases hfin : tot + m = n
      · rw [hfin, rw_loop_done fat true cp n k _ _ _ _ _ n (by omega)]
        have hr : n - tot = m := by omega
        rw [hr]
        exact ⟨_, rfl, hblit, hblit2⟩
      · have hmeq := hm4 (by omega)
        obtain ⟨a, b⟩ := pos_next_sec fat.BSIZE P hB
        rw [← hmeq] at a b
        have hs1 : (sec + 1) % U32 = S + (P + m) / fat.BSIZE := by
          have := hw m (by omega)
          rw [a] at this ⊢
          rw [hsec, Nat.mod_eq_of_lt (by omega)]; omega
        have hoff' : (off + m) % fat.BSIZE = (P + m) % fat.BSIZE :=
          mod_mod_eq _ _ _ hoff m
        obtain ⟨d', hd', hW1, hW2⟩ :=
          ih (blit d sec (P % fat.BSIZE) m (fun i => cp.src (data + i))) out ((sec + 1) % U32)
            (off + m) (data + m) (tot + m) (P + m) (by omega) (by omega) hs1 hoff' (by omega) (by
              intro q hq
              have := hw (m + q) (by omega)
              rw [Nat.add_assoc]; exact this)
        refine ⟨d', hd', ?_, ?_⟩
        · intro q hq
          by_cases hqm : q < m
          · rw [hW2 _ _ (by
              intro q' hq' hc
              have := pos_inj fat.BSIZE (P + q) (P + m + q') (by omega) hc.2
              omega)]
            exact hblit q hqm
          · have := hW1 (q - m) (by omega)
            have e : P + m + (q - m) = P + q := by omega
            have e' : data + m + (q - m) = data + q := by omega
            beta_reduce at this
            rw [e, e'] at this
            exact this
        · intro s o h
          rw [hW2 s o (by
            intro q' hq' hc
            apply h (m + q') (by omega)
            rw [← Nat.add_assoc]; exact hc)]
          exact hblit2 s o (fun q hq => h q (by omega))
    · have e : tot = n := by omega
      rw [rw_loop_done fat true cp n _ d out sec off data tot hlt]
      refine ⟨d, by rw [e], ?_, ?_⟩
      · intro q hq; omega
      · intro s o _; rfl

theorem pos_sec_lt (fat : Fat) (hv : VolOK fat) (p : Nat) (hp : p < fat.byts_per_clus) :
    p / fat.BSIZE < fat.sec_per_clus := by
  rw [hv.bpc, Nat.mul_comm] at hp
  exact Nat.div_lt_of_lt_mul hp

/-- `rw_clus` in read mode on a data cluster copies out the bytes of the cluster. -/
theorem rw_clus_read (fat : Fat) (hv : VolOK fat) (d : Disk) (c : Nat) (hc : ValidClus fat c)
    (cp : Copy) (hbad : ∀ a m, cp.bad a m = false) (data off n : Nat)
    (h : off + n ≤ fat.byts_per_clus) :
    rw_clus fat d c false cp data off n
      = some ⟨d, (List.range n).map (fun q => cbyte fat d c (off + q)), n⟩ := by
  have hb := hv.bpclt
  have hs := first_sec_range fat hv c hc
  unfold rw_clus
  rw [if_neg (by rw [Nat.mod_eq_of_lt (by omega)]; omega)]
  rcases Nat.eq_zero_or_pos n with h0 | h0
  · subst h0
    rw [rw_loop_done _ _ _ _ _ _ _ _ _ _ _ (by omega)]
    simp
  · have hoff : off / fat.BSIZE < fat.sec_per_clus := pos_sec_lt fat hv off (by omega)
    rw [hv.bps, Nat.mod_eq_of_lt (by omega)]
    have := rw_loop_read fat hv.bpos cp hbad n (first_sec_of_clus fat c) (by omega) n d []
      (first_sec_of_clus fat c + off / fat.BSIZE) (off % fat.BSIZE) data 0 off (by omega)
      (by omega) rfl (Nat.mod_mod _ _) (by have := Nat.mod_le off fat.BSIZE; omega)
      (by
        intro q hq
        have := pos_sec_lt fat hv (off + q) (by omega)
        omega)
    rw [this]
    simp [cbyte]

/-- `rw_clus` in write mode on a data cluster. -/
theorem rw_clus_write (fat : Fat) (hv : VolOK fat) (d : Disk) (c : Nat) (hc : ValidClus fat c)
    (cp : Copy) (hbad : ∀ a m, cp.bad a m = false) (data off n : Nat)
    (h : off + n ≤ fat.byts_per_clus) :
    ∃ d', rw_clus fat d c true cp data off n = some ⟨d', [], n⟩
      ∧ Wrote fat.BSIZE (first_sec_of_clus fat c) off n (fun q => cp.src (data + q)) d d' := by
  have hb := hv.bpclt
  have hs := first_sec_range fat hv c hc
  unfold rw_clus
  rw [if_neg (by rw [Nat.mod_eq_of_lt (by omega)]; omega)]
  rcases Nat.eq_zero_or_pos n with h0 | h0
  · subst h0
    rw [rw_loop_done _ _ _ _ _ _ _ _ _ _ _ (by omega)]
    refine ⟨d, rfl, ?_, ?_⟩
    · intro q hq; omega
    · intro s o _; rfl
  · have hoff : off / fat.BSIZE < fat.sec_per_clus := pos_sec_lt fat hv off (by omega)
    rw [hv.bps, Nat.mod_eq_of_lt (by omega)]
    obtain ⟨d', h1, h2⟩ := rw_loop_write fat hv.bpos cp hbad n (first_sec_of_clus fat c)
      (by omega) n d []
      (first_sec_of_clus fat c + off / fat.BSIZE) (off % fat.BSIZE) data 0 off (by omega)
      (by omega) rfl (Nat.mod_mod _ _) (by have := Nat.mod_le off fat.BSIZE; omega)
      (by
        intro q hq
        have := pos_sec_lt fat hv (off + q) (by omega)
        omega)
    exact ⟨d', by rw [h1], h2⟩

/-- A write into cluster `c` leaves the sectors outside the cluster as they were. -/
theorem Wrote.outside (fat : Fat) (hv : VolOK fat) (c off n : Nat) (src : Nat → Nat) (d d' : Disk)
    (hw : Wrote fat.BSIZE (first_sec_of_clus fat c) off n src d d')
    (h : off + n ≤ fat.byts_per_clus) (s o : Nat)
    (hs : s < first_sec_of_clus fat c ∨ first_sec_of_clus fat c + fat.sec_per_clus ≤ s) :
    d' s o = d s o := by
  apply hw.2
  intro q hq hc
  have hk := pos_sec_lt fat hv (off + q) (by omega)
  obtain ⟨hc1, _⟩ := hc
  generalize (off + q) / fat.BSIZE = k at hk hc1
  omega

theorem Wrote.fatSame (fat : Fat) (hv : VolOK fat) (c off n : Nat) (hc : ValidClus fat c)
    (src : Nat → Nat) (d d' : Disk)
    (hw : Wrote fat.BSIZE (first_sec_of_clus fat c) off n src d d')
    (h : off + n ≤ fat.byts_per_clus) : FatSame fat d d' := by
  intro s o hs
  apply Wrote.outside fat hv c off n src d d' hw h
  have := first_sec_range fat hv c hc
  have := hv.fatreg
  omega

/-- A write into cluster `c` leaves the other data clusters as they were. -/
theorem Wrote.other_clus (fat : Fat) (hv : VolOK fat) (c off n : Nat) (hc : ValidClus fat c)
    (src : Nat → Nat) (d d' : Disk)
    (hw : Wrote fat.BSIZE (first_sec_of_clus fat c) off n src d d')
    (h : off + n ≤ fat.byts_per_clus) (c' p : Nat) (hc' : ValidClus fat c') (hne : c' ≠ c)
    (hp : p < fat.byts_per_clus) : cbyte fat d' c' p = cbyte fat d c' p := by
  unfold cbyte
  apply Wrote.outside fat hv c off n src d d' hw h
  have hk := pos_sec_lt fat hv p hp
  generalize p / fat.BSIZE = k at hk ⊢
  rcases Nat.lt_or_gt_of_ne hne with h1 | h1
  · have := first_sec_lt fat hv c' c hc' hc h1; left; omega
  · have := first_sec_lt fat hv c c' hc hc' h1; right; omega

/-- The bytes a write into cluster `c` has written. -/
theorem Wrote.inside (fat : Fat) (c off n : Nat) (src : Nat → Nat) (d d' : Disk)
    (hw : Wrote fat.BSIZE (first_sec_of_clus fat c) off n src d d') (p : Nat)
    (h1 : off ≤ p) (h2 : p < off + n) : cbyte fat d' c p = src (p - off) := by
  have := hw.1 (p - off) (by omega)
  have e : off + (p - off) = p := by omega
  rw [e] at this
  exact this

/-- The bytes of cluster `c` a write into it has not written. -/
theorem Wrote.same_clus (fat : Fat) (c off n : Nat) (src : Nat → Nat) (d d' : Disk)
    (hw : Wrote fat.BSIZE (first_sec_of_clus fat c) off n src d d') (p : Nat)
    (h : p < off ∨ off + n ≤ p) : cbyte fat d' c p = cbyte fat d c p := by
  unfold cbyte
  apply hw.2
  intro q hq hc
  have := pos_inj fat.BSIZE p (off + q) (by omega) hc.2
  omega

/-! ## `zero_clus` and `alloc_clus` -/

theorem zero_sec_apply (fat : Fat) (d : Disk) (sec s o : Nat) :
    zero_sec fat d sec s o = if s = sec ∧ o < fat.BSIZE then 0 else d s o := rfl

theorem zero_fold (fat : Fat) (S : Nat) :
    ∀ (k : Nat) (d : Disk), S + k ≤ U32 →
      ∀ s o, (List.range k).foldl (fun acc i => zero_sec fat acc ((S + i) % U32)) d s o
        = if S ≤ s ∧ s < S + k ∧ o < fat.BSIZE then 0 else d s o := by
  intro k
  induction k with
  | zero => intro d _ s o; rw [if_neg (by omega)]; rfl
  | succ k ih =>
    intro d hk s o
    rw [List.range_succ, List.foldl_append]
    simp only [List.foldl_cons, List.foldl_nil]
    rw [zero_sec_apply, ih d (by omega), Nat.mod_eq_of_lt (by omega)]
    by_cases h1 : s = S + k ∧ o < fat.BSIZE
    · rw [if_pos h1, if_pos (by omega)]
    · rw [if_neg h1]
      by_cases h2 : S ≤ s ∧ s < S + k ∧ o < fat.BSIZE
      · rw [if_pos h2, if_pos (by omega)]
      · rw [if_neg h2, if_neg (by omega)]

theorem zero_clus_eq (fat : Fat) (hv : VolOK fat) (d : Disk) (c : Nat) (hc : ValidClus fat c)
    (s o : Nat) :
    zero_clus fat d c s o
      = if first_sec_of_clus fat c ≤ s ∧ s < first_sec_of_clus fat c + fat.sec_per_clus
            ∧ o < fat.BSIZE then 0 else d s o := by
  unfold zero_clus
  exact zero_fold fat _ _ d (first_sec_range fat hv c hc).2 s o

theorem zero_clus_fatSame (fat : Fat) (hv : VolOK fat) (d : Disk) (c : Nat) (hc : ValidClus fat c) :
    FatSame fat d (zero_clus fat d c) := by
  intro s o hs
  rw [zero_clus_eq fat hv d c hc, if_neg]
  have := first_sec_range fat hv c hc
  have := hv.fatreg
  omega

theorem zero_clus_cbyte (fat : Fat) (hv : VolOK fat) (d : Disk) (c : Nat) (hc : ValidClus fat c)
    (p : Nat) (hp : p < fat.byts_per_clus) : cbyte fat (zero_clus fat d c) c p = 0 := by
  unfold cbyte
  rw [zero_clus_eq fat hv d c hc, if_pos]
  have hk := pos_sec_lt fat hv p hp
  have hm := Nat.mod_lt p hv.bpos
  generalize p / fat.BSIZE = k at hk ⊢
  generalize p % fat.BSIZE = m at hm ⊢
  omega

theorem zero_clus_other (fat : Fat) (hv : VolOK fat) (d : Disk) (c : Nat) (hc : ValidClus fat c)
    (c' p : Nat) (hc' : ValidClus fat c') (hne : c' ≠ c) (hp : p < fat.byts_per_clus) :
    cbyte fat (zero_clus fat d c) c' p = cbyte fat d c' p := by
  unfold cbyte
  rw [zero_clus_eq fat hv d c hc, if_neg]
  have hk := pos_sec_lt fat hv p hp
  generalize p / fat.BSIZE = k at hk ⊢
  rcases Nat.lt_or_gt_of_ne hne with h1 | h1
  · have := first_sec_lt fat hv c' c hc' hc h1; omega
  · have := first_sec_lt fat hv c c' hc hc' h1; omega

/-- A store into the table leaves the data clusters as they were. -/
theorem write_fat_cbyte (fat : Fat) (hv : VolOK fat) (d : Disk) (c v c' p : Nat)
    (hc' : ValidClus fat c') : cbyte fat (write_fat fat d c v).1 c' p = cbyte fat d c' p := by
  by_cases hc : c ≤ fat.data_clus_cnt + 1
  · rw [write_fat_eq fat hv d c v hc]
    unfold cbyte
    apply put32_other
    left
    have := first_sec_range fat hv c' hc'
    have hk := slot_sec_lt fat hv c hc
    have := hv.fatreg
    generalize c / (fat.BSIZE / 4) = k at hk ⊢
    generalize p / fat.BSIZE = m
    omega
  · rw [write_fat_big fat hv d c v (by omega)]

theorem alloc_slot_none (d : Disk) (sec : Nat) :
    ∀ (k j : Nat), (∀ j', j ≤ j' → j' < j + k → get32 d sec (4 * j') ≠ 0) →
      alloc_find_slot d sec k j = none := by
  intro k
  induction k with
  | zero => intro j _; rfl
  | succ k ih =>
    intro j h
    unfold alloc_find_slot
    rw [if_neg (h j (by omega) (by omega))]
    exact ih (j + 1) (fun j' h1 h2 => h j' (by omega) (by omega))

theorem alloc_slot_some (d : Disk) (sec j0 : Nat) (h0 : get32 d sec (4 * j0) = 0) :
    ∀ (k j : Nat), j ≤ j0 → j0 < j + k →
      (∀ j', j ≤ j' → j' < j0 → get32 d sec (4 * j') ≠ 0) →
      alloc_find_slot d sec k j = some j0 := by
  intro k
  induction k with
  | zero => intro j h1 h2 _; omega
  | succ k ih =>
    intro j h1 h2 h
    unfold alloc_find_slot
    by_cases hj : j = j0
    · subst hj; rw [if_pos h0]
    · rw [if_neg (h j (by omega) (by omega))]
      exact ih (j + 1) (by omega) (by omega) (fun j' a b => h j' (by omega) b)

theorem slot_div_mod (e i j : Nat) (hj : j < e) : (i * e + j) / e = i ∧ (i * e + j) % e = j := by
  have he : 0 < e := by omega
  constructor
  · rw [Nat.mul_comm, Nat.mul_add_div he, Nat.div_eq_of_lt hj]; simp
  · rw [Nat.mul_comm, Nat.mul_add_mod, Nat.mod_eq_of_lt hj]

/-- The scan of `alloc_clus` stops at the first slot of the table that holds 0. -/
theorem alloc_find_first (fat : Fat) (hv : VolOK fat) (d : Disk) (c0 : Nat)
    (h0 : fat_ent fat d c0 = 0) :
    ∀ (k i : Nat), i ≤ c0 / (fat.BSIZE / 4) → c0 / (fat.BSIZE / 4) < i + k →
      fat.rsvd_sec_cnt + i + k ≤ U32 →
      (∀ c, i * (fat.BSIZE / 4) ≤ c → c < c0 → fat_ent fat d c ≠ 0) →
      alloc_find fat d k i = some (c0 / (fat.BSIZE / 4), c0 % (fat.BSIZE / 4)) := by
  have he := eps_pos fat hv
  intro k
  induction k with
  | zero => intro i h1 h2 _ _; omega
  | succ k ih =>
    intro i h1 h2 hw h
    unfold alloc_find
    rw [hv.bps, Nat.mod_eq_of_lt (by omega)]
    by_cases hi : i = c0 / (fat.BSIZE / 4)
    · have hs : alloc_find_slot d (fat.rsvd_sec_cnt + i) (fat.BSIZE / 4) 0
          = some (c0 % (fat.BSIZE / 4)) := by
        apply alloc_slot_some
        · rw [hi]; exact h0
        · omega
        · have := Nat.mod_lt c0 he; omega
        · intro j' _ hj'
          have hlt : j' < fat.BSIZE / 4 := by have := Nat.mod_lt c0 he; omega
          obtain ⟨a, b⟩ := slot_div_mod (fat.BSIZE / 4) i j' hlt
          have := h (i * (fat.BSIZE / 4) + j') (by omega) (by
            have e := Nat.div_add_mod c0 (fat.BSIZE / 4)
            rw [← hi, Nat.mul_comm] at e
            omega)
          unfold fat_ent at this
          rw [a, b] at this
          exact this
      rw [hs, hi]
    · have hs : alloc_find_slot d (fat.rsvd_sec_cnt + i) (fat.BSIZE / 4) 0 = none := by
        apply alloc_slot_none
        intro j' _ hj'
        have hlt : j' < fat.BSIZE / 4 := by omega
        obtain ⟨a, b⟩ := slot_div_mod (fat.BSIZE / 4) i j' hlt
        have := h (i * (fat.BSIZE / 4) + j') (by omega) (by
          have e := Nat.div_add_mod c0 (fat.BSIZE / 4)
          have : (i + 1) * (fat.BSIZE / 4) ≤ (c0 / (fat.BSIZE / 4)) * (fat.BSIZE / 4) :=
            Nat.mul_le_mul_right _ (by omega)
          rw [Nat.add_mul, Nat.one_mul] at this
          rw [Nat.mul_comm] at e
          omega)
        unfold fat_ent at this
        rw [a, b] at this
        exact this
      rw [hs]
      exact ih (i + 1) (by omega) (by omega) (by omega) (fun c a b => h c (by
        rw [Nat.add_mul, Nat.one_mul] at a; omega) b)

theorem free_head (fat : Fat) (d : Disk) (c0 : Nat) (rest : List Nat)
    (h : free_clusters fat d = c0 :: rest) :
    ValidClus fat c0 ∧ fat_ent fat d c0 = 0 ∧ (∀ c, 2 ≤ c → c < c0 → fat_ent fat d c ≠ 0) ∧
    ∀ d', (∀ c, ValidClus fat c → c ≠ c0 → fat_ent fat d' c = fat_ent fat d c) →
      fat_ent fat d' c0 ≠ 0 → free_clusters fat d' = rest := by
  unfold free_clusters at h
  rw [List.filter_eq_cons_iff] at h
  obtain ⟨l1, l2, hl, h1, h2, h3⟩ := h
  rw [List.range'_eq_append_iff] at hl
  obtain ⟨k, hk, e1, e2⟩ := hl
  have hpos : 0 < fat.data_clus_cnt - k := by
    rcases Nat.eq_zero_or_pos (fat.data_clus_cnt - k) with h0 | h0
    · rw [h0] at e2; simp at e2
    · exact h0
  obtain ⟨m, hm⟩ : ∃ m, fat.data_clus_cnt - k = m + 1 := ⟨fat.data_clus_cnt - k - 1, by omega⟩
  rw [hm, List.range'_succ] at e2
  injection e2 with e3 e4
  have hc0 : ValidClus fat c0 := ⟨by omega, by omega⟩
  refine ⟨hc0, by simpa using h2, ?_, ?_⟩
  · intro c ha hb
    have : c ∈ l1 := by rw [e1]; simp; omega
    simpa using h1 c this
  · intro d' hsame hne
    unfold free_clusters
    have hsplit : List.range' 2 fat.data_clus_cnt = l1 ++ c0 :: l2 := by
      rw [List.range'_eq_append_iff]
      exact ⟨k, hk, e1, by rw [hm, List.range'_succ, e3, e4]⟩
    rw [hsplit, List.filter_append, List.filter_cons]
    have f1 : l1.filter (fun c => decide (fat_ent fat d' c = 0)) = [] := by
      rw [List.filter_eq_nil_iff]
      intro c hc
      have hin : c ∈ List.range' 2 k := by rw [← e1]; exact hc
      have hr := List.mem_range'_1.mp hin
      rw [hsame c ⟨by omega, by omega⟩ (by omega)]
      exact h1 c hc
    have f2 : l2.filter (fun c => decide (fat_ent fat d' c = 0))
        = l2.filter (fun c => decide (fat_ent fat d c = 0)) := by
      apply List.filter_congr
      intro c hc
      have hin : c ∈ List.range' (2 + k + 1) m := by rw [← e4]; exact hc
      have hr := List.mem_range'_1.mp hin
      rw [hsame c ⟨by omega, by omega⟩ (by omega)]
    rw [f1, f2, h3]
    simp [hne]

/-- The least free data cluster is the first free slot of the whole table when the reserved
slots hold their marks. -/
theorem free_head_first (fat : Fat) (d : Disk) (hr : RsvdOK fat d) (c0 : Nat) (rest : List Nat)
    (h : free_clusters fat d = c0 :: rest) (c : Nat) (hc : c < c0) : fat_ent fat d c ≠ 0 := by
  obtain ⟨_, _, h3, _⟩ := free_head fat d c0 rest h
  by_cases h2 : 2 ≤ c
  · exact h3 c h2 hc
  · have : c = 0 ∨ c = 1 := by omega
    rcases this with e | e
    · rw [e]; exact hr.1
    · rw [e]; exact hr.2

theorem alloc_clus_eq (fat : Fat) (hv : VolOK fat) (d : Disk) (hr : RsvdOK fat d)
    (c0 : Nat) (rest : List Nat) (h : free_clusters fat d = c0 :: rest) :
    alloc_clus fat d = some (c0, alloc_store fat d c0) := by
  obtain ⟨hc0, hz, _, _⟩ := free_head fat d c0 rest h
  have he := eps_pos fat hv
  have hs := slot_sec_lt fat hv c0 hc0.2
  have hb := fat_sz_bound fat hv
  have hfind := alloc_find_first fat hv d c0 hz fat.fat_sz 0 (Nat.zero_le _)
    (by rw [Nat.zero_add]; exact hs) (by omega)
    (fun c _ hc => free_head_first fat d hr c0 rest h c hc)
  unfold alloc_clus alloc_store
  rw [hfind]
  simp only
  rw [hv.bps, write_fat_eq fat hv d c0 _ hc0.2]
  have e := Nat.div_add_mod c0 (fat.BSIZE / 4)
  have hd := hv.dcc
  have hc : (c0 / (fat.BSIZE / 4) * (fat.BSIZE / 4) + c0 % (fat.BSIZE / 4)) % U32 = c0 := by
    rw [Nat.mul_comm, e]
    apply Nat.mod_eq_of_lt
    have := hc0.2
    unfold FAT32_EOC at hd; unfold U32; omega
  have hsec : (fat.rsvd_sec_cnt + c0 / (fat.BSIZE / 4)) % U32
      = fat.rsvd_sec_cnt + c0 / (fat.BSIZE / 4) := by
    apply Nat.mod_eq_of_lt
    generalize c0 / (fat.BSIZE / 4) = q at hs
    omega
  rw [hc, hsec]

/-- The table after `alloc_clus` has claimed the data cluster `c0`. -/
theorem alloc_store_fat (fat : Fat) (hv : VolOK fat) (d : Disk) (c0 : Nat) (hc0 : ValidClus fat c0) :
    read_fat fat (alloc_store fat d c0) c0 = FAT32_EOC + 7
      ∧ ∀ c, c ≠ c0 → read_fat fat (alloc_store fat d c0) c = read_fat fat d c := by
  unfold alloc_store
  constructor
  · rw [read_fat_same fat hv _ _ (zero_clus_fatSame fat hv _ c0 hc0)]
    exact read_fat_write_same fat hv d c0 _ hc0.2 (by unfold FAT32_EOC U32; omega)
  · intro c hc
    rw [read_fat_same fat hv _ _ (zero_clus_fatSame fat hv _ c0 hc0)]
    exact read_fat_write_other fat hv d c0 c _ hc

theorem alloc_store_ent (fat : Fat) (hv : VolOK fat) (d : Disk) (c0 : Nat) (hc0 : ValidClus fat c0)
    (c : Nat) (hc : c ≤ fat.data_clus_cnt + 1) (hne : c ≠ c0) :
    fat_ent fat (alloc_store fat d c0) c = fat_ent fat d c := by
  rw [← read_fat_eq fat hv _ c hc, ← read_fat_eq fat hv _ c hc]
  exact (alloc_store_fat fat hv d c0 hc0).2 c hne

theorem alloc_store_free (fat : Fat) (hv : VolOK fat) (d : Disk) (c0 : Nat) (rest : List Nat)
    (h : free_clusters fat d = c0 :: rest) : free_clusters fat (alloc_store fat d c0) = rest := by
  obtain ⟨hc0, _, _, h4⟩ := free_head fat d c0 rest h
  apply h4
  · intro c hc hne
    exact alloc_store_ent fat hv d c0 hc0 c hc.2 hne
  · rw [← read_fat_eq fat hv _ c0 hc0.2, (alloc_store_fat fat hv d c0 hc0).1]
    unfold FAT32_EOC; omega

theorem alloc_store_cbyte (fat : Fat) (hv : VolOK fat) (d : Disk) (c0 : Nat) (hc0 : ValidClus fat c0)
    (p : Nat) (hp : p < fat.byts_per_clus) :
    cbyte fat (alloc_store fat d c0) c0 p = 0
      ∧ ∀ c, ValidClus fat c → c ≠ c0 → cbyte fat (alloc_store fat d c0) c p = cbyte fat d c p := by
  unfold alloc_store
  constructor
  · exact zero_clus_cbyte fat hv _ c0 hc0 p hp
  · intro c hc hne
    rw [zero_clus_other fat hv _ c0 hc0 c p hc hne hp]
    exact write_fat_cbyte fat hv d c0 _ c p hc

/-! ## Cluster chains -/

theorem isChain_iff (fat : Fat) (d : Disk) (cs : List Nat) :
    IsChain fat d cs ↔
      0 < cs.length ∧ (∀ i, i < cs.length → ValidClus fat (cs.getD i 0))
        ∧ (∀ i, i + 1 < cs.length → read_fat fat d (cs.getD i 0) = cs.getD (i + 1) 0)
        ∧ FAT32_EOC ≤ read_fat fat d (cs.getD (cs.length - 1) 0) := by
  induction cs with
  | nil => simp [IsChain]
  | cons c t ih =>
    cases t with
    | nil =>
      simp only [IsChain, List.length_singleton]
      constructor
      · rintro ⟨h1, h2⟩
        refine ⟨by omega, ?_, ?_, ?_⟩
        · intro i hi
          have : i = 0 := by omega
          subst this; simpa using h1
        · intro i hi; omega
        · simpa using h2
      · rintro ⟨_, h1, _, h3⟩
        exact ⟨by simpa using h1 0 (by omega), by simpa using h3⟩
    | cons c' r =>
      simp only [IsChain]
      rw [ih]
      constructor
      · rintro ⟨h1, h2, _, h3, h4, h5⟩
        refine ⟨by simp, ?_, ?_, ?_⟩
        · intro i hi
          cases i with
          | zero => simpa using h1
          | succ j =>
            simp only [List.getD_cons_succ]
            exact h3 j (by simp at hi ⊢; omega)
        · intro i hi
          cases i with
          | zero => simpa using h2
          | succ j =>
            simp only [List.getD_cons_succ]
            exact h4 j (by simp at hi ⊢; omega)
        · simpa using h5
      · rintro ⟨_, h1, h2, h3⟩
        refine ⟨by simpa using h1 0 (by simp), by simpa using h2 0 (by simp), by simp, ?_, ?_, ?_⟩
        · intro i hi
          have := h1 (i + 1) (by simp at hi ⊢; omega)
          simpa using this
        · intro i hi
          have := h2 (i + 1) (by simp at hi ⊢; omega)
          simpa using this
        · simpa using h3

theorem IsChain.pos {fat : Fat} {d : Disk} {cs : List Nat} (h : IsChain fat d cs) :
    0 < cs.length := ((isChain_iff fat d cs).mp h).1

theorem IsChain.valid {fat : Fat} {d : Disk} {cs : List Nat} (h : IsChain fat d cs) (i : Nat)
    (hi : i < cs.length) : ValidClus fat (cs.getD i 0) := ((isChain_iff fat d cs).mp h).2.1 i hi

theorem IsChain.link {fat : Fat} {d : Disk} {cs : List Nat} (h : IsChain fat d cs) (i : Nat)
    (hi : i + 1 < cs.length) : read_fat fat d (cs.getD i 0) = cs.getD (i + 1) 0 :=
  ((isChain_iff fat d cs).mp h).2.2.1 i hi

theorem IsChain.last {fat : Fat} {d : Disk} {cs : List Nat} (h : IsChain fat d cs) :
    FAT32_EOC ≤ read_fat fat d (cs.getD (cs.length - 1) 0) :=
  ((isChain_iff fat d cs).mp h).2.2.2

/-- Two members of a chain at different places are different clusters. -/
theorem IsChain.inj {fat : Fat} (hv : VolOK fat) {d : Disk} {cs : List Nat} (h : IsChain fat d cs) :
    ∀ (k i j : Nat), i < j → j + k + 1 = cs.length → cs.getD i 0 ≠ cs.getD j 0 := by
  intro k
  induction k with
  | zero =>
    intro i j hij hj heq
    have h1 := h.link i (by omega)
    have h2 := h.last
    have e : cs.length - 1 = j := by omega
    rw [e, ← heq, h1] at h2
    have := (h.valid (i + 1) (by omega)).2
    have := hv.dcc
    omega
  | succ k ih =>
    intro i j hij hj heq
    apply ih (i + 1) (j + 1) (by omega) (by omega)
    rw [← h.link i (by omega), ← h.link j (by omega), heq]

theorem IsChain.ne {fat : Fat} (hv : VolOK fat) {d : Disk} {cs : List Nat} (h : IsChain fat d cs)
    (i j : Nat) (hi : i < cs.length) (hj : j < cs.length) (hne : i ≠ j) :
    cs.getD i 0 ≠ cs.getD j 0 := by
  rcases Nat.lt_or_gt_of_ne hne with h1 | h1
  · exact h.inj hv (cs.length - 1 - j) i j h1 (by omega)
  · exact fun e => h.inj hv (cs.length - 1 - i) j i h1 (by omega) e.symm

/-- No member of a chain is a free cluster. -/
theorem IsChain.nonzero {fat : Fat} {d : Disk} {cs : List Nat} (h : IsChain fat d cs) (i : Nat)
    (hi : i < cs.length) : read_fat fat d (cs.getD i 0) ≠ 0 := by
  by_cases hl : i + 1 < cs.length
  · rw [h.link i hl]
    have := (h.valid (i + 1) hl).1
    omega
  · have := h.last
    have e : cs.length - 1 = i := by omega
    rw [e] at this
    unfold FAT32_EOC at this
    omega

/-- A chain remains a chain in a store whose table agrees on its members. -/
theorem IsChain.congr {fat : Fat} {d d' : Disk} {cs : List Nat} (h : IsChain fat d cs)
    (hs : ∀ i, i < cs.length → read_fat fat d' (cs.getD i 0) = read_fat fat d (cs.getD i 0)) :
    IsChain fat d' cs := by
  rw [isChain_iff]
  refine ⟨h.pos, h.valid, ?_, ?_⟩
  · intro i hi
    rw [hs i (by omega)]
    exact h.link i hi
  · rw [hs _ (by have := h.pos; omega)]
    exact h.last

/-- Linking a new last cluster to a chain. -/
theorem IsChain.snoc {fat : Fat} {d d' : Disk} {cs : List Nat} (h : IsChain fat d cs) (c : Nat)
    (hc : ValidClus fat c)
    (hs : ∀ i, i + 1 < cs.length → read_fat fat d' (cs.getD i 0) = read_fat fat d (cs.getD i 0))
    (hl : read_fat fat d' (cs.getD (cs.length - 1) 0) = c)
    (he : FAT32_EOC ≤ read_fat fat d' c) : IsChain fat d' (cs ++ [c]) := by
  have hp := h.pos
  rw [isChain_iff]
  refine ⟨by simp, ?_, ?_, ?_⟩
  · intro i hi
    simp only [List.length_append, List.length_singleton] at hi
    by_cases hi' : i < cs.length
    · rw [List.getD_append _ _ _ _ hi']
      exact h.valid i hi'
    · have e : i = cs.length := by omega
      rw [e, List.getD_append_right _ _ _ _ (Nat.le_refl _)]
      simpa using hc
  · intro i hi
    simp only [List.length_append, List.length_singleton] at hi
    rw [List.getD_append _ _ _ _ (by omega)]
    by_cases hi' : i + 1 < cs.length
    · rw [List.getD_append _ _ _ _ hi', hs i hi']
      exact h.link i hi'
    · have e : i = cs.length - 1 := by omega
      have e2 : i + 1 = cs.length := by omega
      rw [e2, List.getD_append_right _ _ _ _ (Nat.le_refl _), e, hl]
      simp
  · simp only [List.length_append, List.length_singleton, Nat.add_sub_cancel]
    rw [List.getD_append_right _ _ _ _ (Nat.le_refl _)]
    simpa using he

/-! ## `reloc_clus` -/

theorem toInt32_of_lt (x : Nat) (h : x < 2147483648) : toInt32 x = (x : Int) := by
  unfold toInt32 U32
  rw [Nat.mod_eq_of_lt (by omega), if_pos h]

theorem reloc_fwd_walk (fat : Fat) (hv : VolOK fat) (d : Disk) (cs : List Nat)
    (h : IsChain fat d cs) (alloc : Bool) :
    ∀ (k : Nat) (e : Dirent), e.cur_clus = cs.getD e.clus_cnt 0 → e.clus_cnt + k < cs.length →
      reloc_fwd fat alloc k d e
        = some (d, { e with cur_clus := cs.getD (e.clus_cnt + k) 0, clus_cnt := e.clus_cnt + k },
                true) := by
  intro k
  induction k with
  | zero =>
    intro e hc _
    simp only [reloc_fwd, Nat.add_zero]
    rw [← hc]
  | succ k ih =>
    intro e hc hk
    have hl := h.link e.clus_cnt (by omega)
    have hval := h.valid (e.clus_cnt + 1) (by omega)
    have hd := hv.dcc
    rw [← hc] at hl
    have hsmall : ¬ toInt32 (read_fat fat d e.cur_clus) ≥ (FAT32_EOC : Int) := by
      rw [hl, toInt32_of_lt _ (by have := hval.2; unfold FAT32_EOC at hd; omega)]
      have := hval.2
      omega
    simp only [reloc_fwd, if_neg hsmall]
    rw [ih _ (by simpa using hl) (by simpa using (by omega : e.clus_cnt + 1 + k < cs.length))]
    simp only [Nat.add_assoc, Nat.add_comm 1 k]

theorem reloc_back_walk (fat : Fat) (hv : VolOK fat) (d : Disk) (cs : List Nat)
    (h : IsChain fat d cs) :
    ∀ (k : Nat) (e : Dirent), e.cur_clus = cs.getD e.clus_cnt 0 → e.clus_cnt + k < cs.length →
      reloc_back fat d k e
        = some { e with cur_clus := cs.getD (e.clus_cnt + k) 0, clus_cnt := e.clus_cnt + k } := by
  intro k
  induction k with
  | zero =>
    intro e hc _
    simp only [reloc_back, Nat.add_zero]
    rw [← hc]
  | succ k ih =>
    intro e hc hk
    have hl := h.link e.clus_cnt (by omega)
    have hval := h.valid (e.clus_cnt + 1) (by omega)
    have hd := hv.dcc
    rw [← hc] at hl
    have hsmall : ¬ read_fat fat d e.cur_clus ≥ FAT32_EOC := by
      rw [hl]; have := hval.2; omega
    simp only [reloc_back, if_neg hsmall]
    rw [ih _ (by simpa using hl) (by simpa using (by omega : e.clus_cnt + 1 + k < cs.length))]
    simp only [Nat.add_assoc, Nat.add_comm 1 k]

/-- `reloc_clus` to an offset the chain covers moves the cursor there and changes nothing else. -/
theorem reloc_clus_in (fat : Fat) (hv : VolOK fat) (d : Disk) (cs : List Nat)
    (h : IsChain fat d cs) (e : Dirent) (hc : Cursor e cs) (off : Nat) (alloc : Bool)
    (ht : off / fat.byts_per_clus < cs.length) :
    reloc_clus fat d e off alloc
      = some ⟨d, { e with cur_clus := cs.getD (off / fat.byts_per_clus) 0,
                          clus_cnt := off / fat.byts_per_clus },
              ((off % fat.byts_per_clus : Nat) : Int)⟩ := by
  obtain ⟨h1, h2, h3⟩ := hc
  unfold reloc_clus
  simp only
  generalize off / fat.byts_per_clus = t at ht ⊢
  by_cases hgt : e.clus_cnt < t
  · rw [reloc_fwd_walk fat hv d cs h alloc (t - e.clus_cnt) e h3 (by omega)]
    have e1 : e.clus_cnt + (t - e.clus_cnt) = t := by omega
    simp only [e1, Nat.lt_irrefl, if_false]
  · have e0 : t - e.clus_cnt = 0 := by omega
    rw [e0]
    simp only [reloc_fwd]
    by_cases hlt : t < e.clus_cnt
    · simp only [if_pos hlt]
      rw [reloc_back_walk fat hv d cs h t { e with cur_clus := e.first_clus, clus_cnt := 0 }
        (by simpa using h1) (by simpa using ht)]
      simp
    · have e2 : t = e.clus_cnt := by omega
      simp only [if_neg hlt]
      rw [e2, ← h3]

theorem cursor_moved {e : Dirent} {cs : List Nat} (hc : Cursor e cs) (t : Nat)
    (ht : t < cs.length) : Cursor { e with cur_clus := cs.getD t 0, clus_cnt := t } cs :=
  ⟨hc.1, ht, rfl⟩

theorem free_nodup (fat : Fat) (d : Disk) : (free_clusters fat d).Nodup := by
  unfold free_clusters
  exact (List.nodup_range' 2 fat.data_clus_cnt).filter _

theorem free_mem (fat : Fat) (d : Disk) (c : Nat) :
    c ∈ free_clusters fat d ↔ ValidClus fat c ∧ fat_ent fat d c = 0 := by
  unfold free_clusters ValidClus
  simp only [List.mem_filter, List.mem_range'_1, decide_eq_true_eq]
  constructor
  · rintro ⟨⟨a, b⟩, c⟩; exact ⟨⟨a, by omega⟩, c⟩
  · rintro ⟨⟨a, b⟩, c⟩; exact ⟨⟨a, by omega⟩, c⟩

theorem free_congr (fat : Fat) (d d' : Disk)
    (h : ∀ c, ValidClus fat c → (fat_ent fat d' c = 0 ↔ fat_ent fat d c = 0)) :
    free_clusters fat d' = free_clusters fat d := by
  unfold free_clusters
  apply List.filter_congr
  intro c hc
  have hr := List.mem_range'_1.mp hc
  have := h c ⟨by omega, by omega⟩
  simp only [decide_eq_decide]
  exact this

/-- A member of a chain is not a free cluster. -/
theorem IsChain.not_free {fat : Fat} (hv : VolOK fat) {d : Disk} {cs : List Nat}
    (h : IsChain fat d cs) (i : Nat) (hi : i < cs.length) : cs.getD i 0 ∉ free_clusters fat d := by
  intro hm
  rw [free_mem] at hm
  have := h.nonzero i hi
  rw [read_fat_eq fat hv d _ (h.valid i hi).2] at this
  exact this hm.2

/-- One turn of the first loop of `reloc_clus` at the end of the chain, with allocation: the
least free cluster is claimed and linked. -/
theorem reloc_fwd_alloc (fat : Fat) (hv : VolOK fat) (d : Disk) (cs : List Nat) (e : Dirent)
    (hf : FileOK fat d e cs) (hr : RsvdOK fat d) (hlast : e.clus_cnt + 1 = cs.length)
    (c0 : Nat) (rest : List Nat) (hfree : free_clusters fat d = c0 :: rest) (k : Nat) :
    reloc_fwd fat true (k + 1) d e
      = reloc_fwd fat true k (write_fat fat (alloc_store fat d c0) e.cur_clus c0).1
          { e with cur_clus := c0, clus_cnt := e.clus_cnt + 1 } := by
  have hl := hf.chain.last
  have e1 : cs.length - 1 = e.clus_cnt := by omega
  rw [e1, ← hf.cur.2.2] at hl
  have hend := hf.endv
  rw [e1, ← hf.cur.2.2] at hend
  have hbig : toInt32 (read_fat fat d e.cur_clus) ≥ (FAT32_EOC : Int) := by
    rw [toInt32_of_lt _ hend]; exact_mod_cast hl
  simp only [reloc_fwd, if_pos hbig, if_true, alloc_clus_eq fat hv d hr c0 rest hfree]

theorem grew_refl (fat : Fat) (d : Disk) (cs : List Nat) (hc : IsChain fat d cs)
    (he : read_fat fat d (cs.getD (cs.length - 1) 0) < 2147483648) (hr : RsvdOK fat d) :
    Grew fat d cs d 0 where
  enough := Nat.zero_le _
  rsvd := hr
  free := by simp
  chain := by simpa using hc
  endv := by simpa using he
  old := fun _ _ _ _ _ => rfl
  new := fun c hc => by simp at hc

/-- The store after one cluster has been claimed and linked to the end of the chain. -/
theorem Grew.one (fat : Fat) (hv : VolOK fat) (d : Disk) (cs : List Nat) (hc : IsChain fat d cs)
    (hr : RsvdOK fat d) (c0 : Nat) (rest : List Nat) (hfree : free_clusters fat d = c0 :: rest) :
    Grew fat d cs (write_fat fat (alloc_store fat d c0) (cs.getD (cs.length - 1) 0) c0).1 1 := by
  obtain ⟨hc0, hz, _, _⟩ := free_head fat d c0 rest hfree
  have hpos := hc.pos
  have hd := hv.dcc
  have hlastv := hc.valid (cs.length - 1) (by omega)
  have hc0free : c0 ∈ free_clusters fat d := by rw [hfree]; simp
  have hne : ∀ i, i < cs.length → cs.getD i 0 ≠ c0 := by
    intro i hi hEq
    exact hc.not_free hv i hi (hEq ▸ hc0free)
  have hc0lt : c0 < U32 := by have := hc0.2; unfold FAT32_EOC at hd; unfold U32; omega
  -- the table of the new store
  have hR : ∀ c, c ≠ cs.getD (cs.length - 1) 0 → c ≠ c0 →
      read_fat fat (write_fat fat (alloc_store fat d c0) (cs.getD (cs.length - 1) 0) c0).1 c
        = read_fat fat d c := by
    intro c h1 h2
    rw [read_fat_write_other fat hv _ _ c _ h1]
    exact (alloc_store_fat fat hv d c0 hc0).2 c h2
  have hRl : read_fat fat (write_fat fat (alloc_store fat d c0) (cs.getD (cs.length - 1) 0) c0).1
      (cs.getD (cs.length - 1) 0) = c0 :=
    read_fat_write_same fat hv _ _ _ hlastv.2 hc0lt
  have hRc : read_fat fat (write_fat fat (alloc_store fat d c0) (cs.getD (cs.length - 1) 0) c0).1 c0
      = FAT32_EOC + 7 := by
    rw [read_fat_write_other fat hv _ _ c0 _ (fun e => hne _ (by omega) e.symm)]
    exact (alloc_store_fat fat hv d c0 hc0).1
  have hE : ∀ c, c ≤ fat.data_clus_cnt + 1 →
      fat_ent fat (write_fat fat (alloc_store fat d c0) (cs.getD (cs.length - 1) 0) c0).1 c
        = read_fat fat (write_fat fat (alloc_store fat d c0) (cs.getD (cs.length - 1) 0) c0).1 c :=
    fun c h => (read_fat_eq fat hv _ c h).symm
  have htake : (free_clusters fat d).take 1 = [c0] := by rw [hfree]; simp
  refine ⟨by rw [hfree]; simp, ?_, ?_, ?_, ?_, ?_, ?_⟩
  · constructor
    · rw [hE 0 (by omega), hR 0 (by have := hlastv.1; omega) (by have := hc0.1; omega),
        read_fat_eq fat hv d 0 (by omega)]
      exact hr.1
    · rw [hE 1 (by omega), hR 1 (by have := hlastv.1; omega) (by have := hc0.1; omega),
        read_fat_eq fat hv d 1 (by omega)]
      exact hr.2
  · have h1 : free_clusters fat (write_fat fat (alloc_store fat d c0)
        (cs.getD (cs.length - 1) 0) c0).1 = free_clusters fat (alloc_store fat d c0) := by
      apply free_congr
      intro c hcv
      by_cases hcl : c = cs.getD (cs.length - 1) 0
      · subst hcl
        rw [hE _ hcv.2, hRl, ← read_fat_eq fat hv _ _ hcv.2,
          (alloc_store_fat fat hv d c0 hc0).2 _ (hne _ (by omega))]
        have := hc.nonzero (cs.length - 1) (by omega)
        have := hc0.1
        constructor <;> intro h <;> omega
      · rw [hE _ hcv.2, read_fat_write_other fat hv _ _ c _ hcl, read_fat_eq fat hv _ _ hcv.2]
    rw [h1, alloc_store_free fat hv d c0 rest hfree, hfree]
    simp
  · rw [htake]
    apply hc.snoc c0 hc0
    · intro i hi
      exact hR _ (hc.ne hv i (cs.length - 1) (by omega) (by omega) (by omega)) (hne i (by omega))
    · exact hRl
    · rw [hRc]; omega
  · rw [htake, Nat.add_sub_cancel, List.getD_append_right _ _ _ _ (Nat.le_refl _)]
    simp only [Nat.sub_self, List.getD_cons_zero]
    rw [hRc]; unfold FAT32_EOC; omega
  · intro c hcv hnot p hp
    rw [htake] at hnot
    rw [write_fat_cbyte fat hv _ _ _ c p hcv]
    exact (alloc_store_cbyte fat hv d c0 hc0 p hp).2 c hcv (by simpa using hnot)
  · intro c hin p hp
    rw [htake] at hin
    have : c = c0 := by simpa using hin
    subst this
    rw [write_fat_cbyte fat hv _ _ _ c p hc0]
    exact (alloc_store_cbyte fat hv d c hc0 p hp).1

/-- Growing a grown chain. -/
theorem grew_trans (fat : Fat) (d d1 d2 : Disk) (cs : List Nat) (a b : Nat)
    (h1 : Grew fat d cs d1 a) (h2 : Grew fat d1 (cs ++ (free_clusters fat d).take a) d2 b) :
    Grew fat d cs d2 (a + b) := by
  have hl : (free_clusters fat d).take (a + b)
      = (free_clusters fat d).take a ++ (free_clusters fat d1).take b := by
    rw [List.take_add, h1.free]
  have hlen : ((free_clusters fat d).take a).length = a := by
    rw [List.length_take]; exact Nat.min_eq_left h1.enough
  have hdis : ∀ c, c ∈ (free_clusters fat d).take a → c ∉ (free_clusters fat d1).take b := by
    intro c hc hc'
    rw [h1.free] at hc'
    exact List.disjoint_take_drop (free_nodup fat d) (Nat.le_refl a) hc (List.mem_of_mem_take hc')
  refine ⟨?_, h2.rsvd, ?_, ?_, ?_, ?_, ?_⟩
  · have := h2.enough
    rw [h1.free, List.length_drop] at this
    have := h1.enough
    omega
  · rw [h2.free, h1.free, List.drop_drop]
  · rw [hl, ← List.append_assoc]; exact h2.chain
  · have := h2.endv
    rw [hl, ← List.append_assoc]
    rw [List.length_append, hlen] at this
    rw [← Nat.add_assoc]; exact this
  · intro c hcv hnot p hp
    rw [hl, List.mem_append, not_or] at hnot
    rw [h2.old c hcv hnot.2 p hp]
    exact h1.old c hcv hnot.1 p hp
  · intro c hin p hp
    rw [hl, List.mem_append] at hin
    rcases hin with hin | hin
    · have hcv : ValidClus fat c := ((free_mem fat d c).mp (List.mem_of_mem_take hin)).1
      rw [h2.old c hcv (hdis c hin) p hp]
      exact h1.new c hin p hp
    · exact h2.new c hin p hp

theorem reloc_fwd_step (fat : Fat) (hv : VolOK fat) (d : Disk) (cs : List Nat)
    (h : IsChain fat d cs) (alloc : Bool) (k : Nat) (e : Dirent)
    (hc : e.cur_clus = cs.getD e.clus_cnt 0) (hk : e.clus_cnt + 1 < cs.length) :
    reloc_fwd fat alloc (k + 1) d e
      = reloc_fwd fat alloc k d
          { e with cur_clus := cs.getD (e.clus_cnt + 1) 0, clus_cnt := e.clus_cnt + 1 } := by
  have hl := h.link e.clus_cnt hk
  have hval := h.valid (e.clus_cnt + 1) hk
  have hd := hv.dcc
  rw [← hc] at hl
  have hsmall : ¬ toInt32 (read_fat fat d e.cur_clus) ≥ (FAT32_EOC : Int) := by
    rw [hl, toInt32_of_lt _ (by have := hval.2; unfold FAT32_EOC at hd; omega)]
    have := hval.2
    omega
  simp only [reloc_fwd]
  rw [if_neg hsmall, hl]

/-- The first loop of `reloc_clus` with allocation: it walks to the end of the chain and grows
it by as many free clusters as the target needs. -/
theorem reloc_fwd_grow (fat : Fat) (hv : VolOK fat) :
    ∀ (k : Nat) (d : Disk) (cs : List Nat) (e : Dirent), FileOK fat d e cs → RsvdOK fat d →
      e.clus_cnt + k + 1 - cs.length ≤ (free_clusters fat d).length →
      ∃ d', reloc_fwd fat true k d e
          = some (d', { e with
              cur_clus := (cs ++ (free_clusters fat d).take (e.clus_cnt + k + 1 - cs.length)).getD
                            (e.clus_cnt + k) 0,
              clus_cnt := e.clus_cnt + k }, true)
        ∧ Grew fat d cs d' (e.clus_cnt + k + 1 - cs.length) := by
  intro k
  induction k with
  | zero =>
    intro d cs e hf hr _
    have hlt := hf.cur.2.1
    have e0 : e.clus_cnt + 0 + 1 - cs.length = 0 := by omega
    refine ⟨d, ?_, ?_⟩
    · simp only [reloc_fwd, Nat.add_zero, e0, List.take_zero, List.append_nil]
      rw [← hf.cur.2.2]
    · rw [e0]; exact grew_refl fat d cs hf.chain hf.endv hr
  | succ k ih =>
    intro d cs e hf hr hen
    by_cases hw : e.clus_cnt + 1 < cs.length
    · rw [reloc_fwd_step fat hv d cs hf.chain true k e hf.cur.2.2 hw]
      have hf' : FileOK fat d
          { e with cur_clus := cs.getD (e.clus_cnt + 1) 0, clus_cnt := e.clus_cnt + 1 } cs :=
        ⟨hf.chain, hf.endv, cursor_moved hf.cur _ hw⟩
      obtain ⟨d', h1, h2⟩ := ih d cs _ hf' hr (by simp only; omega)
      simp only at h1 h2
      have ea : e.clus_cnt + 1 + k + 1 - cs.length = e.clus_cnt + (k + 1) + 1 - cs.length := by
        omega
      have eb : e.clus_cnt + 1 + k = e.clus_cnt + (k + 1) := by omega
      rw [ea, eb] at h1
      rw [ea] at h2
      exact ⟨d', h1, h2⟩
    · have hlt := hf.cur.2.1
      have hlast : e.clus_cnt + 1 = cs.length := by omega
      have ha : e.clus_cnt + (k + 1) + 1 - cs.length = 1 + k := by omega
      rw [ha] at hen ⊢
      obtain ⟨c0, rest, hfree⟩ : ∃ c0 rest, free_clusters fat d = c0 :: rest := by
        cases hfl : free_clusters fat d with
        | nil => rw [hfl] at hen; simp at hen
        | cons c0 rest => exact ⟨c0, rest, rfl⟩
      rw [reloc_fwd_alloc fat hv d cs e hf hr hlast c0 rest hfree k]
      have hcur : e.cur_clus = cs.getD (cs.length - 1) 0 := by
        rw [hf.cur.2.2]; congr 1; omega
      rw [hcur]
      have hg1 := Grew.one fat hv d cs hf.chain hr c0 rest hfree
      have htake : (free_clusters fat d).take 1 = [c0] := by rw [hfree]; simp
      have hpos := hf.chain.pos
      have hf2 : FileOK fat (write_fat fat (alloc_store fat d c0) (cs.getD (cs.length - 1) 0) c0).1
          { e with cur_clus := c0, clus_cnt := e.clus_cnt + 1 }
          (cs ++ (free_clusters fat d).take 1) := by
        refine ⟨hg1.chain, ?_, ?_, ?_, ?_⟩
        · have := hg1.endv
          rw [htake] at this ⊢
          simpa using this
        · simp only
          rw [List.getD_append _ _ _ _ hpos]; exact hf.cur.1
        · simp only [List.length_append, htake, List.length_singleton]; omega
        · simp only
          rw [htake, hlast, List.getD_append_right _ _ _ _ (Nat.le_refl _)]
          simp
      obtain ⟨d', h1, h2⟩ := ih _ _ _ hf2 hg1.rsvd (by
        simp only [List.length_append, htake, List.length_singleton]
        rw [hg1.free, hfree]
        rw [hfree] at hen
        simp only [List.drop_succ_cons, List.drop_zero, List.length_cons] at hen ⊢
        omega)
      simp only [List.length_append, htake, List.length_singleton] at h1 h2
      have ek : e.clus_cnt + 1 + k + 1 - (cs.length + 1) = k := by omega
      rw [ek] at h1 h2
      have hG := grew_trans fat d _ d' cs 1 k hg1 (by rw [htake]; exact h2)
      refine ⟨d', ?_, hG⟩
      rw [h1]
      have el : cs ++ [c0] ++ (free_clusters fat
          (write_fat fat (alloc_store fat d c0) (cs.getD (cs.length - 1) 0) c0).1).take k
          = cs ++ (free_clusters fat d).take (1 + k) := by
        rw [List.take_add, htake, hg1.free, List.append_assoc]
      rw [el]
      simp only [Nat.add_assoc, Nat.add_comm 1 k]

/-- `reloc_clus` with allocation: the chain is grown as far as the offset needs and the cursor
is moved to the cluster of the offset. -/
theorem reloc_clus_grow (fat : Fat) (hv : VolOK fat) (d : Disk) (cs : List Nat) (e : Dirent)
    (hf : FileOK fat d e cs) (hr : RsvdOK fat d) (off : Nat)
    (hen : off / fat.byts_per_clus + 1 - cs.length ≤ (free_clusters fat d).length) :
    ∃ d', reloc_clus fat d e off true
        = some ⟨d', { e with
              cur_clus := (cs ++ (free_clusters fat d).take
                            (off / fat.byts_per_clus + 1 - cs.length)).getD
                            (off / fat.byts_per_clus) 0,
              clus_cnt := off / fat.byts_per_clus },
            ((off % fat.byts_per_clus : Nat) : Int)⟩
      ∧ Grew fat d cs d' (off / fat.byts_per_clus + 1 - cs.length) := by
  by_cases ht : off / fat.byts_per_clus < cs.length
  · have e0 : off / fat.byts_per_clus + 1 - cs.length = 0 := by omega
    rw [e0]
    refine ⟨d, ?_, grew_refl fat d cs hf.chain hf.endv hr⟩
    rw [reloc_clus_in fat hv d cs hf.chain e hf.cur off true ht]
    simp
  · have hlt := hf.cur.2.1
    unfold reloc_clus
    simp only
    generalize off / fat.byts_per_clus = t at ht hen ⊢
    obtain ⟨d', h1, h2⟩ := reloc_fwd_grow fat hv (t - e.clus_cnt) d cs e hf hr (by
      have : e.clus_cnt + (t - e.clus_cnt) + 1 - cs.length = t + 1 - cs.length := by omega
      rw [this]; exact hen)
    have e1 : e.clus_cnt + (t - e.clus_cnt) = t := by omega
    rw [e1] at h1 h2
    refine ⟨d', ?_, h2⟩
    rw [h1]
    simp

/-! ## Reading a file -/

theorem bpc_pos (fat : Fat) (hv : VolOK fat) : 0 < fat.byts_per_clus := by
  rw [hv.bpc]; exact Nat.mul_pos hv.spc hv.bpos

theorem sameFile_refl (e : Dirent) : SameFile e e := rfl

theorem sameFile_trans {e1 e2 e3 : Dirent} (h1 : SameFile e1 e2) (h2 : SameFile e2 e3) :
    SameFile e1 e3 := by
  unfold SameFile at *
  rw [h2, h1]

theorem sameFile_moved (e : Dirent) (c k : Nat) :
    SameFile e { e with cur_clus := c, clus_cnt := k } := rfl

/-- The bytes of a chunk that lies in one cluster are bytes of the file. -/
theorem chunk_fbyte (fat : Fat) (hv : VolOK fat) (d : Disk) (cs : List Nat) (off m : Nat)
    (hm : m ≤ fat.byts_per_clus - off % fat.byts_per_clus) :
    (List.range m).map (fun q => cbyte fat d (cs.getD (off / fat.byts_per_clus) 0)
        (off % fat.byts_per_clus + q))
      = (List.range m).map (fun q => fbyte fat d cs (off + q)) := by
  apply List.map_congr_left
  intro q hq
  have hq' : q < m := List.mem_range.mp hq
  obtain ⟨a, b⟩ := pos_in_sec fat.byts_per_clus off q (bpc_pos fat hv) (by omega)
  unfold fbyte
  rw [a, b]

theorem eread_loop_ok (fat : Fat) (hv : VolOK fat) (d : Disk) (cs : List Nat)
    (hc : IsChain fat d cs) (cp : Copy) (hbad : ∀ a m, cp.bad a m = false) (n : Nat)
    (hn : n < U32) :
    ∀ (fuel : Nat) (e : Dirent) (out : List Nat) (off tot : Nat), Cursor e cs →
      n - tot ≤ fuel → tot ≤ n → off + (n - tot) < U32 →
      (tot < n → (off + (n - tot) - 1) / fat.byts_per_clus < cs.length) →
      ∃ e', eread_loop fat cp n fuel d e out off tot
          = some (d, e', out ++ (List.range (n - tot)).map (fun q => fbyte fat d cs (off + q)), n)
        ∧ Cursor e' cs ∧ SameFile e e' := by
  have hbp := bpc_pos fat hv
  have hd := hv.dcc
  intro fuel
  induction fuel with
  | zero =>
    intro e out off tot hcur hf ht _ _
    have e0 : n - tot = 0 := by omega
    have e1 : tot = n := by omega
    refine ⟨e, ?_, hcur, sameFile_refl e⟩
    simp [eread_loop, e0, e1]
  | succ k ih =>
    intro e out off tot hcur hf ht hwr hcov
    by_cases hlt : tot < n
    · have hcl : e.cur_clus < FAT32_EOC := by
        rw [hcur.2.2]
        have := (hc.valid e.clus_cnt hcur.2.1).2
        omega
      have hcov' := hcov hlt
      have htl : off / fat.byts_per_clus < cs.length := by
        have : off / fat.byts_per_clus ≤ (off + (n - tot) - 1) / fat.byts_per_clus :=
          Nat.div_le_div_right (by omega)
        omega
      have hmod : off % fat.byts_per_clus < fat.byts_per_clus := Nat.mod_lt _ hbp
      simp only [eread_loop, if_pos (And.intro hcl hlt),
        reloc_clus_in fat hv d cs hc e hcur off false htl]
      generalize hmdef : (if n - tot < fat.byts_per_clus - off % fat.byts_per_clus then n - tot
        else fat.byts_per_clus - off % fat.byts_per_clus) = m
      have hm1 : m ≤ fat.byts_per_clus - off % fat.byts_per_clus := by
        rw [← hmdef]; split <;> omega
      have hm2 : m ≤ n - tot := by rw [← hmdef]; split <;> omega
      have hm3 : 0 < m := by rw [← hmdef]; split <;> omega
      rw [rw_clus_read fat hv d _ (hc.valid _ htl) cp hbad tot (off % fat.byts_per_clus) m
        (by omega)]
      simp only [ne_eq, not_true_eq_false, if_false]
      have e1 : (tot + m) % U32 = tot + m := Nat.mod_eq_of_lt (by omega)
      have e2 : (off + m) % U32 = off + m := Nat.mod_eq_of_lt (by omega)
      rw [e1, e2]
      obtain ⟨e', h1, h2, h3⟩ := ih { e with cur_clus := cs.getD (off / fat.byts_per_clus) 0,
                                              clus_cnt := off / fat.byts_per_clus }
        (out ++ (List.range m).map (fun q => cbyte fat d (cs.getD (off / fat.byts_per_clus) 0)
          (off % fat.byts_per_clus + q))) (off + m) (tot + m) (cursor_moved hcur _ htl)
        (by omega) (by omega) (by omega) (by
          intro _
          have : off + m + (n - (tot + m)) - 1 = off + (n - tot) - 1 := by omega
          rw [this]; exact hcov')
      refine ⟨e', ?_, h2, sameFile_trans (sameFile_moved e _ _) h3⟩
      rw [h1, chunk_fbyte fat hv d cs off m hm1]
      have hsplit : n - tot = m + (n - (tot + m)) := by omega
      have hB : (List.range (n - (tot + m))).map (fun q => fbyte fat d cs (off + m + q))
          = ((List.range (n - (tot + m))).map (fun x => m + x)).map
              (fun q => fbyte fat d cs (off + q)) := by
        rw [List.map_map]
        apply List.map_congr_left
        intro q _
        simp only [Function.comp, Nat.add_assoc]
      rw [hB, List.append_assoc, ← List.map_append, ← List.range_add, ← hsplit]
    · have e1 : tot = n := by omega
      subst e1
      refine ⟨e, ?_, hcur, sameFile_refl e⟩
      simp [eread_loop]

theorem pos_clus_lt (fat : Fat) (len p : Nat)
    (hp : p < len * fat.byts_per_clus) : p / fat.byts_per_clus < len := by
  rw [Nat.mul_comm] at hp
  exact Nat.div_lt_of_lt_mul hp

/-- `eread` on a regular file whose chain covers the bytes read: it returns the count clamped to
the end of the file (as an `int`) and copies out the bytes of the file. -/
theorem eread_ok (fat : Fat) (hv : VolOK fat) (d : Disk) (e : Dirent) (cs : List Nat)
    (cp : Copy) (hbad : ∀ a m, cp.bad a m = false) (off n : Nat) (hoff : off < U32)
    (hn : n < U32) (hle : off ≤ e.file_size) (hov : off + n < U32)
    (hreg : e.attr &&& ATTR_DIRECTORY = 0)
    (hfile : min n (e.file_size - off) = 0
      ∨ (IsChain fat d cs ∧ Cursor e cs
          ∧ (off + min n (e.file_size - off) - 1) / fat.byts_per_clus < cs.length)) :
    ∃ e', eread fat d e cp off n
        = some ⟨d, e', (List.range (min n (e.file_size - off))).map
                        (fun q => fbyte fat d cs (off + q)),
                toInt32 (min n (e.file_size - off))⟩
      ∧ SameFile e e' := by
  have hg : ¬ (off > e.file_size ∨ (off + n) % U32 < off ∨ e.attr &&& ATTR_DIRECTORY ≠ 0) := by
    rw [Nat.mod_eq_of_lt hov]
    simp only [hreg, ne_eq, not_true_eq_false, or_false]
    omega
  have hn1 : (if (off + n) % U32 > e.file_size then e.file_size - off else n)
      = min n (e.file_size - off) := by
    rw [Nat.mod_eq_of_lt hov]
    split <;> omega
  unfold eread
  rw [if_neg hg]
  simp only [hn1]
  generalize hm : min n (e.file_size - off) = n1 at hfile ⊢
  have hn1lt : n1 < U32 := by omega
  rcases hfile with h0 | ⟨hc, hcur, hcov⟩
  · subst h0
    refine ⟨e, ?_, sameFile_refl e⟩
    simp [eread_loop]
  · obtain ⟨e', h1, _, h3⟩ := eread_loop_ok fat hv d cs hc cp hbad n1 hn1lt n1 e [] off 0 hcur
      (by omega) (by omega) (by omega) (by
        intro _
        rw [Nat.sub_zero]
        exact hcov)
    refine ⟨e', ?_, h3⟩
    rw [h1]
    simp

/-- `eread` returns 0 and copies nothing when its guard rejects the call. -/
theorem eread_reject (fat : Fat) (d : Disk) (e : Dirent) (cp : Copy) (off n : Nat)
    (h : off > e.file_size ∨ (off + n) % U32 < off ∨ e.attr &&& ATTR_DIRECTORY ≠ 0) :
    eread fat d e cp off n = some ⟨d, e, [], 0⟩ := by
  unfold eread
  rw [if_pos h]

/-! ## Writing a chunk of a file -/

theorem fatSame_rsvd (fat : Fat) (hv : VolOK fat) (d d' : Disk) (h : FatSame fat d d')
    (hr : RsvdOK fat d) : RsvdOK fat d' := by
  have := hv.dcc
  unfold RsvdOK
  rw [fat_ent_same fat d d' h 0 (slot_sec_lt fat hv 0 (by omega)),
    fat_ent_same fat d d' h 1 (slot_sec_lt fat hv 1 (by omega))]
  exact hr

theorem fatSame_free (fat : Fat) (hv : VolOK fat) (d d' : Disk) (h : FatSame fat d d') :
    free_clusters fat d' = free_clusters fat d := by
  apply free_congr
  intro c hc
  rw [fat_ent_same fat d d' h c (slot_sec_lt fat hv c hc.2)]

theorem fatSame_chain (fat : Fat) (hv : VolOK fat) (d d' : Disk) (h : FatSame fat d d')
    (cs : List Nat) (hc : IsChain fat d cs) : IsChain fat d' cs :=
  hc.congr (fun _ _ => read_fat_same fat hv d d' h _)

theorem Grew.len {fat : Fat} {d d' : Disk} {cs : List Nat} {a : Nat} (h : Grew fat d cs d' a) :
    (cs ++ (free_clusters fat d).take a).length = cs.length + a := by
  rw [List.length_append, List.length_take, Nat.min_eq_left h.enough]

/-- A member of the chain before it was grown is not one of the new clusters. -/
theorem Grew.old_mem {fat : Fat} (hv : VolOK fat) {d : Disk} {cs : List Nat} {a : Nat}
    (hc : IsChain fat d cs) (i : Nat) (hi : i < cs.length) :
    cs.getD i 0 ∉ (free_clusters fat d).take a :=
  fun hm => hc.not_free hv i hi (List.mem_of_mem_take hm)

/-- `reloc_clus(entry, pos, 1)` followed by `rw_clus(entry->cur_clus, 1, ..., pos % byts_per_clus, m)`
for a chunk that lies in one cluster: the chain is grown as far as needed, the chunk holds the
bytes written, and the rest of the file is as it was. -/
theorem put_chunk (fat : Fat) (hv : VolOK fat) (d : Disk) (cs : List Nat) (e : Dirent)
    (hf : FileOK fat d e cs) (hr : RsvdOK fat d) (cp : Copy) (hbad : ∀ a m, cp.bad a m = false)
    (data pos m : Nat) (hm : m ≤ fat.byts_per_clus - pos % fat.byts_per_clus)
    (hen : pos / fat.byts_per_clus + 1 - cs.length ≤ (free_clusters fat d).length) :
    ∃ d1 d2 e1,
      reloc_clus fat d e pos true = some ⟨d1, e1, ((pos % fat.byts_per_clus : Nat) : Int)⟩
      ∧ rw_clus fat d1 e1.cur_clus true cp data (pos % fat.byts_per_clus) m = some ⟨d2, [], m⟩
      ∧ SameFile e e1
      ∧ e1.clus_cnt = pos / fat.byts_per_clus
      ∧ FileOK fat d2 e1 (cs ++ (free_clusters fat d).take (pos / fat.byts_per_clus + 1 - cs.length))
      ∧ RsvdOK fat d2
      ∧ free_clusters fat d2
          = (free_clusters fat d).drop (pos / fat.byts_per_clus + 1 - cs.length)
      ∧ (∀ q, q < m →
          fbyte fat d2 (cs ++ (free_clusters fat d).take (pos / fat.byts_per_clus + 1 - cs.length))
            (pos + q) = cp.src (data + q))
      ∧ (∀ p, p / fat.byts_per_clus < cs.length → (p < pos ∨ pos + m ≤ p) →
          fbyte fat d2 (cs ++ (free_clusters fat d).take (pos / fat.byts_per_clus + 1 - cs.length)) p
            = fbyte fat d cs p)
      ∧ (∀ p, cs.length ≤ p / fat.byts_per_clus →
          p / fat.byts_per_clus < cs.length + (pos / fat.byts_per_clus + 1 - cs.length) →
          (p < pos ∨ pos + m ≤ p) →
          fbyte fat d2 (cs ++ (free_clusters fat d).take (pos / fat.byts_per_clus + 1 - cs.length)) p
            = 0) := by
  have hbp := bpc_pos fat hv
  obtain ⟨d1, hrel, hG⟩ := reloc_clus_grow fat hv d cs e hf hr pos hen
  have hlen := hG.len
  have hGchain := hG.chain
  have hGendv := hG.endv
  have hGold := hG.old
  have hGnew := hG.new
  have hGrsvd := hG.rsvd
  have hGfree := hG.free
  clear hG
  have hpos := hf.chain.pos
  generalize ht : pos / fat.byts_per_clus = t at *
  generalize ha : t + 1 - cs.length = a at *
  generalize hcs1 : cs ++ (free_clusters fat d).take a = cs1 at *
  have htl : t < cs1.length := by omega
  have hct := hGchain.valid t htl
  have hmod : pos % fat.byts_per_clus < fat.byts_per_clus := Nat.mod_lt _ hbp
  obtain ⟨d2, hrw, hW⟩ := rw_clus_write fat hv d1 (cs1.getD t 0) hct cp hbad data
    (pos % fat.byts_per_clus) m (by omega)
  have hFS : FatSame fat d1 d2 :=
    Wrote.fatSame fat hv _ _ _ hct _ d1 d2 hW (by omega)
  have hold : ∀ i, i < cs.length → cs1.getD i 0 = cs.getD i 0 := by
    intro i hi; rw [← hcs1, List.getD_append _ _ _ _ hi]
  have hnew : ∀ i, cs.length ≤ i → i < cs.length + a →
      cs1.getD i 0 ∈ (free_clusters fat d).take a := by
    intro i h1 h2
    rw [← hcs1, List.getD_append_right _ _ _ _ h1, List.getD_eq_getElem _ _ (by
      rw [← hcs1, List.length_append] at hlen; omega)]
    exact List.getElem_mem _
  -- position of a byte of the file in its cluster
  have hsplit : ∀ p, p / fat.byts_per_clus = t →
      ((p < pos ∨ pos + m ≤ p) ↔
        (p % fat.byts_per_clus < pos % fat.byts_per_clus
          ∨ pos % fat.byts_per_clus + m ≤ p % fat.byts_per_clus)) := by
    intro p hp
    have e1 := Nat.div_add_mod p fat.byts_per_clus
    have e2 := Nat.div_add_mod pos fat.byts_per_clus
    rw [hp] at e1; rw [ht] at e2
    generalize fat.byts_per_clus * t = x at e1 e2
    omega
  have hbyte : ∀ p, p / fat.byts_per_clus < cs1.length → (p < pos ∨ pos + m ≤ p) →
      fbyte fat d2 cs1 p = cbyte fat d1 (cs1.getD (p / fat.byts_per_clus) 0)
        (p % fat.byts_per_clus) := by
    intro p hp hout
    unfold fbyte
    by_cases hi : p / fat.byts_per_clus = t
    · rw [hi]
      exact Wrote.same_clus fat _ _ _ _ d1 d2 hW _ ((hsplit p hi).mp hout)
    · exact Wrote.other_clus fat hv _ _ _ hct _ d1 d2 hW (by omega) _ _
        (hGchain.valid _ hp) (hGchain.ne hv _ _ hp htl hi) (Nat.mod_lt _ hbp)
  refine ⟨d1, d2, _, hrel, hrw, sameFile_moved e _ _, rfl, ?_, ?_, ?_, ?_, ?_, ?_⟩
  · refine ⟨fatSame_chain fat hv d1 d2 hFS cs1 hGchain, ?_, ?_, htl, rfl⟩
    · rw [read_fat_same fat hv d1 d2 hFS]
      have := hGendv
      rw [hlen]; exact this
    · show e.first_clus = cs1.getD 0 0
      rw [hold 0 hpos]
      exact hf.cur.1
  · exact fatSame_rsvd fat hv d1 d2 hFS hGrsvd
  · rw [fatSame_free fat hv d1 d2 hFS]; exact hGfree
  · intro q hq
    obtain ⟨a', b'⟩ := pos_in_sec fat.byts_per_clus pos q hbp (by omega)
    unfold fbyte
    rw [a', b', ht]
    have := Wrote.inside fat _ _ _ _ d1 d2 hW (pos % fat.byts_per_clus + q) (by omega) (by omega)
    rw [this]
    congr 2; omega
  · intro p hp hout
    rw [hbyte p (by omega) hout, hold _ hp]
    unfold fbyte
    exact hGold _ (hf.chain.valid _ hp) (Grew.old_mem hv hf.chain _ hp) _ (Nat.mod_lt _ hbp)
  · intro p hp1 hp2 hout
    rw [hbyte p (by omega) hout]
    exact hGnew _ (hnew _ hp1 hp2) _ (Nat.mod_lt _ hbp)

/-! ## Writing a file -/

theorem ewrite_loop_ok (fat : Fat) (hv : VolOK fat) (cp : Copy)
    (hbad : ∀ a m, cp.bad a m = false) (n : Nat) (hn : n < U32) :
    ∀ (fuel : Nat) (d : Disk) (cs : List Nat) (e : Dirent) (off tot : Nat),
      FileOK fat d e cs → RsvdOK fat d → n - tot ≤ fuel → tot ≤ n → off + (n - tot) < U32 →
      (tot < n →
        (off + (n - tot) - 1) / fat.byts_per_clus + 1 - cs.length
          ≤ (free_clusters fat d).length) →
      ∃ d' e' a, ewrite_loop fat cp n fuel d e off tot = some (d', e', off + (n - tot), n)
        ∧ FileOK fat d' e' (cs ++ (free_clusters fat d).take a) ∧ RsvdOK fat d'
        ∧ SameFile e e' ∧ a ≤ (free_clusters fat d).length
        ∧ free_clusters fat d' = (free_clusters fat d).drop a
        ∧ (tot < n → (off + (n - tot) - 1) / fat.byts_per_clus < cs.length + a)
        ∧ (∀ q, q < n - tot →
            fbyte fat d' (cs ++ (free_clusters fat d).take a) (off + q) = cp.src (tot + q))
        ∧ (∀ p, p / fat.byts_per_clus < cs.length → (p < off ∨ off + (n - tot) ≤ p) →
            fbyte fat d' (cs ++ (free_clusters fat d).take a) p = fbyte fat d cs p) := by
  have hbp := bpc_pos fat hv
  intro fuel
  induction fuel with
  | zero =>
    intro d cs e off tot hf hr hfu ht _ _
    have e1 : tot = n := by omega
    subst e1
    refine ⟨d, e, 0, by simp [ewrite_loop], by simpa using hf, hr, sameFile_refl e,
      Nat.zero_le _, by simp, by omega, by intro q hq; omega, ?_⟩
    intro p _ _; simp
  | succ k ih =>
    intro d cs e off tot hf hr hfu ht hwr hen
    by_cases hlt : tot < n
    · have hen' := hen hlt
      have hmod : off % fat.byts_per_clus < fat.byts_per_clus := Nat.mod_lt _ hbp
      have htle : off / fat.byts_per_clus ≤ (off + (n - tot) - 1) / fat.byts_per_clus :=
        Nat.div_le_div_right (by omega)
      simp only [ewrite_loop, if_pos hlt]
      generalize hmdef : (if n - tot < fat.byts_per_clus - off % fat.byts_per_clus then n - tot
        else fat.byts_per_clus - off % fat.byts_per_clus) = m
      have hm1 : m ≤ fat.byts_per_clus - off % fat.byts_per_clus := by
        rw [← hmdef]; split <;> omega
      have hm2 : m ≤ n - tot := by rw [← hmdef]; split <;> omega
      have hm3 : 0 < m := by rw [← hmdef]; split <;> omega
      obtain ⟨d1, d2, e1, hrel, hrw, hsf, _, hf2, hr2, hfree2, hcont, hfold, _⟩ :=
        put_chunk fat hv d cs e hf hr cp hbad tot off m hm1 (by omega)
      generalize ha1 : off / fat.byts_per_clus + 1 - cs.length = a1 at *
      have ha1le : a1 ≤ (free_clusters fat d).length := by omega
      have hlen1 : (cs ++ (free_clusters fat d).take a1).length = cs.length + a1 := by
        rw [List.length_append, List.length_take, Nat.min_eq_left ha1le]
      rw [hrel]
      simp only
      rw [hrw]
      simp only [ne_eq, not_true_eq_false, if_false]
      have e1' : (tot + m) % U32 = tot + m := Nat.mod_eq_of_lt (by omega)
      have e2' : (off + m) % U32 = off + m := Nat.mod_eq_of_lt (by omega)
      rw [e1', e2']
      have hX : off + m + (n - (tot + m)) - 1 = off + (n - tot) - 1 := by omega
      obtain ⟨d', e', a2, h1, h2, h3, h4, h5, h6, h7, h8, h9⟩ :=
        ih d2 _ e1 (off + m) (tot + m) hf2 hr2 (by omega) (by omega) (by omega) (by
          intro _
          rw [hX, hlen1, hfree2, List.length_drop]
          omega)
      have hl : (free_clusters fat d).take (a1 + a2)
          = (free_clusters fat d).take a1 ++ (free_clusters fat d2).take a2 := by
        rw [List.take_add, hfree2]
      have hl' : cs ++ (free_clusters fat d).take (a1 + a2)
          = cs ++ (free_clusters fat d).take a1 ++ (free_clusters fat d2).take a2 := by
        rw [hl, List.append_assoc]
      rw [hfree2, List.length_drop] at h5
      refine ⟨d', e', a1 + a2, ?_, ?_, h3, sameFile_trans hsf h4, by omega, ?_, ?_, ?_, ?_⟩
      · rw [h1]
        have : off + m + (n - (tot + m)) = off + (n - tot) := by omega
        rw [this]
      · rw [hl']; exact h2
      · rw [h6, hfree2, List.drop_drop]
      · intro _
        by_cases hmore : tot + m < n
        · have := h7 hmore
          rw [hX, hlen1] at this
          omega
        · obtain ⟨a', _⟩ := pos_in_sec fat.byts_per_clus off (m - 1) hbp (by omega)
          have eX : off + (n - tot) - 1 = off + (m - 1) := by omega
          rw [eX, a']
          omega
      · intro q hq
        rw [hl']
        by_cases hqm : q < m
        · obtain ⟨a', _⟩ := pos_in_sec fat.byts_per_clus off q hbp (by omega)
          rw [h9 (off + q) (by rw [a', hlen1]; omega) (by omega)]
          exact hcont q hqm
        · have := h8 (q - m) (by omega)
          have ea : off + m + (q - m) = off + q := by omega
          have eb : tot + m + (q - m) = tot + q := by omega
          rw [ea, eb] at this
          exact this
      · intro p hp hout
        rw [hl', h9 p (by rw [hlen1]; omega) (by omega)]
        exact hfold p hp (by omega)
    · have e1 : tot = n := by omega
      subst e1
      refine ⟨d, e, 0, by simp [ewrite_loop], by simpa using hf, hr, sameFile_refl e,
        Nat.zero_le _, by simp, by omega, by intro q hq; omega, ?_⟩
      intro p _ _; simp

theorem SameFile.attr {e e' : Dirent} (h : SameFile e e') : e'.attr = e.attr := by
  unfold SameFile at h; rw [h]

theorem SameFile.file_size {e e' : Dirent} (h : SameFile e e') : e'.file_size = e.file_size := by
  unfold SameFile at h; rw [h]

theorem SameFile.first_clus {e e' : Dirent} (h : SameFile e e') :
    e'.first_clus = e.first_clus := by
  unfold SameFile at h; rw [h]

theorem toInt32_nonneg (n : Nat) (hn : n < U32) (h : 0 ≤ toInt32 n) : n < 2147483648 := by
  unfold toInt32 at h
  rw [Nat.mod_eq_of_lt hn] at h
  unfold U32 at hn
  split at h
  · assumption
  · omega

/-- C10 (as the code has it): `eread` returns 0 and copies nothing when the entry is a directory,
when `off > file_size`, or when `off + n` overflows 32 bits; otherwise, for a regular file whose
well-formed chain covers `file_size` and with no copy fault, the `int` it returns is the count
`min(n, file_size - off)` read as a 32-bit two's-complement number: the count itself when that is
below 2^31 (so a read at `off == file_size` returns 0), and the bytes copied out are those of the
file from `off` on. -/
theorem eread_return_value (fat : Fat) (hv : VolOK fat) (d : Disk) (e : Dirent) (cs : List Nat)
    (cp : Copy) (hbad : ∀ a m, cp.bad a m = false) (off n : Nat) (hoff : off < U32)
    (hn : n < U32)
    (hfile : e.file_size = 0
      ∨ (IsChain fat d cs ∧ Cursor e cs ∧ e.file_size ≤ cs.length * fat.byts_per_clus)) :
    ((e.attr &&& ATTR_DIRECTORY ≠ 0 ∨ off > e.file_size ∨ U32 ≤ off + n) →
        eread fat d e cp off n = some ⟨d, e, [], 0⟩)
    ∧ (¬ (e.attr &&& ATTR_DIRECTORY ≠ 0 ∨ off > e.file_size ∨ U32 ≤ off + n) →
        ∃ r, eread fat d e cp off n = some r ∧ r.disk = d
          ∧ r.ret = toInt32 (min n (e.file_size - off))
          ∧ (min n (e.file_size - off) < 2147483648 →
              r.ret = ((min n (e.file_size - off) : Nat) : Int))
          ∧ r.out = (List.range (min n (e.file_size - off))).map
                      (fun q => fbyte fat d cs (off + q))) := by
  constructor
  · intro h
    apply eread_reject
    rcases h with h | h | h
    · exact Or.inr (Or.inr h)
    · exact Or.inl h
    · right; left
      unfold U32 at *
      omega
  · intro h
    simp only [not_or, not_not, not_lt, not_le] at h
    obtain ⟨h1, h2, h3⟩ := h
    obtain ⟨e', hr, _⟩ := eread_ok fat hv d e cs cp hbad off n hoff hn (by omega) h3 h1 (by
      rcases hfile with h0 | ⟨hc, hcur, hcov⟩
      · left; omega
      · rcases Nat.eq_zero_or_pos (min n (e.file_size - off)) with hz | hp
        · left; exact hz
        · right
          refine ⟨hc, hcur, ?_⟩
          apply pos_clus_lt fat
          omega)
    refine ⟨_, hr, rfl, rfl, ?_, rfl⟩
    intro hlt
    exact toInt32_of_lt _ hlt

/-! ## Concrete volumes -/

theorem byte_of_sum (v : Nat) :
    byte_of v 0 % 256 + 256 * (byte_of v 1 % 256) + 65536 * (byte_of v 2 % 256)
      + 16777216 * (byte_of v 3 % 256) = v % U32 := by
  simp [byte_of, U32]; omega

/-- Slot `c` of the table of `mk_disk fat v dat` holds `v c`. -/
theorem mk_disk_ent (fat : Fat) (hB : 0 < fat.BSIZE) (h4 : fat.BSIZE % 4 = 0) (v : Nat → Nat)
    (dat : Disk) (c : Nat) (hc : c / (fat.BSIZE / 4) < fat.fat_sz) :
    fat_ent fat (mk_disk fat v dat) c = v c % U32 := by
  have he : 0 < fat.BSIZE / 4 := by omega
  have hm := Nat.mod_lt c he
  have hdm := Nat.div_add_mod c (fat.BSIZE / 4)
  unfold fat_ent
  generalize c / (fat.BSIZE / 4) = q at hc hdm ⊢
  generalize c % (fat.BSIZE / 4) = r at hm hdm ⊢
  have hbyte : ∀ k, k < 4 →
      mk_disk fat v dat (fat.rsvd_sec_cnt + q) (4 * r + k) = byte_of (v c) k := by
    intro k hk
    unfold mk_disk
    rw [if_pos ⟨by omega, by omega, by omega⟩]
    have e1 : fat.rsvd_sec_cnt + q - fat.rsvd_sec_cnt = q := by omega
    have e2 : (4 * r + k) / 4 = r := by omega
    have e3 : (4 * r + k) % 4 = k := by omega
    rw [e1, e2, e3, Nat.mul_comm, hdm]
  unfold get32
  have h0 := hbyte 0 (by omega)
  rw [Nat.add_zero] at h0
  rw [h0, hbyte 1 (by omega), hbyte 2 (by omega), hbyte 3 (by omega)]
  exact byte_of_sum (v c)

theorem demo_volOK : VolOK demo_fat :=
  ⟨rfl, by decide, by decide, by decide, by decide, by decide, by decide, by decide, by decide,
    by decide⟩

theorem big_volOK : VolOK big_fat :=
  ⟨rfl, by decide, by decide, by decide, by decide, by decide, by decide, by decide, by decide,
    by decide⟩

theorem demo_ent (c : Nat) (hc : c < 128) :
    fat_ent demo_fat demo_disk c = if c ≤ 2 then 0x0fffffff else 0 := by
  unfold demo_disk
  rw [mk_disk_ent demo_fat (by decide) (by decide) _ _ c (by
    show c / (512 / 4) < 1
    omega)]
  unfold U32
  split <;> rfl

theorem demo_rsvd : RsvdOK demo_fat demo_disk := by
  constructor
  · rw [demo_ent 0 (by omega)]; decide
  · rw [demo_ent 1 (by omega)]; decide

theorem demo_file_ent (c : Nat) (hc : c < 128) :
    fat_ent demo_fat demo_disk_file c = if c ≤ 3 then 0x0fffffff else 0 := by
  unfold demo_disk_file
  rw [mk_disk_ent demo_fat (by decide) (by decide) _ _ c (by
    show c / (512 / 4) < 1
    omega)]
  unfold U32
  split <;> rfl

theorem demo_file_chain : IsChain demo_fat demo_disk_file [3] := by
  refine ⟨⟨by decide, by decide⟩, ?_⟩
  rw [read_fat_eq demo_fat demo_volOK _ 3 (by decide), demo_file_ent 3 (by omega)]
  decide

theorem big_ent (c : Nat) (hc : c ≤ 32769) :
    fat_ent big_fat big_disk c = if 2 ≤ c ∧ c < 32769 then c + 1 else 0x0fffffff := by
  unfold big_disk
  rw [mk_disk_ent big_fat (by decide) (by decide) _ _ c (by
    show c / (512 / 4) < 257
    omega)]
  unfold U32
  split <;> omega

theorem big_chain_get (i : Nat) (hi : i < 32768) : big_chain.getD i 0 = 2 + i := by
  unfold big_chain
  rw [List.getD_eq_getElem _ _ (by simpa using hi), List.getElem_range']
  omega

theorem big_is_chain : IsChain big_fat big_disk big_chain := by
  have hlen : big_chain.length = 32768 := by unfold big_chain; simp
  rw [isChain_iff]
  refine ⟨by rw [hlen]; omega, ?_, ?_, ?_⟩
  · intro i hi
    rw [hlen] at hi
    rw [big_chain_get i hi]
    exact ⟨by omega, by show 2 + i ≤ 32768 + 1; omega⟩
  · intro i hi
    rw [hlen] at hi
    rw [big_chain_get i (by omega), big_chain_get (i + 1) hi,
      read_fat_eq big_fat big_volOK _ _ (by show 2 + i ≤ 32768 + 1; omega),
      big_ent _ (by omega), if_pos (by omega)]
    omega
  · rw [hlen, big_chain_get _ (by omega),
      read_fat_eq big_fat big_volOK _ _ (by show 2 + (32768 - 1) ≤ 32768 + 1; omega),
      big_ent _ (by omega), if_neg (by omega)]
    decide

theorem eread_return_value_witness :
    VolOK demo_fat ∧ IsChain demo_fat demo_disk_file [3] ∧ Cursor demo_file13 [3]
    ∧ demo_file13.file_size ≤ [3].length * demo_fat.byts_per_clus
    ∧ ((demo_file13.attr &&& ATTR_DIRECTORY ≠ 0 ∨ 5 > demo_file13.file_size ∨ U32 ≤ 5 + 100) →
        eread demo_fat demo_disk_file demo_file13 (Copy.kernel (fun _ => 0)) 5 100
          = some ⟨demo_disk_file, demo_file13, [], 0⟩)
    ∧ (¬ (demo_file13.attr &&& ATTR_DIRECTORY ≠ 0 ∨ 5 > demo_file13.file_size ∨ U32 ≤ 5 + 100) →
        ∃ r, eread demo_fat demo_disk_file demo_file13 (Copy.kernel (fun _ => 0)) 5 100 = some r
          ∧ r.disk = demo_disk_file
          ∧ r.ret = toInt32 (min 100 (demo_file13.file_size - 5))
          ∧ (min 100 (demo_file13.file_size - 5) < 2147483648 →
              r.ret = ((min 100 (demo_file13.file_size - 5) : Nat) : Int))
          ∧ r.out = (List.range (min 100 (demo_file13.file_size - 5))).map
                      (fun q => fbyte demo_fat demo_disk_file [3] (5 + q))) :=
  ⟨demo_volOK, demo_file_chain, ⟨rfl, by decide, rfl⟩, by decide,
    eread_return_value demo_fat demo_volOK demo_disk_file demo_file13 [3]
      (Copy.kernel (fun _ => 0)) (fun _ _ => rfl) 5 100 (by decide) (by decide)
      (Or.inr ⟨demo_file_chain, ⟨rfl, by decide, rfl⟩, by decide⟩)⟩

/-- C10 fails as stated for a count of 2^31 or more: on the large volume, reading the whole
2 GiB file (`off = 0`, `n = 2^31`, a regular file whose well-formed chain covers `file_size`),
`eread` returns -2147483648, not `min(n, file_size - off) = 2147483648`. -/
theorem eread_return_counterexample :
    VolOK big_fat ∧ big_file.attr &&& ATTR_DIRECTORY = 0 ∧ IsChain big_fat big_disk big_chain
    ∧ Cursor big_file big_chain
    ∧ big_file.file_size ≤ big_chain.length * big_fat.byts_per_clus
    ∧ (eread big_fat big_disk big_file (Copy.kernel (fun _ => 0)) 0 2147483648).map (fun r => r.ret)
        = some (-2147483648)
    ∧ ((min 2147483648 (big_file.file_size - 0) : Nat) : Int) ≠ -2147483648 := by
  have hcur : Cursor big_file big_chain :=
    ⟨by rw [big_chain_get 0 (by omega)]; rfl, by unfold big_chain; simp; decide,
      by rw [show big_file.clus_cnt = 0 from rfl, big_chain_get 0 (by omega)]; rfl⟩
  have hcov : big_file.file_size ≤ big_chain.length * big_fat.byts_per_clus := by
    have : big_chain.length = 32768 := by unfold big_chain; simp
    rw [this]; decide
  refine ⟨big_volOK, by decide, big_is_chain, hcur, hcov, ?_, by decide⟩
  obtain ⟨r, h1, _, h2, _⟩ := (eread_return_value big_fat big_volOK big_disk big_file big_chain
    (Copy.kernel (fun _ => 0)) (fun _ _ => rfl) 0 2147483648 (by decide) (by decide)
    (Or.inr ⟨big_is_chain, hcur, hcov⟩)).2 (by decide)
  rw [h1]
  simp only [Option.map_some']
  rw [h2]
  decide

/-! ## `etrunc` -/

theorem etrunc_loop_stop (fat : Fat) (fuel : Nat) (d : Disk) (clus : Nat)
    (h : ¬ (clus ≥ 2 ∧ clus < FAT32_EOC)) : etrunc_loop fat fuel d clus = some d := by
  cases fuel with
  | zero => simp only [etrunc_loop, if_neg h]
  | succ k => simp only [etrunc_loop, if_neg h]

theorem isChain_tail (fat : Fat) (d : Disk) (c c' : Nat) (rest : List Nat)
    (h : IsChain fat d (c :: c' :: rest)) : IsChain fat d (c' :: rest) := h.2.2

theorem isChain_head_notin (fat : Fat) (hv : VolOK fat) (d : Disk) (c : Nat) (t : List Nat)
    (h : IsChain fat d (c :: t)) : c ∉ t := by
  intro hm
  obtain ⟨i, hi, he⟩ := List.getElem_of_mem hm
  have := h.ne hv 0 (i + 1) (by simp) (by simpa using hi) (by omega)
  rw [List.getD_cons_zero, List.getD_cons_succ, List.getD_eq_getElem _ _ hi, he] at this
  exact this rfl

theorem etrunc_loop_ok (fat : Fat) (hv : VolOK fat) :
    ∀ (cs : List Nat) (d : Disk) (fuel : Nat), IsChain fat d cs → cs.length ≤ fuel →
      ∃ d', etrunc_loop fat fuel d (cs.getD 0 0) = some d'
        ∧ (∀ c, c ∈ cs → read_fat fat d' c = 0)
        ∧ (∀ c, c ∉ cs → read_fat fat d' c = read_fat fat d c) := by
  have hd := hv.dcc
  intro cs
  induction cs with
  | nil => intro d fuel h _; exact absurd h (by simp [IsChain])
  | cons c t ih =>
    intro d fuel h hfuel
    have hcv : ValidClus fat c := by simpa using h.valid 0 (by simp)
    have hcond : c ≥ 2 ∧ c < FAT32_EOC := ⟨hcv.1, by have := hcv.2; omega⟩
    obtain ⟨k, hk⟩ : ∃ k, fuel = k + 1 := ⟨fuel - 1, by simp at hfuel; omega⟩
    subst hk
    simp only [List.getD_cons_zero, etrunc_loop, if_pos hcond]
    have hz : read_fat fat (free_clus fat d c) c = 0 :=
      read_fat_write_same fat hv d c 0 hcv.2 (by unfold U32; omega)
    have ho : ∀ x, x ≠ c → read_fat fat (free_clus fat d c) x = read_fat fat d x :=
      fun x hx => read_fat_write_other fat hv d c x 0 hx
    cases t with
    | nil =>
      have hl : FAT32_EOC ≤ read_fat fat d c := h.2
      rw [etrunc_loop_stop fat k _ _ (by omega)]
      refine ⟨_, rfl, ?_, ?_⟩
      · intro x hx
        have : x = c := by simpa using hx
        rw [this]; exact hz
      · intro x hx
        exact ho x (by simpa using hx)
    | cons c' rest =>
      have hlink : read_fat fat d c = c' := h.2.1
      have hnot := isChain_head_notin fat hv d c (c' :: rest) h
      have ht : IsChain fat (free_clus fat d c) (c' :: rest) := by
        apply (isChain_tail fat d c c' rest h).congr
        intro i hi
        apply ho
        intro he
        apply hnot
        rw [← he, List.getD_eq_getElem _ _ hi]
        exact List.getElem_mem _
      obtain ⟨d', h1, h2, h3⟩ := ih (free_clus fat d c) k ht (by simp at hfuel ⊢; omega)
      rw [hlink]
      rw [List.getD_cons_zero] at h1
      refine ⟨d', h1, ?_, ?_⟩
      · intro x hx
        rcases List.mem_cons.mp hx with hx | hx
        · rw [hx, h3 c hnot]; exact hz
        · exact h2 x hx
      · intro x hx
        have hx' : x ≠ c ∧ x ∉ c' :: rest := by
          constructor
          · intro e; apply hx; rw [e]; simp
          · intro e; apply hx; exact List.mem_cons_of_mem _ e
        rw [h3 x hx'.2]
        exact ho x hx'.1

/-- C6: `etrunc` frees the whole chain.  For every entry whose chain from `first_clus` is well
formed (data clusters only, ended by an end-of-chain value, hence acyclic), `etrunc` returns,
afterwards `read_fat` gives 0 for every cluster that was on the chain, the FAT entry of every
other cluster is as it was, and `file_size == 0`, `first_clus == 0`, `dirty == 1`. -/
theorem etrunc_frees_chain (fat : Fat) (hv : VolOK fat) (d : Disk) (e : Dirent) (cs : List Nat)
    (hc : IsChain fat d cs) (hfirst : e.first_clus = cs.getD 0 0) (fuel : Nat)
    (hfuel : cs.length ≤ fuel) :
    ∃ d', etrunc fat fuel d e
        = some (d', { e with file_size := 0, first_clus := 0, dirty := 1 })
      ∧ (∀ c, c ∈ cs → read_fat fat d' c = 0)
      ∧ (∀ c, c ∉ cs → read_fat fat d' c = read_fat fat d c) := by
  obtain ⟨d', h1, h2, h3⟩ := etrunc_loop_ok fat hv cs d fuel hc hfuel
  refine ⟨d', ?_, h2, h3⟩
  unfold etrunc
  rw [hfirst, h1]

theorem etrunc_frees_chain_witness :
    VolOK demo_fat ∧ IsChain demo_fat demo_disk_file [3]
    ∧ demo_file13.first_clus = [3].getD 0 0 ∧ [3].length ≤ 4
    ∧ ∃ d', etrunc demo_fat 4 demo_disk_file demo_file13
        = some (d', { demo_file13 with file_size := 0, first_clus := 0, dirty := 1 })
      ∧ (∀ c, c ∈ [3] → read_fat demo_fat d' c = 0)
      ∧ (∀ c, c ∉ [3] → read_fat demo_fat d' c = read_fat demo_fat demo_disk_file c) :=
  ⟨demo_volOK, demo_file_chain, rfl, by decide,
    etrunc_frees_chain demo_fat demo_volOK demo_disk_file demo_file13 [3] demo_file_chain rfl 4
      (by decide)⟩

/-! ## Writing directory records -/

theorem ofInt32_natCast (x : Nat) (h : x < U32) : ofInt32 ((x : Nat) : Int) = x := by
  unfold ofInt32
  unfold U32 at h
  omega

/-- A 32-byte record at a 32-byte-aligned position lies in one cluster. -/
theorem rec_in_clus (bpc pos : Nat) (hb : 0 < bpc) (h32 : bpc % 32 = 0) (hp : pos % 32 = 0) :
    32 ≤ bpc - pos % bpc := by
  have h1 : pos % bpc < bpc := Nat.mod_lt _ hb
  have h2 : pos % bpc % 32 = 0 := by
    rw [Nat.mod_mod_of_dvd _ (Nat.dvd_of_mod_eq_zero h32)]; exact hp
  omega

/-- One record written by `emake`: the chain of the directory is grown as far as needed, the
record is in place, and the rest of the directory is as it was. -/
theorem emake_put_ok (fat : Fat) (hv : VolOK fat) (h32 : fat.byts_per_clus % 32 = 0) (d : Disk)
    (cs : List Nat) (dp : Dirent) (hf : FileOK fat d dp cs) (hr : RsvdOK fat d) (pos : Nat)
    (de : List Nat) (hp : pos % 32 = 0)
    (hen : pos / fat.byts_per_clus + 1 - cs.length ≤ (free_clusters fat d).length) :
    ∃ d2 e1, emake_put fat d dp pos de = some (d2, e1)
      ∧ SameFile dp e1
      ∧ FileOK fat d2 e1 (cs ++ (free_clusters fat d).take (pos / fat.byts_per_clus + 1 - cs.length))
      ∧ RsvdOK fat d2
      ∧ free_clusters fat d2
          = (free_clusters fat d).drop (pos / fat.byts_per_clus + 1 - cs.length)
      ∧ (∀ b, b < 32 →
          fbyte fat d2 (cs ++ (free_clusters fat d).take (pos / fat.byts_per_clus + 1 - cs.length))
            (pos + b) = de.getD b 0)
      ∧ (∀ p, p / fat.byts_per_clus < cs.length → (p < pos ∨ pos + 32 ≤ p) →
          fbyte fat d2 (cs ++ (free_clusters fat d).take (pos / fat.byts_per_clus + 1 - cs.length)) p
            = fbyte fat d cs p)
      ∧ (∀ p, cs.length ≤ p / fat.byts_per_clus →
          p / fat.byts_per_clus < cs.length + (pos / fat.byts_per_clus + 1 - cs.length) →
          (p < pos ∨ pos + 32 ≤ p) →
          fbyte fat d2 (cs ++ (free_clusters fat d).take (pos / fat.byts_per_clus + 1 - cs.length)) p
            = 0) := by
  have hbp := bpc_pos fat hv
  obtain ⟨d1, d2, e1, hrel, hrw, hsf, _, hf2, hr2, hfree2, hcont, hold, hnew⟩ :=
    put_chunk fat hv d cs dp hf hr (Copy.kernel (fun i => de.getD i 0)) (fun _ _ => rfl) 0 pos 32
      (rec_in_clus _ _ hbp h32 hp) hen
  refine ⟨d2, e1, ?_, hsf, hf2, hr2, hfree2, ?_, hold, hnew⟩
  · unfold emake_put
    rw [hrel]
    simp only
    rw [ofInt32_natCast _ (by have := Nat.mod_lt pos hbp; have := hv.bpclt; omega), hrw]
  · intro b hb
    have := hcont b hb
    simpa [Copy.kernel] using this

theorem rec_same_clus (bpc pos b : Nat) (hb : 0 < bpc) (h32 : bpc % 32 = 0) (hp : pos % 32 = 0)
    (hlt : b < 32) : (pos + b) / bpc = pos / bpc := by
  have := rec_in_clus bpc pos hb h32 hp
  exact (pos_in_sec bpc pos b hb (by omega)).1

/-- The loop of `emake` over the long-name entries: record number `j` of the run holds the
entry built in turn `i - j`. -/
theorem emake_lnes_ok (fat : Fat) (hv : VolOK fat) (h32 : fat.byts_per_clus % 32 = 0)
    (fname : List Nat) (entcnt cks : Nat) :
    ∀ (i : Nat) (d : Disk) (cs : List Nat) (dp : Dirent) (off : Nat),
      FileOK fat d dp cs → RsvdOK fat d → off % 32 = 0 → off + 32 * i < U32 →
      (off + 32 * i) / fat.byts_per_clus + 1 - cs.length ≤ (free_clusters fat d).length →
      ∃ d' dp' a, emake_lnes fat fname entcnt cks i d dp off = some (d', dp', off + 32 * i)
        ∧ FileOK fat d' dp' (cs ++ (free_clusters fat d).take a) ∧ RsvdOK fat d'
        ∧ SameFile dp dp' ∧ a ≤ (free_clusters fat d).length
        ∧ a ≤ (off + 32 * i) / fat.byts_per_clus + 1 - cs.length
        ∧ (∀ j, j < i → (off + 32 * j) / fat.byts_per_clus < cs.length + a)
        ∧ free_clusters fat d' = (free_clusters fat d).drop a
        ∧ (∀ j, j < i → ∀ b, b < 32 →
            fbyte fat d' (cs ++ (free_clusters fat d).take a) (off + 32 * j + b)
              = (lne_bytes fname entcnt cks (i - j)).getD b 0)
        ∧ (∀ p, p / fat.byts_per_clus < cs.length → (p < off ∨ off + 32 * i ≤ p) →
            fbyte fat d' (cs ++ (free_clusters fat d).take a) p = fbyte fat d cs p)
        ∧ (∀ p, cs.length ≤ p / fat.byts_per_clus → p / fat.byts_per_clus < cs.length + a →
            (p < off ∨ off + 32 * i ≤ p) →
            fbyte fat d' (cs ++ (free_clusters fat d).take a) p = 0) := by
  have hbp := bpc_pos fat hv
  intro i
  induction i with
  | zero =>
    intro d cs dp off hf hr _ _ _
    refine ⟨d, dp, 0, by simp [emake_lnes], by simpa using hf, hr, sameFile_refl dp,
      Nat.zero_le _, Nat.zero_le _, by intro j hj; omega, by simp, by intro j hj; omega, ?_,
      by intro p h1 h2; omega⟩
    intro p _ _; simp
  | succ i ih =>
    intro d cs dp off hf hr hp hwr hen
    have htle : off / fat.byts_per_clus ≤ (off + 32 * (i + 1)) / fat.byts_per_clus :=
      Nat.div_le_div_right (by omega)
    obtain ⟨d1, dp1, hput, hsf1, hf1, hr1, hfree1, hcont1, hold1, hnew1⟩ :=
      emake_put_ok fat hv h32 d cs dp hf hr off (lne_bytes fname entcnt cks (i + 1)) hp
        (by omega)
    generalize ha1 : off / fat.byts_per_clus + 1 - cs.length = a1 at *
    have ha1le : a1 ≤ (free_clusters fat d).length := by omega
    have hlen1 : (cs ++ (free_clusters fat d).take a1).length = cs.length + a1 := by
      rw [List.length_append, List.length_take, Nat.min_eq_left ha1le]
    have e2 : (off + 32) % U32 = off + 32 := Nat.mod_eq_of_lt (by omega)
    have hX : off + 32 + 32 * i = off + 32 * (i + 1) := by omega
    obtain ⟨d', dp', a2, h1, h2, h3, h4, h5, h5a, h5b, h6, h7, h8, h9⟩ :=
      ih d1 _ dp1 (off + 32) hf1 hr1 (by omega) (by omega) (by
        rw [hX, hlen1, hfree1, List.length_drop]
        omega)
    rw [hX, hlen1] at h5a
    rw [hlen1] at h5b h9
    have hl' : cs ++ (free_clusters fat d).take (a1 + a2)
        = cs ++ (free_clusters fat d).take a1 ++ (free_clusters fat d1).take a2 := by
      rw [List.take_add, hfree1, List.append_assoc]
    rw [hfree1, List.length_drop] at h5
    refine ⟨d', dp', a1 + a2, ?_, ?_, h3, sameFile_trans hsf1 h4, by omega, by omega, ?_, ?_,
      ?_, ?_, ?_⟩
    · simp only [emake_lnes, hput, e2, h1, hX]
    · rw [hl']; exact h2
    · intro j hj
      cases j with
      | zero => rw [Nat.mul_zero, Nat.add_zero]; omega
      | succ j =>
        have := h5b j (by omega)
        have ea : off + 32 + 32 * j = off + 32 * (j + 1) := by omega
        rw [ea] at this
        omega
    · rw [h6, hfree1, List.drop_drop]
    · intro j hj b hb
      rw [hl']
      cases j with
      | zero =>
        rw [Nat.mul_zero, Nat.add_zero,
          h8 (off + b) (by
            rw [rec_same_clus _ _ _ hbp h32 hp hb, hlen1]; omega) (by omega)]
        exact hcont1 b hb
      | succ j =>
        have := h7 j (by omega) b hb
        have ea : off + 32 + 32 * j + b = off + 32 * (j + 1) + b := by omega
        have eb : i - j = i + 1 - (j + 1) := by omega
        rw [ea, eb] at this
        exact this
    · intro p hpl hout
      rw [hl', h8 p (by rw [hlen1]; omega) (by omega)]
      exact hold1 p hpl (by omega)
    · intro p hlo hhi hout
      rw [hl']
      rcases Nat.lt_or_ge (p / fat.byts_per_clus) (cs.length + a1) with hlt | hge
      · rw [h8 p (by rw [hlen1]; exact hlt) (by omega)]
        exact hnew1 p hlo hlt (by omega)
      · exact h9 p hge (by omega) (by omega)

/-! ## Character arrays -/

theorem buf_store_length (buf : List Nat) (idx : Int) (bytes : List Nat) :
    (buf_store buf idx bytes).length = buf.length := by
  unfold buf_store; simp

theorem buf_store_getD (buf : List Nat) (i : Nat) (bytes : List Nat) (k : Nat)
    (hk : k < buf.length) :
    (buf_store buf (i : Int) bytes).getD k 0
      = if i ≤ k ∧ k < i + bytes.length then bytes.getD (k - i) 0 else buf.getD k 0 := by
  unfold buf_store
  rw [List.getD_eq_getElem _ _ (by simpa using hk)]
  simp only [List.getElem_map, List.getElem_range]
  by_cases h : i ≤ k ∧ k < i + bytes.length
  · rw [if_pos h, if_pos (by omega)]
    congr 1
    omega
  · rw [if_neg h, if_neg (by omega)]

theorem getD_replicate_lt (n a k : Nat) (h : k < n) : (List.replicate n a).getD k 0 = a := by
  simp [List.getD_eq_getElem?_getD, List.getElem?_replicate, h]

/-- The loop of `generate_shortname` leaves no 0 byte before index `i`. -/
theorem gsn_loop_nonzero (name : List Nat) :
    ∀ (fuel i pos : Nat) (p : Option Nat) (out : List Nat), out.length = 12 →
      (∀ k, k < i → out.getD k 0 ≠ 0) →
      (generate_shortname_loop name fuel i pos p out).2.length = 12
        ∧ ∀ k, k < (generate_shortname_loop name fuel i pos p out).1 →
            (generate_shortname_loop name fuel i pos p out).2.getD k 0 ≠ 0 := by
  intro fuel
  induction fuel with
  | zero => intro i pos p out hl h; exact ⟨hl, h⟩
  | succ f ih =>
    intro i pos p out hl h
    unfold generate_shortname_loop
    split
    · rename_i hi
      simp only
      split
      · exact ⟨hl, h⟩
      · rename_i hc0
        split
        · split
          · exact ⟨hl, h⟩
          · exact ih _ _ _ _ hl h
        · split
          · exact ih _ _ _ _ hl h
          · split
            · split
              · apply ih
                · rw [buf_store_length]; exact hl
                · intro k hk
                  rw [buf_store_getD _ _ _ _ (by omega)]
                  split
                  · rename_i hr
                    simp only [List.length_replicate] at hr
                    rw [getD_replicate_lt _ _ _ (by omega)]
                    decide
                  · rename_i hr
                    simp only [List.length_replicate] at hr
                    exact h k (by omega)
              · exact ih _ _ _ _ hl h
            · have hc1 : (if 0x61 ≤ name.getD pos 0 ∧ name.getD pos 0 ≤ 0x7a
                  then name.getD pos 0 - 0x20
                  else if name.getD pos 0 ∈ [0x2b, 0x2c, 0x3b, 0x3d, 0x5b, 0x5d] then 0x5f
                  else name.getD pos 0) ≠ 0 := by
                split
                · omega
                · split
                  · decide
                  · exact hc0
              generalize (if 0x61 ≤ name.getD pos 0 ∧ name.getD pos 0 ≤ 0x7a
                  then name.getD pos 0 - 0x20
                  else if name.getD pos 0 ∈ [0x2b, 0x2c, 0x3b, 0x3d, 0x5b, 0x5d] then 0x5f
                  else name.getD pos 0) = c1 at hc1
              apply ih
              · rw [buf_store_length]; exact hl
              · intro k hk
                unfold CHAR_SHORT_NAME at hi
                rw [buf_store_getD _ _ _ _ (by omega)]
                split
                · rename_i hr
                  have hr' : i ≤ k ∧ k < i + 1 := hr
                  have e : k - i = 0 := by omega
                  rw [e, List.getD_cons_zero]
                  exact hc1
                · rename_i hr
                  have hr' : ¬ (i ≤ k ∧ k < i + 1) := hr
                  exact h k (by omega)
    · exact ⟨hl, h⟩

theorem gsn_pad (r : Nat × List Nat) (h1 : r.2.length = 12)
    (h2 : ∀ k, k < r.1 → r.2.getD k 0 ≠ 0) :
    (buf_store r.2 r.1 (List.replicate (CHAR_SHORT_NAME - r.1) 0x20)).length = 12
      ∧ ∀ k, k < 11 →
          (buf_store r.2 r.1 (List.replicate (CHAR_SHORT_NAME - r.1) 0x20)).getD k 0 ≠ 0 := by
  constructor
  · rw [buf_store_length]; exact h1
  · intro k hk
    rw [buf_store_getD _ _ _ _ (by omega)]
    split
    · rename_i hr
      simp only [List.length_replicate, CHAR_SHORT_NAME] at hr
      rw [getD_replicate_lt _ _ _ (by simp only [CHAR_SHORT_NAME]; omega)]
      decide
    · rename_i hr
      simp only [List.length_replicate, CHAR_SHORT_NAME] at hr
      exact h2 k (by omega)

/-- The 11 bytes `generate_shortname` produces are all assigned a non-zero byte. -/
theorem gsn_nonzero (name : List Nat) :
    (generate_shortname name).length = 12
      ∧ ∀ k, k < 11 → (generate_shortname name).getD k 0 ≠ 0 := by
  unfold generate_shortname
  exact gsn_pad _ (gsn_loop_nonzero _ _ _ _ _ _ (by simp) (by intro k hk; omega)).1
    (gsn_loop_nonzero _ _ _ _ _ _ (by simp) (by intro k hk; omega)).2

theorem takeWhile_take (l : List Nat) :
    ∀ (n : Nat), (∀ k, k < n → l.getD k 0 ≠ 0) → n ≤ l.length →
      (l.takeWhile (fun c => c ≠ 0)).take n = l.take n := by
  induction l with
  | nil => intro n _ _; simp
  | cons a t ih =>
    intro n h hn
    cases n with
    | zero => simp
    | succ m =>
      have h0 : a ≠ 0 := by simpa using h 0 (by omega)
      rw [List.takeWhile_cons_of_pos (by simpa using h0), List.take_succ_cons, List.take_succ_cons,
        ih m (fun k hk => by simpa using h (k + 1) (by omega)) (by simpa using hn)]

/-- The short name copied into the record is the 11 bytes `generate_shortname` has produced. -/
theorem strncpy_gsn (name : List Nat) :
    strncpy (generate_shortname name) CHAR_SHORT_NAME = (generate_shortname name).take 11 := by
  obtain ⟨h1, h2⟩ := gsn_nonzero name
  unfold strncpy cstr CHAR_SHORT_NAME
  rw [takeWhile_take _ 11 h2 (by omega)]
  simp [h1]

theorem cal_checksum_congr (a b : List Nat) (h : ∀ k, k < 11 → a.getD k 0 = b.getD k 0) :
    cal_checksum a = cal_checksum b := by
  unfold cal_checksum
  apply List.foldl_ext
  intro sum k hk
  rw [h k (by simpa [CHAR_SHORT_NAME] using hk)]

theorem cal_checksum_take (a : List Nat) : cal_checksum (a.take 11) = cal_checksum a := by
  apply cal_checksum_congr
  intro k hk
  simp only [List.getD_eq_getElem?_getD, List.getElem?_take, if_pos hk]

/-! ## The records of `emake` -/

theorem lne_chars_length (fname : List Nat) :
    ∀ (k p : Nat) (e : Bool), (lne_chars fname k p e).length = 2 * k := by
  intro k
  induction k with
  | zero => intro p e; simp [lne_chars]
  | succ k ih =>
    intro p e
    cases e
    · simp only [lne_chars, List.length_cons, ih]; omega
    · simp only [lne_chars, List.length_cons, ih]; omega

theorem lne_bytes_length (fname : List Nat) (entcnt cks i : Nat) :
    (lne_bytes fname entcnt cks i).length = 32 := by
  have hw := lne_chars_length fname CHAR_LONG_NAME ((i - 1) * CHAR_LONG_NAME) false
  unfold CHAR_LONG_NAME at hw
  unfold lne_bytes
  simp only [List.length_append, List.length_take, List.length_drop, hw, CHAR_LONG_NAME,
    List.length_cons, List.length_nil]
  omega

theorem lne_bytes_order (fname : List Nat) (entcnt cks i : Nat) :
    (lne_bytes fname entcnt cks i).getD 0 0
      = if i % 256 = entcnt then (i % 256) ||| LAST_LONG_ENTRY else i % 256 := by
  unfold lne_bytes
  simp

theorem lne_bytes_attr (fname : List Nat) (entcnt cks i : Nat) :
    (lne_bytes fname entcnt cks i).getD 11 0 = ATTR_LONG_NAME
      ∧ (lne_bytes fname entcnt cks i).getD 13 0 = cks := by
  have hw := lne_chars_length fname CHAR_LONG_NAME ((i - 1) * CHAR_LONG_NAME) false
  unfold lne_bytes
  simp only
  generalize lne_chars fname CHAR_LONG_NAME ((i - 1) * CHAR_LONG_NAME) false = w at hw
  have h10 : (w.take 10).length = 10 := by
    rw [List.length_take, hw]; decide
  constructor
  · simp [List.getD_eq_getElem?_getD, List.getElem?_append, List.getElem_append, h10]
  · simp [List.getD_eq_getElem?_getD, List.getElem?_append, List.getElem_append, h10]

theorem or_last_long : ∀ x, x < 64 →
    x ||| LAST_LONG_ENTRY = x + LAST_LONG_ENTRY ∧ (x + LAST_LONG_ENTRY) &&& LAST_LONG_ENTRY ≠ 0
      ∧ x &&& LAST_LONG_ENTRY = 0 := by
  decide

theorem emake_recs_length (ep : Dirent) :
    (emake_recs ep).length = (strlen ep.filename + CHAR_LONG_NAME - 1) / CHAR_LONG_NAME + 1 := by
  simp [emake_recs]

theorem emake_recs_lne (ep : Dirent) (k : Nat)
    (hk : k < (strlen ep.filename + CHAR_LONG_NAME - 1) / CHAR_LONG_NAME) :
    (emake_recs ep).getD k []
      = lne_bytes ep.filename ((strlen ep.filename + CHAR_LONG_NAME - 1) / CHAR_LONG_NAME)
          (cal_checksum (generate_shortname ep.filename))
          ((strlen ep.filename + CHAR_LONG_NAME - 1) / CHAR_LONG_NAME - k) := by
  unfold emake_recs
  rw [List.getD_append _ _ _ _ (by simpa using hk), List.getD_eq_getElem _ _ (by simpa using hk)]
  simp

theorem emake_recs_sne (ep : Dirent) :
    (emake_recs ep).getD ((strlen ep.filename + CHAR_LONG_NAME - 1) / CHAR_LONG_NAME) []
      = sne_bytes (strncpy (generate_shortname ep.filename) CHAR_SHORT_NAME) ep.attr
          ep.first_clus ep.file_size := by
  unfold emake_recs
  rw [List.getD_append_right _ _ _ _ (by simp)]
  simp

/-- The branch `off > 32` of `emake`: the call returns, the directory chain is grown as far as
the last record needs, the records of `emake_recs` lie at `off`, `off + 32`, ..., and the bytes
the directory had elsewhere are kept. -/
theorem emake_ok (fat : Fat) (hv : VolOK fat) (h32 : fat.byts_per_clus % 32 = 0) (d : Disk)
    (cs : List Nat) (dp ep : Dirent) (off : Nat) (hf : FileOK fat d dp cs) (hr : RsvdOK fat d)
    (hdir : dp.attr &&& ATTR_DIRECTORY ≠ 0) (hal : off % 32 = 0) (hoff : 32 < off)
    (hwr : off + 32 * ((strlen ep.filename + CHAR_LONG_NAME - 1) / CHAR_LONG_NAME) < U32)
    (hen : (off + 32 * ((strlen ep.filename + CHAR_LONG_NAME - 1) / CHAR_LONG_NAME))
        / fat.byts_per_clus + 1 - cs.length ≤ (free_clusters fat d).length) :
    ∃ d' dp', emake fat d dp ep off = some (d', dp') ∧ SameFile dp dp'
      ∧ FileOK fat d' dp' (cs ++ (free_clusters fat d).take
          ((off + 32 * ((strlen ep.filename + CHAR_LONG_NAME - 1) / CHAR_LONG_NAME))
            / fat.byts_per_clus + 1 - cs.length))
      ∧ RsvdOK fat d'
      ∧ free_clusters fat d' = (free_clusters fat d).drop
          ((off + 32 * ((strlen ep.filename + CHAR_LONG_NAME - 1) / CHAR_LONG_NAME))
            / fat.byts_per_clus + 1 - cs.length)
      ∧ (∀ k, k ≤ (strlen ep.filename + CHAR_LONG_NAME - 1) / CHAR_LONG_NAME → ∀ b, b < 32 →
          fbyte fat d' (cs ++ (free_clusters fat d).take
              ((off + 32 * ((strlen ep.filename + CHAR_LONG_NAME - 1) / CHAR_LONG_NAME))
                / fat.byts_per_clus + 1 - cs.length)) (off + 32 * k + b)
            = ((emake_recs ep).getD k []).getD b 0)
      ∧ (∀ p, p / fat.byts_per_clus < cs.length →
          (p < off ∨ off + 32 * ((strlen ep.filename + CHAR_LONG_NAME - 1) / CHAR_LONG_NAME + 1) ≤ p) →
          fbyte fat d' (cs ++ (free_clusters fat d).take
              ((off + 32 * ((strlen ep.filename + CHAR_LONG_NAME - 1) / CHAR_LONG_NAME))
                / fat.byts_per_clus + 1 - cs.length)) p
            = fbyte fat d cs p)
      ∧ (∀ p, cs.length ≤ p / fat.byts_per_clus →
          p / fat.byts_per_clus < cs.length
            + ((off + 32 * ((strlen ep.filename + CHAR_LONG_NAME - 1) / CHAR_LONG_NAME))
                / fat.byts_per_clus + 1 - cs.length) →
          (p < off ∨ off + 32 * ((strlen ep.filename + CHAR_LONG_NAME - 1) / CHAR_LONG_NAME + 1) ≤ p) →
          fbyte fat d' (cs ++ (free_clusters fat d).take
              ((off + 32 * ((strlen ep.filename + CHAR_LONG_NAME - 1) / CHAR_LONG_NAME))
                / fat.byts_per_clus + 1 - cs.length)) p
            = 0) := by
  have hbp := bpc_pos fat hv
  have hrl := emake_recs_lne ep
  have hrs := emake_recs_sne ep
  generalize hn : (strlen ep.filename + CHAR_LONG_NAME - 1) / CHAR_LONG_NAME = n at *
  obtain ⟨d1, dp1, a1, h1, h2, h3, h4, h5, h5a, h5b, h6, h7, h8, h9⟩ :=
    emake_lnes_ok fat hv h32 ep.filename n (cal_checksum (generate_shortname ep.filename)) n d cs
      dp off hf hr hal hwr hen
  have hlen1 : (cs ++ (free_clusters fat d).take a1).length = cs.length + a1 := by
    rw [List.length_append, List.length_take, Nat.min_eq_left h5]
  obtain ⟨d2, dp2, hput, hsf2, hf2, hr2, hfree2, hcont2, hold2, hnew2⟩ :=
    emake_put_ok fat hv h32 d1 _ dp1 h2 h3 (off + 32 * n)
      (sne_bytes (strncpy (generate_shortname ep.filename) CHAR_SHORT_NAME) ep.attr
        ep.first_clus ep.file_size) (by omega) (by
        rw [hlen1, h6, List.length_drop]; omega)
  rw [hlen1] at hf2 hfree2 hcont2 hold2 hnew2
  have hA : a1 + ((off + 32 * n) / fat.byts_per_clus + 1 - (cs.length + a1))
      = (off + 32 * n) / fat.byts_per_clus + 1 - cs.length := by omega
  have hl' : cs ++ (free_clusters fat d).take
        ((off + 32 * n) / fat.byts_per_clus + 1 - cs.length)
      = cs ++ (free_clusters fat d).take a1 ++ (free_clusters fat d1).take
          ((off + 32 * n) / fat.byts_per_clus + 1 - (cs.length + a1)) := by
    rw [← hA, List.take_add, h6, List.append_assoc]
  refine ⟨d2, dp2, ?_, sameFile_trans h4 hsf2, ?_, hr2, ?_, ?_, ?_, ?_⟩
  · unfold emake
    rw [if_neg hdir, if_neg (by simpa using hal), if_neg (by omega)]
    simp only [hn, h1, hput]
  · rw [hl']; exact hf2
  · rw [hfree2, h6, List.drop_drop]
    congr 1
  · intro k hk b hb
    rw [hl']
    rcases Nat.lt_or_ge k n with hlt | hge
    · rw [hold2 (off + 32 * k + b) (by
          rw [rec_same_clus _ _ _ hbp h32 (by omega) hb]; exact h5b k hlt) (by omega),
        h7 k hlt b hb, hrl k hlt]
    · have e : k = n := by omega
      subst e
      rw [hcont2 b hb, hrs]
  · intro p hpl hout
    rw [hl', hold2 p (by omega) (by omega)]
    exact h8 p hpl (by omega)
  · intro p hlo hhi hout
    rw [hl']
    rcases Nat.lt_or_ge (p / fat.byts_per_clus) (cs.length + a1) with hlt | hge
    · rw [hold2 p hlt (by omega)]
      exact h9 p hlo hlt (by omega)
    · exact hnew2 p hge (by omega) (by omega)

theorem sne_bytes_name (name : List Nat) (attr fc fs : Nat) (h : name.length = 11) :
    (sne_bytes name attr fc fs).take 11 = name := by
  unfold sne_bytes
  simp only [List.append_assoc]
  rw [List.take_append_of_le_length (by omega), List.take_of_length_le (by omega)]

theorem demo_root_ok : FileOK demo_fat demo_disk demo_root [2] := by
  have h2 : read_fat demo_fat demo_disk 2 = 0x0fffffff := by
    rw [read_fat_eq demo_fat demo_volOK _ 2 (by decide), demo_ent 2 (by omega)]
    decide
  refine ⟨⟨⟨by decide, by decide⟩, ?_⟩, ?_, ⟨rfl, by decide, rfl⟩⟩
  · rw [h2]; decide
  · show read_fat demo_fat demo_disk 2 < 2147483648
    rw [h2]; decide

/-- C4: for a filename of length `L` with `1 ≤ L ≤ FAT32_MAX_FILENAME` and an aligned offset
`off > 32` in a directory `dp` (chain `cs`, with the free clusters the records need), `emake`
returns and leaves at `off` the `n + 1` consecutive 32-byte records `emake_recs ep`, where
`n = ceil(L / 13)`; the bytes the directory had elsewhere are kept and the rest of the clusters
added to it is 0.  Record `k < n` is a long-name entry: attribute 0x0F, order byte `n - k` plus
`LAST_LONG_ENTRY` on record 0 only (`n - k` is below 0x40), checksum byte equal to `cal_checksum`
of the 11-byte name of the last record; the last record is the short-name entry of `ep`. -/
theorem emake_chain_layout (fat : Fat) (hv : VolOK fat) (h32 : fat.byts_per_clus % 32 = 0)
    (d : Disk) (cs : List Nat) (dp ep : Dirent) (off n a : Nat) (hf : FileOK fat d dp cs)
    (hr : RsvdOK fat d) (hdir : dp.attr &&& ATTR_DIRECTORY ≠ 0) (hal : off % 32 = 0)
    (hoff : 32 < off) (hL1 : 1 ≤ strlen ep.filename)
    (hL2 : strlen ep.filename ≤ FAT32_MAX_FILENAME)
    (hn : n = (strlen ep.filename + CHAR_LONG_NAME - 1) / CHAR_LONG_NAME)
    (hwr : off + 32 * n < U32)
    (ha : a = (off + 32 * n) / fat.byts_per_clus + 1 - cs.length)
    (hen : a ≤ (free_clusters fat d).length) :
    ∃ d' dp', emake fat d dp ep off = some (d', dp')
      ∧ 1 ≤ n ∧ (emake_recs ep).length = n + 1
      ∧ FileOK fat d' dp' (cs ++ (free_clusters fat d).take a)
      ∧ (∀ k, k < n + 1 → ∀ b, b < 32 →
          fbyte fat d' (cs ++ (free_clusters fat d).take a) (off + 32 * k + b)
            = ((emake_recs ep).getD k []).getD b 0)
      ∧ (∀ p, p / fat.byts_per_clus < cs.length → (p < off ∨ off + 32 * (n + 1) ≤ p) →
          fbyte fat d' (cs ++ (free_clusters fat d).take a) p = fbyte fat d cs p)
      ∧ (∀ p, cs.length ≤ p / fat.byts_per_clus → p / fat.byts_per_clus < cs.length + a →
          (p < off ∨ off + 32 * (n + 1) ≤ p) →
          fbyte fat d' (cs ++ (free_clusters fat d).take a) p = 0)
      ∧ (∀ k, k < n →
          ((emake_recs ep).getD k []).getD 11 0 = ATTR_LONG_NAME
          ∧ ((emake_recs ep).getD k []).getD 0 0
              = (n - k) + (if k = 0 then LAST_LONG_ENTRY else 0)
          ∧ n - k < LAST_LONG_ENTRY
          ∧ (((emake_recs ep).getD k []).getD 0 0 &&& LAST_LONG_ENTRY ≠ 0 ↔ k = 0)
          ∧ ((emake_recs ep).getD k []).getD 13 0
              = cal_checksum (((emake_recs ep).getD n []).take 11))
      ∧ (emake_recs ep).getD n []
          = sne_bytes ((generate_shortname ep.filename).take 11) ep.attr ep.first_clus
              ep.file_size := by
  have hrl := emake_recs_lne ep
  have hrs := emake_recs_sne ep
  have hlen := emake_recs_length ep
  rw [← hn] at hrl hrs hlen
  rw [strncpy_gsn] at hrs
  have hn1 : 1 ≤ n := by
    rw [hn]; unfold CHAR_LONG_NAME; omega
  have hn20 : n ≤ 20 := by
    rw [hn]; unfold CHAR_LONG_NAME; unfold FAT32_MAX_FILENAME at hL2; omega
  have hname : ((generate_shortname ep.filename).take 11).length = 11 := by
    rw [List.length_take, (gsn_nonzero ep.filename).1]; decide
  obtain ⟨d', dp', h1, _, h3, _, _, h6, h7, h8⟩ :=
    emake_ok fat hv h32 d cs dp ep off hf hr hdir hal hoff (by rw [← hn]; exact hwr)
      (by rw [← hn, ← ha]; exact hen)
  rw [← hn, ← ha] at h3 h6 h7 h8
  refine ⟨d', dp', h1, hn1, hlen, h3, fun k hk => h6 k (by omega), h7, h8, ?_, hrs⟩
  intro k hk
  rw [hrl k hk, hrs, sne_bytes_name _ _ _ _ hname, cal_checksum_take, lne_bytes_order]
  have hm : (n - k) % 256 = n - k := Nat.mod_eq_of_lt (by omega)
  obtain ⟨o1, o2, o3⟩ := or_last_long (n - k) (by omega)
  refine ⟨(lne_bytes_attr _ _ _ _).1, ?_, by unfold LAST_LONG_ENTRY; omega, ?_,
    (lne_bytes_attr _ _ _ _).2⟩
  · rw [hm]
    by_cases h0 : k = 0
    · rw [if_pos (by omega), if_pos h0, o1]
    · rw [if_neg (by omega), if_neg h0, Nat.add_zero]
  · rw [hm]
    by_cases h0 : k = 0
    · rw [if_pos (by omega), o1]
      exact ⟨fun _ => h0, fun _ => o2⟩
    · rw [if_neg (by omega)]
      exact ⟨fun h => absurd o3 h, fun h => absurd h h0⟩

theorem emake_chain_layout_witness :
    VolOK demo_fat ∧ demo_fat.byts_per_clus % 32 = 0 ∧ FileOK demo_fat demo_disk demo_root [2]
    ∧ RsvdOK demo_fat demo_disk ∧ demo_root.attr &&& ATTR_DIRECTORY ≠ 0 ∧ 64 % 32 = 0 ∧ 32 < 64
    ∧ strlen demo_long.filename = 33
    ∧ 3 = (strlen demo_long.filename + CHAR_LONG_NAME - 1) / CHAR_LONG_NAME
    ∧ ∃ d' dp', emake demo_fat demo_disk demo_root demo_long 64 = some (d', dp')
      ∧ 1 ≤ 3 ∧ (emake_recs demo_long).length = 3 + 1
      ∧ FileOK demo_fat d' dp' ([2] ++ (free_clusters demo_fat demo_disk).take 0)
      ∧ (∀ k, k < 3 + 1 → ∀ b, b < 32 →
          fbyte demo_fat d' ([2] ++ (free_clusters demo_fat demo_disk).take 0) (64 + 32 * k + b)
            = ((emake_recs demo_long).getD k []).getD b 0)
      ∧ (∀ p, p / demo_fat.byts_per_clus < [2].length → (p < 64 ∨ 64 + 32 * (3 + 1) ≤ p) →
          fbyte demo_fat d' ([2] ++ (free_clusters demo_fat demo_disk).take 0) p
            = fbyte demo_fat demo_disk [2] p)
      ∧ (∀ p, [2].length ≤ p / demo_fat.byts_per_clus →
          p / demo_fat.byts_per_clus < [2].length + 0 → (p < 64 ∨ 64 + 32 * (3 + 1) ≤ p) →
          fbyte demo_fat d' ([2] ++ (free_clusters demo_fat demo_disk).take 0) p = 0)
      ∧ (∀ k, k < 3 →
          ((emake_recs demo_long).getD k []).getD 11 0 = ATTR_LONG_NAME
          ∧ ((emake_recs demo_long).getD k []).getD 0 0
              = (3 - k) + (if k = 0 then LAST_LONG_ENTRY else 0)
          ∧ 3 - k < LAST_LONG_ENTRY
          ∧ (((emake_recs demo_long).getD k []).getD 0 0 &&& LAST_LONG_ENTRY ≠ 0 ↔ k = 0)
          ∧ ((emake_recs demo_long).getD k []).getD 13 0
              = cal_checksum (((emake_recs demo_long).getD 3 []).take 11))
      ∧ (emake_recs demo_long).getD 3 []
          = sne_bytes ((generate_shortname demo_long.filename).take 11) demo_long.attr
              demo_long.first_clus demo_long.file_size :=
  ⟨demo_volOK, by decide, demo_root_ok, demo_rsvd, by decide, by decide, by decide, by decide,
    by decide,
    emake_chain_layout demo_fat demo_volOK (by decide) demo_disk [2] demo_root demo_long 64 3 0
      demo_root_ok demo_rsvd (by decide) (by decide) (by decide) (by decide) (by decide)
      (by decide) (by decide) (by decide) (by decide)⟩

/-! ## Writing and reading inside the chain -/

/-- A write of `m` bytes at position `pos` of a file, inside one cluster of its chain: the bytes
are in the file afterwards, and every other byte of the file, the table and the other data
clusters are as before. -/
theorem write_in (fat : Fat) (hv : VolOK fat) (d : Disk) (cs : List Nat) (hc : IsChain fat d cs)
    (cp : Copy) (hbad : ∀ a m, cp.bad a m = false) (data pos m : Nat)
    (hin : pos / fat.byts_per_clus < cs.length)
    (hm : m ≤ fat.byts_per_clus - pos % fat.byts_per_clus) :
    ∃ d2, rw_clus fat d (cs.getD (pos / fat.byts_per_clus) 0) true cp data
          (pos % fat.byts_per_clus) m = some ⟨d2, [], m⟩
      ∧ FatSame fat d d2 ∧ IsChain fat d2 cs
      ∧ (∀ q, q < m → fbyte fat d2 cs (pos + q) = cp.src (data + q))
      ∧ (∀ p, p / fat.byts_per_clus < cs.length → (p < pos ∨ pos + m ≤ p) →
          fbyte fat d2 cs p = fbyte fat d cs p)
      ∧ (∀ c p, ValidClus fat c → c ≠ cs.getD (pos / fat.byts_per_clus) 0 →
          p < fat.byts_per_clus → cbyte fat d2 c p = cbyte fat d c p) := by
  have hbp := bpc_pos fat hv
  generalize ht : pos / fat.byts_per_clus = t at *
  have hct := hc.valid t hin
  have hmod : pos % fat.byts_per_clus < fat.byts_per_clus := Nat.mod_lt _ hbp
  obtain ⟨d2, hrw, hW⟩ := rw_clus_write fat hv d (cs.getD t 0) hct cp hbad data
    (pos % fat.byts_per_clus) m (by omega)
  have hFS : FatSame fat d d2 := Wrote.fatSame fat hv _ _ _ hct _ d d2 hW (by omega)
  have hsplit : ∀ p, p / fat.byts_per_clus = t →
      ((p < pos ∨ pos + m ≤ p) ↔
        (p % fat.byts_per_clus < pos % fat.byts_per_clus
          ∨ pos % fat.byts_per_clus + m ≤ p % fat.byts_per_clus)) := by
    intro p hp
    have e1 := Nat.div_add_mod p fat.byts_per_clus
    have e2 := Nat.div_add_mod pos fat.byts_per_clus
    rw [hp] at e1; rw [ht] at e2
    generalize fat.byts_per_clus * t = x at e1 e2
    omega
  refine ⟨d2, hrw, hFS, fatSame_chain fat hv d d2 hFS cs hc, ?_, ?_, ?_⟩
  · intro q hq
    obtain ⟨a', b'⟩ := pos_in_sec fat.byts_per_clus pos q hbp (by omega)
    unfold fbyte
    rw [a', b', ht]
    have := Wrote.inside fat _ _ _ _ d d2 hW (pos % fat.byts_per_clus + q) (by omega) (by omega)
    rw [this]
    congr 2; omega
  · intro p hp hout
    unfold fbyte
    by_cases hi : p / fat.byts_per_clus = t
    · rw [hi]
      exact Wrote.same_clus fat _ _ _ _ d d2 hW _ ((hsplit p hi).mp hout)
    · exact Wrote.other_clus fat hv _ _ _ hct _ d d2 hW (by omega) _ _
        (hc.valid _ hp) (hc.ne hv _ _ hp hin hi) (Nat.mod_lt _ hbp)
  · intro c p hcv hne hp
    exact Wrote.other_clus fat hv _ _ _ hct _ d d2 hW (by omega) _ _ hcv hne hp

/-- A read of `m` bytes at position `pos` of a file, inside one cluster of its chain. -/
theorem read_in (fat : Fat) (hv : VolOK fat) (d : Disk) (cs : List Nat) (hc : IsChain fat d cs)
    (cp : Copy) (hbad : ∀ a m, cp.bad a m = false) (data pos m : Nat)
    (hin : pos / fat.byts_per_clus < cs.length)
    (hm : m ≤ fat.byts_per_clus - pos % fat.byts_per_clus) :
    rw_clus fat d (cs.getD (pos / fat.byts_per_clus) 0) false cp data
        (pos % fat.byts_per_clus) m
      = some ⟨d, (List.range m).map (fun q => fbyte fat d cs (pos + q)), m⟩ := by
  have hbp := bpc_pos fat hv
  have hmod : pos % fat.byts_per_clus < fat.byts_per_clus := Nat.mod_lt _ hbp
  rw [rw_clus_read fat hv d _ (hc.valid _ hin) cp hbad data _ m (by omega),
    chunk_fbyte fat hv d cs pos m hm]

/-- The first loop of `reloc_clus` without allocation, asked for more clusters than the chain
has left: it stops at the last cluster and resets the cursor. -/
theorem reloc_fwd_end (fat : Fat) (hv : VolOK fat) (d : Disk) (cs : List Nat)
    (h : IsChain fat d cs) (hend : read_fat fat d (cs.getD (cs.length - 1) 0) < 2147483648) :
    ∀ (k : Nat) (e : Dirent), e.cur_clus = cs.getD e.clus_cnt 0 → e.clus_cnt < cs.length →
      cs.length ≤ e.clus_cnt + k →
      reloc_fwd fat false k d e
        = some (d, { e with cur_clus := e.first_clus, clus_cnt := 0 }, false) := by
  intro k
  induction k with
  | zero => intro e _ h1 h2; omega
  | succ k ih =>
    intro e hc h1 h2
    by_cases hl : e.clus_cnt + 1 = cs.length
    · have hlast := h.last
      have e1 : cs.length - 1 = e.clus_cnt := by omega
      rw [e1, ← hc] at hlast hend
      have hbig : toInt32 (read_fat fat d e.cur_clus) ≥ (FAT32_EOC : Int) := by
        rw [toInt32_of_lt _ hend]
        exact_mod_cast hlast
      simp only [reloc_fwd]
      rw [if_pos hbig]
      simp
    · have hl' := h.link e.clus_cnt (by omega)
      have hval := h.valid (e.clus_cnt + 1) (by omega)
      have hd := hv.dcc
      rw [← hc] at hl'
      have hsmall : ¬ toInt32 (read_fat fat d e.cur_clus) ≥ (FAT32_EOC : Int) := by
        rw [hl', toInt32_of_lt _ (by have := hval.2; unfold FAT32_EOC at hd; omega)]
        have := hval.2
        omega
      simp only [reloc_fwd]
      rw [if_neg hsmall]
      rw [ih _ (by simpa using hl') (by simpa using (by omega : e.clus_cnt + 1 < cs.length))
        (by simpa using (by omega : cs.length ≤ e.clus_cnt + 1 + k))]

/-- `reloc_clus` without allocation never fails on a well-formed file: the store is kept and the
cursor stays on the chain. -/
theorem reloc_clus_read (fat : Fat) (hv : VolOK fat) (d : Disk) (cs : List Nat) (e : Dirent)
    (hf : FileOK fat d e cs) (off : Nat) :
    ∃ r, reloc_clus fat d e off false = some r ∧ r.disk = d ∧ SameFile e r.ent
      ∧ Cursor r.ent cs
      ∧ (off / fat.byts_per_clus < cs.length →
          r.ent.cur_clus = cs.getD (off / fat.byts_per_clus) 0
            ∧ r.ret = ((off % fat.byts_per_clus : Nat) : Int)) := by
  by_cases hin : off / fat.byts_per_clus < cs.length
  · rw [reloc_clus_in fat hv d cs hf.chain e hf.cur off false hin]
    exact ⟨_, rfl, rfl, sameFile_moved e _ _, cursor_moved hf.cur _ hin, fun _ => ⟨rfl, rfl⟩⟩
  · obtain ⟨h1, h2, h3⟩ := hf.cur
    unfold reloc_clus
    simp only
    rw [reloc_fwd_end fat hv d cs hf.chain hf.endv _ e h3 h2 (by omega)]
    refine ⟨_, rfl, rfl, sameFile_moved e _ _, ⟨h1, hf.chain.pos, ?_⟩, fun h => absurd h hin⟩
    exact h1

/-! ## `eremove` -/

theorem fileOK_same (fat : Fat) (hv : VolOK fat) (d d' : Disk) (e e' : Dirent) (cs : List Nat)
    (hf : FileOK fat d e cs) (hs : FatSame fat d d') (hc : Cursor e' cs) : FileOK fat d' e' cs :=
  ⟨fatSame_chain fat hv d d' hs cs hf.chain, by
    rw [read_fat_same fat hv d d' hs]; exact hf.endv, hc⟩

theorem getD_mem_of_lt (cs : List Nat) (t : Nat) (h : t < cs.length) : cs.getD t 0 ∈ cs := by
  rw [List.getD_eq_getElem _ _ h]
  exact List.getElem_mem _

/-- The loop of `eremove`: `k` turns put the mark in the first byte of `k` records in a row and
change nothing else. -/
theorem eremove_loop_ok (fat : Fat) (hv : VolOK fat) (cs : List Nat) :
    ∀ (k : Nat) (d : Disk) (parent : Dirent) (off off2 : Nat),
      FileOK fat d parent cs → off + 32 * k < U32 →
      (0 < k → (off + 32 * (k - 1)) / fat.byts_per_clus < cs.length
        ∧ parent.cur_clus = cs.getD (off / fat.byts_per_clus) 0
        ∧ off2 = off % fat.byts_per_clus) →
      ∃ d' p', eremove_loop fat k d parent off off2 = some (d', p') ∧ SameFile parent p'
        ∧ FileOK fat d' p' cs ∧ FatSame fat d d'
        ∧ (∀ j, j < k → fbyte fat d' cs (off + 32 * j) = EMPTY_ENTRY)
        ∧ (∀ p, p / fat.byts_per_clus < cs.length → (∀ j, j < k → p ≠ off + 32 * j) →
            fbyte fat d' cs p = fbyte fat d cs p)
        ∧ (∀ c p, ValidClus fat c → c ∉ cs → p < fat.byts_per_clus →
            cbyte fat d' c p = cbyte fat d c p) := by
  have hbp := bpc_pos fat hv
  intro k
  induction k with
  | zero =>
    intro d parent off off2 hf _ _
    exact ⟨d, parent, rfl, sameFile_refl parent, hf, fatSame_refl fat d,
      by intro j hj; omega, fun _ _ _ => rfl, fun _ _ _ _ _ => rfl⟩
  | succ k ih =>
    intro d parent off off2 hf hwr hk
    obtain ⟨hin, hcur, hoff2⟩ := hk (by omega)
    rw [Nat.add_sub_cancel] at hin
    have hmod : off % fat.byts_per_clus < fat.byts_per_clus := Nat.mod_lt _ hbp
    have hin0 : off / fat.byts_per_clus < cs.length :=
      Nat.lt_of_le_of_lt (Nat.div_le_div_right (by omega)) hin
    obtain ⟨d2, hrw, hFS, hch2, hcont, hold, hoth⟩ :=
      write_in fat hv d cs hf.chain (Copy.kernel (fun _ => EMPTY_ENTRY)) (fun _ _ => rfl) 0 off 1
        hin0 (by omega)
    have hf2 : FileOK fat d2 parent cs := fileOK_same fat hv d d2 parent parent cs hf hFS hf.cur
    obtain ⟨r, hrel, hrd, hrs, hrc, hrin⟩ := reloc_clus_read fat hv d2 cs parent hf2 (off + 32)
    have e2 : (off + 32) % U32 = off + 32 := Nat.mod_eq_of_lt (by omega)
    have hf3 : FileOK fat d2 r.ent cs := fileOK_same fat hv d2 d2 parent r.ent cs hf2
      (fatSame_refl fat d2) hrc
    obtain ⟨d', p', h1, h2, h3, h4, h5, h6, h7⟩ :=
      ih d2 r.ent (off + 32) (ofInt32 r.ret) hf3 (by omega) (by
        intro hk0
        have hin1 : (off + 32) / fat.byts_per_clus < cs.length :=
          Nat.lt_of_le_of_lt (Nat.div_le_div_right (by omega)) hin
        obtain ⟨ha, hb⟩ := hrin hin1
        refine ⟨?_, ha, ?_⟩
        · have e : off + 32 + 32 * (k - 1) = off + 32 * k := by omega
          rw [e]; exact hin
        · rw [hb, ofInt32_natCast _ (by
            have := Nat.mod_lt (off + 32) hbp
            have := hv.bpclt
            omega)])
    refine ⟨d', p', ?_, sameFile_trans hrs h2, h3, fatSame_trans hFS h4, ?_, ?_, ?_⟩
    · simp only [eremove_loop]
      rw [hcur, hoff2, hrw]
      simp only [e2, hrel, hrd, h1]
    · intro j hj
      cases j with
      | zero =>
        rw [Nat.mul_zero, Nat.add_zero, h6 off hin0 (by intro j _; omega)]
        exact hcont 0 (by omega)
      | succ j =>
        have := h5 j (by omega)
        have ea : off + 32 + 32 * j = off + 32 * (j + 1) := by omega
        rw [ea] at this
        exact this
    · intro p hp hne
      rw [h6 p hp (by
        intro j hj
        have := hne (j + 1) (by omega)
        omega)]
      exact hold p hp (by
        have := hne 0 (by omega)
        omega)
    · intro c p hcv hni hp
      rw [h7 c p hcv hni hp]
      exact hoth c p hcv (by
        intro h
        exact hni (h ▸ getD_mem_of_lt cs _ hin0)) hp

theorem and_not_last : ∀ x, x < 64 → (x + LAST_LONG_ENTRY) &&& (0xffffffff - LAST_LONG_ENTRY) = x := by
  decide

/-- The first byte of the first record `emake` writes for a name of 1 to 255 characters is the
number of long-name records with the bit `LAST_LONG_ENTRY`. -/
theorem emake_recs_first (ep : Dirent) (hL1 : 1 ≤ strlen ep.filename)
    (hL2 : strlen ep.filename ≤ FAT32_MAX_FILENAME) :
    ((emake_recs ep).getD 0 []).getD 0 0
        = (strlen ep.filename + CHAR_LONG_NAME - 1) / CHAR_LONG_NAME + LAST_LONG_ENTRY
      ∧ ((emake_recs ep).getD 0 []).getD 0 0 &&& (0xffffffff - LAST_LONG_ENTRY)
        = (strlen ep.filename + CHAR_LONG_NAME - 1) / CHAR_LONG_NAME := by
  have hrl := emake_recs_lne ep 0
  generalize hn : (strlen ep.filename + CHAR_LONG_NAME - 1) / CHAR_LONG_NAME = n at *
  have hn1 : 1 ≤ n := by
    rw [← hn]; unfold CHAR_LONG_NAME; omega
  have hn20 : n ≤ 20 := by
    rw [← hn]; unfold CHAR_LONG_NAME; unfold FAT32_MAX_FILENAME at hL2; omega
  have hm : n % 256 = n := Nat.mod_eq_of_lt (by omega)
  rw [hrl (by omega), lne_bytes_order, Nat.sub_zero, hm, if_pos rfl,
    (or_last_long n (by omega)).1]
  exact ⟨rfl, and_not_last n (by omega)⟩

/-- C8: for an entry whose long-name records in the parent directory (chain `cs`) are those
`emake` writes for its name of length `L`, `1 ≤ L ≤ FAT32_MAX_FILENAME`, at `entry.off`:
if `entry.valid ≠ 1`, `eremove` changes nothing; otherwise it returns with the first byte of
each of the `ceil(L / 13) + 1` records at `entry.off` equal to 0xE5, every other byte of the
directory, the reserved sectors and the table, and the other data clusters unchanged, and the
entry unchanged but for `valid = -1`. -/
theorem eremove_marks_records (fat : Fat) (hv : VolOK fat) (d : Disk) (cs : List Nat)
    (parent entry : Dirent) (n : Nat) (hf : FileOK fat d parent cs)
    (hL1 : 1 ≤ strlen entry.filename) (hL2 : strlen entry.filename ≤ FAT32_MAX_FILENAME)
    (hn : n = (strlen entry.filename + CHAR_LONG_NAME - 1) / CHAR_LONG_NAME)
    (hrec : ∀ k, k < n → ∀ b, b < 32 →
      fbyte fat d cs (entry.off + 32 * k + b) = ((emake_recs entry).getD k []).getD b 0)
    (hin : (entry.off + 32 * n) / fat.byts_per_clus < cs.length)
    (hwr : entry.off + 32 * (n + 1) < U32) :
    (entry.valid ≠ 1 → eremove fat d parent entry = some (d, parent, entry))
    ∧ (entry.valid = 1 →
        ∃ d' p', eremove fat d parent entry = some (d', p', { entry with valid := -1 })
          ∧ SameFile parent p' ∧ FileOK fat d' p' cs
          ∧ (∀ k, k < n + 1 → fbyte fat d' cs (entry.off + 32 * k) = EMPTY_ENTRY)
          ∧ (∀ p, p / fat.byts_per_clus < cs.length → (∀ k, k < n + 1 → p ≠ entry.off + 32 * k) →
              fbyte fat d' cs p = fbyte fat d cs p)
          ∧ FatSame fat d d' ∧ (∀ c, read_fat fat d' c = read_fat fat d c)
          ∧ (∀ c p, ValidClus fat c → c ∉ cs → p < fat.byts_per_clus →
              cbyte fat d' c p = cbyte fat d c p)) := by
  have hbp := bpc_pos fat hv
  constructor
  · intro hne
    unfold eremove
    rw [if_pos hne]
  · intro hval
    obtain ⟨_, hfirst⟩ := emake_recs_first entry hL1 hL2
    rw [← hn] at hfirst
    have hn1 : 1 ≤ n := by
      rw [hn]; unfold CHAR_LONG_NAME; omega
    have hin0 : entry.off / fat.byts_per_clus < cs.length :=
      Nat.lt_of_le_of_lt (Nat.div_le_div_right (by omega)) hin
    have hmod : entry.off % fat.byts_per_clus < fat.byts_per_clus := Nat.mod_lt _ hbp
    have hrel := reloc_clus_in fat hv d cs hf.chain parent hf.cur entry.off false hin0
    have hrd := read_in fat hv d cs hf.chain (Copy.kernel (fun _ => 0)) (fun _ _ => rfl) 0
      entry.off 1 hin0 (by omega)
    have hb0 := hrec 0 (by omega) 0 (by omega)
    rw [Nat.mul_zero, Nat.add_zero] at hb0
    obtain ⟨d', p', h1, h2, h3, h4, h5, h6, h7⟩ :=
      eremove_loop_ok fat hv cs (n + 1) d
        { parent with cur_clus := cs.getD (entry.off / fat.byts_per_clus) 0,
                      clus_cnt := entry.off / fat.byts_per_clus }
        entry.off (entry.off % fat.byts_per_clus)
        (fileOK_same fat hv d d parent _ cs hf (fatSame_refl fat d) (cursor_moved hf.cur _ hin0))
        hwr (fun _ => ⟨by rw [Nat.add_sub_cancel]; exact hin, rfl, rfl⟩)
    refine ⟨d', p', ?_, sameFile_trans (sameFile_moved parent _ _) h2, h3, h5, h6, h4,
      fun c => read_fat_same fat hv d d' h4 c, h7⟩
    unfold eremove
    rw [if_neg (by simp [hval]), hrel]
    simp only
    rw [ofInt32_natCast _ (by have := hv.bpclt; omega), hrd]
    have hr1 : List.range 1 = [0] := rfl
    simp only [hr1, List.map_cons, List.map_nil, List.getD_cons_zero, Nat.add_zero,
      hb0, hfirst, h1]

/-- The small volume after `emake` of `demo_long` at offset 64 of the root directory: the root
directory is still the one cluster 2 and holds the four records at 64. -/
theorem demo_dir_ok :
    FileOK demo_fat demo_dir_disk demo_root [2]
      ∧ ∀ k, k < 4 → ∀ b, b < 32 →
          fbyte demo_fat demo_dir_disk [2] (64 + 32 * k + b)
            = ((emake_recs demo_long).getD k []).getD b 0 := by
  obtain ⟨d', dp', h1, _, h3, _, _, h6, _, _⟩ :=
    emake_ok demo_fat demo_volOK (by decide) demo_disk [2] demo_root demo_long 64 demo_root_ok
      demo_rsvd (by decide) (by decide) (by decide) (by decide) (by decide)
  have ha : (64 + 32 * ((strlen demo_long.filename + CHAR_LONG_NAME - 1) / CHAR_LONG_NAME))
      / demo_fat.byts_per_clus + 1 - [2].length = 0 := by decide
  have hn : (strlen demo_long.filename + CHAR_LONG_NAME - 1) / CHAR_LONG_NAME = 3 := by decide
  rw [ha, List.take_zero, List.append_nil] at h3 h6
  rw [hn] at h6
  have hd : demo_dir_disk = d' := by
    unfold demo_dir_disk
    rw [h1]; rfl
  rw [hd]
  exact ⟨⟨h3.chain, h3.endv, ⟨rfl, by decide, rfl⟩⟩, fun k hk b hb => h6 k (by omega) b hb⟩

theorem eremove_marks_records_witness :
    VolOK demo_fat ∧ FileOK demo_fat demo_dir_disk demo_root [2]
    ∧ strlen demo_long.filename = 33
    ∧ 3 = (strlen demo_long.filename + CHAR_LONG_NAME - 1) / CHAR_LONG_NAME
    ∧ (∀ k, k < 3 → ∀ b, b < 32 →
        fbyte demo_fat demo_dir_disk [2] (demo_long.off + 32 * k + b)
          = ((emake_recs demo_long).getD k []).getD b 0)
    ∧ demo_long.valid = 1
    ∧ ∃ d' p', eremove demo_fat demo_dir_disk demo_root demo_long
          = some (d', p', { demo_long with valid := -1 })
        ∧ SameFile demo_root p' ∧ FileOK demo_fat d' p' [2]
        ∧ (∀ k, k < 3 + 1 → fbyte demo_fat d' [2] (demo_long.off + 32 * k) = EMPTY_ENTRY)
        ∧ (∀ p, p / demo_fat.byts_per_clus < [2].length →
            (∀ k, k < 3 + 1 → p ≠ demo_long.off + 32 * k) →
            fbyte demo_fat d' [2] p = fbyte demo_fat demo_dir_disk [2] p)
        ∧ FatSame demo_fat demo_dir_disk d'
        ∧ (∀ c, read_fat demo_fat d' c = read_fat demo_fat demo_dir_disk c)
        ∧ (∀ c p, ValidClus demo_fat c → c ∉ [2] → p < demo_fat.byts_per_clus →
            cbyte demo_fat d' c p = cbyte demo_fat demo_dir_disk c p) :=
  ⟨demo_volOK, demo_dir_ok.1, by decide, by decide,
    fun k hk b hb => demo_dir_ok.2 k (by omega) b hb, rfl,
    (eremove_marks_records demo_fat demo_volOK demo_dir_disk [2] demo_root demo_long 3
      demo_dir_ok.1 (by decide) (by decide) (by decide)
      (fun k hk b hb => demo_dir_ok.2 k (by omega) b hb) (by decide) (by decide)).2 rfl⟩

/-! ## `eupdate` -/

theorem sne_patch_getD (f : Nat → Nat) (fc fs : Nat) : ∀ q, q < 32 →
    (sne_patch ((List.range 32).map f) fc fs).getD q 0
      = if 20 ≤ q ∧ q < 22 then (le16 (fc / 65536 % 65536)).getD (q - 20) 0
        else if 26 ≤ q ∧ q < 28 then (le16 (fc % 65536)).getD (q - 26) 0
        else if 28 ≤ q then (le32 fs).getD (q - 28) 0
        else f q := by
  have hr : List.range 32 = [0, 1, 2, 3, 4, 5, 6, 7, 8, 9, 10, 11, 12, 13, 14, 15, 16, 17, 18, 19,
      20, 21, 22, 23, 24, 25, 26, 27, 28, 29, 30, 31] := by decide
  intro q hq
  unfold sne_patch le16 le32
  rw [hr]
  interval_cases q <;> simp

/-- C9: for an entry whose long-name records in the parent directory (chain `cs`) are those
`emake` writes for its name of length `L`, `1 ≤ L ≤ FAT32_MAX_FILENAME`, at the aligned offset
`entry.off`, with `S = entry.off + 32 * ceil(L / 13)` the place of its short-name record: if the
entry is not dirty or `valid ≠ 1`, `eupdate` changes nothing; otherwise it returns with bytes
20-21, 26-27 and 28-31 of the record at `S` holding the high and low 16 bits of
`entry.first_clus` and `entry.file_size`, every other byte of the directory (so the name and
attribute of the record and every long-name record), the reserved sectors and the table, and the
other data clusters unchanged, and the entry unchanged but for `dirty = 0`. -/
theorem eupdate_three_fields (fat : Fat) (hv : VolOK fat) (h32 : fat.byts_per_clus % 32 = 0)
    (d : Disk) (cs : List Nat) (parent entry : Dirent) (n S : Nat)
    (hf : FileOK fat d parent cs)
    (hL1 : 1 ≤ strlen entry.filename) (hL2 : strlen entry.filename ≤ FAT32_MAX_FILENAME)
    (hn : n = (strlen entry.filename + CHAR_LONG_NAME - 1) / CHAR_LONG_NAME)
    (hS : S = entry.off + 32 * n)
    (hrec : ∀ k, k < n → ∀ b, b < 32 →
      fbyte fat d cs (entry.off + 32 * k + b) = ((emake_recs entry).getD k []).getD b 0)
    (hal : entry.off % 32 = 0)
    (hin : S / fat.byts_per_clus < cs.length) (hwr : S < U32) :
    ((entry.dirty = 0 ∨ entry.valid ≠ 1) → eupdate fat d parent entry = some (d, parent, entry))
    ∧ (entry.dirty ≠ 0 → entry.valid = 1 →
        ∃ d' p', eupdate fat d parent entry = some (d', p', { entry with dirty := 0 })
          ∧ SameFile parent p' ∧ FileOK fat d' p' cs
          ∧ (List.range 2).map (fun q => fbyte fat d' cs (S + 20 + q))
              = le16 (entry.first_clus / 65536 % 65536)
          ∧ (List.range 2).map (fun q => fbyte fat d' cs (S + 26 + q))
              = le16 (entry.first_clus % 65536)
          ∧ (List.range 4).map (fun q => fbyte fat d' cs (S + 28 + q)) = le32 entry.file_size
          ∧ (∀ p, p / fat.byts_per_clus < cs.length → ¬ (S + 20 ≤ p ∧ p < S + 22) →
              ¬ (S + 26 ≤ p ∧ p < S + 32) → fbyte fat d' cs p = fbyte fat d cs p)
          ∧ (∀ b, b < 12 → fbyte fat d' cs (S + b) = fbyte fat d cs (S + b))
          ∧ (∀ k, k < n → ∀ b, b < 32 →
              fbyte fat d' cs (entry.off + 32 * k + b) = ((emake_recs entry).getD k []).getD b 0)
          ∧ FatSame fat d d' ∧ (∀ c, read_fat fat d' c = read_fat fat d c)
          ∧ (∀ c p, ValidClus fat c → c ∉ cs → p < fat.byts_per_clus →
              cbyte fat d' c p = cbyte fat d c p)) := by
  have hbp := bpc_pos fat hv
  constructor
  · intro hne
    unfold eupdate
    rw [if_pos hne]
  · intro hdirty hval
    obtain ⟨_, hfirst⟩ := emake_recs_first entry hL1 hL2
    rw [← hn] at hfirst
    have hn1 : 1 ≤ n := by
      rw [hn]; unfold CHAR_LONG_NAME; omega
    have hn20 : n ≤ 20 := by
      rw [hn]; unfold CHAR_LONG_NAME; unfold FAT32_MAX_FILENAME at hL2; omega
    have hin0 : entry.off / fat.byts_per_clus < cs.length :=
      Nat.lt_of_le_of_lt (Nat.div_le_div_right (by omega)) hin
    have hmod : entry.off % fat.byts_per_clus < fat.byts_per_clus := Nat.mod_lt _ hbp
    have hmodS : S % fat.byts_per_clus < fat.byts_per_clus := Nat.mod_lt _ hbp
    have hlt := hv.bpclt
    have hrel := reloc_clus_in fat hv d cs hf.chain parent hf.cur entry.off false hin0
    have hrd := read_in fat hv d cs hf.chain (Copy.kernel (fun _ => 0)) (fun _ _ => rfl) 0
      entry.off 1 hin0 (by omega)
    have hb0 := hrec 0 (by omega) 0 (by omega)
    rw [Nat.mul_zero, Nat.add_zero] at hb0
    have hc1 := cursor_moved hf.cur _ hin0
    have hrel2 := reloc_clus_in fat hv d cs hf.chain _ hc1 S false hin
    have hSal : S % 32 = 0 := by omega
    have hrec32 := rec_in_clus _ _ hbp h32 hSal
    have hrd2 := read_in fat hv d cs hf.chain (Copy.kernel (fun _ => 0)) (fun _ _ => rfl) 0
      S 32 hin hrec32
    obtain ⟨d2, hrw, hFS, hch2, hcont, hold, hoth⟩ :=
      write_in fat hv d cs hf.chain
        (Copy.kernel (fun i => (sne_patch ((List.range 32).map (fun q => fbyte fat d cs (S + q)))
          entry.first_clus entry.file_size).getD i 0)) (fun _ _ => rfl) 0 S 32 hin hrec32
    have hoff : (entry.off + n * 32 % U32) % U32 = S := by
      have : n * 32 % U32 = n * 32 := Nat.mod_eq_of_lt (by unfold U32; omega)
      rw [this, Nat.mod_eq_of_lt (by omega)]
      omega
    have hbyte : ∀ q, q < 32 → fbyte fat d2 cs (S + q)
        = if 20 ≤ q ∧ q < 22 then (le16 (entry.first_clus / 65536 % 65536)).getD (q - 20) 0
          else if 26 ≤ q ∧ q < 28 then (le16 (entry.first_clus % 65536)).getD (q - 26) 0
          else if 28 ≤ q then (le32 entry.file_size).getD (q - 28) 0
          else fbyte fat d cs (S + q) := by
      intro q hq
      rw [hcont q hq]
      show (sne_patch _ _ _).getD (0 + q) 0 = _
      rw [Nat.zero_add, sne_patch_getD _ _ _ q hq]
    have hframe : ∀ p, p / fat.byts_per_clus < cs.length → ¬ (S + 20 ≤ p ∧ p < S + 22) →
        ¬ (S + 26 ≤ p ∧ p < S + 32) → fbyte fat d2 cs p = fbyte fat d cs p := by
      intro p hp h1 h2
      by_cases hr : S ≤ p ∧ p < S + 32
      · have e : p = S + (p - S) := by omega
        rw [e, hbyte (p - S) (by omega), if_neg (by omega), if_neg (by omega), if_neg (by omega)]
      · exact hold p hp (by omega)
    refine ⟨d2, _, ?_, sameFile_trans (sameFile_moved parent _ _) (sameFile_moved _ _ _),
      fileOK_same fat hv d d2 parent _ cs hf hFS (cursor_moved hc1 _ hin), ?_, ?_, ?_, hframe, ?_,
      ?_, hFS, fun c => read_fat_same fat hv d d2 hFS c, ?_⟩
    · unfold eupdate
      rw [if_neg (by simp [hdirty, hval]), hrel]
      simp only
      rw [ofInt32_natCast _ (by omega), hrd]
      have hr1 : List.range 1 = [0] := rfl
      simp only [hr1, List.map_cons, List.map_nil, List.getD_cons_zero, Nat.add_zero,
        hb0, hfirst, hoff, hrel2]
      rw [ofInt32_natCast _ (by omega), hrd2]
      simp only [hrw]
    · have hr2 : List.range 2 = [0, 1] := rfl
      rw [hr2]
      simp only [List.map_cons, List.map_nil]
      rw [Nat.add_assoc, Nat.add_assoc, hbyte (20 + 0) (by omega), hbyte (20 + 1) (by omega)]
      simp [le16]
    · have hr2 : List.range 2 = [0, 1] := rfl
      rw [hr2]
      simp only [List.map_cons, List.map_nil]
      rw [Nat.add_assoc, Nat.add_assoc, hbyte (26 + 0) (by omega), hbyte (26 + 1) (by omega)]
      simp [le16]
    · have hr4 : List.range 4 = [0, 1, 2, 3] := rfl
      rw [hr4]
      simp only [List.map_cons, List.map_nil]
      rw [Nat.add_assoc, Nat.add_assoc, Nat.add_assoc, Nat.add_assoc, hbyte (28 + 0) (by omega),
        hbyte (28 + 1) (by omega), hbyte (28 + 2) (by omega), hbyte (28 + 3) (by omega)]
      simp [le32]
    · intro b hb
      exact hframe _ (by
        rw [rec_same_clus _ _ _ hbp h32 hSal (by omega)]; exact hin) (by omega) (by omega)
    · intro k hk b hb
      rw [hframe _ (by
        rw [rec_same_clus _ _ _ hbp h32 (by omega) hb]
        exact Nat.lt_of_le_of_lt (Nat.div_le_div_right (by omega)) hin) (by omega) (by omega)]
      exact hrec k hk b hb
    · intro c p hcv hni hp
      exact hoth c p hcv (by
        intro h
        exact hni (h ▸ getD_mem_of_lt cs _ hin)) hp

theorem demo_upd_recs (k : Nat) (hk : k < 3) (b : Nat) (hb : b < 32) :
    fbyte demo_fat demo_dir_disk [2] (demo_upd.off + 32 * k + b)
      = ((emake_recs demo_upd).getD k []).getD b 0 := by
  have h3 : (strlen demo_long.filename + CHAR_LONG_NAME - 1) / CHAR_LONG_NAME = 3 := by decide
  have h3' : (strlen demo_upd.filename + CHAR_LONG_NAME - 1) / CHAR_LONG_NAME = 3 := h3
  have e : (emake_recs demo_upd).getD k [] = (emake_recs demo_long).getD k [] := by
    rw [emake_recs_lne demo_upd k (by rw [h3']; exact hk),
      emake_recs_lne demo_long k (by rw [h3]; exact hk)]
    rfl
  rw [e]
  exact demo_dir_ok.2 k (by omega) b hb

theorem eupdate_three_fields_witness :
    VolOK demo_fat ∧ demo_fat.byts_per_clus % 32 = 0
    ∧ FileOK demo_fat demo_dir_disk demo_root [2]
    ∧ strlen demo_upd.filename = 33
    ∧ 3 = (strlen demo_upd.filename + CHAR_LONG_NAME - 1) / CHAR_LONG_NAME
    ∧ 160 = demo_upd.off + 32 * 3
    ∧ (∀ k, k < 3 → ∀ b, b < 32 →
        fbyte demo_fat demo_dir_disk [2] (demo_upd.off + 32 * k + b)
          = ((emake_recs demo_upd).getD k []).getD b 0)
    ∧ demo_upd.dirty ≠ 0 ∧ demo_upd.valid = 1
    ∧ ∃ d' p', eupdate demo_fat demo_dir_disk demo_root demo_upd
          = some (d', p', { demo_upd with dirty := 0 })
        ∧ SameFile demo_root p' ∧ FileOK demo_fat d' p' [2]
        ∧ (List.range 2).map (fun q => fbyte demo_fat d' [2] (160 + 20 + q))
            = le16 (demo_upd.first_clus / 65536 % 65536)
        ∧ (List.range 2).map (fun q => fbyte demo_fat d' [2] (160 + 26 + q))
            = le16 (demo_upd.first_clus % 65536)
        ∧ (List.range 4).map (fun q => fbyte demo_fat d' [2] (160 + 28 + q))
            = le32 demo_upd.file_size
        ∧ (∀ p, p / demo_fat.byts_per_clus < [2].length → ¬ (160 + 20 ≤ p ∧ p < 160 + 22) →
            ¬ (160 + 26 ≤ p ∧ p < 160 + 32) →
            fbyte demo_fat d' [2] p = fbyte demo_fat demo_dir_disk [2] p)
        ∧ (∀ b, b < 12 → fbyte demo_fat d' [2] (160 + b) = fbyte demo_fat demo_dir_disk [2] (160 + b))
        ∧ (∀ k, k < 3 → ∀ b, b < 32 →
            fbyte demo_fat d' [2] (demo_upd.off + 32 * k + b)
              = ((emake_recs demo_upd).getD k []).getD b 0)
        ∧ FatSame demo_fat demo_dir_disk d'
        ∧ (∀ c, read_fat demo_fat d' c = read_fat demo_fat demo_dir_disk c)
        ∧ (∀ c p, ValidClus demo_fat c → c ∉ [2] → p < demo_fat.byts_per_clus →
            cbyte demo_fat d' c p = cbyte demo_fat demo_dir_disk c p) :=
  ⟨demo_volOK, by decide, demo_dir_ok.1, by decide, by decide, by decide, demo_upd_recs,
    by decide, rfl,
    (eupdate_three_fields demo_fat demo_volOK (by decide) demo_dir_disk [2] demo_root demo_upd 3
      160 demo_dir_ok.1 (by decide) (by decide) (by decide) (by decide) demo_upd_recs
      (by decide) (by decide) (by decide)).2 (by decide) rfl⟩

/-! ## The entry cache -/

theorem FS.get_set_same (s : FS) (p : Ptr) (e e' : Dirent) (h : s.get p = some e) :
    (s.set p e').get p = some e' := by
  cases p with
  | null => simp [FS.get] at h
  | root => simp [FS.get, FS.set]
  | slot i =>
    simp only [FS.get, FS.set] at h ⊢
    have hi : i < s.entries.length := by
      rcases Nat.lt_or_ge i s.entries.length with hlt | hge
      · exact hlt
      · rw [List.getElem?_eq_none hge] at h; simp at h
    rw [List.getElem?_set_self hi]

theorem FS.get_set_other (s : FS) (p q : Ptr) (e' : Dirent) (h : q ≠ p) :
    (s.set p e').get q = s.get q := by
  cases p with
  | null => rfl
  | root =>
    cases q with
    | null => rfl
    | root => exact absurd rfl h
    | slot j => rfl
  | slot i =>
    cases q with
    | null => rfl
    | root => rfl
    | slot j =>
      simp only [FS.get, FS.set]
      rw [List.getElem?_set_ne (by intro e; exact h (by rw [e]))]

theorem FS.set_get_self (s : FS) (p : Ptr) (e : Dirent) (h : s.get p = some e) :
    s.set p e = s := by
  cases p with
  | null => rfl
  | root =>
    simp only [FS.get, Option.some.injEq] at h
    simp only [FS.set, ← h]
  | slot i =>
    simp only [FS.get] at h
    simp only [FS.set]
    have : s.entries.set i e = s.entries := by
      apply List.ext_getElem?
      intro k
      by_cases hk : i = k
      · subst hk
        rw [h]
        have hi : i < s.entries.length := by
          rcases Nat.lt_or_ge i s.entries.length with hlt | hge
          · exact hlt
          · rw [List.getElem?_eq_none hge] at h; simp at h
        rw [List.getElem?_set_self hi]
      · rw [List.getElem?_set_ne hk]
    rw [this]

theorem ancOK_congr : ∀ (rest : List Ptr) (q : Ptr) (s s' : FS),
    (∀ x, x = q ∨ x ∈ rest → s'.get x = s.get x) → AncOK s q rest → AncOK s' q rest := by
  intro rest
  induction rest with
  | nil =>
    intro q s s' h ha
    obtain ⟨e, h1, h2⟩ := ha
    exact ⟨e, by rw [h q (Or.inl rfl)]; exact h1, h2⟩
  | cons r rest ih =>
    intro q s s' h ha
    obtain ⟨e, par, h1, h2, h3, h4, h5, h6, h7, h8, h9, h10, h11⟩ := ha
    refine ⟨e, par, by rw [h q (Or.inl rfl)]; exact h1, h2, h3, h4, h5, h6, h7,
      by rw [h r (Or.inr (List.mem_cons_self _ _))]; exact h8, h9, h10, ?_⟩
    apply ih r s s' _ h11
    intro x hx
    apply h
    rcases hx with hx | hx
    · exact Or.inr (hx ▸ List.mem_cons_self _ _)
    · exact Or.inr (List.mem_cons_of_mem _ hx)

theorem eupdate_skip (fat : Fat) (d : Disk) (parent entry : Dirent)
    (h : entry.dirty = 0 ∨ entry.valid ≠ 1) :
    eupdate fat d parent entry = some (d, parent, entry) := by
  unfold eupdate
  rw [if_pos h]

theorem eput_succ (fat : Fat) (fuel : Nat) (s : FS) (entry : Ptr) :
    eput fat (fuel + 1) s entry =
      match s.get entry with
      | none => none
      | some e =>
        if entry ≠ .root ∧ e.valid ≠ 0 ∧ e.ref = 1 then
          let s1 : FS := match entry with
            | .slot i => { s with lru := i :: s.lru.erase i }
            | _ => s
          let s2 : Option FS :=
            if e.valid = -1 then
              match etrunc fat fuel s1.disk e with
              | none => none
              | some (d1, e1) => some ({ s1 with disk := d1 }.set entry e1)
            else
              match s1.get e.parent with
              | none => none
              | some par =>
                if par.ref < 1 then none
                else
                  match eupdate fat s1.disk par e with
                  | none => none
                  | some (d1, par1, e1) =>
                    some (({ s1 with disk := d1 }.set e.parent par1).set entry e1)
          match s2 with
          | none => none
          | some s3 =>
            match s3.get entry with
            | none => none
            | some e3 =>
              let s4 := s3.set entry { e3 with ref := e3.ref - 1 }
              if e3.ref - 1 = 0 then eput fat fuel s4 e3.parent else some s4
        else some (s.set entry { e with ref := e.ref - 1 }) := by
  rfl

/-- The call `eput(entry->parent)` on entries at rest: only reference counts go down, by one, on
the way up; the store and every entry off the way are kept. -/
theorem eput_up (fat : Fat) : ∀ (anc : List Ptr) (s : FS) (p : Ptr) (fuel : Nat),
    AncOK s p anc → anc.length + 1 ≤ fuel →
    ∃ s', eput fat fuel s p = some s' ∧ s'.disk = s.disk
      ∧ (∀ e, s.get p = some e → s'.get p = some { e with ref := e.ref - 1 })
      ∧ (∀ x, x ≠ p → x ∉ anc → s'.get x = s.get x) := by
  intro anc
  induction anc with
  | nil =>
    intro s p fuel ha hfuel
    obtain ⟨f, rfl⟩ : ∃ f, fuel = f + 1 := ⟨fuel - 1, by omega⟩
    obtain ⟨e, h1, h2⟩ := ha
    have hc : ¬ (p ≠ .root ∧ e.valid ≠ 0 ∧ e.ref = 1) := by
      rcases h2 with h | h | h
      · exact fun hh => hh.1 h
      · exact fun hh => hh.2.1 h
      · exact fun hh => h hh.2.2
    refine ⟨s.set p { e with ref := e.ref - 1 }, ?_, ?_, ?_, ?_⟩
    · rw [eput_succ]
      simp only [h1]
      rw [if_neg hc]
    · cases p <;> rfl
    · intro e' he'
      rw [h1] at he'
      cases he'
      exact FS.get_set_same s p e _ h1
    · intro x hx _
      exact FS.get_set_other s p x _ hx
  | cons q rest ih =>
    intro s p fuel ha hfuel
    obtain ⟨f, rfl⟩ : ∃ f, fuel = f + 1 := ⟨fuel - 1, by omega⟩
    obtain ⟨e, par, h1, h2, h3, h4, h5, h6, h7, h8, h9, h10, h11⟩ := ha
    subst h7
    have hpq : p ≠ e.parent := fun h => h10 (h ▸ List.mem_cons_self _ _)
    have hprest : p ∉ rest := fun h => h10 (List.mem_cons_of_mem _ h)
    have h31 : e.ref - 1 = 0 := by omega
    cases p with
    | null => simp [FS.get] at h1
    | root => exact absurd rfl h2
    | slot i =>
      have hS1 : ∀ x, ({ s with lru := i :: s.lru.erase i } : FS).get x = s.get x :=
        fun x => by cases x <;> rfl
      have hg1 : ({ s with lru := i :: s.lru.erase i } : FS).get (.slot i) = some e := h1
      have hg2 : ({ s with lru := i :: s.lru.erase i } : FS).get e.parent = some par := by
        rw [hS1]; exact h8
      have hs4 : ∀ x, x ≠ .slot i →
          (({ s with lru := i :: s.lru.erase i } : FS).set (.slot i)
            { e with ref := e.ref - 1 }).get x = s.get x := by
        intro x hx
        rw [FS.get_set_other _ _ x _ hx, hS1]
      obtain ⟨s', g1, g2, g3, g4⟩ := ih
        (({ s with lru := i :: s.lru.erase i } : FS).set (.slot i) { e with ref := e.ref - 1 })
        e.parent f
        (ancOK_congr rest e.parent s _ (by
          intro x hx
          apply hs4
          rcases hx with hx | hx
          · rw [hx]; exact fun h => hpq h.symm
          · exact fun h => hprest (h ▸ hx)) h11)
        (by simp only [List.length_cons] at hfuel; omega)
      refine ⟨s', ?_, ?_, ?_, ?_⟩
      · rw [eput_succ]
        simp only [h1]
        rw [if_pos ⟨h2, h4, h3⟩]
        simp only [if_neg h5, hg2, if_neg (by omega : ¬ par.ref < 1),
          eupdate_skip fat _ par e h6]
        rw [FS.set_get_self _ e.parent par hg2, FS.set_get_self _ (.slot i) e hg1]
        simp only [hg1]
        rw [if_pos h31]
        exact g1
      · rw [g2]; rfl
      · intro e' he'
        rw [h1] at he'
        cases he'
        rw [g4 _ hpq hprest]
        exact FS.get_set_same _ _ e _ hg1
      · intro x hx hxa
        rw [g4 x (fun h => hxa (h ▸ List.mem_cons_self _ _))
          (fun h => hxa (List.mem_cons_of_mem _ h))]
        exact hs4 x hx

/-- C7: for an entry removed by `eremove` (`valid == -1`) whose chain is `cs` and whose
ancestors are at rest: an `eput` that finds `ref ≥ 2` only decrements `ref` (the store, hence
every FAT entry, is unchanged); the `eput` that finds `ref == 1` returns with every cluster of
the chain free (`read_fat` gives 0), the other FAT entries unchanged, the entry's `ref` at 0, and
the `ref` of its parent one less. -/
theorem eput_deferred_removal (fat : Fat) (hv : VolOK fat) (s : FS) (p : Ptr) (e : Dirent)
    (cs : List Nat) (anc : List Ptr) (fuel : Nat) (hget : s.get p = some e) (hp : p ≠ .root)
    (hvalid : e.valid = -1)
    (hfile : (e.first_clus = 0 ∧ cs = []) ∨ (IsChain fat s.disk cs ∧ e.first_clus = cs.getD 0 0))
    (hanc : AncOK s e.parent anc) (hpa : p ∉ e.parent :: anc)
    (hfuel : cs.length + anc.length + 2 ≤ fuel) :
    (2 ≤ e.ref →
      ∃ s', eput fat fuel s p = some s' ∧ s' = s.set p { e with ref := e.ref - 1 }
        ∧ s'.disk = s.disk ∧ (∀ c, read_fat fat s'.disk c = read_fat fat s.disk c)
        ∧ s'.get p = some { e with ref := e.ref - 1 })
    ∧ (e.ref = 1 →
      ∃ s', eput fat fuel s p = some s'
        ∧ (∀ c, c ∈ cs → read_fat fat s'.disk c = 0)
        ∧ (∀ c, c ∉ cs → read_fat fat s'.disk c = read_fat fat s.disk c)
        ∧ s'.get p = some { e with file_size := 0, first_clus := 0, dirty := 1, ref := 0 }
        ∧ ∃ par, s.get e.parent = some par
            ∧ s'.get e.parent = some { par with ref := par.ref - 1 }) := by
  obtain ⟨f, rfl⟩ : ∃ f, fuel = f + 1 := ⟨fuel - 1, by omega⟩
  constructor
  · intro href
    have hc : ¬ (p ≠ .root ∧ e.valid ≠ 0 ∧ e.ref = 1) := fun hh => by omega
    have hd : (s.set p { e with ref := e.ref - 1 }).disk = s.disk := by cases p <;> rfl
    refine ⟨_, ?_, rfl, hd, fun c => by rw [hd], FS.get_set_same s p e _ hget⟩
    rw [eput_succ]
    simp only [hget]
    rw [if_neg hc]
  · intro href
    have hpq : p ≠ e.parent := fun h => hpa (h ▸ List.mem_cons_self _ _)
    have hprest : p ∉ anc := fun h => hpa (List.mem_cons_of_mem _ h)
    obtain ⟨d', hloop, hz, hfr⟩ : ∃ d', etrunc_loop fat f s.disk e.first_clus = some d'
        ∧ (∀ c, c ∈ cs → read_fat fat d' c = 0)
        ∧ (∀ c, c ∉ cs → read_fat fat d' c = read_fat fat s.disk c) := by
      rcases hfile with ⟨h0, hnil⟩ | ⟨hch, hfirst⟩
      · refine ⟨s.disk, ?_, ?_, fun _ _ => rfl⟩
        · rw [h0]; exact etrunc_loop_stop fat f s.disk 0 (by omega)
        · intro c hc; rw [hnil] at hc; simp at hc
      · rw [hfirst]
        exact etrunc_loop_ok fat hv cs s.disk f hch (by omega)
    cases p with
    | null => simp [FS.get] at hget
    | root => exact absurd rfl hp
    | slot i =>
      have hg1 : ({ s with disk := d', lru := i :: s.lru.erase i } : FS).get (.slot i) = some e :=
        hget
      have hg3 := FS.get_set_same _ (.slot i) e
        { e with file_size := 0, first_clus := 0, dirty := 1 } hg1
      have hs4 : ∀ x, x ≠ .slot i →
          ((({ s with disk := d', lru := i :: s.lru.erase i } : FS).set (.slot i)
              { e with file_size := 0, first_clus := 0, dirty := 1 }).set (.slot i)
              { e with file_size := 0, first_clus := 0, dirty := 1, ref := e.ref - 1 }).get x
            = s.get x := by
        intro x hx
        rw [FS.get_set_other _ _ x _ hx, FS.get_set_other _ _ x _ hx]
        cases x <;> rfl
      obtain ⟨s', g1, g2, g3, g4⟩ := eput_up fat anc _ e.parent f
        (ancOK_congr anc e.parent s _ (by
          intro x hx
          apply hs4
          rcases hx with hx | hx
          · rw [hx]; exact fun h => hpq h.symm
          · exact fun h => hprest (h ▸ hx)) hanc) (by omega)
      obtain ⟨par, hpar⟩ : ∃ par, s.get e.parent = some par := by
        cases anc with
        | nil => obtain ⟨x, hx, _⟩ := hanc; exact ⟨x, hx⟩
        | cons q rest => obtain ⟨x, _, hx, _⟩ := hanc; exact ⟨x, hx⟩
      have h31 : e.ref - 1 = 0 := by omega
      refine ⟨s', ?_, ?_, ?_, ?_, par, hpar, ?_⟩
      · rw [eput_succ]
        simp only [hget]
        rw [if_pos ⟨hp, by omega, href⟩]
        simp only [if_pos hvalid, etrunc, hloop, hg3]
        rw [if_pos h31]
        exact g1
      · intro c hc
        rw [g2]
        exact hz c hc
      · intro c hc
        rw [g2]
        exact hfr c hc
      · rw [g4 _ hpq hprest, FS.get_set_same _ _ _ _ hg3, h31]
      · exact g3 par (by rw [hs4 _ (fun h => hpq h.symm)]; exact hpar)

theorem demo_anc : AncOK demo_fs demo_gone.parent [.root] :=
  ⟨demo_sub, { demo_root with ref := 1 }, rfl, by decide, rfl, by decide, by decide,
    Or.inl rfl, rfl, rfl, by decide, by decide, ⟨{ demo_root with ref := 1 }, rfl, Or.inl rfl⟩⟩

theorem eput_deferred_removal_witness :
    VolOK demo_fat ∧ demo_fs.get (.slot 0) = some demo_gone ∧ Ptr.slot 0 ≠ Ptr.root
    ∧ demo_gone.valid = -1
    ∧ IsChain demo_fat demo_fs.disk [3] ∧ demo_gone.first_clus = [3].getD 0 0
    ∧ AncOK demo_fs demo_gone.parent [.root] ∧ Ptr.slot 0 ∉ demo_gone.parent :: [Ptr.root]
    ∧ demo_gone.ref = 1
    ∧ ∃ s', eput demo_fat 4 demo_fs (.slot 0) = some s'
        ∧ (∀ c, c ∈ [3] → read_fat demo_fat s'.disk c = 0)
        ∧ (∀ c, c ∉ [3] → read_fat demo_fat s'.disk c = read_fat demo_fat demo_fs.disk c)
        ∧ s'.get (.slot 0)
            = some { demo_gone with file_size := 0, first_clus := 0, dirty := 1, ref := 0 }
        ∧ ∃ par, demo_fs.get demo_gone.parent = some par
            ∧ s'.get demo_gone.parent = some { par with ref := par.ref - 1 } :=
  ⟨demo_volOK, rfl, by decide, rfl, demo_file_chain, rfl, demo_anc, by decide, rfl,
    (eput_deferred_removal demo_fat demo_volOK demo_fs (.slot 0) demo_gone [3] [.root] 4 rfl
      (by decide) rfl (Or.inr ⟨demo_file_chain, rfl⟩) demo_anc (by decide) (by decide)).2 rfl⟩

set_option maxRecDepth 100000 in
/-- C3: the name E5 90 8D passes `formatname` unchanged; after `emake` of an entry of that name
at offset 64 of the empty root directory, the short-name record at 96 begins with 0xE5, and
`enext` at offset 64 returns -1 (end of directory), not 1. -/
theorem emake_enext_e5 :
    formatname [0xe5, 0x90, 0x8d, 0] = some [0xe5, 0x90, 0x8d]
    ∧ (emake demo_fat demo_disk demo_root demo_kanji 64).map (fun r => peek r.1 2 96 1)
        = some [EMPTY_ENTRY]
    ∧ (emake demo_fat demo_disk demo_root demo_kanji 64).bind
        (fun r => (enext demo_fat 8 r.1 r.2 Dirent.zero 64 0).map (fun x => x.ret))
        = some (-1) := by
  refine ⟨by decide, by decide, by decide⟩

set_option maxRecDepth 100000 in
/-- C2: `ealloc(root, "a", 0)` in the empty root directory.  `dirlookup` reports offset 0, the
new entry gets `off == 0`, and the record `emake` leaves at offset 0 is the short-name entry "."
with the attribute `ATTR_DIRECTORY`, followed by 0 bytes: not the long-name and short-name
records of "a".  A scan of the directory with `enext` finds one entry, called "." and with the
attribute 0x10. -/
theorem ealloc_first_entry_is_dot :
    (dirlookup demo_fat 8 demo_cache .root [0x61] (some 0)).map (fun r => (r.ret, r.poff))
        = some (.null, 0)
    ∧ (ealloc demo_fat 8 demo_cache .root [0x61, 0] 0).map
        (fun r => (peek r.1.disk 2 0 64, (r.1.get r.2).map (fun e => (e.off, cstr e.filename))))
        = some (sne_bytes (0x2e :: List.replicate 10 0x20) ATTR_DIRECTORY 0 0
                  ++ List.replicate 32 0, some (0, [0x61]))
    ∧ (ealloc demo_fat 8 demo_cache .root [0x61, 0] 0).bind
        (fun r => (enext demo_fat 8 r.1.disk r.1.root Dirent.zero 0 0).map
          (fun x => (x.ret, x.count, cstr x.ep.filename, x.ep.attr)))
        = some (1, 1, [0x2e], ATTR_DIRECTORY)
    ∧ ((emake_recs (one_char 0x61)).getD 0 []).take 2 = [0x41, 0x61] := by
  refine ⟨by decide, by decide, by decide, by decide⟩

set_option maxRecDepth 1000000 in
/-- C5: the root directory `full_dir` fills its one cluster and its only free run is the two
slots at offset 64.  `dirlookup` of the missing name "c" (which needs two slots) leaves 512, the
end of the directory, in `*poff`, not 64; `ealloc` of "c" then gives the entry `off == 512`,
links the new cluster 3 to the chain of the directory (the FAT entry of cluster 2 becomes 3) and
writes the records there, and the two slots at 64 are still free. -/
theorem dirlookup_skips_free_run :
    full_dir.length = 512
    ∧ (dirlookup demo_fat 20 full_fs .root [0x63] (some 0)).map (fun r => (r.ret, r.poff))
        = some (.null, 512)
    ∧ (ealloc demo_fat 20 full_fs .root [0x63, 0] 0).map
        (fun r => ((r.1.get r.2).map (fun e => e.off), read_fat demo_fat r.1.disk 2,
          peek r.1.disk 2 64 1, peek r.1.disk 2 96 1, peek r.1.disk 3 0 2))
        = some (some 512, 3, [EMPTY_ENTRY], [EMPTY_ENTRY], [0x41, 0x63])
    ∧ read_fat demo_fat full_fs.disk 2 = 0x0fffffff := by
  refine ⟨by decide, by decide, by decide, by decide⟩

/-! ## Rejected writes -/

/-- C11: a write that `ewrite` rejects (the entry is read-only, or `off > file_size`, or
`off + n > 2^32 - 1`) returns -1 and leaves the entry and the store (every FAT entry, every data
sector) as they were. -/
theorem ewrite_rejected_atomic (fat : Fat) (d : Disk) (e : Dirent) (cp : Copy) (off n : Nat)
    (h : e.attr &&& ATTR_READ_ONLY ≠ 0 ∨ off > e.file_size ∨ off + n > 0xffffffff) :
    ∃ w, ewrite fat d e cp off n = some w ∧ w.ret = -1 ∧ w.ent = e ∧ w.disk = d
      ∧ (∀ c, read_fat fat w.disk c = read_fat fat d c) ∧ (∀ s o, w.disk s o = d s o) := by
  refine ⟨⟨d, e, [], -1⟩, ?_, rfl, rfl, rfl, fun _ => rfl, fun _ _ => rfl⟩
  unfold ewrite
  rw [if_pos]
  rcases h with h | h | h
  · exact Or.inr (Or.inr (Or.inr h))
  · exact Or.inl h
  · exact Or.inr (Or.inr (Or.inl h))

theorem ewrite_rejected_atomic_witness :
    (demo_file13.attr &&& ATTR_READ_ONLY ≠ 0 ∨ 14 > demo_file13.file_size
      ∨ 14 + 1 > 0xffffffff)
    ∧ ∃ w, ewrite demo_fat demo_disk_file demo_file13 (Copy.kernel hello) 14 1 = some w
      ∧ w.ret = -1 ∧ w.ent = demo_file13 ∧ w.disk = demo_disk_file
      ∧ (∀ c, read_fat demo_fat w.disk c = read_fat demo_fat demo_disk_file c)
      ∧ (∀ s o, w.disk s o = demo_disk_file s o) :=
  ⟨Or.inr (Or.inl (by decide)),
    ewrite_rejected_atomic demo_fat demo_disk_file demo_file13 (Copy.kernel hello) 14 1
      (Or.inr (Or.inl (by decide)))⟩

/-! ## The checksum -/

set_option maxRecDepth 100000 in
theorem ror8_eq : ∀ x, x < 256 →
    (if x &&& 1 ≠ 0 then 0x80 else 0) + (x >>> 1) = rotate_right_8 x := by
  decide

theorem checksum_fold (s : List Nat) : ∀ (l : List Nat) (a : Nat), a < 256 →
    (∀ k, k ∈ l → s.getD k 0 < 256) →
    l.foldl (fun sum k =>
        ((if sum &&& 1 ≠ 0 then 0x80 else 0) + (sum >>> 1) + s.getD k 0 % 256) % 256) a
      = l.foldl (fun sum i => (rotate_right_8 sum + s.getD i 0) % 256) a := by
  intro l
  induction l with
  | nil => intro a _ _; rfl
  | cons k t ih =>
    intro a ha hs
    simp only [List.foldl_cons]
    rw [ror8_eq a ha, Nat.mod_eq_of_lt (hs k (List.mem_cons_self _ _))]
    exact ih _ (Nat.mod_lt _ (by omega)) (fun j hj => hs j (List.mem_cons_of_mem _ hj))

/-- C15: on an 11-byte input, `cal_checksum` is the reference checksum of the specification
(the fold of `sum := (rotate_right_8(sum) + s[i]) mod 256` over `i = 0..10` from 0), and its
value is the same for every array that holds the same 11 bytes. -/
theorem cal_checksum_is_reference (s : List Nat) (hb : ∀ k, k < 11 → s.getD k 0 < 256) :
    cal_checksum s = checksum_ref s
      ∧ ∀ t : List Nat, (∀ k, k < 11 → t.getD k 0 = s.getD k 0) →
          cal_checksum t = cal_checksum s := by
  constructor
  · unfold cal_checksum checksum_ref CHAR_SHORT_NAME
    exact checksum_fold s _ 0 (by omega) (fun k hk => hb k (by simpa using hk))
  · intro t ht
    exact cal_checksum_congr t s ht

theorem cal_checksum_is_reference_witness :
    (∀ k, k < 11 → (0x41 :: List.replicate 10 0x20).getD k 0 < 256)
    ∧ cal_checksum (0x41 :: List.replicate 10 0x20)
        = checksum_ref (0x41 :: List.replicate 10 0x20)
    ∧ ∀ t : List Nat, (∀ k, k < 11 → t.getD k 0 = (0x41 :: List.replicate 10 0x20).getD k 0) →
        cal_checksum t = cal_checksum (0x41 :: List.replicate 10 0x20) :=
  ⟨by decide, cal_checksum_is_reference (0x41 :: List.replicate 10 0x20) (by decide)⟩

/-! ## `formatname` -/

theorem dropWhile_head (p : Nat → Bool) : ∀ (s : List Nat) (c : Nat) (t : List Nat),
    s.dropWhile p = c :: t → p c = false := by
  intro s
  induction s with
  | nil => intro c t h; simp at h
  | cons a u ih =>
    intro c t h
    by_cases ha : p a = true
    · rw [List.dropWhile_cons_of_pos ha] at h
      exact ih c t h
    · rw [List.dropWhile_cons_of_neg ha] at h
      cases h
      simpa using ha

/-- The last loop of `formatname` on a string without leading space: the trailing spaces are
removed. -/
theorem trim_tail_eq (r : List Nat) (h : ∀ c t, r = c :: t → c ≠ 0x20) :
    trim_tail r = r.rdropWhile (fun c => c = 0x20) := by
  unfold trim_tail
  split
  · rename_i hall
    cases r with
    | nil => rfl
    | cons c t =>
      have := h c t rfl
      simp only [List.all_cons, Bool.and_eq_true, decide_eq_true_eq] at hall
      exact absurd hall.1 this
  · rfl

theorem rdropWhile_self (p : Nat → Bool) (l : List Nat) (h : l.rdropWhile p = l) :
    (l.rdropWhile p).rdropWhile p = l := by
  rw [h, h]

theorem rdropWhile_head (p : Nat → Bool) (r : List Nat) (c : Nat) (t : List Nat)
    (h : r.rdropWhile p = c :: t) : ∃ u, r = c :: u := by
  obtain ⟨u, hu⟩ := List.rdropWhile_prefix p r
  rw [h] at hu
  exact ⟨t ++ u, by rw [← hu]; rfl⟩

theorem formatname_eq_ref (name : List Nat) : formatname name = formatname_ref name := by
  unfold formatname formatname_ref
  simp only
  have hhead : ∀ c t, (cstr name).dropWhile (fun c => decide (c = 0x20 ∨ c = 0x2e)) = c :: t →
      c ≠ 0x20 := by
    intro c t h
    have := dropWhile_head _ _ c t h
    simp only [decide_eq_false_iff_not, not_or] at this
    exact this.1
  rw [trim_tail_eq _ hhead]
  by_cases hex : ∃ c ∈ (cstr name).dropWhile (fun c => decide (c = 0x20 ∨ c = 0x2e)),
      c < 0x20 ∨ c = 0x22 ∨ c = 0x2a ∨ c = 0x2f ∨ c = 0x3a ∨ c = 0x3c ∨ c = 0x3e
        ∨ c = 0x3f ∨ c = 0x5c ∨ c = 0x7c
  · rw [if_pos hex, if_pos]
    obtain ⟨c, hc, hb⟩ := hex
    rw [List.any_eq_true]
    exact ⟨c, hc, by simpa using hb⟩
  · rw [if_neg hex, if_neg]
    intro h
    rw [List.any_eq_true] at h
    obtain ⟨c, hc, hb⟩ := h
    exact hex ⟨c, hc, by simpa using hb⟩

/-- C14: `formatname` is its reference definition.  With `r` the input without its leading run
of spaces and dots: the result is NULL exactly when `r` contains a byte below 0x20 or one of the
nine characters; otherwise it is `r` with its trailing spaces removed, and `formatname` of that
result is the result itself. -/
theorem formatname_is_reference (name : List Nat) :
    formatname name = formatname_ref name
    ∧ (formatname name = none ↔
        ∃ c ∈ (cstr name).dropWhile (fun c => c = 0x20 ∨ c = 0x2e),
          c < 0x20 ∨ c = 0x22 ∨ c = 0x2a ∨ c = 0x2f ∨ c = 0x3a ∨ c = 0x3c ∨ c = 0x3e
            ∨ c = 0x3f ∨ c = 0x5c ∨ c = 0x7c)
    ∧ (∀ q, formatname name = some q →
        q = ((cstr name).dropWhile (fun c => c = 0x20 ∨ c = 0x2e)).rdropWhile (fun c => c = 0x20)
          ∧ formatname q = some q) := by
  refine ⟨formatname_eq_ref name, ?_, ?_⟩
  · rw [formatname_eq_ref]
    unfold formatname_ref
    simp only
    split
    · rename_i h; exact ⟨fun _ => h, fun _ => rfl⟩
    · rename_i h; exact ⟨fun hh => by simp at hh, fun hh => absurd hh h⟩
  · intro q hq
    rw [formatname_eq_ref] at hq
    unfold formatname_ref at hq
    simp only at hq
    split at hq
    · simp at hq
    · rename_i hno
      simp only [Option.some.injEq] at hq
      refine ⟨hq.symm, ?_⟩
      generalize hr : (cstr name).dropWhile (fun c => decide (c = 0x20 ∨ c = 0x2e)) = r at hq hno
      have hsub : ∀ c, c ∈ q → c ∈ r := by
        intro c hc
        rw [← hq] at hc
        exact (List.rdropWhile_prefix _ r).subset hc
      have hlegal : ∀ c, c ∈ q → ¬ (c < 0x20 ∨ c = 0x22 ∨ c = 0x2a ∨ c = 0x2f ∨ c = 0x3a
          ∨ c = 0x3c ∨ c = 0x3e ∨ c = 0x3f ∨ c = 0x5c ∨ c = 0x7c) :=
        fun c hc hb => hno ⟨c, hsub c hc, hb⟩
      have hcstr : cstr q = q := by
        unfold cstr
        rw [List.takeWhile_eq_self_iff]
        intro c hc
        have := hlegal c hc
        simp only [ne_eq, decide_not, Bool.not_eq_true', decide_eq_false_iff_not]
        omega
      have hlead : q.dropWhile (fun c => decide (c = 0x20 ∨ c = 0x2e)) = q := by
        cases hqc : q with
        | nil => rfl
        | cons c t =>
          rw [hqc] at hq
          obtain ⟨u, hu⟩ := rdropWhile_head _ r c t hq
          rw [hu] at hr
          exact List.dropWhile_cons_of_neg (by
            rw [dropWhile_head _ _ c u hr]; simp)
      have htrim : q.rdropWhile (fun c => decide (c = 0x20)) = q := by
        rw [← hq, List.rdropWhile_idempotent]
      rw [formatname_eq_ref]
      unfold formatname_ref
      simp only
      rw [hcstr, hlead, if_neg (fun ⟨c, hc, hb⟩ => hlegal c hc hb), htrim]

/-! ## The LRU scenario -/

/-- C18 fails as stated: with `NBUF = 4`, after the four pairs `bread; brelse` for the sectors
10, 11, 12, 13 the buffer 0 still holds sector 10 (valid), and the final `bread(0, 10)` returns
that buffer with `refcnt` 1 and without a device read: the log of device reads is the same four
sectors as before the call. -/
theorem lru_four_sectors_hit :
    (lru_run [10, 11, 12, 13] (binit cache4)).map
        (fun c => (buf_view c 0, c.order, c.reads))
      = some (some (0, 10, 0, 1, 10), [3, 2, 1, 0], [13, 12, 11, 10])
    ∧ ((lru_run [10, 11, 12, 13] (binit cache4)).bind (fun c => bread c 0 10)).map
        (fun r => (r.2, buf_view r.1 r.2, r.1.reads))
      = some (0, some (0, 10, 1, 1, 10), [13, 12, 11, 10]) := by
  refine ⟨by rfl, by rfl⟩

/-- C18, amended: with `NBUF = 4`, after the four pairs for the sectors 10 to 13 the four
sectors occupy the four buffers and the final `bread(0, 10)` is a hit on buffer 0, without a
device read; after a fifth pair, for sector 14, no buffer has the key `(0, 10)`, and
`bread(0, 10)` is a miss: it takes the least recently used buffer (buffer 1, which held sector
11) and fills it by a new device read of sector 10. -/
theorem lru_eviction_scenario :
    (lru_run [10, 11, 12, 13] (binit cache4)).map
        (fun c => ((List.range 4).map (buf_view c), c.order, c.reads))
      = some ([some (0, 10, 0, 1, 10), some (0, 11, 0, 1, 11), some (0, 12, 0, 1, 12),
                some (0, 13, 0, 1, 13)], [3, 2, 1, 0], [13, 12, 11, 10])
    ∧ ((lru_run [10, 11, 12, 13] (binit cache4)).bind (fun c => bread c 0 10)).map
        (fun r => (r.2, buf_view r.1 r.2, r.1.reads))
      = some (0, some (0, 10, 1, 1, 10), [13, 12, 11, 10])
    ∧ (lru_run [10, 11, 12, 13, 14] (binit cache4)).map
        (fun c => ((List.range 4).map (buf_view c), c.order, c.order.find? (has_key c 0 10),
          c.reads))
      = some ([some (0, 14, 0, 1, 14), some (0, 11, 0, 1, 11), some (0, 12, 0, 1, 12),
                some (0, 13, 0, 1, 13)], [0, 3, 2, 1], none, [14, 13, 12, 11, 10])
    ∧ ((lru_run [10, 11, 12, 13, 14] (binit cache4)).bind (fun c => bread c 0 10)).map
        (fun r => (r.2, buf_view r.1 r.2, r.1.reads))
      = some (1, some (0, 10, 1, 1, 10), [10, 14, 13, 12, 11, 10]) := by
  refine ⟨by rfl, by rfl, by rfl, by rfl⟩

/-! ## The invariant of the buffer cache -/

theorem range_fold_rev : ∀ (n : Nat),
    (List.range n).foldl (fun o i => i :: o) [] = (List.range n).reverse := by
  intro n
  have h : ∀ (l acc : List Nat), l.foldl (fun o i => i :: o) acc = l.reverse ++ acc := by
    intro l
    induction l with
    | nil => intro acc; rfl
    | cons a t ih => intro acc; simp [List.foldl_cons, ih]
  rw [h]; simp

theorem inv_binit (c : BCache) : CacheInv (binit c) := by
  unfold binit
  refine ⟨?_, ?_, ?_⟩
  · simp only [range_fold_rev]
    exact List.nodup_reverse.mpr (List.nodup_range _)
  · intro i
    simp only [range_fold_rev, List.mem_reverse, List.mem_range, List.length_map]
  · apply List.pairwise_of_forall
    intro i j bi bj _ hj _ _
    simp only [List.getElem?_map, Option.map_eq_some'] at hj
    obtain ⟨b, _, hb⟩ := hj
    rw [← hb]

theorem inv_congr (c c1 : BCache) (hb : c1.buf = c.buf) (ho : c1.order = c.order)
    (h : CacheInv c) : CacheInv c1 := by
  refine ⟨by rw [ho]; exact h.nodup, by rw [ho, hb]; exact h.perm, ?_⟩
  rw [ho]
  refine h.first.imp ?_
  intro i j hr
  unfold KeyRel at hr ⊢
  rw [hb]
  exact hr

theorem set_buf_other (c : BCache) (i a : Nat) (b : Buf) (h : a ≠ i) :
    (c.set i b).buf[a]? = c.buf[a]? := by
  unfold BCache.set
  simp only
  rw [List.getElem?_set_ne (fun e => h e.symm)]

theorem set_buf_same (c : BCache) (i : Nat) (b0 b : Buf) (h : c.buf[i]? = some b0) :
    (c.set i b).buf[i]? = some b := by
  have hi : i < c.buf.length := by
    rcases Nat.lt_or_ge i c.buf.length with hlt | hge
    · exact hlt
    · rw [List.getElem?_eq_none hge] at h; simp at h
  unfold BCache.set
  simp only
  rw [List.getElem?_set_self hi]

/-- An assignment to buffer `i` keeps the invariant when no buffer before `i` in the list has
the key `i` gets, and those after it with that key are not referenced. -/
theorem inv_update (c : BCache) (hinv : CacheInv c) (i : Nat) (b0 b : Buf)
    (hi : c.buf[i]? = some b0) (l1 l2 : List Nat) (ho : c.order = l1 ++ i :: l2)
    (h1 : ∀ a, a ∈ l1 → ∀ ba, c.buf[a]? = some ba →
      ¬ (ba.dev = b.dev ∧ ba.sectorno = b.sectorno))
    (h2 : ∀ a, a ∈ l2 → ∀ ba, c.buf[a]? = some ba → b.dev = ba.dev →
      b.sectorno = ba.sectorno → ba.refcnt = 0) :
    CacheInv (c.set i b) := by
  have hnd := hinv.nodup
  rw [ho] at hnd
  have hnd' := List.nodup_append.mp hnd
  have hi1 : i ∉ l1 := fun h => hnd'.2.2 h (List.mem_cons_self _ _)
  have hi2 : i ∉ l2 := (List.nodup_cons.mp hnd'.2.1).1
  have hfirst := hinv.first
  rw [ho, List.pairwise_append] at hfirst
  obtain ⟨hp1, hp2, hp12⟩ := hfirst
  rw [List.pairwise_cons] at hp2
  have hne1 : ∀ a, a ∈ l1 → a ≠ i := fun a ha e => hi1 (e ▸ ha)
  have hne2 : ∀ a, a ∈ l2 → a ≠ i := fun a ha e => hi2 (e ▸ ha)
  have hkeep : ∀ a b', a ≠ i → b' ≠ i → KeyRel c a b' → KeyRel (c.set i b) a b' := by
    intro a b' ha hb hr
    unfold KeyRel at hr ⊢
    rw [set_buf_other c i a b ha, set_buf_other c i b' b hb]
    exact hr
  refine ⟨hinv.nodup, ?_, ?_⟩
  · intro a
    have := hinv.perm a
    unfold BCache.set
    simpa using this
  · show List.Pairwise (KeyRel (c.set i b)) c.order
    rw [ho, List.pairwise_append]
    refine ⟨?_, ?_, ?_⟩
    · exact hp1.imp_of_mem (fun {a b'} ha hb hr => hkeep a b' (hne1 a ha) (hne1 b' hb) hr)
    · rw [List.pairwise_cons]
      refine ⟨?_, hp2.2.imp_of_mem
        (fun {a b'} ha hb hr => hkeep a b' (hne2 a ha) (hne2 b' hb) hr)⟩
      intro a ha bi ba hbi hba hd hs
      rw [set_buf_same c i b0 b hi] at hbi
      cases hbi
      rw [set_buf_other c i a b (hne2 a ha)] at hba
      exact h2 a ha ba hba hd hs
    · intro a ha b' hb'
      rcases List.mem_cons.mp hb' with e | hb2
      · subst e
        intro ba bi hba hbi hd hs
        rw [set_buf_same c b' b0 b hi] at hbi
        cases hbi
        rw [set_buf_other c b' a b (hne1 a ha)] at hba
        exact absurd ⟨hd, hs⟩ (h1 a ha ba hba)
      · exact hkeep a b' (hne1 a ha) (hne2 b' hb2) (hp12 a ha b' (List.mem_cons_of_mem _ hb2))

/-- A referenced buffer is the first of the list with its key, and the later buffers with
that key are not referenced. -/
theorem held_first (c : BCache) (hinv : CacheInv c) (i : Nat) (b0 : Buf)
    (hi : c.buf[i]? = some b0) (hr : 0 < b0.refcnt) :
    ∃ l1 l2, c.order = l1 ++ i :: l2
      ∧ (∀ a, a ∈ l1 → ∀ ba, c.buf[a]? = some ba →
          ¬ (ba.dev = b0.dev ∧ ba.sectorno = b0.sectorno))
      ∧ (∀ a, a ∈ l2 → ∀ ba, c.buf[a]? = some ba → b0.dev = ba.dev →
          b0.sectorno = ba.sectorno → ba.refcnt = 0) := by
  have hlt : i < c.buf.length := by
    rcases Nat.lt_or_ge i c.buf.length with hlt | hge
    · exact hlt
    · rw [List.getElem?_eq_none hge] at hi; simp at hi
  obtain ⟨l1, l2, ho⟩ := List.append_of_mem ((hinv.perm i).mpr hlt)
  have hfirst := hinv.first
  rw [ho, List.pairwise_append, List.pairwise_cons] at hfirst
  obtain ⟨_, hp2, hp12⟩ := hfirst
  refine ⟨l1, l2, ho, ?_, ?_⟩
  · intro a ha ba hba hk
    have := hp12 a ha i (List.mem_cons_self _ _) ba b0 hba hi hk.1 hk.2
    omega
  · intro a ha ba hba hd hs
    exact hp2.1 a ha b0 ba hi hba hd hs

/-- A change of the `refcnt` of a referenced buffer keeps the invariant. -/
theorem inv_refcnt (c : BCache) (hinv : CacheInv c) (i : Nat) (b0 : Buf)
    (hi : c.buf[i]? = some b0) (hr : 0 < b0.refcnt) (r : Nat) :
    CacheInv (c.set i { b0 with refcnt := r }) := by
  obtain ⟨l1, l2, ho, h1, h2⟩ := held_first c hinv i b0 hi hr
  exact inv_update c hinv i b0 _ hi l1 l2 ho h1 h2

/-- An assignment to a buffer that keeps its key and `refcnt` keeps the invariant. -/
theorem inv_same (c : BCache) (hinv : CacheInv c) (i : Nat) (b0 b : Buf)
    (hi : c.buf[i]? = some b0) (hd : b.dev = b0.dev) (hs : b.sectorno = b0.sectorno)
    (hr : b.refcnt = b0.refcnt) : CacheInv (c.set i b) := by
  have hold : ∀ (x : Nat) (bx : Buf), (c.set i b).buf[x]? = some bx →
      ∃ bx0 : Buf, c.buf[x]? = some bx0 ∧ bx.dev = bx0.dev ∧ bx.sectorno = bx0.sectorno
        ∧ bx.refcnt = bx0.refcnt := by
    intro x bx hx
    by_cases e : x = i
    · subst e
      rw [set_buf_same c x b0 b hi] at hx
      cases hx
      exact ⟨b0, hi, hd, hs, hr⟩
    · rw [set_buf_other c i x b e] at hx
      exact ⟨bx, hx, rfl, rfl, rfl⟩
  refine ⟨hinv.nodup, ?_, ?_⟩
  · intro a
    have := hinv.perm a
    unfold BCache.set
    simpa using this
  · show List.Pairwise (KeyRel (c.set i b)) c.order
    refine hinv.first.imp ?_
    intro x y hxy bx by_ hbx hby hdd hss
    obtain ⟨bx0, hx0, e1, e2, _⟩ := hold x bx hbx
    obtain ⟨by0, hy0, f1, f2, f3⟩ := hold y by_ hby
    rw [f3]
    exact hxy bx0 by0 hx0 hy0 (by rw [← e1, ← f1, hdd]) (by rw [← e2, ← f2, hss])

theorem inv_bget (c c1 : BCache) (dev sectorno i : Nat) (hinv : CacheInv c)
    (h : bget c dev sectorno = some (c1, i)) : CacheInv c1 := by
  unfold bget at h
  split at h
  · rename_i k hk
    split at h
    · rename_i bk hbk
      simp only [Option.some.injEq, Prod.mk.injEq] at h
      obtain ⟨h, _⟩ := h
      subst h
      obtain ⟨hp, l1, l2, ho, hbefore⟩ := List.find?_eq_some.mp hk
      have hkey : bk.dev = dev ∧ bk.sectorno = sectorno := by
        unfold has_key at hp
        rw [hbk] at hp
        simpa using hp
      have hfirst := hinv.first
      rw [ho, List.pairwise_append, List.pairwise_cons] at hfirst
      refine inv_update c hinv k bk _ hbk l1 l2 ho ?_ ?_
      · intro a ha ba hba hkk
        have := hbefore a ha
        unfold has_key at this
        rw [hba] at this
        simp only [Bool.not_eq_true', decide_eq_false_iff_not] at this
        exact this ⟨by rw [hkk.1]; exact hkey.1, by rw [hkk.2]; exact hkey.2⟩
      · intro a ha ba hba hd hs
        exact hfirst.2.1.1 a ha bk ba hbk hba hd hs
    · simp at h
  · rename_i hnone
    split at h
    · rename_i k hk
      split at h
      · rename_i bk hbk
        simp only [Option.some.injEq, Prod.mk.injEq] at h
        obtain ⟨h, _⟩ := h
        subst h
        have hmem : k ∈ c.order := List.mem_reverse.mp (List.mem_of_find?_eq_some hk)
        obtain ⟨l1, l2, ho⟩ := List.append_of_mem hmem
        have hno : ∀ a, a ∈ c.order → ∀ ba, c.buf[a]? = some ba →
            ¬ (ba.dev = dev ∧ ba.sectorno = sectorno) := by
          intro a ha ba hba hkk
          have := (List.find?_eq_none.mp hnone) a ha
          unfold has_key at this
          rw [hba] at this
          simp only [decide_eq_true_eq] at this
          exact this hkk
        refine inv_update c hinv k bk _ hbk l1 l2 ho ?_ ?_
        · intro a ha ba hba hkk
          exact hno a (by rw [ho]; exact List.mem_append_left _ ha) ba hba hkk
        · intro a ha ba hba hd hs
          exact absurd ⟨hd.symm, hs.symm⟩
            (hno a (by rw [ho]; exact List.mem_append_right _ (List.mem_cons_of_mem _ ha)) ba hba)
      · simp at h
    · simp at h

theorem inv_disk_read (c : BCache) (hinv : CacheInv c) (i : Nat) :
    CacheInv (disk_read c i) := by
  unfold disk_read
  split
  · rename_i b hb
    exact inv_congr (c.set i { b with data := c.device b.sectorno }) _ rfl rfl
      (inv_same c hinv i b _ hb rfl rfl rfl)
  · exact hinv

theorem inv_bread (c c1 : BCache) (dev sectorno i : Nat) (hinv : CacheInv c)
    (h : bread c dev sectorno = some (c1, i)) : CacheInv c1 := by
  unfold bread at h
  split at h
  · simp at h
  · rename_i c0 k hg
    have h0 := inv_bget c c0 dev sectorno k hinv hg
    split at h
    · simp at h
    · rename_i b hb
      split at h
      · split at h
        · rename_i b1 hb1
          simp only [Option.some.injEq, Prod.mk.injEq] at h
          rw [← h.1]
          exact inv_same _ (inv_disk_read c0 h0 k) k b1 _ hb1 rfl rfl rfl
        · simp at h
      · simp only [Option.some.injEq, Prod.mk.injEq] at h
        rw [← h.1]
        exact h0

/-- Moving to `head.next` a buffer that no buffer before it in the list shares its key with
keeps the invariant. -/
theorem inv_front (c : BCache) (hinv : CacheInv c) (i : Nat) (b0 : Buf)
    (hi : c.buf[i]? = some b0) (l1 l2 : List Nat) (ho : c.order = l1 ++ i :: l2)
    (h1 : ∀ a, a ∈ l1 → ∀ ba, c.buf[a]? = some ba →
      ¬ (ba.dev = b0.dev ∧ ba.sectorno = b0.sectorno)) :
    CacheInv { c with order := i :: c.order.erase i } := by
  have hnd := hinv.nodup
  have hmem : i ∈ c.order := by rw [ho]; simp
  have hfirst := hinv.first
  rw [ho, List.pairwise_append, List.pairwise_cons] at hfirst
  have hnd2 := hnd
  rw [ho] at hnd2
  have hi1 : i ∉ l1 := fun h =>
    (List.nodup_append.mp hnd2).2.2 h (List.mem_cons_self _ _)
  have her : c.order.erase i = l1 ++ l2 := by
    rw [ho, List.erase_append_right _ hi1, List.erase_cons_head]
  refine ⟨?_, ?_, ?_⟩
  · show (i :: c.order.erase i).Nodup
    rw [List.nodup_cons]
    exact ⟨fun h => ((hnd.mem_erase_iff).mp h).1 rfl, hnd.erase i⟩
  · intro a
    show a ∈ i :: c.order.erase i ↔ a < c.buf.length
    rw [← hinv.perm a, List.mem_cons, hnd.mem_erase_iff]
    constructor
    · rintro (e | ⟨_, h⟩)
      · rw [e]; exact hmem
      · exact h
    · intro h
      by_cases e : a = i
      · exact Or.inl e
      · exact Or.inr ⟨e, h⟩
  · show List.Pairwise (KeyRel c) (i :: c.order.erase i)
    rw [her, List.pairwise_cons]
    refine ⟨?_, ?_⟩
    · intro a ha bi ba hbi hba hd hs
      rw [hi] at hbi
      cases hbi
      rcases List.mem_append.mp ha with h | h
      · exact absurd ⟨hd.symm, hs.symm⟩ (h1 a h ba hba)
      · exact hfirst.2.1.1 a h _ ba hi hba hd hs
    · rw [List.pairwise_append]
      exact ⟨hfirst.1, hfirst.2.1.2,
        fun a ha b hb => hfirst.2.2 a ha b (List.mem_cons_of_mem _ hb)⟩

theorem inv_brelse (c c1 : BCache) (i : Nat) (hinv : CacheInv c) (hh : Held c i)
    (h : brelse c i = some c1) : CacheInv c1 := by
  obtain ⟨b0, hi, hr⟩ := hh
  unfold brelse at h
  rw [hi] at h
  simp only at h
  have h0 := inv_refcnt c hinv i b0 hi hr ((b0.refcnt + U32 - 1) % U32)
  split at h
  · simp only [Option.some.injEq] at h
    rw [← h]
    obtain ⟨l1, l2, ho, h1, _⟩ := held_first c hinv i b0 hi hr
    have hnd := hinv.nodup
    rw [ho] at hnd
    have hi1 : i ∉ l1 := fun h =>
      (List.nodup_append.mp hnd).2.2 h (List.mem_cons_self _ _)
    refine inv_front _ h0 i _ (set_buf_same c i b0 _ hi) l1 l2 ho ?_
    intro a ha ba hba
    rw [set_buf_other c i a _ (fun e => hi1 (e ▸ ha))] at hba
    exact h1 a ha ba hba
  · simp only [Option.some.injEq] at h
    rw [← h]
    exact h0

theorem inv_bpin (c c1 : BCache) (i : Nat) (hinv : CacheInv c) (hh : Held c i)
    (h : bpin c i = some c1) : CacheInv c1 := by
  obtain ⟨b0, hi, hr⟩ := hh
  unfold bpin at h
  rw [hi] at h
  simp only [Option.some.injEq] at h
  rw [← h]
  exact inv_refcnt c hinv i b0 hi hr _

theorem inv_bunpin (c c1 : BCache) (i : Nat) (hinv : CacheInv c) (hh : Held c i)
    (h : bunpin c i = some c1) : CacheInv c1 := by
  obtain ⟨b0, hi, hr⟩ := hh
  unfold bunpin at h
  rw [hi] at h
  simp only [Option.some.injEq] at h
  rw [← h]
  exact inv_refcnt c hinv i b0 hi hr _

theorem reach_inv (c : BCache) (h : Reach c) : CacheInv c := by
  induction h with
  | init c => exact inv_binit c
  | bread c c1 dev sectorno i _ hb ih => exact inv_bread c c1 dev sectorno i ih hb
  | brelse c c1 i _ hh hb ih => exact inv_brelse c c1 i ih hh hb
  | bpin c c1 i _ hh hb ih => exact inv_bpin c c1 i ih hh hb
  | bunpin c c1 i _ hh hb ih => exact inv_bunpin c c1 i ih hh hb

theorem pairwise_or (R : Nat → Nat → Prop) : ∀ (l : List Nat), l.Pairwise R →
    ∀ a b, a ∈ l → b ∈ l → a ≠ b → R a b ∨ R b a := by
  intro l
  induction l with
  | nil => intro _ a b ha; simp at ha
  | cons x t ih =>
    intro hp a b ha hb hne
    rw [List.pairwise_cons] at hp
    rcases List.mem_cons.mp ha with ea | ha
    · rcases List.mem_cons.mp hb with eb | hb
      · exact absurd (ea.trans eb.symm) hne
      · exact Or.inl (ea ▸ hp.1 b hb)
    · rcases List.mem_cons.mp hb with eb | hb
      · exact Or.inr (eb ▸ hp.1 a ha)
      · exact ih hp.2 a b ha hb hne

/-- A call of `bget` leaves the key of every referenced buffer as it is. -/
theorem bget_keeps_key (c c1 : BCache) (dev sectorno k : Nat)
    (h : bget c dev sectorno = some (c1, k)) (i : Nat) (b : Buf) (hi : c.buf[i]? = some b)
    (hr : 0 < b.refcnt) :
    ∃ b1, c1.buf[i]? = some b1 ∧ b1.dev = b.dev ∧ b1.sectorno = b.sectorno := by
  unfold bget at h
  split at h
  · rename_i j hj
    split at h
    · rename_i bj hbj
      simp only [Option.some.injEq, Prod.mk.injEq] at h
      rw [← h.1]
      by_cases e : i = j
      · subst e
        rw [hi] at hbj
        cases hbj
        exact ⟨_, set_buf_same c i b _ hi, rfl, rfl⟩
      · exact ⟨b, by rw [set_buf_other c j i _ e]; exact hi, rfl, rfl⟩
    · simp at h
  · split at h
    · rename_i j hj
      split at h
      · rename_i bj hbj
        simp only [Option.some.injEq, Prod.mk.injEq] at h
        rw [← h.1]
        have hfree := List.find?_some hj
        unfold is_free at hfree
        rw [hbj] at hfree
        simp only [decide_eq_true_eq] at hfree
        have e : i ≠ j := by
          intro e
          subst e
          rw [hi] at hbj
          cases hbj
          omega
        exact ⟨b, by rw [set_buf_other c j i _ e]; exact hi, rfl, rfl⟩
      · simp at h
    · simp at h

/-- C17: in every state of the cache reachable from `binit` through `bread`, and `brelse`,
`bpin`, `bunpin` on buffers the caller holds, two buffers with the same `(dev, sectorno)` and
`refcnt > 0` are the same buffer, and a call of `bget` leaves the `(dev, sectorno)` of every
buffer with `refcnt > 0` as it is. -/
theorem bcache_unique (c : BCache) (h : Reach c) :
    (∀ (i j : Nat) (bi bj : Buf), c.buf[i]? = some bi → c.buf[j]? = some bj → bi.dev = bj.dev →
        bi.sectorno = bj.sectorno → 0 < bi.refcnt → 0 < bj.refcnt → i = j)
    ∧ (∀ (dev sectorno : Nat) (c1 : BCache) (k : Nat), bget c dev sectorno = some (c1, k) →
        ∀ (i : Nat) (b : Buf), c.buf[i]? = some b → 0 < b.refcnt →
          ∃ b1 : Buf, c1.buf[i]? = some b1 ∧ b1.dev = b.dev ∧ b1.sectorno = b.sectorno) := by
  have hinv := reach_inv c h
  refine ⟨?_, fun dev sectorno c1 k hg i b hi hr => bget_keeps_key c c1 dev sectorno k hg i b hi hr⟩
  intro i j bi bj hi hj hd hs hri hrj
  by_contra hne
  have hlt : ∀ x (bx : Buf), c.buf[x]? = some bx → x ∈ c.order := by
    intro x bx hx
    refine (hinv.perm x).mpr ?_
    rcases Nat.lt_or_ge x c.buf.length with hlt | hge
    · exact hlt
    · rw [List.getElem?_eq_none hge] at hx; simp at hx
  rcases pairwise_or _ _ hinv.first i j (hlt i bi hi) (hlt j bj hj) hne with hk | hk
  · have := hk bi bj hi hj hd hs
    omega
  · have := hk bj bi hj hi hd.symm hs.symm
    omega

theorem bcache_unique_witness :
    Reach held4
    ∧ (∀ (i j : Nat) (bi bj : Buf), held4.buf[i]? = some bi → held4.buf[j]? = some bj → bi.dev = bj.dev →
        bi.sectorno = bj.sectorno → 0 < bi.refcnt → 0 < bj.refcnt → i = j)
    ∧ (∀ (dev sectorno : Nat) (c1 : BCache) (k : Nat), bget held4 dev sectorno = some (c1, k) →
        ∀ (i : Nat) (b : Buf), held4.buf[i]? = some b → 0 < b.refcnt →
          ∃ b1 : Buf, c1.buf[i]? = some b1 ∧ b1.dev = b.dev ∧ b1.sectorno = b.sectorno) :=
  ⟨Reach.bread (binit cache4) held4 0 10 0 (Reach.init cache4) rfl,
    bcache_unique held4 (Reach.bread (binit cache4) held4 0 10 0 (Reach.init cache4) rfl)⟩

/-! ## What `reloc_clus` and `ewrite` do to the fields of the entry -/

theorem reloc_fwd_same (fat : Fat) (alloc : Bool) : ∀ (k : Nat) (d : Disk) (e : Dirent)
    (d1 : Disk) (e1 : Dirent) (b : Bool),
    reloc_fwd fat alloc k d e = some (d1, e1, b) → SameFile e e1 := by
  intro k
  induction k with
  | zero =>
    intro d e d1 e1 b h
    simp only [reloc_fwd, Option.some.injEq, Prod.mk.injEq] at h
    rw [← h.2.1]
    exact sameFile_refl e
  | succ k ih =>
    intro d e d1 e1 b h
    simp only [reloc_fwd] at h
    split at h
    · split at h
      · split at h
        · simp at h
        · exact sameFile_trans (sameFile_moved e _ _) (ih _ _ _ _ _ h)
      · simp only [Option.some.injEq, Prod.mk.injEq] at h
        rw [← h.2.1]
        exact sameFile_moved e _ _
    · exact sameFile_trans (sameFile_moved e _ _) (ih _ _ _ _ _ h)

theorem reloc_back_same (fat : Fat) (d : Disk) : ∀ (k : Nat) (e e1 : Dirent),
    reloc_back fat d k e = some e1 → SameFile e e1 := by
  intro k
  induction k with
  | zero =>
    intro e e1 h
    simp only [reloc_back, Option.some.injEq] at h
    rw [← h]
    exact sameFile_refl e
  | succ k ih =>
    intro e e1 h
    simp only [reloc_back] at h
    split at h
    · simp at h
    · exact sameFile_trans (sameFile_moved e _ _) (ih _ _ h)

/-- Whenever `reloc_clus` returns, only the cursor of the entry has changed. -/
theorem reloc_clus_same (fat : Fat) (d : Disk) (e : Dirent) (off : Nat) (alloc : Bool)
    (r : RelocRes) (h : reloc_clus fat d e off alloc = some r) : SameFile e r.ent := by
  unfold reloc_clus at h
  simp only at h
  split at h
  · simp at h
  · rename_i d1 e1 hf
    simp only [Option.some.injEq] at h
    rw [← h]
    exact reloc_fwd_same fat alloc _ d e d1 e1 false hf
  · rename_i d1 e1 hf
    have h1 := reloc_fwd_same fat alloc _ d e d1 e1 true hf
    split at h
    · split at h
      · simp at h
      · rename_i e2 hb
        simp only [Option.some.injEq] at h
        rw [← h]
        exact sameFile_trans h1 (sameFile_trans (sameFile_moved e1 _ _)
          (reloc_back_same fat d1 _ _ e2 hb))
    · simp only [Option.some.injEq] at h
      rw [← h]
      exact h1

/-- The loop of `ewrite`, whatever the copy does: when it returns, the count `tot` has grown
by what `off` has grown, it is at most `n`, and only the cursor of the entry has changed. -/
theorem ewrite_loop_book (fat : Fat) (cp : Copy) (n : Nat) (hn : n < U32) :
    ∀ (fuel : Nat) (d : Disk) (e : Dirent) (off tot : Nat) (d2 : Disk) (e2 : Dirent)
      (off2 tot2 : Nat),
      ewrite_loop fat cp n fuel d e off tot = some (d2, e2, off2, tot2) → tot ≤ n →
      off + (n - tot) < U32 →
      tot ≤ tot2 ∧ tot2 ≤ n ∧ off2 = off + (tot2 - tot) ∧ SameFile e e2 := by
  intro fuel
  induction fuel with
  | zero =>
    intro d e off tot d2 e2 off2 tot2 h hle _
    simp only [ewrite_loop] at h
    split at h
    · simp at h
    · simp only [Option.some.injEq, Prod.mk.injEq] at h
      obtain ⟨_, h2, h3, h4⟩ := h
      subst h2 h3 h4
      exact ⟨Nat.le_refl _, hle, by omega, sameFile_refl e⟩
  | succ k ih =>
    intro d e off tot d2 e2 off2 tot2 h hle hwr
    simp only [ewrite_loop] at h
    split at h
    · rename_i hlt
      split at h
      · simp at h
      · rename_i r hr
        have hs := reloc_clus_same fat d e off true r hr
        generalize hmdef : (if n - tot < fat.byts_per_clus - off % fat.byts_per_clus then n - tot
          else fat.byts_per_clus - off % fat.byts_per_clus) = m at h
        have hm : m ≤ n - tot := by rw [← hmdef]; split <;> omega
        split at h
        · simp at h
        · rename_i w hw
          split at h
          · simp only [Option.some.injEq, Prod.mk.injEq] at h
            obtain ⟨_, h2, h3, h4⟩ := h
            subst h2 h3 h4
            exact ⟨Nat.le_refl _, hle, by omega, hs⟩
          · rw [Nat.mod_eq_of_lt (by omega : off + m < U32),
              Nat.mod_eq_of_lt (by omega : tot + m < U32)] at h
            obtain ⟨g1, g2, g3, g4⟩ := ih _ _ _ _ _ _ _ _ h (by omega) (by omega)
            exact ⟨by omega, g2, by omega, sameFile_trans hs g4⟩
    · simp only [Option.some.injEq, Prod.mk.injEq] at h
      obtain ⟨_, h2, h3, h4⟩ := h
      subst h2 h3 h4
      exact ⟨Nat.le_refl _, hle, by omega, sameFile_refl e⟩

/-- An accepted call of `ewrite`, whatever the copy does: when it returns, with `tot` the
number of bytes written (at most `n`), the value returned is `tot` as an `int`, `file_size` is
the larger of its old value and `off + tot`, `dirty` is 1 if `file_size` has grown, and a first
cluster the file had is kept. -/
theorem ewrite_book (fat : Fat) (d : Disk) (e : Dirent) (cp : Copy) (off n : Nat) (w : IoRes)
    (hle : off ≤ e.file_size) (hsum : off + n ≤ 0xffffffff)
    (hrw : e.attr &&& ATTR_READ_ONLY = 0) (h : ewrite fat d e cp off n = some w) :
    ∃ tot, tot ≤ n ∧ w.ret = toInt32 tot
      ∧ w.ent.file_size = max e.file_size (off + tot)
      ∧ (e.file_size < w.ent.file_size → w.ent.dirty = 1)
      ∧ w.ent.attr = e.attr
      ∧ (e.first_clus ≠ 0 → w.ent.first_clus = e.first_clus) := by
  have hg : ¬ (off > e.file_size ∨ (off + n) % U32 < off ∨ off + n > 0xffffffff
      ∨ e.attr &&& ATTR_READ_ONLY ≠ 0) := by
    rw [Nat.mod_eq_of_lt (by unfold U32; omega)]
    simp only [hrw, ne_eq, not_true_eq_false, or_false]
    omega
  have hnU : n < U32 := by unfold U32; omega
  unfold ewrite at h
  rw [if_neg hg] at h
  split at h
  · simp at h
  · rename_i d1 e1 hst
    have hfs1 : e1.file_size = e.file_size ∧ e1.attr = e.attr
        ∧ (e.first_clus ≠ 0 → e1.first_clus = e.first_clus) := by
      unfold ewrite_first at hst
      split at hst
      · rename_i h0
        split at hst
        · simp at hst
        · simp only [Option.some.injEq, Prod.mk.injEq] at hst
          rw [← hst.2]
          exact ⟨rfl, rfl, fun hne => absurd h0 hne⟩
      · simp only [Option.some.injEq, Prod.mk.injEq] at hst
        rw [← hst.2]
        exact ⟨rfl, rfl, fun _ => rfl⟩
    split at h
    · simp at h
    · rename_i d2 e2 off2 tot hloop
      obtain ⟨_, g2, g3, g4⟩ := ewrite_loop_book fat cp n hnU n d1 e1 off 0 d2 e2 off2 tot hloop
        (Nat.zero_le _) (by unfold U32; omega)
      rw [Nat.sub_zero] at g3
      have hfs2 : e2.file_size = e.file_size := by rw [g4.file_size, hfs1.1]
      simp only [Option.some.injEq] at h
      rw [← h]
      refine ⟨tot, g2, rfl, ?_, ?_, ?_, ?_⟩
      · simp only
        split
        · rename_i hc
          simp only
          rw [hfs2] at hc
          rw [g3, Nat.max_eq_right (by omega)]
        · rename_i hc
          rw [hfs2] at hc ⊢
          rw [Nat.max_eq_left (by omega)]
      · simp only
        split
        · intro _; rfl
        · intro hlt; rw [hfs2] at hlt; omega
      · simp only
        split
        · show e2.attr = e.attr
          rw [g4.attr, hfs1.2.1]
        · rw [g4.attr, hfs1.2.1]
      · intro hne
        simp only
        split
        · show e2.first_clus = e.first_clus
          rw [g4.first_clus, hfs1.2.2 hne]
        · rw [g4.first_clus, hfs1.2.2 hne]

/-- A write without copy fault into a file whose chain already covers it: the value returned
and the new `file_size`. -/
theorem ewrite_cover (fat : Fat) (hv : VolOK fat) (d : Disk) (e : Dirent) (cs : List Nat)
    (cp : Copy) (hbad : ∀ a m, cp.bad a m = false) (off n : Nat)
    (hrw : e.attr &&& ATTR_READ_ONLY = 0) (hf : FileOK fat d e cs) (hr : RsvdOK fat d)
    (hpos : 0 < n) (hcov : (off + n - 1) / fat.byts_per_clus < cs.length)
    (hle : off ≤ e.file_size) (hsum : off + n ≤ 0xffffffff) :
    ∃ d1 e1, ewrite fat d e cp off n = some ⟨d1, e1, [], toInt32 n⟩
      ∧ e1.file_size = (if off + n > e.file_size then off + n else e.file_size) := by
  have hg : ¬ (off > e.file_size ∨ (off + n) % U32 < off ∨ off + n > 0xffffffff
      ∨ e.attr &&& ATTR_READ_ONLY ≠ 0) := by
    rw [Nat.mod_eq_of_lt (by unfold U32; omega)]
    simp only [hrw, ne_eq, not_true_eq_false, or_false]
    omega
  have hnU : n < U32 := by unfold U32; omega
  have hne : e.first_clus ≠ 0 := by
    have h0 := (hf.chain.valid 0 hf.chain.pos).1
    rw [hf.cur.1]
    omega
  have hst : ewrite_first fat d e = some (d, e) := by
    unfold ewrite_first
    rw [if_neg hne]
  obtain ⟨d2, e2, a2, hloop, _, _, hsf2, _⟩ :=
    ewrite_loop_ok fat hv cp hbad n hnU n d cs e off 0 hf hr (by omega) (by omega)
      (by unfold U32; omega) (by
        intro _
        rw [Nat.sub_zero]
        omega)
  unfold ewrite
  rw [if_neg hg]
  simp only
  rw [hst]
  simp only
  rw [hloop]
  simp only [Nat.sub_zero]
  refine ⟨d2, _, rfl, ?_⟩
  rw [hsf2.file_size]
  split
  · rename_i hc
    rw [if_pos hc.2]
  · rename_i hc
    rw [hsf2.file_size, if_neg (fun h => hc ⟨hpos, h⟩)]

/-- C12, amended: for every write `ewrite` accepts and returns from, whatever the copy does
(also when a copy fault cuts it short), with `tot ≤ n` the number of bytes written: the value
returned is `tot` converted to `int` (so it is `tot` when `tot < 2^31`), `file_size` afterwards
is `max(old file_size, off + tot)`, and `dirty` is set whenever `file_size` grew.  When the value
returned `k` is not negative, `file_size` is `max(old file_size, off + k)`. -/
theorem ewrite_high_water (fat : Fat) (d : Disk) (e : Dirent) (cp : Copy) (off n : Nat)
    (w : IoRes) (hle : off ≤ e.file_size) (hsum : off + n ≤ 0xffffffff)
    (hrw : e.attr &&& ATTR_READ_ONLY = 0) (h : ewrite fat d e cp off n = some w) :
    ∃ tot, tot ≤ n ∧ w.ret = toInt32 tot ∧ (tot < 2147483648 → w.ret = (tot : Int))
      ∧ w.ent.file_size = max e.file_size (off + tot)
      ∧ (e.file_size < w.ent.file_size → w.ent.dirty = 1)
      ∧ (0 ≤ w.ret → w.ent.file_size = max e.file_size (off + w.ret.toNat)) := by
  obtain ⟨tot, h1, h2, h3, h4, _, _⟩ := ewrite_book fat d e cp off n w hle hsum hrw h
  have hU : tot < U32 := by unfold U32; omega
  refine ⟨tot, h1, h2, fun hlt => by rw [h2, toInt32_of_lt tot hlt], h3, h4, ?_⟩
  intro hnn
  rw [h2] at hnn
  have hlt := toInt32_nonneg tot hU hnn
  rw [h2, toInt32_of_lt tot hlt, Int.toNat_ofNat]
  exact h3

set_option maxRecDepth 100000 in
theorem ewrite_high_water_witness :
    (0 ≤ demo_file.file_size ∧ 0 + 600 ≤ 0xffffffff ∧ demo_file.attr &&& ATTR_READ_ONLY = 0)
    ∧ ∃ w, ewrite demo_fat demo_disk demo_file faulty 0 600 = some w
      ∧ w.ret = 512 ∧ w.ent.file_size = 512 ∧ w.ent.dirty = 1
      ∧ ∃ tot, tot ≤ 600 ∧ w.ret = toInt32 tot ∧ (tot < 2147483648 → w.ret = (tot : Int))
        ∧ w.ent.file_size = max demo_file.file_size (0 + tot)
        ∧ (demo_file.file_size < w.ent.file_size → w.ent.dirty = 1)
        ∧ (0 ≤ w.ret → w.ent.file_size = max demo_file.file_size (0 + w.ret.toNat)) := by
  have hs : (ewrite demo_fat demo_disk demo_file faulty 0 600).map
      (fun w => (w.ret, w.ent.file_size, w.ent.dirty)) = some (512, 512, 1) := by decide
  cases hw : ewrite demo_fat demo_disk demo_file faulty 0 600 with
  | none => rw [hw] at hs; simp at hs
  | some w =>
    rw [hw] at hs
    simp only [Option.map_some', Option.some.injEq, Prod.mk.injEq] at hs
    exact ⟨⟨by decide, by decide, by decide⟩, w, rfl, hs.1, hs.2.1, hs.2.2,
      ewrite_high_water demo_fat demo_disk demo_file faulty 0 600 w (by decide) (by decide)
        (by decide) hw⟩

theorem big_file2_ok : FileOK big_fat big_disk big_file2 big_chain := by
  have hlen : big_chain.length = 32768 := by unfold big_chain; simp
  refine ⟨big_is_chain, ?_, ?_⟩
  · rw [hlen, big_chain_get 32767 (by omega),
      read_fat_eq big_fat big_volOK _ 32769 (by decide), big_ent 32769 (by omega)]
    decide
  · exact ⟨by rw [big_chain_get 0 (by omega)]; rfl, by rw [hlen]; decide,
      by rw [show big_file2.clus_cnt = 0 from rfl, big_chain_get 0 (by omega)]; rfl⟩

/-- C12 fails as stated for a count of 2^31 or more: on the large volume, the write of 2^31
bytes at offset 0 of the file of 2^31 - 1 bytes is accepted and returns `k = -2147483648`;
`file_size` becomes 2147483648, not `max(old file_size, off + k) = 2147483647`. -/
theorem ewrite_high_water_counterexample :
    ∃ d1 e1, ewrite big_fat big_disk big_file2 (Copy.kernel (fun _ => 0)) 0 2147483648
        = some ⟨d1, e1, [], -2147483648⟩
      ∧ e1.file_size = 2147483648
      ∧ max (big_file2.file_size : Int) (0 + (-2147483648)) = 2147483647 := by
  have hlen : big_chain.length = 32768 := by unfold big_chain; simp
  have hr : RsvdOK big_fat big_disk := by
    constructor
    · rw [big_ent 0 (by omega)]; decide
    · rw [big_ent 1 (by omega)]; decide
  obtain ⟨d1, e1, h1, h2⟩ := ewrite_cover big_fat big_volOK big_disk big_file2 big_chain
    (Copy.kernel (fun _ => 0)) (fun _ _ => rfl) 0 2147483648 (by decide) big_file2_ok hr
    (by decide) (by rw [hlen]; decide) (by decide) (by decide)
  refine ⟨d1, e1, ?_, ?_, by decide⟩
  · rw [h1]
    have : toInt32 2147483648 = -2147483648 := by decide
    rw [this]
  · rw [h2]
    decide

/-! ## The cursor after `etrunc` -/

set_option maxRecDepth 100000 in
/-- C20: the live entry `demo_file13` (one cluster, 3; cursor on it with `clus_cnt == 0`)
satisfies the cursor invariant; after `etrunc` its `first_clus` is 0 while `cur_clus` is still 3
and `clus_cnt` is 0, so `cur_clus` is not the cluster reached from `first_clus` by 0 steps, and
cluster 3 is free. -/
theorem etrunc_stale_cursor :
    demo_file13.valid = 1 ∧ CursorOK demo_fat demo_disk_file demo_file13
    ∧ (etrunc demo_fat 4 demo_disk_file demo_file13).map
        (fun r => (r.2.valid, r.2.first_clus, r.2.cur_clus, r.2.clus_cnt,
          fat_steps demo_fat r.1 r.2.clus_cnt r.2.first_clus, read_fat demo_fat r.1 3))
      = some (1, 0, 3, 0, 0, 0) := by
  refine ⟨rfl, rfl, by decide⟩

/-! ## Empty files -/

theorem FS.get_set_some (s : FS) (p q : Ptr) (x e : Dirent) (h : s.get p = some e) :
    ∃ e2, (s.set q x).get p = some e2 := by
  by_cases hpq : p = q
  · subst hpq
    exact ⟨x, FS.get_set_same s p e x h⟩
  · exact ⟨e, by rw [FS.get_set_other s q p x hpq]; exact h⟩

theorem edup_get_some (s : FS) (p q : Ptr) (e : Dirent) (h : s.get p = some e) :
    ∃ e2, (edup s q).1.get p = some e2 := by
  unfold edup
  split
  · exact ⟨e, h⟩
  · exact FS.get_set_some s p q _ e h

/-- The entry `ealloc` creates for a name that `dirlookup` has not found, with an attribute
other than `ATTR_DIRECTORY`: it is live, of size 0 and without a first cluster. -/
theorem ealloc_new_file (fat : Fat) (fuel : Nat) (s s1 : FS) (dp p : Ptr) (name nm : List Nat)
    (attr : Nat) (r : DlRes) (hname : formatname name = some nm)
    (hl : dirlookup fat fuel s dp nm (some 0) = some r) (hmiss : r.ret = .null)
    (hattr : attr ≠ ATTR_DIRECTORY) (h : ealloc fat fuel s dp name attr = some (s1, p))
    (hp : p ≠ .null) :
    ∃ en, s1.get p = some en ∧ en.valid = 1 ∧ en.file_size = 0 ∧ en.first_clus = 0 := by
  unfold ealloc at h
  split at h
  · simp at h
  · rename_i dpe hdp
    split at h
    · simp at h
    · split at h
      · simp only [Option.some.injEq, Prod.mk.injEq] at h
        exact absurd h.2.symm hp
      · rw [hname] at h
        simp only at h
        rw [hl] at h
        simp only at h
        rw [if_neg (by simp [hmiss])] at h
        split at h
        · simp at h
        · rename_i s2 ep hget
          split at h
          · simp at h
          · rename_i epe hepe
            split at h
            · simp at h
            · split at h
              · rename_i d3 e4 dpe3 hmade hdp3
                simp only [Option.some.injEq, Prod.mk.injEq] at hmade
                split at h
                · simp at h
                · rename_i d4 dpe4 hemake
                  simp only [Option.some.injEq, Prod.mk.injEq] at h
                  obtain ⟨hs, hpe⟩ := h
                  subst hs hpe
                  obtain ⟨x1, hx1⟩ := edup_get_some s2 ep dp epe hepe
                  have hx2 : ({ (edup s2 dp).1 with disk := d4 } : FS).get ep = some x1 := by
                    cases ep <;> exact hx1
                  obtain ⟨x3, hx3⟩ := FS.get_set_some _ ep dp dpe4 x1 hx2
                  refine ⟨_, FS.get_set_same _ ep x3 _ hx3, rfl, ?_, ?_⟩
                  · rw [← hmade.2]
                  · rw [← hmade.2]
              · simp at h

/-- C19, amended: the entry `ealloc` creates with an attribute other than `ATTR_DIRECTORY` is
live with `file_size == 0` and `first_clus == 0`; `ewrite` keeps "`file_size == 0` implies
`first_clus == 0`" on its entry, whatever the copy does, whenever the value it returns is not 0
(a rejected write, or at least one byte written) or the file had a first cluster; and `etrunc`
leaves `file_size == 0` and `first_clus == 0`. -/
theorem empty_file_preserved (fat : Fat) (fuel : Nat) (s s1 : FS) (dp p : Ptr)
    (name nm : List Nat) (attr : Nat) (r : DlRes) (d d2 : Disk) (e e2 : Dirent) (cp : Copy)
    (off n : Nat) (w : IoRes) :
    (formatname name = some nm → dirlookup fat fuel s dp nm (some 0) = some r →
      r.ret = .null → attr ≠ ATTR_DIRECTORY → ealloc fat fuel s dp name attr = some (s1, p) →
      p ≠ .null →
      ∃ en, s1.get p = some en ∧ en.valid = 1 ∧ en.file_size = 0 ∧ en.first_clus = 0)
    ∧ (ewrite fat d e cp off n = some w → (e.file_size = 0 → e.first_clus = 0) →
        (w.ret ≠ 0 ∨ e.first_clus ≠ 0) → (w.ent.file_size = 0 → w.ent.first_clus = 0))
    ∧ (etrunc fat fuel d e = some (d2, e2) → e2.file_size = 0 ∧ e2.first_clus = 0) := by
  refine ⟨fun h1 h2 h3 h4 h5 h6 => ealloc_new_file fat fuel s s1 dp p name nm attr r h1 h2 h3 h4
    h5 h6, ?_, ?_⟩
  · intro hw hinv hor hz
    by_cases hc : off > e.file_size ∨ (off + n) % U32 < off ∨ off + n > 0xffffffff
        ∨ e.attr &&& ATTR_READ_ONLY ≠ 0
    · unfold ewrite at hw
      rw [if_pos hc] at hw
      simp only [Option.some.injEq] at hw
      rw [← hw] at hz ⊢
      exact hinv hz
    · have hle : off ≤ e.file_size := by omega
      have hsum : off + n ≤ 0xffffffff := by omega
      have hrw : e.attr &&& ATTR_READ_ONLY = 0 := by
        by_contra hne
        exact hc (Or.inr (Or.inr (Or.inr hne)))
      obtain ⟨tot, h1, h2, h3, _, _, h6⟩ := ewrite_book fat d e cp off n w hle hsum hrw hw
      rw [h3] at hz
      have hz1 : e.file_size = 0 := by
        have := Nat.le_max_left e.file_size (off + tot); omega
      have hz2 : tot = 0 := by
        have := Nat.le_max_right e.file_size (off + tot); omega
      rcases hor with hne | hne
      · rw [h2, hz2] at hne
        exact absurd (by decide : toInt32 0 = 0) hne
      · exact absurd (hinv hz1) hne
  · intro h
    unfold etrunc at h
    split at h
    · simp at h
    · simp only [Option.some.injEq, Prod.mk.injEq] at h
      rw [← h.2]
      exact ⟨rfl, rfl⟩

set_option maxRecDepth 1000000 in
/-- C19 fails as stated.  By design, a directory has `file_size == 0` and a first cluster:
`ealloc(&root, "c", ATTR_DIRECTORY)` on the small volume gives a live entry with
`file_size == 0` and `first_clus == 3`.  Besides, `ewrite` with `n == 0` on the empty file
`demo_file` is accepted, returns 0, and leaves `file_size == 0` with `first_clus == 3`. -/
theorem empty_file_counterexample :
    (ealloc demo_fat 8 demo_cache .root [0x63, 0] ATTR_DIRECTORY).map
        (fun r => (r.1.get r.2).map (fun e => (e.valid, e.file_size, e.first_clus)))
      = some (some (1, 0, 3))
    ∧ (demo_file.valid, demo_file.file_size, demo_file.first_clus) = (1, 0, 0)
    ∧ (ewrite demo_fat demo_disk demo_file (Copy.kernel hello) 0 0).map
        (fun w => (w.ret, w.ent.valid, w.ent.file_size, w.ent.first_clus))
      = some (0, 1, 0, 3) := by
  refine ⟨by decide, by decide, by decide⟩

set_option maxRecDepth 1000000 in
theorem empty_file_preserved_witness :
    ∃ (r : DlRes) (s1 : FS) (p : Ptr) (w : IoRes) (d2 : Disk) (e2 : Dirent),
      (formatname [0x63, 0] = some [0x63]
        ∧ dirlookup demo_fat 8 demo_cache .root [0x63] (some 0) = some r ∧ r.ret = .null
        ∧ (0 : Nat) ≠ ATTR_DIRECTORY
        ∧ ealloc demo_fat 8 demo_cache .root [0x63, 0] 0 = some (s1, p) ∧ p ≠ .null
        ∧ ewrite demo_fat demo_disk demo_file faulty 0 600 = some w
        ∧ (demo_file.file_size = 0 → demo_file.first_clus = 0)
        ∧ (w.ret ≠ 0 ∨ demo_file.first_clus ≠ 0)
        ∧ etrunc demo_fat 4 demo_disk_file demo_file13 = some (d2, e2))
      ∧ (∃ en, s1.get p = some en ∧ en.valid = 1 ∧ en.file_size = 0 ∧ en.first_clus = 0)
      ∧ (w.ent.file_size = 0 → w.ent.first_clus = 0)
      ∧ (e2.file_size = 0 ∧ e2.first_clus = 0) := by
  have h1 : (dirlookup demo_fat 8 demo_cache .root [0x63] (some 0)).map (fun r => r.ret)
      = some .null := by decide
  have h2 : (ealloc demo_fat 8 demo_cache .root [0x63, 0] 0).map (fun r => r.2)
      = some (.slot 1) := by decide
  have h3 : (ewrite demo_fat demo_disk demo_file faulty 0 600).map (fun w => w.ret)
      = some 512 := by decide
  have h4 : (etrunc demo_fat 4 demo_disk_file demo_file13).isSome = true := by decide
  cases hr : dirlookup demo_fat 8 demo_cache .root [0x63] (some 0) with
  | none => rw [hr] at h1; simp at h1
  | some r =>
    cases ha : ealloc demo_fat 8 demo_cache .root [0x63, 0] 0 with
    | none => rw [ha] at h2; simp at h2
    | some sp =>
      cases hw : ewrite demo_fat demo_disk demo_file faulty 0 600 with
      | none => rw [hw] at h3; simp at h3
      | some w =>
        cases ht : etrunc demo_fat 4 demo_disk_file demo_file13 with
        | none => rw [ht] at h4; simp at h4
        | some de =>
          rw [hr] at h1
          rw [ha] at h2
          rw [hw] at h3
          simp only [Option.map_some', Option.some.injEq] at h1 h2 h3
          have hp : sp.2 ≠ .null := by rw [h2]; decide
          have hret : w.ret ≠ 0 ∨ demo_file.first_clus ≠ 0 := Or.inl (by rw [h3]; decide)
          have hth := empty_file_preserved demo_fat 8 demo_cache sp.1 .root sp.2 [0x63, 0] [0x63]
            0 r demo_disk de.1 demo_file de.2 faulty 0 600 w
          have hth2 := empty_file_preserved demo_fat 4 demo_cache sp.1 .root sp.2 [0x63, 0]
            [0x63] 0 r demo_disk_file de.1 demo_file13 de.2 faulty 0 600 w
          exact ⟨r, sp.1, sp.2, w, de.1, de.2,
            ⟨by decide, rfl, h1, by decide, rfl, hp, rfl, fun _ => rfl, hret, rfl⟩,
            hth.1 (by decide) hr h1 (by decide) ha hp, hth.2.1 hw (fun _ => rfl) hret,
            hth2.2.2 ht⟩

theorem keeps_refl (s : FS) (j : Ptr) : Keeps s s j :=
  ⟨rfl, rfl, rfl, fun _ _ e h => ⟨e, h, rfl, rfl, rfl, rfl⟩⟩

theorem keeps_trans (s s1 s2 : FS) (j : Ptr) (h1 : Keeps s s1 j) (h2 : Keeps s1 s2 j) :
    Keeps s s2 j := by
  obtain ⟨a1, b1, c1, d1⟩ := h1
  obtain ⟨a2, b2, c2, d2⟩ := h2
  refine ⟨a2.trans a1, b2.trans b1, c2.trans c1, ?_⟩
  intro x hx e he
  obtain ⟨e1, he1, v1, p1, f1, t1⟩ := d1 x hx e he
  obtain ⟨e2, he2, v2, p2, f2, t2⟩ := d2 x hx e1 he1
  exact ⟨e2, he2, v2.trans v1, p2.trans p1, f2.trans f1, t2.trans t1⟩

theorem set_lru (s : FS) (p : Ptr) (e : Dirent) : (s.set p e).lru = s.lru := by
  cases p <;> rfl

theorem set_disk (s : FS) (p : Ptr) (e : Dirent) : (s.set p e).disk = s.disk := by
  cases p <;> rfl

theorem set_length (s : FS) (p : Ptr) (e : Dirent) :
    (s.set p e).entries.length = s.entries.length := by
  cases p with
  | null => rfl
  | root => rfl
  | slot i => simp [FS.set]

theorem keeps_set_self (s : FS) (j : Ptr) (e : Dirent) : Keeps s (s.set j e) j := by
  refine ⟨set_lru s j e, set_disk s j e, set_length s j e, ?_⟩
  intro x hx e0 he0
  exact ⟨e0, by rw [FS.get_set_other s j x e hx]; exact he0, rfl, rfl, rfl, rfl⟩

theorem keeps_set (s : FS) (p j : Ptr) (e0 e : Dirent) (h0 : s.get p = some e0)
    (hv : e.valid = e0.valid) (hp : e.parent = e0.parent) (hf : e.filename = e0.filename)
    (ha : e.attr = e0.attr) : Keeps s (s.set p e) j := by
  refine ⟨set_lru s p e, set_disk s p e, set_length s p e, ?_⟩
  intro x _ ex hex
  by_cases hxp : x = p
  · subst hxp
    rw [h0] at hex
    simp only [Option.some.injEq] at hex
    subst hex
    exact ⟨e, FS.get_set_same s x e0 e h0, hv, hp, hf, ha⟩
  · exact ⟨ex, by rw [FS.get_set_other s p x e hxp]; exact hex, rfl, rfl, rfl, rfl⟩

theorem keeps_hit (s s2 : FS) (j : Ptr) (parent : Ptr) (nm : List Nat) (x : Nat)
    (h : Keeps s s2 j) (hx : Ptr.slot x ≠ j) : cache_hit s2 parent nm x = cache_hit s parent nm x := by
  obtain ⟨_, _, hl, hk⟩ := h
  unfold cache_hit
  cases hs : s.entries[x]? with
  | none =>
    have : s2.entries[x]? = none := by
      rw [List.getElem?_eq_none_iff] at hs ⊢
      omega
    rw [this]
  | some e =>
    obtain ⟨e2, he2, hv, hp, hf, _⟩ := hk (.slot x) hx e hs
    simp only [FS.get] at he2
    rw [he2]
    simp only [hv, hp, hf]

theorem read_entry_info_ref (e : Dirent) (de : List Nat) : (read_entry_info e de).ref = e.ref := rfl

theorem enext_loop_frame (fat : Fat) (d : Disk) : ∀ (fuel : Nat) (dp ep : Dirent) (off : Nat)
    (cnt : Int) (cptr : Bool) (count : Int) (r : EnextRes),
    enext_loop fat d fuel dp ep off cnt cptr count = some r →
    SameFile dp r.dp ∧ r.ep.ref = ep.ref := by
  intro fuel
  induction fuel with
  | zero => intro dp ep off cnt cptr count r h; simp [enext_loop] at h
  | succ k ih =>
    intro dp ep off cnt cptr count r h
    unfold enext_loop at h
    cases hr : reloc_clus fat d dp off false with
    | none => rw [hr] at h; simp at h
    | some rr =>
      have hs := reloc_clus_same fat d dp off false rr hr
      rw [hr] at h
      simp only at h
      split at h
      · simp only [Option.some.injEq] at h
        subst h
        exact ⟨hs, rfl⟩
      · cases hw : rw_clus fat d rr.ent.cur_clus false (Copy.kernel (fun _ => 0)) 0
            (ofInt32 rr.ret) 32 with
        | none => rw [hw] at h; simp at h
        | some w =>
          rw [hw] at h
          simp only at h
          split at h
          · simp only [Option.some.injEq] at h
            subst h
            exact ⟨hs, rfl⟩
          · split at h
            · obtain ⟨h1, h2⟩ := ih _ _ _ _ _ _ _ h
              exact ⟨sameFile_trans hs h1, h2⟩
            · split at h
              · split at h
                · simp only [Option.some.injEq] at h
                  subst h
                  exact ⟨hs, rfl⟩
                · simp at h
              · split at h
                · split at h
                  · split at h
                    · obtain ⟨h1, h2⟩ := ih _ _ _ _ _ _ _ h
                      exact ⟨sameFile_trans hs h1, h2⟩
                    · simp at h
                  · obtain ⟨h1, h2⟩ := ih _ _ _ _ _ _ _ h
                    exact ⟨sameFile_trans hs h1, h2⟩
                · split at h
                  · simp only [Option.some.injEq] at h
                    subst h
                    exact ⟨hs, rfl⟩
                  · simp only [Option.some.injEq] at h
                    subst h
                    exact ⟨hs, rfl⟩

theorem enext_frame (fat : Fat) (fuel : Nat) (d : Disk) (dp ep : Dirent) (off : Nat) (count : Int)
    (r : EnextRes) (h : enext fat fuel d dp ep off count = some r) :
    SameFile dp r.dp ∧ r.ep.ref = ep.ref := by
  unfold enext at h
  split at h
  · simp at h
  · split at h
    · simp at h
    · split at h
      · simp at h
      · split at h
        · simp only [Option.some.injEq] at h
          subst h
          exact ⟨sameFile_refl dp, rfl⟩
        · have h2 := enext_loop_frame fat d fuel dp _ off 0 true count r h
          exact h2

theorem cache_hit_elim (s : FS) (dp : Ptr) (nm : List Nat) (i : Nat)
    (h : cache_hit s dp nm i = true) :
    ∃ e, s.entries[i]? = some e ∧ e.valid = 1 ∧ e.parent = dp
      ∧ strncmp_eq e.filename nm FAT32_MAX_FILENAME = true := by
  unfold cache_hit at h
  cases he : s.entries[i]? with
  | none => rw [he] at h; simp at h
  | some e =>
    rw [he] at h
    simp only [Bool.and_eq_true, decide_eq_true_eq] at h
    exact ⟨e, rfl, h.1.1, h.1.2, h.2⟩

/-- C22: on the small volume with its eight data clusters 2 to 9 all in use (no cluster in
`2 .. data_clus_cnt + 1` has a zero FAT entry), `alloc_clus` does not panic: it returns 10, which
is above `data_clus_cnt + 1 = 9`, and `read_fat(10)` right after the allocation returns 0. -/
theorem alloc_clus_full_volume :
    (∀ c, c < 10 → 2 ≤ c → read_fat demo_fat demo_disk_full c ≠ 0)
    ∧ demo_fat.data_clus_cnt + 1 = 9
    ∧ (alloc_clus demo_fat demo_disk_full).map (fun r => (r.1, read_fat demo_fat r.2 r.1))
        = some (10, 0) := by
  refine ⟨by decide, by decide, by decide⟩

/-- C23, as stated: on the small volume whose only zero slot is slot 1, `alloc_clus` returns 1,
and afterwards slot 1 holds 0 and slot 0, which held 0x0FFFFFFF, holds 0 as well: the sector
`first_sec_of_clus(1)` that `zero_clus` clears is the sector of the table. -/
theorem alloc_clus_slot_one :
    fat_ent demo_fat demo_disk_slot1 1 = 0 ∧ fat_ent demo_fat demo_disk_slot1 0 = 0x0fffffff
    ∧ first_sec_of_clus demo_fat 1 = demo_fat.rsvd_sec_cnt
    ∧ (alloc_clus demo_fat demo_disk_slot1).map
        (fun r => (r.1, fat_ent demo_fat r.2 1, fat_ent demo_fat r.2 0)) = some (1, 0, 0) := by
  refine ⟨by decide, by decide, by decide, by decide⟩

theorem first_sec_fit (fat : Fat) (c : Nat) (hc2 : 2 ≤ c) (hc : c < U32)
    (hfit : fat.first_data_sec + (c - 2) * fat.sec_per_clus + fat.sec_per_clus ≤ U32)
    (hs : 0 < fat.sec_per_clus) :
    first_sec_of_clus fat c = fat.first_data_sec + (c - 2) * fat.sec_per_clus := by
  unfold first_sec_of_clus
  have h4 : (c + U32 - 2) % U32 = c - 2 := by
    unfold U32 at *; omega
  rw [h4, Nat.mod_eq_of_lt (by omega)]
  omega

/-- C23, amended: on a well-formed volume, if `c` is the least index whose slot of FAT number 1
holds 0, `c` is at least 2 and lies in the table, and the sectors of cluster `c` are numbered
below 2^32, then `alloc_clus` returns `c`; afterwards slot `c` holds `FAT32_EOC + 7`, every other
slot of the table is unchanged, and every byte of the `sec_per_clus` sectors from
`first_sec_of_clus(c)` is 0. -/
theorem alloc_clus_first_zero (fat : Fat) (hv : VolOK fat) (d : Disk) (c : Nat)
    (hc2 : 2 ≤ c) (hc : c < fat.fat_sz * (fat.BSIZE / 4)) (hc32 : c < U32)
    (hfit : fat.first_data_sec + (c - 2) * fat.sec_per_clus + fat.sec_per_clus ≤ U32)
    (hz : fat_ent fat d c = 0) (hleast : ∀ c2, c2 < c → fat_ent fat d c2 ≠ 0) :
    ∃ d2, alloc_clus fat d = some (c, d2) ∧ fat_ent fat d2 c = FAT32_EOC + 7
      ∧ (∀ c2, c2 < fat.fat_sz * (fat.BSIZE / 4) → c2 ≠ c → fat_ent fat d2 c2 = fat_ent fat d c2)
      ∧ (∀ k o, k < fat.sec_per_clus → o < fat.byts_per_sec →
          d2 (first_sec_of_clus fat c + k) o = 0) := by
  have he := eps_pos fat hv
  have hs : c / (fat.BSIZE / 4) < fat.fat_sz := by
    rw [Nat.div_lt_iff_lt_mul he]; exact hc
  have hb := fat_sz_bound fat hv
  have hfind := alloc_find_first fat hv d c hz fat.fat_sz 0 (Nat.zero_le _)
    (by rw [Nat.zero_add]; exact hs) (by omega) (fun c2 _ h => hleast c2 h)
  have e := Nat.div_add_mod c (fat.BSIZE / 4)
  have hcc : (c / (fat.BSIZE / 4) * (fat.BSIZE / 4) + c % (fat.BSIZE / 4)) % U32 = c := by
    rw [Nat.mul_comm, e]
    exact Nat.mod_eq_of_lt hc32
  have hsec : (fat.rsvd_sec_cnt + c / (fat.BSIZE / 4)) % U32
      = fat.rsvd_sec_cnt + c / (fat.BSIZE / 4) := by
    apply Nat.mod_eq_of_lt
    generalize c / (fat.BSIZE / 4) = q at hs
    omega
  have hS := first_sec_fit fat c hc2 hc32 hfit hv.spc
  have hz2 : ∀ (d1 : Disk) (s o : Nat), zero_clus fat d1 c s o
      = if first_sec_of_clus fat c ≤ s ∧ s < first_sec_of_clus fat c + fat.sec_per_clus
            ∧ o < fat.BSIZE then 0 else d1 s o := by
    intro d1 s o
    unfold zero_clus
    exact zero_fold fat _ _ d1 (by rw [hS]; omega) s o
  have hsame : ∀ d1 : Disk, FatSame fat d1 (zero_clus fat d1 c) := by
    intro d1 s o hso
    rw [hz2, if_neg]
    have := hv.fatreg
    rw [hS]
    omega
  refine ⟨zero_clus fat (put32 d (fat.rsvd_sec_cnt + c / (fat.BSIZE / 4))
    (4 * (c % (fat.BSIZE / 4))) (FAT32_EOC + 7)) c, ?_, ?_, ?_, ?_⟩
  · unfold alloc_clus
    rw [hfind]
    simp only
    rw [hv.bps, hcc, hsec]
  · rw [fat_ent_same fat _ _ (hsame _) c hs, fat_ent_put_same]
    unfold FAT32_EOC U32
    rfl
  · intro c2 h2 hne
    have hs2 : c2 / (fat.BSIZE / 4) < fat.fat_sz := by
      rw [Nat.div_lt_iff_lt_mul he]; exact h2
    rw [fat_ent_same fat _ _ (hsame _) c2 hs2, fat_ent_put_other fat d c c2 _ hne]
  · intro k o hk ho
    rw [hz2, if_pos]
    rw [hv.bps] at ho
    omega

theorem alloc_clus_first_zero_witness :
    (2 ≤ 3 ∧ 3 < demo_fat.fat_sz * (demo_fat.BSIZE / 4) ∧ 3 < U32
      ∧ demo_fat.first_data_sec + (3 - 2) * demo_fat.sec_per_clus + demo_fat.sec_per_clus ≤ U32
      ∧ fat_ent demo_fat demo_disk 3 = 0 ∧ ∀ c2, c2 < 3 → fat_ent demo_fat demo_disk c2 ≠ 0)
    ∧ ∃ d2, alloc_clus demo_fat demo_disk = some (3, d2) ∧ fat_ent demo_fat d2 3 = FAT32_EOC + 7
      ∧ (∀ c2, c2 < demo_fat.fat_sz * (demo_fat.BSIZE / 4) → c2 ≠ 3 →
          fat_ent demo_fat d2 c2 = fat_ent demo_fat demo_disk c2)
      ∧ (∀ k o, k < demo_fat.sec_per_clus → o < demo_fat.byts_per_sec →
          d2 (first_sec_of_clus demo_fat 3 + k) o = 0) :=
  ⟨⟨by decide, by decide, by decide, by decide, by decide, by decide⟩,
    alloc_clus_first_zero demo_fat demo_volOK demo_disk 3 (by decide) (by decide) (by decide)
      (by decide) (by decide) (by decide)⟩

set_option maxRecDepth 100000 in
/-- C25: on the small volume the FAT entry of cluster 3, the only cluster of the file, is
0xFFFFFFFF, an end-of-chain value; `reloc_clus(entry, 512, 0)` steps forward from cluster 3 and
does not return -1: it returns 0 with `cur_clus = 0xFFFFFFFF` and `clus_cnt = 1`. -/
theorem reloc_clus_high_bit :
    read_fat demo_fat demo_disk_hi 3 = 0xffffffff ∧ FAT32_EOC ≤ 0xffffffff
    ∧ demo_file13.first_clus = 3 ∧ demo_file13.cur_clus = 3 ∧ demo_file13.clus_cnt = 0
    ∧ (reloc_clus demo_fat demo_disk_hi demo_file13 512 false).map
        (fun r => (r.ret, r.ent.cur_clus, r.ent.clus_cnt)) = some (0, 0xffffffff, 1) := by
  refine ⟨by decide, by decide, rfl, rfl, rfl, by decide⟩

theorem filter_len_le (p q : Nat → Bool) : ∀ (l : List Nat),
    (∀ x ∈ l, p x = true → q x = true) → (l.filter p).length ≤ (l.filter q).length := by
  intro l
  induction l with
  | nil => intro _; simp
  | cons a t ih =>
    intro h
    have ht := ih (fun x hx => h x (List.mem_cons_of_mem _ hx))
    by_cases hp : p a = true
    · have hq := h a (by simp) hp
      simp only [List.filter_cons, hp, hq, if_true, List.length_cons]
      omega
    · by_cases hq : q a = true
      · simp only [List.filter_cons, hp, hq, if_true, List.length_cons]
        simp only [Bool.false_eq_true, if_false]
        omega
      · simp only [List.filter_cons, hp, hq]
        simpa using ht

theorem filter_len_lt (p q : Nat → Bool) (x : Nat) (hq : q x = true) (hp : p x = false) :
    ∀ (l : List Nat), (∀ y ∈ l, p y = true → q y = true) → x ∈ l →
      (l.filter p).length < (l.filter q).length := by
  intro l
  induction l with
  | nil => intro _ hx; simp at hx
  | cons a t ih =>
    intro h hx
    have hle := filter_len_le p q t (fun y hy => h y (List.mem_cons_of_mem _ hy))
    by_cases hax : a = x
    · subst hax
      simp only [List.filter_cons, hp, hq, if_true, List.length_cons, Bool.false_eq_true,
        if_false]
      omega
    · have hxt : x ∈ t := by
        rcases List.mem_cons.1 hx with h1 | h1
        · exact absurd h1.symm hax
        · exact h1
      have hlt := ih (fun y hy => h y (List.mem_cons_of_mem _ hy)) hxt
      by_cases hpa : p a = true
      · have hqa := h a (by simp) hpa
        simp only [List.filter_cons, hpa, hqa, if_true, List.length_cons]
        omega
      · by_cases hqa : q a = true
        · simp only [List.filter_cons, hpa, hqa, if_true, List.length_cons]
          simp only [Bool.false_eq_true, if_false]
          omega
        · simp only [List.filter_cons, hpa, hqa]
          simpa using hlt

theorem put32_zero_byte (d : Disk) (s o s2 o2 : Nat) :
    put32 d s o 0 s2 o2 = 0 ∨ put32 d s o 0 s2 o2 = d s2 o2 := by
  unfold put32
  split
  · split
    · left; rfl
    · split
      · left; rfl
      · split
        · left; rfl
        · split
          · left; rfl
          · right; rfl
  · right; rfl

theorem get32_zero_iff (d : Disk) (s o : Nat) :
    get32 d s o = 0 ↔ d s o % 256 = 0 ∧ d s (o + 1) % 256 = 0 ∧ d s (o + 2) % 256 = 0
      ∧ d s (o + 3) % 256 = 0 := by
  unfold get32
  omega

theorem get32_put32_zero (d : Disk) (s o s2 o2 : Nat) (h : get32 d s2 o2 = 0) :
    get32 (put32 d s o 0) s2 o2 = 0 := by
  rw [get32_zero_iff] at h ⊢
  obtain ⟨h0, h1, h2, h3⟩ := h
  refine ⟨?_, ?_, ?_, ?_⟩
  · rcases put32_zero_byte d s o s2 o2 with e | e <;> simp [e, h0]
  · rcases put32_zero_byte d s o s2 (o2 + 1) with e | e <;> simp [e, h1]
  · rcases put32_zero_byte d s o s2 (o2 + 2) with e | e <;> simp [e, h2]
  · rcases put32_zero_byte d s o s2 (o2 + 3) with e | e <;> simp [e, h3]

/-- Freeing a cluster makes no FAT entry non-zero. -/
theorem read_fat_free_mono (fat : Fat) (d : Disk) (clus c : Nat)
    (h : read_fat fat d c = 0) : read_fat fat (free_clus fat d clus) c = 0 := by
  unfold free_clus write_fat
  split
  · exact h
  · unfold read_fat at h ⊢
    split
    · rename_i h1
      rw [if_pos h1] at h
      exact h
    · rename_i h1
      rw [if_neg h1] at h
      split
      · rfl
      · rename_i h2
        rw [if_neg h2] at h
        exact get32_put32_zero _ _ _ _ _ h

/-- The entry of a cluster `free_clus` has freed reads 0 when it read non-zero before. -/
theorem read_fat_free_self (fat : Fat) (d : Disk) (clus : Nat) (h1 : clus < FAT32_EOC)
    (h : read_fat fat d clus ≠ 0) : read_fat fat (free_clus fat d clus) clus = 0 := by
  have hr : ¬ clus > (fat.data_clus_cnt + 1) % U32 := by
    intro hc
    apply h
    unfold read_fat
    rw [if_neg (by omega), if_pos hc]
  unfold free_clus write_fat
  rw [if_neg hr]
  unfold read_fat
  rw [if_neg (by omega), if_neg hr]
  simp only
  rw [get32_put32_same]
  rfl

theorem etrunc_loop_total (fat : Fat) : ∀ (n : Nat) (d : Disk) (clus : Nat),
    (used_clusters fat d).length ≤ n → ∃ d2, etrunc_loop fat (n + 1) d clus = some d2 := by
  intro n
  induction n with
  | zero =>
    intro d clus hn
    unfold etrunc_loop
    split
    · rename_i hc
      by_cases hnext : read_fat fat d clus ≥ 2 ∧ read_fat fat d clus < FAT32_EOC
      · exfalso
        have hne : read_fat fat d clus ≠ 0 := by omega
        have hr : ¬ clus > (fat.data_clus_cnt + 1) % U32 := by
          intro hc2
          apply hne
          unfold read_fat
          rw [if_neg (by omega), if_pos hc2]
        have hmem : clus ∈ used_clusters fat d := by
          unfold used_clusters
          rw [List.mem_filter]
          refine ⟨?_, by simpa using hne⟩
          rw [List.mem_range'_1]
          have := Nat.mod_le (fat.data_clus_cnt + 1) U32
          omega
        have : 0 < (used_clusters fat d).length := List.length_pos_of_mem hmem
        omega
      · exact ⟨_, etrunc_loop_stop fat 0 _ _ hnext⟩
    · exact ⟨d, rfl⟩
  | succ n ih =>
    intro d clus hn
    unfold etrunc_loop
    split
    · rename_i hc
      by_cases hnext : read_fat fat d clus ≥ 2 ∧ read_fat fat d clus < FAT32_EOC
      · have hne : read_fat fat d clus ≠ 0 := by omega
        have hr : ¬ clus > (fat.data_clus_cnt + 1) % U32 := by
          intro hc2
          apply hne
          unfold read_fat
          rw [if_neg (by omega), if_pos hc2]
        have hmem : clus ∈ List.range' 2 fat.data_clus_cnt := by
          rw [List.mem_range'_1]
          have := Nat.mod_le (fat.data_clus_cnt + 1) U32
          omega
        have hlt : (used_clusters fat (free_clus fat d clus)).length
            < (used_clusters fat d).length := by
          unfold used_clusters
          apply filter_len_lt _ _ clus (by simpa using hne)
            (by simpa using read_fat_free_self fat d clus hc.2 hne) _ _ hmem
          intro y _ hy
          simp only [decide_eq_true_eq] at hy ⊢
          intro h0
          exact hy (read_fat_free_mono fat d clus y h0)
        exact ih _ _ (by omega)
      · exact ⟨_, etrunc_loop_stop fat _ _ _ hnext⟩
    · exact ⟨d, rfl⟩

/-- C29: `etrunc` terminates on every FAT state.  For every volume structure, every store and
every entry, whatever the FAT holds (a cyclic chain, a chain that leaves the range of the data
clusters or runs into a free entry), the loop of `etrunc` ends within `N + 1` turns, `N` being
the number of clusters in `2 .. data_clus_cnt + 1` whose FAT entry is not 0: run with that bound,
`etrunc` returns. -/
theorem etrunc_terminates (fat : Fat) (d : Disk) (e : Dirent) :
    ∃ d2 e2, etrunc fat ((used_clusters fat d).length + 1) d e = some (d2, e2) := by
  obtain ⟨d2, h⟩ := etrunc_loop_total fat (used_clusters fat d).length d e.first_clus (Nat.le_refl _)
  unfold etrunc
  rw [h]
  exact ⟨d2, _, rfl⟩

theorem getD_mem_of_ne (l : List Nat) (pos : Nat) (h : l.getD pos 0 ≠ 0) : l.getD pos 0 ∈ l := by
  by_cases hp : pos < l.length
  · rw [List.getD_eq_getElem _ _ hp]
    exact List.getElem_mem hp
  · exfalso
    apply h
    rw [List.getD_eq_default _ _ (by omega)]

/-- Every byte the loop of `generate_shortname` has stored before index `i` is a space or the
byte stored for a character of the name that is not 0, a space or a dot. -/
theorem gsn_loop_inv (name : List Nat) (P : Nat → Prop) (hsp : P 0x20)
    (hch : ∀ c, c ∈ name → c ≠ 0 → c ≠ 0x20 → c ≠ 0x2e → P (short_char c)) :
    ∀ (fuel i pos : Nat) (p : Option Nat) (out : List Nat), out.length = 12 →
      (∀ k, k < i → P (out.getD k 0)) →
      ∀ k, k < (generate_shortname_loop name fuel i pos p out).1 →
        P ((generate_shortname_loop name fuel i pos p out).2.getD k 0) := by
  intro fuel
  induction fuel with
  | zero => intro i pos p out hl h; exact h
  | succ f ih =>
    intro i pos p out hl h
    unfold generate_shortname_loop
    split
    · rename_i hi
      simp only
      split
      · exact h
      · rename_i hc0
        split
        · split
          · exact h
          · exact ih _ _ _ _ hl h
        · split
          · exact ih _ _ _ _ hl h
          · rename_i hsp2
            split
            · split
              · apply ih
                · rw [buf_store_length]; exact hl
                · intro k hk
                  rw [buf_store_getD _ _ _ _ (by omega)]
                  split
                  · rename_i hr
                    simp only [List.length_replicate] at hr
                    rw [getD_replicate_lt _ _ _ (by omega)]
                    exact hsp
                  · rename_i hr
                    simp only [List.length_replicate] at hr
                    exact h k (by omega)
              · exact ih _ _ _ _ hl h
            · rename_i hdot
              have hc1 := hch _ (getD_mem_of_ne name pos hc0) hc0 hsp2 hdot
              unfold short_char at hc1
              generalize (if 0x61 ≤ name.getD pos 0 ∧ name.getD pos 0 ≤ 0x7a
                  then name.getD pos 0 - 0x20
                  else if name.getD pos 0 ∈ [0x2b, 0x2c, 0x3b, 0x3d, 0x5b, 0x5d] then 0x5f
                  else name.getD pos 0) = c1 at hc1
              apply ih
              · rw [buf_store_length]; exact hl
              · intro k hk
                unfold CHAR_SHORT_NAME at hi
                rw [buf_store_getD _ _ _ _ (by omega)]
                split
                · rename_i hr
                  have hr2 : i ≤ k ∧ k < i + 1 := hr
                  have e : k - i = 0 := by omega
                  rw [e, List.getD_cons_zero]
                  exact hc1
                · rename_i hr
                  have hr2 : ¬ (i ≤ k ∧ k < i + 1) := hr
                  exact h k (by omega)
    · exact h

theorem gsn_pad_inv (r : Nat × List Nat) (P : Nat → Prop) (hsp : P 0x20)
    (h1 : r.2.length = 12) (h2 : ∀ k, k < r.1 → P (r.2.getD k 0)) :
    ∀ k, k < 11 →
      P ((buf_store r.2 r.1 (List.replicate (CHAR_SHORT_NAME - r.1) 0x20)).getD k 0) := by
  intro k hk
  rw [buf_store_getD _ _ _ _ (by omega)]
  split
  · rename_i hr
    simp only [List.length_replicate, CHAR_SHORT_NAME] at hr
    rw [getD_replicate_lt _ _ _ (by simp only [CHAR_SHORT_NAME]; omega)]
    exact hsp
  · rename_i hr
    simp only [List.length_replicate, CHAR_SHORT_NAME] at hr
    exact h2 k (by omega)

theorem gsn_inv (name : List Nat) (P : Nat → Prop) (hsp : P 0x20)
    (hch : ∀ c, c ∈ cstr name → c ≠ 0 → c ≠ 0x20 → c ≠ 0x2e → P (short_char c)) :
    ∀ k, k < 11 → P ((generate_shortname name).getD k 0) := by
  unfold generate_shortname
  exact gsn_pad_inv _ P hsp
    (gsn_loop_nonzero _ _ _ _ _ _ (by simp) (by intro k hk; omega)).1
    (gsn_loop_inv _ P hsp hch _ _ _ _ _ (by simp) (by intro k hk; omega))

set_option maxRecDepth 100000 in
/-- C27: `generate_shortname` produces a well-formed 8.3 field.  For every name (the string up
to its first 0 byte), the array has its 12 bytes and each of the first 11 is assigned: it is a
space, or the byte stored for a character `c` of the name that is not a space or a dot, which is
`c` made uppercase when `c` is a lowercase letter, `_` when `c` is one of `+ , ; = [ ]`, and `c`
otherwise.  So no output byte is 0, a lowercase letter, a dot or one of `+ , ; = [ ]`.  The name
"hello.txt" gives "HELLO   TXT" and "a_long_filename_over_13_chars.txt" gives "A_LONG_FTXT". -/
theorem generate_shortname_well_formed (name : List Nat) :
    ((generate_shortname name).length = 12
      ∧ ∀ k, k < 11 →
        ((generate_shortname name).getD k 0 = 0x20
          ∨ ∃ c, c ∈ cstr name ∧ c ≠ 0 ∧ c ≠ 0x20 ∧ c ≠ 0x2e
              ∧ (generate_shortname name).getD k 0 = short_char c
              ∧ (0x61 ≤ c ∧ c ≤ 0x7a → (generate_shortname name).getD k 0 = c - 0x20)
              ∧ (c ∈ [0x2b, 0x2c, 0x3b, 0x3d, 0x5b, 0x5d] →
                  (generate_shortname name).getD k 0 = 0x5f))
        ∧ (generate_shortname name).getD k 0 ≠ 0
        ∧ ¬ (0x61 ≤ (generate_shortname name).getD k 0 ∧ (generate_shortname name).getD k 0 ≤ 0x7a)
        ∧ (generate_shortname name).getD k 0 ≠ 0x2e
        ∧ (generate_shortname name).getD k 0 ∉ [0x2b, 0x2c, 0x3b, 0x3d, 0x5b, 0x5d])
    ∧ (generate_shortname hello_txt).take 11
        = [0x48, 0x45, 0x4c, 0x4c, 0x4f, 0x20, 0x20, 0x20, 0x54, 0x58, 0x54]
    ∧ (generate_shortname long_name).take 11
        = [0x41, 0x5f, 0x4c, 0x4f, 0x4e, 0x47, 0x5f, 0x46, 0x54, 0x58, 0x54] := by
  refine ⟨⟨(gsn_nonzero name).1, ?_⟩, by decide, by decide⟩
  apply gsn_inv name (fun b =>
    (b = 0x20
      ∨ ∃ c, c ∈ cstr name ∧ c ≠ 0 ∧ c ≠ 0x20 ∧ c ≠ 0x2e ∧ b = short_char c
          ∧ (0x61 ≤ c ∧ c ≤ 0x7a → b = c - 0x20)
          ∧ (c ∈ [0x2b, 0x2c, 0x3b, 0x3d, 0x5b, 0x5d] → b = 0x5f))
    ∧ b ≠ 0 ∧ ¬ (0x61 ≤ b ∧ b ≤ 0x7a) ∧ b ≠ 0x2e ∧ b ∉ [0x2b, 0x2c, 0x3b, 0x3d, 0x5b, 0x5d])
  · refine ⟨Or.inl rfl, by decide, by decide, by decide, by decide⟩
  · intro c hc h0 h1 h2
    have hprop : short_char c ≠ 0 ∧ ¬ (0x61 ≤ short_char c ∧ short_char c ≤ 0x7a)
        ∧ short_char c ≠ 0x2e ∧ short_char c ∉ [0x2b, 0x2c, 0x3b, 0x3d, 0x5b, 0x5d] := by
      unfold short_char
      split
      · simp only [List.mem_cons, List.mem_singleton, List.not_mem_nil, or_false, not_or]
        omega
      · rename_i hl
        split
        · decide
        · rename_i hi
          simp only [List.mem_cons, List.mem_singleton, List.not_mem_nil, or_false,
            not_or] at hi ⊢
          omega
    refine ⟨Or.inr ⟨c, hc, h0, h1, h2, rfl, ?_, ?_⟩, hprop⟩
    · intro hl
      unfold short_char
      rw [if_pos hl]
    · intro hi
      unfold short_char
      have hnl : ¬ (0x61 ≤ c ∧ c ≤ 0x7a) := by
        simp only [List.mem_cons, List.mem_singleton, List.not_mem_nil, or_false] at hi
        omega
      rw [if_neg hnl, if_pos hi]

set_option maxRecDepth 1000000 in
/-- C21: the root directory of the small volume holds the lone short-name entry "HELLO   TXT"
(first cluster 3, 13 bytes) at offset 0.  `dirlookup(root, "HELLO.TXT")` loads it into slot 1
(live, `off = 0`); `ewrite` of 7 bytes at offset 13 makes it dirty with `file_size = 20`; then
`eupdate` leaves the record at offset 0 as it was (size 13) and writes first cluster 3 and size
20 into the record at offset 256, eight records further, and clears `dirty`. -/
theorem eupdate_lone_short_name :
    peek sne_fs.disk 2 0 32 = hello_sne
    ∧ peek sne_fs.disk 2 256 32 = List.replicate 32 0
    ∧ (dirlookup demo_fat 4 sne_fs .root hello_upper (some 0)).map
        (fun r => (r.ret, (r.fs.get r.ret).map
          (fun e => (e.valid, e.off, e.first_clus, e.file_size, e.parent))))
        = some (.slot 1, some (1, 0, 3, 13, .root))
    ∧ (dirlookup demo_fat 4 sne_fs .root hello_upper (some 0)).bind (fun r =>
        (r.fs.get r.ret).bind (fun e =>
          (ewrite demo_fat r.fs.disk e (Copy.kernel hello) 13 7).bind (fun w =>
            (eupdate demo_fat w.disk r.fs.root w.ent).map (fun u =>
              (w.ret, w.ent.valid, w.ent.dirty, w.ent.file_size, peek u.1 2 0 32,
                peek u.1 2 256 32, u.2.2.dirty)))))
        = some (7, 1, 1, 20, hello_sne,
            List.replicate 26 0 ++ [3, 0, 20, 0, 0, 0], 0) := by
  refine ⟨by decide, by decide, by rfl, by rfl⟩

theorem countP_range_point (f g : Nat → Bool) (j : Nat) : ∀ (n : Nat), j < n →
    (∀ i, i < n → i ≠ j → g i = f i) →
    (List.range n).countP g + (if f j = true then 1 else 0)
      = (List.range n).countP f + (if g j = true then 1 else 0) := by
  intro n
  induction n with
  | zero => intro h; omega
  | succ m ih =>
    intro hj hsame
    rw [List.range_succ, List.countP_append, List.countP_append]
    simp only [List.countP_cons, List.countP_nil, Nat.zero_add]
    by_cases hjm : j = m
    · subst hjm
      have hc : (List.range j).countP g = (List.range j).countP f := by
        apply List.countP_congr
        intro i hi
        have hi2 : i < j := List.mem_range.1 hi
        rw [hsame i (by omega) (by omega)]
      rw [hc]
      omega
    · have := ih (by omega) (fun i hi hne => hsame i (by omega) hne)
      rw [hsame m (by omega) (fun h => hjm h.symm)]
      omega

theorem countP_range_same (f g : Nat → Bool) (n : Nat) (h : ∀ i, i < n → g i = f i) :
    (List.range n).countP g = (List.range n).countP f := by
  apply List.countP_congr
  intro i hi
  rw [h i (List.mem_range.1 hi)]

theorem child_eq (s : FS) (p : Ptr) (i : Nat) (e : Dirent) (h : s.entries[i]? = some e) :
    child s p i = (decide (e.valid ≠ 0) && decide (0 < e.ref) && decide (e.parent = p)) := by
  unfold child
  rw [h]

theorem child_none (s : FS) (p : Ptr) (i : Nat) (h : s.entries[i]? = none) :
    child s p i = false := by
  unfold child
  rw [h]

theorem child_true (s : FS) (p : Ptr) (i : Nat) (h : child s p i = true) :
    ∃ e, s.entries[i]? = some e ∧ e.valid ≠ 0 ∧ 0 < e.ref ∧ e.parent = p := by
  unfold child at h
  cases he : s.entries[i]? with
  | none => rw [he] at h; simp at h
  | some e =>
    rw [he] at h
    simp only [Bool.and_eq_true, decide_eq_true_eq] at h
    exact ⟨e, rfl, h.1.1, h.1.2, h.2⟩

theorem active_eq (s : FS) (i : Nat) (e : Dirent) (h : s.entries[i]? = some e) :
    active s i = (decide (e.valid ≠ 0) && decide (0 < e.ref)) := by
  unfold active
  rw [h]

theorem active_true (s : FS) (i : Nat) (h : active s i = true) :
    ∃ e, s.entries[i]? = some e ∧ e.valid ≠ 0 ∧ 0 < e.ref := by
  unfold active at h
  cases he : s.entries[i]? with
  | none => rw [he] at h; simp at h
  | some e =>
    rw [he] at h
    simp only [Bool.and_eq_true, decide_eq_true_eq] at h
    exact ⟨e, rfl, h.1, h.2⟩

theorem pins_pos (s : FS) (p : Ptr) (h : 0 < pins s p) :
    ∃ (i : Nat) (e : Dirent), s.entries[i]? = some e ∧ e.valid ≠ 0 ∧ 0 < e.ref ∧ e.parent = p := by
  unfold pins at h
  rw [List.countP_pos_iff] at h
  obtain ⟨i, _, hi⟩ := h
  obtain ⟨e, he⟩ := child_true s p i hi
  exact ⟨i, e, he⟩

theorem pins_ge_one (s : FS) (p : Ptr) (i : Nat) (e : Dirent) (he : s.entries[i]? = some e)
    (hv : e.valid ≠ 0) (hr : 0 < e.ref) (hp : e.parent = p) : 1 ≤ pins s p := by
  unfold pins
  have hi : i < s.entries.length := by
    rw [List.getElem?_eq_some_iff] at he
    exact he.1
  have : 0 < (List.range s.entries.length).countP (child s p) := by
    rw [List.countP_pos_iff]
    refine ⟨i, List.mem_range.2 hi, ?_⟩
    rw [child_eq s p i e he]
    simp [hv, hr, hp]
  omega

/-- The entries of a state after an assignment to a slot. -/
theorem set_slot_get (s : FS) (j : Nat) (e : Dirent) (i : Nat) :
    (s.set (.slot j) e).entries[i]?
      = if i = j ∧ j < s.entries.length then some e else s.entries[i]? := by
  simp only [FS.set]
  by_cases hij : i = j
  · subst hij
    by_cases hl : i < s.entries.length
    · rw [if_pos ⟨rfl, hl⟩]
      simp [hl]
    · rw [if_neg (by omega)]
      rw [List.getElem?_eq_none (by simpa using hl), List.getElem?_eq_none (by simpa using hl)]
  · rw [if_neg (by omega)]
    rw [List.getElem?_set_ne (fun h => hij h.symm)]

theorem set_root_get (s : FS) (e : Dirent) (i : Nat) :
    (s.set .root e).entries[i]? = s.entries[i]? := rfl

theorem set_null (s : FS) (e : Dirent) : s.set .null e = s := rfl

theorem set_slot_length (s : FS) (j : Nat) (e : Dirent) :
    (s.set (.slot j) e).entries.length = s.entries.length := by
  simp [FS.set]

theorem entry_lt (s : FS) (j : Nat) (e : Dirent) (h : s.entries[j]? = some e) :
    j < s.entries.length := by
  rw [List.getElem?_eq_some_iff] at h
  exact h.1

theorem set_slot_self (s : FS) (j : Nat) (e e2 : Dirent) (h : s.entries[j]? = some e) :
    (s.set (.slot j) e2).entries[j]? = some e2 := by
  rw [set_slot_get, if_pos ⟨rfl, entry_lt s j e h⟩]

theorem set_slot_other (s : FS) (j : Nat) (e2 : Dirent) (i : Nat) (h : i ≠ j) :
    (s.set (.slot j) e2).entries[i]? = s.entries[i]? := by
  rw [set_slot_get, if_neg (fun hc => h hc.1)]

theorem child_set_other (s : FS) (j : Nat) (e2 : Dirent) (p : Ptr) (i : Nat) (h : i ≠ j) :
    child (s.set (.slot j) e2) p i = child s p i := by
  unfold child
  rw [set_slot_other s j e2 i h]

theorem active_set_other (s : FS) (j : Nat) (e2 : Dirent) (i : Nat) (h : i ≠ j) :
    active (s.set (.slot j) e2) i = active s i := by
  unfold active
  rw [set_slot_other s j e2 i h]

/-- The number of referenced children after an assignment to slot `j`. -/
theorem pins_set_slot (s : FS) (j : Nat) (e e2 : Dirent) (p : Ptr) (h : s.entries[j]? = some e) :
    pins (s.set (.slot j) e2) p + (if child s p j = true then 1 else 0)
      = pins s p + (if child (s.set (.slot j) e2) p j = true then 1 else 0) := by
  unfold pins
  rw [set_slot_length]
  exact countP_range_point (child s p) (child (s.set (.slot j) e2) p) j _ (entry_lt s j e h)
    (fun i _ hne => child_set_other s j e2 p i hne)

theorem pins_set_root (s : FS) (e2 : Dirent) (p : Ptr) : pins (s.set .root e2) p = pins s p := rfl

/-- An assignment to a slot that leaves its child status as it was leaves every count. -/
theorem pins_set_same (s : FS) (j : Nat) (e e2 : Dirent) (p : Ptr) (h : s.entries[j]? = some e)
    (hc : child (s.set (.slot j) e2) p j = child s p j) :
    pins (s.set (.slot j) e2) p = pins s p := by
  have := pins_set_slot s j e e2 p h
  rw [hc] at this
  omega

theorem child_set_self (s : FS) (j : Nat) (e e2 : Dirent) (p : Ptr) (h : s.entries[j]? = some e) :
    child (s.set (.slot j) e2) p j
      = (decide (e2.valid ≠ 0) && decide (0 < e2.ref) && decide (e2.parent = p)) :=
  child_eq _ p j e2 (set_slot_self s j e e2 h)

theorem active_set_self (s : FS) (j : Nat) (e e2 : Dirent) (h : s.entries[j]? = some e) :
    active (s.set (.slot j) e2) j = (decide (e2.valid ≠ 0) && decide (0 < e2.ref)) :=
  active_eq _ j e2 (set_slot_self s j e e2 h)

theorem get_slot (s : FS) (j : Nat) : s.get (.slot j) = s.entries[j]? := rfl

/-- What a pointer reads after an assignment through another or the same pointer. -/
theorem get_set (s : FS) (p q : Ptr) (e e2 : Dirent) (h : s.get p = some e) :
    (s.set p e2).get q = if q = p then some e2 else s.get q := by
  by_cases hq : q = p
  · subst hq
    rw [if_pos rfl]
    exact FS.get_set_same s q e e2 h
  · rw [if_neg hq]
    exact FS.get_set_other s p q e2 hq

theorem rc_fields (s s2 : FS) (H : List Ptr) (he : s2.entries = s.entries) (hr : s2.root = s.root)
    (h : Inv s H) : Inv s2 H := by
  have hget : ∀ p, s2.get p = s.get p := by
    intro p
    cases p with
    | null => rfl
    | root => simp only [FS.get, hr]
    | slot i => simp only [FS.get, he]
  have hchild : ∀ p i, child s2 p i = child s p i := by
    intro p i
    unfold child
    rw [he]
  have hact : ∀ i, active s2 i = active s i := by
    intro i
    unfold active
    rw [he]
  have hpins : ∀ p, pins s2 p = pins s p := by
    intro p
    unfold pins
    rw [he]
    exact countP_range_same _ _ _ (fun i _ => hchild p i)
  refine ⟨?_, ?_, ?_⟩
  · intro x hx
    rw [he]
    exact h.held x hx
  · obtain ⟨rk, hrk⟩ := h.rank
    refine ⟨rk, ?_⟩
    intro i e hi hv hr2
    rw [he] at hi
    rcases hrk i e hi hv hr2 with h1 | ⟨k, h1, h2, h3⟩
    · exact Or.inl h1
    · exact Or.inr ⟨k, h1, by rw [hact]; exact h2, h3⟩
  · intro p e hp
    rw [hget] at hp
    rw [hpins]
    exact h.cnt p e hp

/-- A held slot is referenced. -/
theorem rc_held_ref (s : FS) (H : List Ptr) (h : Inv s H) (x : Ptr) (hx : x ∈ H) (e : Dirent)
    (he : s.get x = some e) : 1 ≤ e.ref := by
  have hc := h.cnt x e he
  have : 0 < H.count x := List.count_pos_iff.2 hx
  omega

/-- A slot whose `ref` is 0 is not held and has no referenced child. -/
theorem rc_free (s : FS) (H : List Ptr) (h : Inv s H) (j : Nat) (e : Dirent)
    (he : s.entries[j]? = some e) (hr : e.ref = 0) :
    Ptr.slot j ∉ H ∧ pins s (.slot j) = 0 ∧ active s j = false := by
  have hc := h.cnt (.slot j) e he
  refine ⟨?_, by omega, ?_⟩
  · intro hm
    have : 0 < H.count (.slot j) := List.count_pos_iff.2 hm
    omega
  · rw [active_eq s j e he]
    simp [hr]

/-- The parent of a referenced slot in use is `root` or another referenced slot in use. -/
theorem rc_parent (s : FS) (H : List Ptr) (h : Inv s H) (j : Nat) (e : Dirent)
    (he : s.entries[j]? = some e) (hv : e.valid ≠ 0) (hr : 0 < e.ref) :
    e.parent = .root ∨ ∃ k pe, e.parent = .slot k ∧ k ≠ j ∧ s.entries[k]? = some pe
      ∧ pe.valid ≠ 0 ∧ 0 < pe.ref := by
  obtain ⟨rk, hrk⟩ := h.rank
  rcases hrk j e he hv hr with h1 | ⟨k, h1, h2, h3⟩
  · exact Or.inl h1
  · obtain ⟨pe, hpe, hpv, hpr⟩ := active_true s k h2
    exact Or.inr ⟨k, pe, h1, by intro hc; subst hc; omega, hpe, hpv, hpr⟩

/-- An assignment that leaves `valid`, `ref` and `parent` of the entry as they were. -/
theorem rc_same (s : FS) (H : List Ptr) (h : Inv s H) (p : Ptr) (e e2 : Dirent)
    (hp : s.get p = some e) (hv : e2.valid = e.valid) (hr : e2.ref = e.ref)
    (hpar : e2.parent = e.parent) : Inv (s.set p e2) H := by
  cases p with
  | null => exact h
  | root =>
    simp only [FS.get, Option.some.injEq] at hp
    refine ⟨h.held, h.rank, ?_⟩
    intro q eq hq
    rw [pins_set_root]
    cases q with
    | null => simp [FS.get] at hq
    | root =>
      simp only [FS.get, FS.set, Option.some.injEq] at hq
      rw [← hq, hr, ← hp]
      exact h.cnt .root s.root rfl
    | slot i => exact h.cnt (.slot i) eq hq
  | slot j =>
    have hj : s.entries[j]? = some e := hp
    have hch : ∀ q i, child (s.set (.slot j) e2) q i = child s q i := by
      intro q i
      by_cases hij : i = j
      · subst hij
        rw [child_set_self s i e e2 q hj, child_eq s q i e hj, hv, hr, hpar]
      · exact child_set_other s j e2 q i hij
    have hact : ∀ i, active (s.set (.slot j) e2) i = active s i := by
      intro i
      by_cases hij : i = j
      · subst hij
        rw [active_set_self s i e e2 hj, active_eq s i e hj, hv, hr]
      · exact active_set_other s j e2 i hij
    have hpins : ∀ q, pins (s.set (.slot j) e2) q = pins s q :=
      fun q => pins_set_same s j e e2 q hj (hch q j)
    refine ⟨?_, ?_, ?_⟩
    · intro x hx
      rcases h.held x hx with h1 | ⟨i, ei, h1, h2, h3⟩
      · exact Or.inl h1
      · by_cases hij : i = j
        · subst hij
          rw [hj] at h2
          simp only [Option.some.injEq] at h2
          subst h2
          exact Or.inr ⟨i, e2, h1, set_slot_self s i e e2 hj, by rw [hv]; exact h3⟩
        · exact Or.inr ⟨i, ei, h1, by rw [set_slot_other s j e2 i hij]; exact h2, h3⟩
    · obtain ⟨rk, hrk⟩ := h.rank
      refine ⟨rk, ?_⟩
      intro i ei hi hvi hri
      have key : ∀ e0, s.entries[i]? = some e0 → e0.valid ≠ 0 → 0 < e0.ref →
          e0.parent = ei.parent →
          ei.parent = .root ∨ ∃ k, ei.parent = .slot k
            ∧ active (s.set (.slot j) e2) k = true ∧ rk k < rk i := by
        intro e0 h0 h1 h2 h3
        rcases hrk i e0 h0 h1 h2 with a | ⟨k, a, b, c⟩
        · exact Or.inl (by rw [← h3]; exact a)
        · exact Or.inr ⟨k, by rw [← h3]; exact a, by rw [hact]; exact b, c⟩
      by_cases hij : i = j
      · subst hij
        rw [set_slot_self s i e e2 hj] at hi
        simp only [Option.some.injEq] at hi
        subst hi
        exact key e hj (by rw [← hv]; exact hvi) (by rw [← hr]; exact hri) hpar.symm
      · rw [set_slot_other s j e2 i hij] at hi
        exact key ei hi hvi hri rfl
    · intro q eq hq
      rw [hpins]
      rw [get_set s (.slot j) q e e2 hp] at hq
      by_cases hqj : q = .slot j
      · rw [if_pos hqj] at hq
        simp only [Option.some.injEq] at hq
        subst hq
        rw [hr, hqj]
        exact h.cnt (.slot j) e hp
      · rw [if_neg hqj] at hq
        exact h.cnt q eq hq

/-- Facts shared by the assignments to a slot that leave its child status as it was. -/
theorem rc_slot_keep (s : FS) (H H2 : List Ptr) (h : Inv s H) (j : Nat) (e e2 : Dirent)
    (hj : s.entries[j]? = some e) (hv : e2.valid = e.valid) (hpar : e2.parent = e.parent)
    (hpos : 0 < e2.ref ↔ 0 < e.ref)
    (hheld : ∀ x ∈ H2, x = .slot j ∨ x ∈ H) (hjv : Ptr.slot j ∈ H2 → e.valid ≠ 0)
    (hcj : e2.ref = (H2.count (.slot j) : Int) + (pins s (.slot j) : Int))
    (hco : ∀ q, q ≠ .slot j → H2.count q = H.count q) :
    Inv (s.set (.slot j) e2) H2 := by
  have hch : ∀ q i, child (s.set (.slot j) e2) q i = child s q i := by
    intro q i
    by_cases hij : i = j
    · subst hij
      rw [child_set_self s i e e2 q hj, child_eq s q i e hj, hv, hpar]
      have : decide (0 < e2.ref) = decide (0 < e.ref) := by
        rw [decide_eq_decide]; exact hpos
      rw [this]
    · exact child_set_other s j e2 q i hij
  have hact : ∀ i, active (s.set (.slot j) e2) i = active s i := by
    intro i
    by_cases hij : i = j
    · subst hij
      rw [active_set_self s i e e2 hj, active_eq s i e hj, hv]
      have : decide (0 < e2.ref) = decide (0 < e.ref) := by
        rw [decide_eq_decide]; exact hpos
      rw [this]
    · exact active_set_other s j e2 i hij
  have hpins : ∀ q, pins (s.set (.slot j) e2) q = pins s q :=
    fun q => pins_set_same s j e e2 q hj (hch q j)
  refine ⟨?_, ?_, ?_⟩
  · intro x hx
    have hcase : x = .slot j ∨ (x ≠ .slot j ∧ x ∈ H) := by
      by_cases hxj : x = .slot j
      · exact Or.inl hxj
      · rcases hheld x hx with a | a
        · exact absurd a hxj
        · exact Or.inr ⟨hxj, a⟩
    rcases hcase with hxj | ⟨hxj, hxH⟩
    · subst hxj
      exact Or.inr ⟨j, e2, rfl, set_slot_self s j e e2 hj, by rw [hv]; exact hjv hx⟩
    · rcases h.held x hxH with h1 | ⟨i, ei, h1, h2, h3⟩
      · exact Or.inl h1
      · have hij : i ≠ j := by
          intro hc
          subst hc
          exact hxj h1
        exact Or.inr ⟨i, ei, h1, by rw [set_slot_other s j e2 i hij]; exact h2, h3⟩
  · obtain ⟨rk, hrk⟩ := h.rank
    refine ⟨rk, ?_⟩
    intro i ei hi hvi hri
    have key : ∀ e0, s.entries[i]? = some e0 → e0.valid ≠ 0 → 0 < e0.ref →
        e0.parent = ei.parent →
        ei.parent = .root ∨ ∃ k, ei.parent = .slot k
          ∧ active (s.set (.slot j) e2) k = true ∧ rk k < rk i := by
      intro e0 h0 h1 h2 h3
      rcases hrk i e0 h0 h1 h2 with a | ⟨k, a, b, c⟩
      · exact Or.inl (by rw [← h3]; exact a)
      · exact Or.inr ⟨k, by rw [← h3]; exact a, by rw [hact]; exact b, c⟩
    by_cases hij : i = j
    · subst hij
      rw [set_slot_self s i e e2 hj] at hi
      simp only [Option.some.injEq] at hi
      subst hi
      exact key e hj (by rw [← hv]; exact hvi) (hpos.1 hri) hpar.symm
    · rw [set_slot_other s j e2 i hij] at hi
      exact key ei hi hvi hri rfl
  · intro q eq hq
    rw [hpins]
    rw [get_set s (.slot j) q e e2 hj] at hq
    by_cases hqj : q = .slot j
    · rw [if_pos hqj] at hq
      simp only [Option.some.injEq] at hq
      subst hq
      rw [hqj]
      exact hcj
    · rw [if_neg hqj] at hq
      rw [hco q hqj]
      exact h.cnt q eq hq

/-- Facts shared by the assignments to `root`. -/
theorem rc_root_keep (s : FS) (H H2 : List Ptr) (h : Inv s H) (e2 : Dirent)
    (hheld : ∀ x ∈ H2, x = .root ∨ x ∈ H)
    (hcr : e2.ref = (H2.count .root : Int) + (pins s .root : Int))
    (hco : ∀ q, q ≠ .root → H2.count q = H.count q) :
    Inv (s.set .root e2) H2 := by
  refine ⟨?_, h.rank, ?_⟩
  · intro x hx
    rcases hheld x hx with a | a
    · exact Or.inl a
    · exact h.held x a
  · intro q eq hq
    rw [pins_set_root]
    cases q with
    | null => simp [FS.get] at hq
    | root =>
      simp only [FS.get, FS.set, Option.some.injEq] at hq
      rw [← hq]
      exact hcr
    | slot i =>
      rw [hco (.slot i) (by simp)]
      exact h.cnt (.slot i) eq hq

/-- One more reference on `root` or on a referenced entry in use. -/
theorem rc_inc (s : FS) (H : List Ptr) (h : Inv s H) (y : Ptr) (e e2 : Dirent)
    (hy : s.get y = some e) (hok : y = .root ∨ (e.valid ≠ 0 ∧ 0 < e.ref))
    (hv : e2.valid = e.valid) (hr : e2.ref = e.ref + 1) (hpar : e2.parent = e.parent) :
    Inv (s.set y e2) (y :: H) := by
  have hc := h.cnt y e hy
  cases y with
  | null => simp [FS.get] at hy
  | root =>
    apply rc_root_keep s H _ h e2
    · intro x hx
      rcases List.mem_cons.1 hx with a | a
      · exact Or.inl a
      · exact Or.inr a
    · rw [List.count_cons_self]
      push_cast
      omega
    · intro q hq
      rw [List.count_cons_of_ne hq]
  | slot j =>
    have hj : s.entries[j]? = some e := hy
    have hvr : e.valid ≠ 0 ∧ 0 < e.ref := by
      rcases hok with a | a
      · simp at a
      · exact a
    apply rc_slot_keep s H _ h j e e2 hj hv hpar (by omega)
    · intro x hx
      rcases List.mem_cons.1 hx with a | a
      · exact Or.inl a
      · exact Or.inr a
    · intro _
      exact hvr.1
    · rw [List.count_cons_self]
      push_cast
      omega
    · intro q hq
      rw [List.count_cons_of_ne hq]

/-- One reference less on `root` or on an entry that keeps another reference. -/
theorem rc_dec (s : FS) (H : List Ptr) (h : Inv s H) (x : Ptr) (hx : x ∈ H) (e e2 : Dirent)
    (hg : s.get x = some e) (hok : x = .root ∨ 2 ≤ e.ref)
    (hv : e2.valid = e.valid) (hr : e2.ref = e.ref - 1) (hpar : e2.parent = e.parent) :
    Inv (s.set x e2) (H.erase x) := by
  have hc := h.cnt x e hg
  have hcp : 0 < H.count x := List.count_pos_iff.2 hx
  cases x with
  | null => simp [FS.get] at hg
  | root =>
    apply rc_root_keep s H _ h e2
    · intro y hy
      exact Or.inr (List.mem_of_mem_erase hy)
    · rw [List.count_erase_self]
      omega
    · intro q hq
      rw [List.count_erase_of_ne hq]
  | slot j =>
    have hj : s.entries[j]? = some e := hg
    have h2 : 2 ≤ e.ref := by
      rcases hok with a | a
      · simp at a
      · exact a
    apply rc_slot_keep s H _ h j e e2 hj hv hpar (by omega)
    · intro y hy
      exact Or.inr (List.mem_of_mem_erase hy)
    · intro _
      rcases h.held _ hx with a | ⟨i, ei, a, b, c⟩
      · simp at a
      · simp only [Ptr.slot.injEq] at a
        subst a
        rw [hj] at b
        simp only [Option.some.injEq] at b
        subst b
        exact c
    · rw [List.count_erase_self]
      omega
    · intro q hq
      rw [List.count_erase_of_ne hq]

/-- An assignment to a slot without references that leaves it without references. -/
theorem rc_free_set (s : FS) (H : List Ptr) (h : Inv s H) (j : Nat) (e e2 : Dirent)
    (hj : s.entries[j]? = some e) (hr : e.ref = 0) (hr2 : e2.ref = 0) :
    Inv (s.set (.slot j) e2) H := by
  obtain ⟨hnot, hp0, hact0⟩ := rc_free s H h j e hj hr
  have hc1 : ∀ q, child s q j = false := by
    intro q
    rw [child_eq s q j e hj]
    simp [hr]
  have hc2 : ∀ q, child (s.set (.slot j) e2) q j = false := by
    intro q
    rw [child_set_self s j e e2 q hj]
    simp [hr2]
  have hpins : ∀ q, pins (s.set (.slot j) e2) q = pins s q :=
    fun q => pins_set_same s j e e2 q hj (by rw [hc1, hc2])
  have hact2 : active (s.set (.slot j) e2) j = false := by
    rw [active_set_self s j e e2 hj]
    simp [hr2]
  refine ⟨?_, ?_, ?_⟩
  · intro x hx
    rcases h.held x hx with h1 | ⟨i, ei, h1, h2, h3⟩
    · exact Or.inl h1
    · have hij : i ≠ j := by
        intro hc
        subst hc
        rw [h1] at hx
        exact hnot hx
      exact Or.inr ⟨i, ei, h1, by rw [set_slot_other s j e2 i hij]; exact h2, h3⟩
  · obtain ⟨rk, hrk⟩ := h.rank
    refine ⟨rk, ?_⟩
    intro i ei hi hvi hri
    have hij : i ≠ j := by
      intro hc
      subst hc
      rw [set_slot_self s i e e2 hj] at hi
      simp only [Option.some.injEq] at hi
      subst hi
      omega
    rw [set_slot_other s j e2 i hij] at hi
    rcases hrk i ei hi hvi hri with a | ⟨k, a, b, c⟩
    · exact Or.inl a
    · have hkj : k ≠ j := by
        intro hc
        subst hc
        rw [hact0] at b
        simp at b
      exact Or.inr ⟨k, a, by rw [active_set_other s j e2 k hkj]; exact b, c⟩
  · intro q eq hq
    rw [hpins]
    rw [get_set s (.slot j) q e e2 hj] at hq
    by_cases hqj : q = .slot j
    · rw [if_pos hqj] at hq
      simp only [Option.some.injEq] at hq
      subst hq
      rw [hr2, hqj]
      have := h.cnt (.slot j) e hj
      omega
    · rw [if_neg hqj] at hq
      exact h.cnt q eq hq

/-- A slot without references becomes a referenced child of the held entry `dp`: the reference
held on `dp` becomes the reference the child keeps on it, and the slot is held. -/
theorem rc_pin (s : FS) (H : List Ptr) (h : Inv s H) (j : Nat) (e e2 : Dirent)
    (hj : s.entries[j]? = some e) (hr : e.ref = 0) (dp : Ptr) (hdp : dp ∈ H)
    (hv2 : e2.valid ≠ 0) (hr2 : e2.ref = 1) (hp2 : e2.parent = dp) :
    Inv (s.set (.slot j) e2) (.slot j :: H.erase dp) := by
  obtain ⟨hnot, hp0, hact0⟩ := rc_free s H h j e hj hr
  have hdj : dp ≠ .slot j := by
    intro hc
    rw [hc] at hdp
    exact hnot hdp
  have hc1 : ∀ q, child s q j = false := by
    intro q
    rw [child_eq s q j e hj]
    simp [hr]
  have hc2 : ∀ q, child (s.set (.slot j) e2) q j = decide (dp = q) := by
    intro q
    rw [child_set_self s j e e2 q hj]
    simp [hr2, hv2, hp2]
  have hpins : ∀ q, pins (s.set (.slot j) e2) q = pins s q + (if dp = q then 1 else 0) := by
    intro q
    have := pins_set_slot s j e e2 q hj
    rw [hc1, hc2] at this
    simp only [Bool.false_eq_true, if_false, Nat.add_zero, decide_eq_true_eq] at this
    exact this
  refine ⟨?_, ?_, ?_⟩
  · intro x hx
    rcases List.mem_cons.1 hx with hxj | hxe
    · exact Or.inr ⟨j, e2, hxj, set_slot_self s j e e2 hj, hv2⟩
    · have hxH := List.mem_of_mem_erase hxe
      rcases h.held x hxH with h1 | ⟨i, ei, h1, h2, h3⟩
      · exact Or.inl h1
      · have hij : i ≠ j := by
          intro hc
          subst hc
          rw [h1] at hxH
          exact hnot hxH
        exact Or.inr ⟨i, ei, h1, by rw [set_slot_other s j e2 i hij]; exact h2, h3⟩
  · obtain ⟨rk, hrk⟩ := h.rank
    obtain ⟨r0, hr0⟩ : ∃ r0 : Nat, ∀ k, dp = .slot k → rk k < r0 := by
      cases dp with
      | null => exact ⟨0, fun k hk => by simp at hk⟩
      | root => exact ⟨0, fun k hk => by simp at hk⟩
      | slot k0 =>
        refine ⟨rk k0 + 1, fun k hk => ?_⟩
        simp only [Ptr.slot.injEq] at hk
        subst hk
        omega
    refine ⟨fun i => if i = j then r0 else rk i, ?_⟩
    intro i ei hi hvi hri
    by_cases hij : i = j
    · subst hij
      rw [set_slot_self s i e e2 hj] at hi
      simp only [Option.some.injEq] at hi
      subst hi
      rw [hp2]
      rcases h.held dp hdp with h1 | ⟨k, pe, h1, h2, h3⟩
      · exact Or.inl h1
      · right
        have hki : k ≠ i := by
          intro hc
          subst hc
          exact hdj h1
        have hpr := rc_held_ref s H h dp hdp pe (by rw [h1]; exact h2)
        refine ⟨k, h1, ?_, ?_⟩
        · rw [active_set_other s i e2 k hki, active_eq s k pe h2]
          simp only [Bool.and_eq_true, decide_eq_true_eq]
          exact ⟨h3, by omega⟩
        · simp only [if_neg hki, if_true]
          exact hr0 k h1
    · rw [set_slot_other s j e2 i hij] at hi
      rcases hrk i ei hi hvi hri with a | ⟨k, a, b, c⟩
      · exact Or.inl a
      · have hkj : k ≠ j := by
          intro hc
          subst hc
          rw [hact0] at b
          simp at b
        refine Or.inr ⟨k, a, by rw [active_set_other s j e2 k hkj]; exact b, ?_⟩
        simp only [if_neg hkj, if_neg hij]
        exact c
  · intro q eq hq
    rw [hpins]
    rw [get_set s (.slot j) q e e2 hj] at hq
    by_cases hqj : q = .slot j
    · rw [if_pos hqj] at hq
      simp only [Option.some.injEq] at hq
      subst hq
      rw [hr2, hqj, List.count_cons_self, List.count_erase_of_ne (Ne.symm hdj), if_neg hdj]
      have hz : H.count (.slot j) = 0 := List.count_eq_zero.2 hnot
      rw [hz, hp0]
      rfl
    · rw [if_neg hqj] at hq
      have hc := h.cnt q eq hq
      rw [List.count_cons_of_ne hqj]
      by_cases hqd : dp = q
      · subst hqd
        rw [if_pos rfl, List.count_erase_self]
        have : 0 < H.count dp := List.count_pos_iff.2 hdp
        push_cast
        omega
      · rw [if_neg hqd, List.count_erase_of_ne (fun hc2 => hqd hc2.symm)]
        simpa using hc

/-- The last reference on a held slot in use is given up: the slot is no longer a referenced
child, and the reference it kept on its parent becomes a held one (which `eput` gives up
next). -/
theorem rc_unpin (s : FS) (H : List Ptr) (h : Inv s H) (j : Nat) (e e2 : Dirent)
    (hj : s.entries[j]? = some e) (hx : Ptr.slot j ∈ H) (hr : e.ref = 1)
    (hr2 : e2.ref = 0) :
    Inv (s.set (.slot j) e2) (e.parent :: H.erase (.slot j)) := by
  have hc := h.cnt (.slot j) e hj
  have hcp : 0 < H.count (.slot j) := List.count_pos_iff.2 hx
  have hc1 : H.count (.slot j) = 1 := by omega
  have hp0 : pins s (.slot j) = 0 := by omega
  have hv : e.valid ≠ 0 := by
    rcases h.held _ hx with a | ⟨i, ei, a, b, c⟩
    · simp at a
    · simp only [Ptr.slot.injEq] at a
      subst a
      rw [hj] at b
      simp only [Option.some.injEq] at b
      subst b
      exact c
  have hpar := rc_parent s H h j e hj hv (by omega)
  have hpj : e.parent ≠ .slot j := by
    rcases hpar with a | ⟨k, pe, a, b, _⟩
    · rw [a]; simp
    · rw [a]
      simp only [ne_eq, Ptr.slot.injEq]
      exact b
  have hnot : Ptr.slot j ∉ H.erase (.slot j) := by
    intro hm
    have : 0 < (H.erase (.slot j)).count (.slot j) := List.count_pos_iff.2 hm
    rw [List.count_erase_self] at this
    omega
  have hch1 : ∀ q, child s q j = decide (e.parent = q) := by
    intro q
    rw [child_eq s q j e hj]
    simp [hr, hv]
  have hch2 : ∀ q, child (s.set (.slot j) e2) q j = false := by
    intro q
    rw [child_set_self s j e e2 q hj]
    simp [hr2]
  have hpins : ∀ q, pins (s.set (.slot j) e2) q + (if e.parent = q then 1 else 0) = pins s q := by
    intro q
    have := pins_set_slot s j e e2 q hj
    rw [hch1, hch2] at this
    simp only [Bool.false_eq_true, if_false, Nat.add_zero, decide_eq_true_eq] at this
    exact this
  refine ⟨?_, ?_, ?_⟩
  · intro x hxm
    rcases List.mem_cons.1 hxm with hxp | hxe
    · rcases hpar with a | ⟨k, pe, a, b, c, d, _⟩
      · exact Or.inl (by rw [hxp]; exact a)
      · exact Or.inr ⟨k, pe, by rw [hxp]; exact a,
          by rw [set_slot_other s j e2 k b]; exact c, d⟩
    · have hxH := List.mem_of_mem_erase hxe
      rcases h.held x hxH with h1 | ⟨i, ei, h1, h2, h3⟩
      · exact Or.inl h1
      · have hij : i ≠ j := by
          intro hc2
          subst hc2
          rw [h1] at hxe
          exact hnot hxe
        exact Or.inr ⟨i, ei, h1, by rw [set_slot_other s j e2 i hij]; exact h2, h3⟩
  · obtain ⟨rk, hrk⟩ := h.rank
    refine ⟨rk, ?_⟩
    intro i ei hi hvi hri
    have hij : i ≠ j := by
      intro hc2
      subst hc2
      rw [set_slot_self s i e e2 hj] at hi
      simp only [Option.some.injEq] at hi
      subst hi
      omega
    rw [set_slot_other s j e2 i hij] at hi
    rcases hrk i ei hi hvi hri with a | ⟨k, a, b, c⟩
    · exact Or.inl a
    · have hkj : k ≠ j := by
        intro hc2
        subst hc2
        have := pins_ge_one s (.slot k) i ei hi hvi hri a
        omega
      exact Or.inr ⟨k, a, by rw [active_set_other s j e2 k hkj]; exact b, c⟩
  · intro q eq hq
    have hpq := hpins q
    rw [get_set s (.slot j) q e e2 hj] at hq
    by_cases hqj : q = .slot j
    · rw [if_pos hqj] at hq
      simp only [Option.some.injEq] at hq
      subst hq
      rw [hqj] at hpq ⊢
      rw [if_neg hpj] at hpq
      rw [hr2, List.count_cons_of_ne (Ne.symm hpj), List.count_erase_self, hc1]
      omega
    · rw [if_neg hqj] at hq
      have hcq := h.cnt q eq hq
      by_cases hqp : e.parent = q
      · rw [if_pos hqp] at hpq
        rw [← hqp, List.count_cons_self, List.count_erase_of_ne hpj]
        rw [← hqp] at hcq hpq
        push_cast
        omega
      · rw [if_neg hqp] at hpq
        rw [List.count_cons_of_ne (fun hc2 => hqp hc2.symm), List.count_erase_of_ne hqj]
        omega

theorem meq_refl (s : FS) : MEq s s := fun _ => rfl

theorem meq_symm {s s2 : FS} (h : MEq s s2) : MEq s2 s := fun p => (h p).symm

theorem meq_trans {s s2 s3 : FS} (h1 : MEq s s2) (h2 : MEq s2 s3) : MEq s s3 :=
  fun p => (h2 p).trans (h1 p)

theorem meq_some {s s2 : FS} (h : MEq s s2) (p : Ptr) (e : Dirent) (he : s.get p = some e) :
    ∃ e2, s2.get p = some e2 ∧ e2.valid = e.valid ∧ e2.ref = e.ref ∧ e2.parent = e.parent := by
  have := h p
  rw [he] at this
  cases h2 : s2.get p with
  | none => rw [h2] at this; simp at this
  | some e2 =>
    rw [h2] at this
    simp only [Option.map_some', Option.some.injEq, rcv, Prod.mk.injEq] at this
    exact ⟨e2, rfl, this.1, this.2.1, this.2.2⟩

theorem meq_none {s s2 : FS} (h : MEq s s2) (p : Ptr) (he : s.get p = none) : s2.get p = none := by
  have := h p
  rw [he] at this
  cases h2 : s2.get p with
  | none => rfl
  | some e2 => rw [h2] at this; simp at this

theorem meq_length {s s2 : FS} (h : MEq s s2) : s2.entries.length = s.entries.length := by
  apply Nat.le_antisymm
  · have h1 : s.get (.slot s.entries.length) = none := by
      simp [FS.get]
    have h2 := meq_none h _ h1
    simp only [FS.get] at h2
    rw [List.getElem?_eq_none_iff] at h2
    exact h2
  · have h1 : s2.get (.slot s2.entries.length) = none := by
      simp [FS.get]
    have h2 := meq_none (meq_symm h) _ h1
    simp only [FS.get] at h2
    rw [List.getElem?_eq_none_iff] at h2
    exact h2

theorem meq_child {s s2 : FS} (h : MEq s s2) (p : Ptr) (i : Nat) : child s2 p i = child s p i := by
  cases he : s.entries[i]? with
  | none =>
    have h2 : s2.entries[i]? = none := meq_none h (.slot i) he
    rw [child_none s p i he, child_none s2 p i h2]
  | some e =>
    obtain ⟨e2, h2, hv, hr, hp⟩ := meq_some h (.slot i) e he
    rw [child_eq s p i e he, child_eq s2 p i e2 h2, hv, hr, hp]

theorem meq_active {s s2 : FS} (h : MEq s s2) (i : Nat) : active s2 i = active s i := by
  cases he : s.entries[i]? with
  | none =>
    have h2 : s2.entries[i]? = none := meq_none h (.slot i) he
    unfold active
    rw [he, h2]
  | some e =>
    obtain ⟨e2, h2, hv, hr, hp⟩ := meq_some h (.slot i) e he
    rw [active_eq s i e he, active_eq s2 i e2 h2, hv, hr]

theorem meq_pins {s s2 : FS} (h : MEq s s2) (p : Ptr) : pins s2 p = pins s p := by
  unfold pins
  rw [meq_length h]
  exact countP_range_same _ _ _ (fun i _ => meq_child h p i)

/-- The bookkeeping reads only `valid`, `ref` and `parent`. -/
theorem rc_meq (s s2 : FS) (H : List Ptr) (h : Inv s H) (hm : MEq s s2) : Inv s2 H := by
  refine ⟨?_, ?_, ?_⟩
  · intro x hx
    rcases h.held x hx with h1 | ⟨i, ei, h1, h2, h3⟩
    · exact Or.inl h1
    · obtain ⟨e2, a, b, _, _⟩ := meq_some hm (.slot i) ei h2
      exact Or.inr ⟨i, e2, h1, a, by rw [b]; exact h3⟩
  · obtain ⟨rk, hrk⟩ := h.rank
    refine ⟨rk, ?_⟩
    intro i e2 hi hv hr
    obtain ⟨e, a, b, c, d⟩ := meq_some (meq_symm hm) (.slot i) e2 hi
    rcases hrk i e a (by rw [b]; exact hv) (by rw [c]; exact hr) with x | ⟨k, x, y, z⟩
    · exact Or.inl (by rw [← d]; exact x)
    · exact Or.inr ⟨k, by rw [← d]; exact x, by rw [meq_active hm]; exact y, z⟩
  · intro p e2 hp
    obtain ⟨e, a, _, c, _⟩ := meq_some (meq_symm hm) p e2 hp
    rw [meq_pins hm, ← c]
    exact h.cnt p e a

/-- Assignments of entries with the same `valid`, `ref` and `parent` to states that agree. -/
theorem meq_set {s s2 : FS} (h : MEq s s2) (p : Ptr) (a b : Dirent) (hab : rcv b = rcv a) :
    MEq (s.set p a) (s2.set p b) := by
  intro q
  cases hp : s.get p with
  | none =>
    have hp2 := meq_none h p hp
    have e1 : s.set p a = s := by
      cases p with
      | null => rfl
      | root => simp [FS.get] at hp
      | slot i =>
        simp only [FS.get] at hp
        simp only [FS.set]
        rw [List.getElem?_eq_none_iff] at hp
        rw [List.set_eq_of_length_le hp]
    have e2 : s2.set p b = s2 := by
      cases p with
      | null => rfl
      | root => simp [FS.get] at hp2
      | slot i =>
        simp only [FS.get] at hp2
        simp only [FS.set]
        rw [List.getElem?_eq_none_iff] at hp2
        rw [List.set_eq_of_length_le hp2]
    rw [e1, e2]
    exact h q
  | some e =>
    obtain ⟨e2, hp2, _⟩ := meq_some h p e hp
    rw [get_set s p q e a hp, get_set s2 p q e2 b hp2]
    by_cases hq : q = p
    · rw [if_pos hq, if_pos hq]
      simp only [Option.map_some', hab]
    · rw [if_neg hq, if_neg hq]
      exact h q

/-- An assignment that leaves `valid`, `ref` and `parent` as they were. -/
theorem meq_set_same (s : FS) (p : Ptr) (e e2 : Dirent) (hp : s.get p = some e)
    (hab : rcv e2 = rcv e) : MEq s (s.set p e2) := by
  intro q
  rw [get_set s p q e e2 hp]
  by_cases hq : q = p
  · rw [if_pos hq, hq, hp]
    simp only [Option.map_some', hab]
  · rw [if_neg hq]

theorem meq_fields (s s2 : FS) (he : s2.entries = s.entries) (hr : s2.root = s.root) :
    MEq s s2 := by
  intro p
  cases p with
  | null => rfl
  | root => simp only [FS.get, hr]
  | slot i => simp only [FS.get, he]

/-- Source `edup` on `root` or on a referenced entry in use: one more reference held. -/
theorem edup_rc (s : FS) (H : List Ptr) (h : Inv s H) (x : Ptr) (e : Dirent)
    (hx : s.get x = some e) (hok : x = .root ∨ (e.valid ≠ 0 ∧ 0 < e.ref)) :
    Inv (edup s x).1 (x :: H) := by
  unfold edup
  rw [hx]
  exact rc_inc s H h x e _ hx hok rfl rfl rfl

/-- A held entry is there, and it is `root` or a referenced entry in use. -/
theorem rc_held_get (s : FS) (H : List Ptr) (h : Inv s H) (x : Ptr) (hx : x = .root ∨ x ∈ H) :
    ∃ e, s.get x = some e ∧ (x = .root ∨ (e.valid ≠ 0 ∧ 0 < e.ref)) := by
  rcases hx with h1 | h1
  · subst h1
    exact ⟨s.root, rfl, Or.inl rfl⟩
  · rcases h.held x h1 with h2 | ⟨i, ei, h2, h3, h4⟩
    · subst h2
      exact ⟨s.root, rfl, Or.inl rfl⟩
    · subst h2
      have := rc_held_ref s H h _ h1 ei h3
      exact ⟨ei, h3, Or.inr ⟨h4, by omega⟩⟩

theorem eupdate_rcv (fat : Fat) (d : Disk) (par e : Dirent) (d1 : Disk) (par1 e1 : Dirent)
    (h : eupdate fat d par e = some (d1, par1, e1)) : rcv par1 = rcv par ∧ rcv e1 = rcv e := by
  unfold eupdate at h
  split at h
  · simp only [Option.some.injEq, Prod.mk.injEq] at h
    obtain ⟨_, h2, h3⟩ := h
    subst h2 h3
    exact ⟨rfl, rfl⟩
  · cases hr1 : reloc_clus fat d par e.off false with
    | none => rw [hr1] at h; simp at h
    | some r1 =>
      rw [hr1] at h
      simp only at h
      have hs1 := reloc_clus_same fat d par e.off false r1 hr1
      split at h
      · simp at h
      · split at h
        · simp at h
        · rename_i r2 hr2
          have hs2 := reloc_clus_same fat d r1.ent _ false r2 hr2
          split at h
          · simp at h
          · split at h
            · simp at h
            · simp only [Option.some.injEq, Prod.mk.injEq] at h
              obtain ⟨_, h2, h3⟩ := h
              subst h2 h3
              have hs := sameFile_trans hs1 hs2
              unfold SameFile at hs
              constructor
              · rw [hs]; rfl
              · rfl

theorem etrunc_rcv (fat : Fat) (fuel : Nat) (d : Disk) (e : Dirent) (d1 : Disk) (e1 : Dirent)
    (h : etrunc fat fuel d e = some (d1, e1)) : rcv e1 = rcv e := by
  unfold etrunc at h
  split at h
  · simp at h
  · simp only [Option.some.injEq, Prod.mk.injEq] at h
    obtain ⟨_, h2⟩ := h
    subst h2
    rfl

theorem eput_aux1 (s s1 : FS) (i : Nat) (e e1 : Dirent) (he : s1.entries = s.entries)
    (hr : s1.root = s.root) (hx : s.get (.slot i) = some e) (hr1 : rcv e1 = rcv e) :
    MEq s (s1.set (.slot i) e1) ∧ (s1.set (.slot i) e1).get (.slot i) = some e1 := by
  have hx1 : s1.get (.slot i) = some e := by
    simp only [FS.get, he]
    exact hx
  exact ⟨meq_trans (meq_fields s s1 he hr) (meq_set_same _ (.slot i) e e1 hx1 hr1),
    FS.get_set_same _ (.slot i) e e1 hx1⟩

theorem eput_aux2 (s s1 : FS) (i : Nat) (e e1 par par1 : Dirent) (he : s1.entries = s.entries)
    (hr : s1.root = s.root) (hx : s.get (.slot i) = some e) (hp : s.get e.parent = some par)
    (hrp : rcv par1 = rcv par) (hr1 : rcv e1 = rcv e) :
    MEq s ((s1.set e.parent par1).set (.slot i) e1)
      ∧ ((s1.set e.parent par1).set (.slot i) e1).get (.slot i) = some e1 := by
  have hm1 := meq_fields s s1 he hr
  obtain ⟨p1, hp1, a, b, c⟩ := meq_some hm1 e.parent par hp
  have hma : MEq s (s1.set e.parent par1) :=
    meq_trans hm1 (meq_set_same _ e.parent p1 par1 hp1 (by
      rw [hrp]
      simp only [rcv, a, b, c]))
  obtain ⟨ex, hex, hexv, hexr, hexp⟩ := meq_some hma (.slot i) e hx
  exact ⟨meq_trans hma (meq_set_same _ (.slot i) ex e1 hex (by
      rw [hr1]
      simp only [rcv, hexv, hexr, hexp])),
    FS.get_set_same _ (.slot i) ex e1 hex⟩

/-- One level of `eput`: either the reference count goes down by one and the call returns, or
the entry is a slot in use with `ref == 1`, its count goes to 0 (what is written back leaves
`valid`, `ref` and `parent` of every entry as they were) and `eput` goes on with the parent. -/
theorem eput_step (fat : Fat) (fuel : Nat) (s : FS) (x : Ptr) (s2 : FS)
    (h : eput fat (fuel + 1) s x = some s2) :
    ∃ e, s.get x = some e ∧
      ((¬ (x ≠ .root ∧ e.valid ≠ 0 ∧ e.ref = 1) ∧ s2 = s.set x { e with ref := e.ref - 1 })
      ∨ (x ≠ .root ∧ e.valid ≠ 0 ∧ e.ref = 1 ∧
          ∃ s4, MEq (s.set x { e with ref := 0 }) s4 ∧ eput fat fuel s4 e.parent = some s2)) := by
  rw [eput_succ] at h
  cases hx : s.get x with
  | none => rw [hx] at h; simp at h
  | some e =>
    rw [hx] at h
    simp only at h
    refine ⟨e, rfl, ?_⟩
    by_cases hc : x ≠ .root ∧ e.valid ≠ 0 ∧ e.ref = 1
    · right
      rw [if_pos hc] at h
      refine ⟨hc.1, hc.2.1, hc.2.2, ?_⟩
      cases x with
      | null => simp [FS.get] at hx
      | root => exact absurd rfl hc.1
      | slot i =>
        simp only at h
        -- the state after `etrunc` or `eupdate`
        have key : ∀ s3 : FS, MEq s s3 → ∀ e3, s3.get (.slot i) = some e3 → rcv e3 = rcv e →
            (if e3.ref - 1 = 0 then
              eput fat fuel (s3.set (.slot i) { e3 with ref := e3.ref - 1 }) e3.parent
              else some (s3.set (.slot i) { e3 with ref := e3.ref - 1 })) = some s2 →
            ∃ s4, MEq (s.set (.slot i) { e with ref := 0 }) s4
              ∧ eput fat fuel s4 e.parent = some s2 := by
          intro s3 hm3 e3 h3 hr3 hfin
          simp only [rcv, Prod.mk.injEq] at hr3
          obtain ⟨hv3, hrr3, hp3⟩ := hr3
          have hz : e3.ref - 1 = 0 := by rw [hrr3, hc.2.2]; rfl
          rw [if_pos hz, hp3] at hfin
          refine ⟨_, ?_, hfin⟩
          apply meq_set hm3
          simp only [rcv, hv3, hp3, hz]
        by_cases hv : e.valid = -1
        · rw [if_pos hv] at h
          cases ht : etrunc fat fuel s.disk e with
          | none => rw [ht] at h; simp at h
          | some de =>
            obtain ⟨d1, e1⟩ := de
            rw [ht] at h
            simp only at h
            have hr1 := etrunc_rcv fat fuel s.disk e d1 e1 ht
            obtain ⟨hm3, hg3⟩ := eput_aux1 s { disk := d1, root := s.root, entries := s.entries, lru := i :: s.lru.erase i } i e e1 rfl rfl hx hr1
            rw [hg3] at h
            simp only at h
            exact key _ hm3 e1 hg3 hr1 h
        · rw [if_neg hv] at h
          have hpeq : ({ disk := s.disk, root := s.root, entries := s.entries, lru := i :: s.lru.erase i } : FS).get e.parent = s.get e.parent := by
            cases e.parent <;> rfl
          rw [hpeq] at h
          cases hpar : s.get e.parent with
          | none => rw [hpar] at h; simp at h
          | some par =>
            rw [hpar] at h
            simp only at h
            by_cases hpr : par.ref < 1
            · rw [if_pos hpr] at h
              simp at h
            · rw [if_neg hpr] at h
              cases hu : eupdate fat s.disk par e with
              | none => rw [hu] at h; simp at h
              | some res =>
                obtain ⟨d1, par1, e1⟩ := res
                rw [hu] at h
                simp only at h
                obtain ⟨hrp, hre⟩ := eupdate_rcv fat s.disk par e d1 par1 e1 hu
                obtain ⟨hm3, hg3⟩ := eput_aux2 s { disk := d1, root := s.root, entries := s.entries, lru := i :: s.lru.erase i } i e e1 par par1 rfl rfl hx hpar hrp hre
                rw [hg3] at h
                simp only at h
                exact key _ hm3 e1 hg3 hre h
    · left
      rw [if_neg hc] at h
      simp only [Option.some.injEq] at h
      exact ⟨hc, h.symm⟩

/-- Source `eput` on a held entry: the reference is given up, the bookkeeping holds again. -/
theorem eput_rc (fat : Fat) : ∀ (fuel : Nat) (s : FS) (H : List Ptr) (x : Ptr) (s2 : FS),
    Inv s H → x ∈ H → eput fat fuel s x = some s2 → Inv s2 (H.erase x) := by
  intro fuel
  induction fuel with
  | zero =>
    intro s H x s2 _ _ h
    have h0 : eput fat 0 s x = none := rfl
    rw [h0] at h
    simp at h
  | succ k ih =>
    intro s H x s2 hinv hx h
    obtain ⟨e, he, hcase⟩ := eput_step fat k s x s2 h
    have href := rc_held_ref s H hinv x hx e he
    rcases hcase with ⟨hc, hs2⟩ | ⟨hroot, hv, hr, s4, hm, hgo⟩
    · subst hs2
      apply rc_dec s H hinv x hx e { e with ref := e.ref - 1 } he _ rfl rfl rfl
      by_cases hxr : x = .root
      · exact Or.inl hxr
      · right
        have hv : e.valid ≠ 0 := by
          rcases hinv.held x hx with a | ⟨i, ei, a, b, c⟩
          · exact absurd a hxr
          · subst a
            have hb : s.get (.slot i) = some ei := b
            rw [he] at hb
            simp only [Option.some.injEq] at hb
            subst hb
            exact c
        have : e.ref ≠ 1 := fun h1 => hc ⟨hxr, hv, h1⟩
        omega
    · cases x with
      | null => simp [FS.get] at he
      | root => exact absurd rfl hroot
      | slot j =>
        have h1 := rc_unpin s H hinv j e { e with ref := 0 } he hx hr rfl
        have h2 := rc_meq _ s4 _ h1 hm
        have h3 := ih s4 _ e.parent s2 h2 (List.mem_cons_self _ _) hgo
        rw [List.erase_cons_head] at h3
        exact h3

/-- The two ways `eget` returns: a hit on a live entry of the cache with the parent and the name
asked for, whose count goes up (and the parent's, when the count was 0); or no entry of the cache
matches and a slot without references is handed out, not valid, with one reference. -/
theorem eget_cases (s : FS) (dp : Ptr) (nm : List Nat) (s1 : FS) (ep : Ptr)
    (h : eget s dp (some nm) = some (s1, ep)) :
    (∃ i e, ep = .slot i ∧ s.entries[i]? = some e ∧ e.valid = 1 ∧ e.parent = dp
        ∧ ((e.ref ≠ 0 ∧ s1 = s.set (.slot i) { e with ref := e.ref + 1 })
          ∨ (e.ref = 0 ∧ ∃ pp, (s.set (.slot i) { e with ref := e.ref + 1 }).get dp = some pp
              ∧ s1 = (s.set (.slot i) { e with ref := e.ref + 1 }).set dp
                      { pp with ref := pp.ref + 1 })))
    ∨ (∃ j e par, ep = .slot j ∧ s.entries[j]? = some e ∧ e.ref = 0 ∧ s.get dp = some par
        ∧ s1 = s.set (.slot j)
                { e with ref := 1, dev := par.dev, off := 0, valid := 0, dirty := 0 }
        ∧ s.lru.find? (cache_hit s dp nm) = none) := by
  unfold eget at h
  simp only at h
  split at h
  · rename_i i heq
    left
    have hfi : s.lru.find? (cache_hit s dp nm) = some i := heq
    obtain ⟨e, hent, hv, hp, _⟩ := cache_hit_elim s dp nm i (List.find?_some hfi)
    rw [hent] at h
    simp only at h
    refine ⟨i, e, ?_, hent, hv, hp, ?_⟩
    · split at h
      · split at h
        · simp at h
        · simp only [Option.some.injEq, Prod.mk.injEq] at h
          exact h.2.symm
      · simp only [Option.some.injEq, Prod.mk.injEq] at h
        exact h.2.symm
    · subst hp
      by_cases hr : e.ref = 0
      · right
        rw [if_pos hr] at h
        cases hpp : (s.set (.slot i) { e with ref := e.ref + 1 }).get e.parent with
        | none => rw [hpp] at h; simp at h
        | some pp =>
          rw [hpp] at h
          simp only [Option.some.injEq, Prod.mk.injEq] at h
          exact ⟨hr, pp, rfl, h.1.symm⟩
      · left
        rw [if_neg hr] at h
        simp only [Option.some.injEq, Prod.mk.injEq] at h
        exact ⟨hr, h.1.symm⟩
  · rename_i heq
    right
    have hfn : s.lru.find? (cache_hit s dp nm) = none := heq
    split at h
    · simp at h
    · rename_i j hrev
      split at h
      · rename_i e par hent hpar
        simp only [Option.some.injEq, Prod.mk.injEq] at h
        have hz := List.find?_some hrev
        rw [hent] at hz
        simp only [decide_eq_true_eq] at hz
        exact ⟨j, e, par, h.2.symm, hent, hz, hpar, h.1.symm, hfn⟩
      · simp at h

theorem enext_loop_rcv (fat : Fat) (d : Disk) : ∀ (fuel : Nat) (dp ep : Dirent) (off : Nat)
    (cnt : Int) (cptr : Bool) (count : Int) (r : EnextRes),
    enext_loop fat d fuel dp ep off cnt cptr count = some r → rcv r.ep = rcv ep := by
  intro fuel
  induction fuel with
  | zero => intro dp ep off cnt cptr count r h; simp [enext_loop] at h
  | succ k ih =>
    intro dp ep off cnt cptr count r h
    unfold enext_loop at h
    cases hr : reloc_clus fat d dp off false with
    | none => rw [hr] at h; simp at h
    | some rr =>
      rw [hr] at h
      simp only at h
      split at h
      · simp only [Option.some.injEq] at h
        subst h
        rfl
      · cases hw : rw_clus fat d rr.ent.cur_clus false (Copy.kernel (fun _ => 0)) 0
            (ofInt32 rr.ret) 32 with
        | none => rw [hw] at h; simp at h
        | some w =>
          rw [hw] at h
          simp only at h
          split at h
          · simp only [Option.some.injEq] at h
            subst h
            rfl
          · split at h
            · exact ih _ _ _ _ _ _ _ h
            · split at h
              · split at h
                · simp only [Option.some.injEq] at h
                  subst h
                  rfl
                · simp at h
              · split at h
                · split at h
                  · split at h
                    · have h2 := ih _ _ _ _ _ _ _ h
                      exact h2
                    · simp at h
                  · have h2 := ih _ _ _ _ _ _ _ h
                    exact h2
                · split at h
                  · simp only [Option.some.injEq] at h
                    subst h
                    rfl
                  · simp only [Option.some.injEq] at h
                    subst h
                    rfl

theorem enext_rcv (fat : Fat) (fuel : Nat) (d : Disk) (dp ep : Dirent) (off : Nat) (count : Int)
    (r : EnextRes) (h : enext fat fuel d dp ep off count = some r) : rcv r.ep = rcv ep := by
  unfold enext at h
  split at h
  · simp at h
  · split at h
    · simp at h
    · split at h
      · simp at h
      · split at h
        · simp only [Option.some.injEq] at h
          subst h
          rfl
        · have h2 := enext_loop_rcv fat d fuel dp _ off 0 true count r h
          exact h2

/-- Source `enext` panics on an entry that is valid. -/
theorem enext_valid (fat : Fat) (fuel : Nat) (d : Disk) (dp ep : Dirent) (off : Nat) (count : Int)
    (r : EnextRes) (h : enext fat fuel d dp ep off count = some r) : ep.valid = 0 := by
  unfold enext at h
  split at h
  · simp at h
  · split at h
    · simp at h
    · rename_i hv
      exact not_not.1 hv

/-- The bookkeeping looks at the held references as a multiset. -/
theorem rc_perm (s : FS) (H H2 : List Ptr) (h : Inv s H) (hp : H.Perm H2) : Inv s H2 := by
  refine ⟨?_, h.rank, ?_⟩
  · intro x hx
    exact h.held x (hp.mem_iff.2 hx)
  · intro p e he
    rw [← hp.count_eq]
    exact h.cnt p e he

/-- The scan of `dirlookup` over the directory `dp` with the scratch slot `j`: every other entry
keeps `valid`, `ref` and `parent`; when a record matches, the slot becomes a valid child of `dp`
and `dp` gets one more reference; when none does, the slot loses the reference `eget` gave it. -/
theorem dirlookup_loop_scan (fat : Fat) (ef : Nat) (nm : List Nat) (entcnt : Int) (dp : Ptr)
    (j : Nat) (hdp : dp ≠ .slot j) : ∀ (fuel : Nat) (s : FS) (off : Nat) (count : Int)
    (pptr : Bool) (pval : Nat) (res : DlRes) (e0 dm : Dirent),
    dirlookup_loop fat ef nm entcnt dp (.slot j) fuel s off count pptr pval = some res →
    s.get (.slot j) = some e0 → s.get dp = some dm →
    Keeps s res.fs (.slot j)
      ∧ (∀ x, x ≠ .slot j → x ≠ dp → (res.fs.get x).map rcv = (s.get x).map rcv)
      ∧ ∃ e d2, res.fs.get (.slot j) = some e ∧ res.fs.get dp = some d2
          ∧ d2.valid = dm.valid ∧ d2.parent = dm.parent
          ∧ ((res.ret = .slot j ∧ e.valid = 1 ∧ e.ref = e0.ref ∧ e.parent = dp
                ∧ d2.ref = dm.ref + 1)
            ∨ (res.ret = .null ∧ e.valid = 0 ∧ e.ref = e0.ref - 1 ∧ d2.ref = dm.ref)) := by
  intro fuel
  induction fuel with
  | zero => intro s off count pptr pval res e0 dm h; simp [dirlookup_loop] at h
  | succ k ih =>
    intro s off count pptr pval res e0 dm h he0 hd
    unfold dirlookup_loop at h
    rw [hd, he0] at h
    simp only at h
    cases hn : enext fat ef s.disk dm e0 off count with
    | none => rw [hn] at h; simp at h
    | some r =>
      rw [hn] at h
      simp only at h
      obtain ⟨hsame, href⟩ := enext_frame fat ef s.disk dm e0 off count r hn
      have hrcv := enext_rcv fat ef s.disk dm e0 off count r hn
      have hv0 := enext_valid fat ef s.disk dm e0 off count r hn
      have hrv : r.ep.valid = 0 := by
        have := congrArg (fun t => t.1) hrcv
        simp only [rcv] at this
        rw [this]; exact hv0
      have hj0 : (s.set dp r.dp).get (.slot j) = some e0 := by
        rw [FS.get_set_other s dp (.slot j) r.dp (Ne.symm hdp)]; exact he0
      have hj1 : ((s.set dp r.dp).set (.slot j) r.ep).get (.slot j) = some r.ep :=
        FS.get_set_same _ _ e0 r.ep hj0
      have hd1 : ((s.set dp r.dp).set (.slot j) r.ep).get dp = some r.dp := by
        rw [FS.get_set_other _ (.slot j) dp r.ep hdp]
        exact FS.get_set_same s dp dm r.dp hd
      have hdv : r.dp.valid = dm.valid := by unfold SameFile at hsame; rw [hsame]
      have hdpar : r.dp.parent = dm.parent := by unfold SameFile at hsame; rw [hsame]
      have hdr : r.dp.ref = dm.ref := by unfold SameFile at hsame; rw [hsame]
      have hK1 : Keeps s ((s.set dp r.dp).set (.slot j) r.ep) (.slot j) := by
        apply keeps_trans _ _ _ _ (keeps_set s dp (.slot j) dm r.dp hd _ _ _ _)
          (keeps_set_self _ _ _)
        · exact hdv
        · exact hdpar
        · unfold SameFile at hsame; rw [hsame]
        · unfold SameFile at hsame; rw [hsame]
      have ho1 : ∀ x, x ≠ .slot j → x ≠ dp →
          ((s.set dp r.dp).set (.slot j) r.ep).get x = s.get x := by
        intro x hx1 hx2
        rw [FS.get_set_other _ (.slot j) x r.ep hx1, FS.get_set_other _ dp x r.dp hx2]
      by_cases hr : r.ret = -1
      · simp only [hr, ne_eq, not_true_eq_false, if_false] at h
        cases hp : eput fat ef ((s.set dp r.dp).set (.slot j) r.ep) (.slot j) with
        | none => rw [hp] at h; simp at h
        | some s2 =>
          rw [hp] at h
          simp only [Option.some.injEq] at h
          subst h
          simp only
          cases ef with
          | zero =>
            have h0 : eput fat 0 ((s.set dp r.dp).set (.slot j) r.ep) (.slot j) = none := rfl
            rw [h0] at hp
            simp at hp
          | succ ef2 =>
            obtain ⟨e, hge, hcase⟩ := eput_step fat ef2 _ _ _ hp
            rw [hj1] at hge
            simp only [Option.some.injEq] at hge
            subst hge
            rcases hcase with ⟨_, hs2⟩ | ⟨_, hvn, _⟩
            · subst hs2
              refine ⟨keeps_trans _ _ _ _ hK1 (keeps_set_self _ _ _), ?_, ?_⟩
              · intro x hx1 hx2
                rw [FS.get_set_other _ (.slot j) x _ hx1, ho1 x hx1 hx2]
              · refine ⟨_, r.dp, FS.get_set_same _ _ r.ep _ hj1, ?_, hdv, hdpar, ?_⟩
                · rw [FS.get_set_other _ (.slot j) dp _ hdp]; exact hd1
                · right
                  exact ⟨trivial, hrv, by simp only [href], hdr⟩
            · exact absurd hrv hvn
      · simp only [hr, ne_eq, not_false_eq_true, if_true, one_ne_zero, if_false] at h
        split at h
        · rename_i hcmp
          have he : (edup ((s.set dp r.dp).set (.slot j) r.ep) dp).1
              = ((s.set dp r.dp).set (.slot j) r.ep).set dp { r.dp with ref := r.dp.ref + 1 } := by
            unfold edup
            rw [hd1]
          rw [he] at h
          have hj2 : (((s.set dp r.dp).set (.slot j) r.ep).set dp
              { r.dp with ref := r.dp.ref + 1 }).get (.slot j) = some r.ep := by
            rw [FS.get_set_other _ dp (.slot j) _ (Ne.symm hdp)]; exact hj1
          rw [hj2] at h
          simp only [Option.some.injEq] at h
          subst h
          simp only
          refine ⟨?_, ?_, ?_⟩
          · exact keeps_trans _ _ _ _ hK1 (keeps_trans _ _ _ _
              (keeps_set _ dp (.slot j) r.dp { r.dp with ref := r.dp.ref + 1 } hd1 rfl rfl rfl rfl)
              (keeps_set_self _ _ _))
          · intro x hx1 hx2
            rw [FS.get_set_other _ (.slot j) x _ hx1, FS.get_set_other _ dp x _ hx2,
              ho1 x hx1 hx2]
          · refine ⟨_, { r.dp with ref := r.dp.ref + 1 }, FS.get_set_same _ _ r.ep _ hj2, ?_,
              hdv, hdpar, ?_⟩
            · rw [FS.get_set_other _ (.slot j) dp _ hdp]
              exact FS.get_set_same _ _ r.dp _ hd1
            · left
              exact ⟨trivial, rfl, href, rfl, by simp only [hdr]⟩
        · obtain ⟨a, b, e, d2, c1, c2, c3, c4, c5⟩ := ih _ _ _ _ _ res r.ep r.dp h hj1 hd1
          refine ⟨keeps_trans _ _ _ _ hK1 a, ?_, e, d2, c1, c2, c3.trans hdv, c4.trans hdpar, ?_⟩
          · intro x hx1 hx2
            rw [b x hx1 hx2, ho1 x hx1 hx2]
          · rcases c5 with ⟨x1, x2, x3, x4, x5⟩ | ⟨x1, x2, x3, x5⟩
            · exact Or.inl ⟨x1, x2, x3.trans href, x4, by rw [x5, hdr]⟩
            · exact Or.inr ⟨x1, x2, by rw [x3, href], by rw [x5, hdr]⟩

/-- The ways `dirlookup` returns, as far as `valid`, `ref` and `parent` go: the directory is not
valid and nothing changes; "." or ".." and the entry named gets one more reference; the name is in
the cache and the entry gets one more reference (and its parent `dp`, when the entry had none); or
the name is not in the cache, a slot without references is taken for the scan of the directory, and
it ends as a valid child of `dp` with one reference (and `dp` one more), or free again. -/
theorem dirlookup_cases (fat : Fat) (fuel : Nat) (s : FS) (dp : Ptr) (dpe : Dirent)
    (nm : List Nat) (poff : Option Nat) (r : DlRes)
    (hdp : s.get dp = some dpe) (hpos : dp = .root ∨ 1 ≤ dpe.ref) (hself : dp ≠ .root → dpe.parent ≠ dp)
    (h : dirlookup fat fuel s dp nm poff = some r) :
    (r.ret = .null ∧ r.fs = s ∧ dpe.valid ≠ 1)
    ∨ ((r.ret = dp ∨ (dp ≠ .root ∧ r.ret = dpe.parent)) ∧ r.fs = (edup s r.ret).1)
    ∨ (∃ i e, r.ret = .slot i ∧ dp ≠ .slot i ∧ s.entries[i]? = some e ∧ e.valid = 1
        ∧ e.parent = dp ∧ e.ref ≠ 0 ∧ r.fs = s.set (.slot i) { e with ref := e.ref + 1 })
    ∨ (∃ i e, r.ret = .slot i ∧ dp ≠ .slot i ∧ s.entries[i]? = some e ∧ e.valid = 1
        ∧ e.parent = dp ∧ e.ref = 0
        ∧ r.fs = (s.set (.slot i) { e with ref := e.ref + 1 }).set dp
            { dpe with ref := dpe.ref + 1 })
    ∨ (∃ j e, dp ≠ .slot j ∧ s.entries[j]? = some e ∧ e.ref = 0 ∧ dpe.valid = 1
        ∧ s.lru.find? (cache_hit s dp nm) = none ∧ Keeps s r.fs (.slot j)
        ∧ (∀ x, x ≠ .slot j → x ≠ dp → (r.fs.get x).map rcv = (s.get x).map rcv)
        ∧ ∃ e2 d2, r.fs.get (.slot j) = some e2 ∧ r.fs.get dp = some d2
          ∧ d2.valid = dpe.valid ∧ d2.parent = dpe.parent
          ∧ ((r.ret = .slot j ∧ e2.valid = 1 ∧ e2.ref = 1 ∧ e2.parent = dp
                ∧ d2.ref = dpe.ref + 1)
            ∨ (r.ret = .null ∧ e2.valid = 0 ∧ e2.ref = 0 ∧ d2.ref = dpe.ref))) := by
  unfold dirlookup at h
  rw [hdp] at h
  simp only at h
  split at h
  · simp at h
  · split at h
    · simp only [Option.some.injEq] at h
      subst h
      right; left
      exact ⟨Or.inl rfl, rfl⟩
    · split at h
      · split at h
        · rename_i hroot
          simp only [Option.some.injEq] at h
          subst h
          right; left
          exact ⟨Or.inl hroot.symm, rfl⟩
        · rename_i hroot
          simp only [Option.some.injEq] at h
          subst h
          right; left
          exact ⟨Or.inr ⟨hroot, rfl⟩, rfl⟩
      · split at h
        · rename_i hv
          simp only [Option.some.injEq] at h
          subst h
          left
          exact ⟨rfl, rfl, hv⟩
        · rename_i hv
          have hv1 : dpe.valid = 1 := not_not.1 hv
          cases hg : eget s dp (some nm) with
          | none => rw [hg] at h; simp at h
          | some sp =>
            obtain ⟨s1, ep⟩ := sp
            rw [hg] at h
            simp only at h
            rcases eget_cases s dp nm s1 ep hg with
              ⟨i, e, hep, hent, hev, hepar, hc⟩ | ⟨j, e, par, hep, hent, her, hpar, hs1, hfn⟩
            · have hne : dp ≠ .slot i := by
                intro hc2
                subst hc2
                have : some e = some dpe := hent.symm.trans hdp
                simp only [Option.some.injEq] at this
                subst this
                exact hself (by simp) hepar
              have hgs : s.get (.slot i) = some e := hent
              subst hep
              rcases hc with ⟨hr0, hs1⟩ | ⟨hr0, pp, hpp, hs1⟩
              · subst hs1
                rw [FS.get_set_same s _ e _ hgs, FS.get_set_other s _ dp _ hne, hdp] at h
                simp only [hev, if_true, Option.some.injEq] at h
                subst h
                right; right; left
                exact ⟨i, e, rfl, hne, hent, hev, hepar, hr0, by simp only [hev]⟩
              · rw [FS.get_set_other s _ dp _ hne, hdp] at hpp
                simp only [Option.some.injEq] at hpp
                subst hpp
                subst hs1
                have hd1 : (s.set (.slot i) { e with ref := e.ref + 1 }).get dp = some dpe := by
                  rw [FS.get_set_other s _ dp _ hne]; exact hdp
                rw [FS.get_set_other _ dp (.slot i) _ (Ne.symm hne),
                  FS.get_set_same s _ e _ hgs, FS.get_set_same _ dp dpe _ hd1] at h
                simp only [hev, if_true, Option.some.injEq] at h
                subst h
                right; right; right; left
                exact ⟨i, e, rfl, hne, hent, hev, hepar, hr0, by simp only [hev]⟩
            · have hne : dp ≠ .slot j := by
                intro hc2
                subst hc2
                have : some e = some dpe := hent.symm.trans hdp
                simp only [Option.some.injEq] at this
                subst this
                rcases hpos with a | a
                · simp at a
                · omega
              have hgs : s.get (.slot j) = some e := hent
              subst hep
              subst hs1
              have hj1 := FS.get_set_same s (.slot j) e
                { e with ref := 1, dev := par.dev, off := 0, valid := 0, dirty := 0 } hgs
              have hd1 : (s.set (.slot j)
                  { e with ref := 1, dev := par.dev, off := 0, valid := 0, dirty := 0 }).get dp
                  = some dpe := by
                rw [FS.get_set_other s (.slot j) dp _ hne]; exact hdp
              rw [hj1, hd1] at h
              simp only [zero_ne_one, if_false] at h
              cases hrc : reloc_clus fat (s.set (.slot j)
                  { e with ref := 1, dev := par.dev, off := 0, valid := 0, dirty := 0 }).disk
                  dpe 0 false with
              | none => rw [hrc] at h; simp at h
              | some rr =>
                rw [hrc] at h
                simp only at h
                have hsame := reloc_clus_same _ _ _ _ _ _ hrc
                have hj2 : ((s.set (.slot j)
                    { e with ref := 1, dev := par.dev, off := 0, valid := 0, dirty := 0 }).set dp
                    rr.ent).get (.slot j)
                    = some { e with ref := 1, dev := par.dev, off := 0, valid := 0, dirty := 0 } := by
                  rw [FS.get_set_other _ dp (.slot j) _ (Ne.symm hne)]; exact hj1
                have hd2 : ((s.set (.slot j)
                    { e with ref := 1, dev := par.dev, off := 0, valid := 0, dirty := 0 }).set dp
                    rr.ent).get dp = some rr.ent := FS.get_set_same _ dp dpe _ hd1
                obtain ⟨hk, hoth, e2, d2, c1, c2, c3, c4, c5⟩ :=
                  dirlookup_loop_scan fat fuel nm _ dp j hne fuel _ 0 0 _ _ r _ _ h hj2 hd2
                have hrv : rr.ent.valid = dpe.valid := by unfold SameFile at hsame; rw [hsame]
                have hrp : rr.ent.parent = dpe.parent := by unfold SameFile at hsame; rw [hsame]
                have hrr : rr.ent.ref = dpe.ref := by unfold SameFile at hsame; rw [hsame]
                have hk0 : Keeps s r.fs (.slot j) := by
                  refine keeps_trans _ _ _ _ (keeps_set_self s (.slot j) _)
                    (keeps_trans _ _ _ _ (keeps_set _ dp (.slot j) dpe rr.ent hd1 ?_ ?_ ?_ ?_) hk)
                  · exact hrv
                  · exact hrp
                  · unfold SameFile at hsame; rw [hsame]
                  · unfold SameFile at hsame; rw [hsame]
                right; right; right; right
                refine ⟨j, e, hne, hent, her, hv1, hfn, hk0, ?_, e2, d2, c1, c2, c3.trans hrv,
                  c4.trans hrp, ?_⟩
                · intro x hx1 hx2
                  rw [hoth x hx1 hx2, FS.get_set_other _ dp x _ hx2,
                    FS.get_set_other _ (.slot j) x _ hx1]
                · rcases c5 with ⟨x1, x2, x3, x4, x5⟩ | ⟨x1, x2, x3, x5⟩
                  · exact Or.inl ⟨x1, x2, x3, x4, by rw [x5, hrr]⟩
                  · exact Or.inr ⟨x1, x2, by rw [x3]; rfl, by rw [x5, hrr]⟩

theorem FS.set_comm (s : FS) (p q : Ptr) (a b : Dirent) (h : p ≠ q) :
    (s.set p a).set q b = (s.set q b).set p a := by
  cases p with
  | null => rfl
  | root =>
    cases q with
    | null => rfl
    | root => exact absurd rfl h
    | slot j => rfl
  | slot i =>
    cases q with
    | null => rfl
    | root => rfl
    | slot j =>
      have hij : i ≠ j := fun hc => h (by rw [hc])
      simp only [FS.set]
      rw [List.set_comm a b s.entries hij]

/-- Under the bookkeeping a slot whose `ref` is above 0 is in use. -/
theorem rc_ref_valid (s : FS) (H : List Ptr) (h : Inv s H) (j : Nat) (e : Dirent)
    (he : s.entries[j]? = some e) (hr : 0 < e.ref) : e.valid ≠ 0 := by
  have hc := h.cnt (.slot j) e he
  by_cases hm : Ptr.slot j ∈ H
  · rcases h.held _ hm with a | ⟨i, ei, a, b, c⟩
    · simp at a
    · simp only [Ptr.slot.injEq] at a
      subst a
      rw [he] at b
      simp only [Option.some.injEq] at b
      subst b
      exact c
  · have h0 : H.count (.slot j) = 0 := List.count_eq_zero.2 hm
    have hp : 0 < pins s (.slot j) := by omega
    obtain ⟨i, ei, hi, hv, hri, hpar⟩ := pins_pos s _ hp
    rcases rc_parent s H h i ei hi hv hri with a | ⟨k, pe, a, _, b, c, _⟩
    · rw [hpar] at a
      simp at a
    · rw [hpar] at a
      simp only [Ptr.slot.injEq] at a
      subst a
      rw [he] at b
      simp only [Option.some.injEq] at b
      subst b
      exact c

/-- A pointer that may be passed to a call reads an entry: `root`, or a referenced slot in use. -/
theorem rc_live (s : FS) (H : List Ptr) (h : Inv s H) (x : Ptr) (hx : Live s x) :
    ∃ e, s.get x = some e ∧ (x = .root ∨ (e.valid ≠ 0 ∧ 0 < e.ref)) := by
  rcases hx with h1 | ⟨i, e, h1, h2, h3⟩
  · subst h1
    exact ⟨s.root, rfl, Or.inl rfl⟩
  · subst h1
    exact ⟨e, h2, Or.inr ⟨rc_ref_valid s H h i e h2 h3, h3⟩⟩

theorem mod0_refl (s : FS) : Mod0 s s := fun _ e he _ => ⟨e, he, rfl, rfl⟩

theorem mod0_set (s : FS) (p : Ptr) (e e2 : Dirent) (hp : s.get p = some e)
    (h : 0 < e.ref → e2.valid = e.valid ∧ e2.parent = e.parent) : Mod0 s (s.set p e2) := by
  intro i ei hi hr
  have hg := get_set s p (.slot i) e e2 hp
  by_cases hq : Ptr.slot i = p
  · rw [if_pos hq] at hg
    subst hq
    have : some ei = some e := hi.symm.trans hp
    simp only [Option.some.injEq] at this
    subst this
    exact ⟨e2, hg, (h hr).1, (h hr).2⟩
  · rw [if_neg hq] at hg
    exact ⟨ei, hg.trans hi, rfl, rfl⟩

theorem mod0_edup (s : FS) (x : Ptr) : Mod0 s (edup s x).1 := by
  unfold edup
  cases hx : s.get x with
  | none => exact mod0_refl s
  | some e => exact mod0_set s x e _ hx (fun _ => ⟨rfl, rfl⟩)

/-- A slot without references becomes a valid child of `dp` with one reference, and `dp` gets one
more: the new entry is held. -/
theorem rc_adopt (s : FS) (H : List Ptr) (h : Inv s H) (j : Nat) (e e2 : Dirent) (dp : Ptr)
    (dpe d2 : Dirent) (hj : s.entries[j]? = some e) (hr : e.ref = 0)
    (hdp : s.get dp = some dpe) (hok : dp = .root ∨ (dpe.valid ≠ 0 ∧ 0 < dpe.ref))
    (hv2 : e2.valid ≠ 0) (hr2 : e2.ref = 1) (hp2 : e2.parent = dp)
    (hdv : d2.valid = dpe.valid) (hdr : d2.ref = dpe.ref + 1) (hdpar : d2.parent = dpe.parent) :
    Inv ((s.set dp d2).set (.slot j) e2) (.slot j :: H) := by
  have hne : dp ≠ .slot j := by
    intro hc
    subst hc
    have : some e = some dpe := hj.symm.trans hdp
    simp only [Option.some.injEq] at this
    subst this
    rcases hok with a | a
    · simp at a
    · omega
  have h1 := rc_inc s H h dp dpe d2 hdp hok hdv hdr hdpar
  have hj1 : (s.set dp d2).entries[j]? = some e := by
    have := FS.get_set_other s dp (.slot j) d2 (Ne.symm hne)
    exact this.trans hj
  have h2 := rc_pin (s.set dp d2) (dp :: H) h1 j e e2 hj1 hr dp (List.mem_cons_self _ _)
    hv2 hr2 hp2
  rw [List.erase_cons_head] at h2
  exact h2

/-- Source `dirlookup` keeps the bookkeeping: the entry returned is one more held reference. -/
theorem dirlookup_rc (fat : Fat) (fuel : Nat) (s : FS) (H : List Ptr) (dp : Ptr)
    (nm : List Nat) (poff : Option Nat) (r : DlRes) (hinv : Inv s H) (hlive : Live s dp)
    (h : dirlookup fat fuel s dp nm poff = some r) :
    Inv r.fs (if r.ret = .null then H else r.ret :: H) ∧ Mod0 s r.fs := by
  obtain ⟨dpe, hdp, hok⟩ := rc_live s H hinv dp hlive
  have hpos : dp = .root ∨ 1 ≤ dpe.ref := by
    rcases hok with a | a
    · exact Or.inl a
    · exact Or.inr (by omega)
  have hself : dp ≠ .root → dpe.parent ≠ dp := by
    intro hnr
    rcases hok with a | ⟨a, b⟩
    · exact absurd a hnr
    · cases dp with
      | null => simp [FS.get] at hdp
      | root => exact absurd rfl hnr
      | slot k =>
        rcases rc_parent s H hinv k dpe hdp a b with c | ⟨k2, pe, c, d, _⟩
        · rw [c]; simp
        · rw [c]
          intro hc
          simp only [Ptr.slot.injEq] at hc
          exact d hc
  rcases dirlookup_cases fat fuel s dp dpe nm poff r hdp hpos hself h with
    ⟨h1, h2, _⟩ | ⟨h1, h2⟩ | ⟨i, e, h1, hne, hent, hev, hepar, hr0, h2⟩
    | ⟨i, e, h1, hne, hent, hev, hepar, hr0, h2⟩
    | ⟨j, e, hne, hent, her, _, _, _, hoth, e2, d2, c1, c2, c3, c4, c5⟩
  · rw [h1, h2]
    exact ⟨hinv, mod0_refl s⟩
  · rw [h2]
    refine ⟨?_, mod0_edup s _⟩
    rcases h1 with a | ⟨a, b⟩
    · have hn : r.ret ≠ .null := by
        rw [a]
        intro hc
        rw [hc] at hdp
        simp [FS.get] at hdp
      rw [if_neg hn, a]
      exact edup_rc s H hinv dp dpe hdp hok
    · rcases hok with c | ⟨c, d⟩
      · exact absurd c a
      · cases dp with
        | null => simp [FS.get] at hdp
        | root => exact absurd rfl a
        | slot k =>
          rcases rc_parent s H hinv k dpe hdp c d with f | ⟨k2, pe, f, _, g1, g2, g3⟩
          · have hn : r.ret ≠ .null := by rw [b, f]; simp
            rw [if_neg hn, b, f]
            exact edup_rc s H hinv .root s.root rfl (Or.inl rfl)
          · have hn : r.ret ≠ .null := by rw [b, f]; simp
            rw [if_neg hn, b, f]
            exact edup_rc s H hinv (.slot k2) pe g1 (Or.inr ⟨g2, g3⟩)
  · have hn : r.ret ≠ .null := by rw [h1]; simp
    rw [if_neg hn, h1, h2]
    have hc := hinv.cnt (.slot i) e hent
    have hpos2 : 0 < e.ref := by omega
    refine ⟨rc_inc s H hinv (.slot i) e _ hent (Or.inr ⟨by omega, hpos2⟩) rfl rfl rfl, ?_⟩
    exact mod0_set s (.slot i) e _ hent (fun _ => ⟨rfl, rfl⟩)
  · have hn : r.ret ≠ .null := by rw [h1]; simp
    rw [if_neg hn, h1, h2]
    rw [FS.set_comm s (.slot i) dp _ _ (Ne.symm hne)]
    refine ⟨rc_adopt s H hinv i e _ dp dpe _ hent hr0 hdp hok (by simp only [hev]; decide)
      (by simp only [hr0]; rfl) hepar rfl rfl rfl, ?_⟩
    intro k ek hk hkr
    have hki : k ≠ i := by
      intro hc
      subst hc
      rw [hent] at hk
      simp only [Option.some.injEq] at hk
      subst hk
      omega
    have hg1 : (s.set dp { dpe with ref := dpe.ref + 1 }).get (.slot i) = some e := by
      rw [FS.get_set_other s dp (.slot i) _ (Ne.symm hne)]; exact hent
    have hm := mod0_set s dp dpe { dpe with ref := dpe.ref + 1 } hdp (fun _ => ⟨rfl, rfl⟩)
      k ek hk hkr
    obtain ⟨e3, a, b, c⟩ := hm
    refine ⟨e3, ?_, b, c⟩
    have := FS.get_set_other (s.set dp { dpe with ref := dpe.ref + 1 }) (.slot i) (.slot k)
      { e with ref := e.ref + 1 } (by simpa using hki)
    exact this.trans a
  · have hmod : Mod0 s r.fs := by
      intro k ek hk hkr
      have hkj : k ≠ j := by
        intro hc
        subst hc
        rw [hent] at hk
        simp only [Option.some.injEq] at hk
        subst hk
        omega
      by_cases hkd : Ptr.slot k = dp
      · rw [← hkd] at c2 hdp
        have : some ek = some dpe := hk.symm.trans hdp
        simp only [Option.some.injEq] at this
        subst this
        exact ⟨d2, c2, c3, c4⟩
      · have := hoth (.slot k) (by simpa using hkj) hkd
        have hk2 : s.get (.slot k) = some ek := hk
        rw [hk2] at this
        cases hg : r.fs.get (.slot k) with
        | none => rw [hg] at this; simp at this
        | some e3 =>
          rw [hg] at this
          simp only [Option.map_some', Option.some.injEq, rcv, Prod.mk.injEq] at this
          exact ⟨e3, hg, this.1, this.2.2⟩
    refine ⟨?_, hmod⟩
    rcases c5 with ⟨x1, x2, x3, x4, x5⟩ | ⟨x1, x2, x3, x5⟩
    · have hn : r.ret ≠ .null := by rw [x1]; simp
      rw [if_neg hn, x1]
      have hT := rc_adopt s H hinv j e e2 dp dpe d2 hent her hdp hok (by rw [x2]; decide)
        x3 x4 c3 x5 c4
      apply rc_meq _ _ _ hT
      intro p
      by_cases hpj : p = .slot j
      · subst hpj
        have hj1 : (s.set dp d2).get (.slot j) = some e := by
          rw [FS.get_set_other s dp (.slot j) _ (Ne.symm hne)]; exact hent
        rw [c1, FS.get_set_same _ _ e e2 hj1]
      · rw [FS.get_set_other _ (.slot j) p e2 hpj]
        by_cases hpd : p = dp
        · subst hpd
          rw [c2, FS.get_set_same s _ dpe d2 hdp]
        · rw [FS.get_set_other s dp p d2 hpd]
          exact hoth p hpj hpd
    · rw [if_pos x1]
      have hT := rc_free_set s H hinv j e e2 hent her x3
      apply rc_meq _ _ _ hT
      intro p
      by_cases hpj : p = .slot j
      · subst hpj
        rw [c1, FS.get_set_same s (.slot j) e e2 hent]
      · rw [FS.get_set_other s (.slot j) p e2 hpj]
        by_cases hpd : p = dp
        · subst hpd
          rw [c2, hdp]
          simp only [Option.map_some', rcv, c3, c4, x5]
        · exact hoth p hpj hpd

theorem sameVP_refl (s : FS) : SameVP s s := fun _ e he => ⟨e, he, rfl, rfl⟩

theorem sameVP_trans (s s1 s2 : FS) (h1 : SameVP s s1) (h2 : SameVP s1 s2) : SameVP s s2 := by
  intro p e he
  obtain ⟨e1, a, b, c⟩ := h1 p e he
  obtain ⟨e2, a2, b2, c2⟩ := h2 p e1 a
  exact ⟨e2, a2, b2.trans b, c2.trans c⟩

theorem sameVP_set (s : FS) (x : Ptr) (e e2 : Dirent) (hx : s.get x = some e)
    (hv : e2.valid = e.valid) (hp : e2.parent = e.parent) : SameVP s (s.set x e2) := by
  intro p ep hep
  rw [get_set s x p e e2 hx]
  by_cases hq : p = x
  · subst hq
    rw [if_pos rfl]
    have : some ep = some e := hep.symm.trans hx
    simp only [Option.some.injEq] at this
    subst this
    exact ⟨e2, rfl, hv, hp⟩
  · rw [if_neg hq]
    exact ⟨ep, hep, rfl, rfl⟩

theorem sameVP_meq (s s2 : FS) (h : MEq s s2) : SameVP s s2 := by
  intro p e he
  obtain ⟨e2, a, b, _, d⟩ := meq_some h p e he
  exact ⟨e2, a, b, d⟩

theorem sameVP_edup (s : FS) (x : Ptr) : SameVP s (edup s x).1 := by
  unfold edup
  cases hx : s.get x with
  | none => exact sameVP_refl s
  | some e => exact sameVP_set s x e _ hx rfl rfl

/-- Source `eput` changes `valid` and `parent` of no entry. -/
theorem eput_sameVP (fat : Fat) : ∀ (fuel : Nat) (s : FS) (x : Ptr) (s2 : FS),
    eput fat fuel s x = some s2 → SameVP s s2 := by
  intro fuel
  induction fuel with
  | zero =>
    intro s x s2 h
    have h0 : eput fat 0 s x = none := rfl
    rw [h0] at h
    simp at h
  | succ k ih =>
    intro s x s2 h
    obtain ⟨e, he, hcase⟩ := eput_step fat k s x s2 h
    rcases hcase with ⟨_, hs2⟩ | ⟨_, _, _, s4, hm, hrec⟩
    · rw [hs2]
      exact sameVP_set s x e _ he rfl rfl
    · exact sameVP_trans _ _ _ (sameVP_trans _ _ _
        (sameVP_set s x e { e with ref := 0 } he rfl rfl)
        (sameVP_meq _ _ hm)) (ih s4 e.parent s2 hrec)

theorem emake_put_same (fat : Fat) (d : Disk) (dp : Dirent) (off : Nat) (de : List Nat)
    (d1 : Disk) (dp1 : Dirent) (h : emake_put fat d dp off de = some (d1, dp1)) :
    SameFile dp dp1 := by
  unfold emake_put at h
  cases hr : reloc_clus fat d dp off true with
  | none => rw [hr] at h; simp at h
  | some r =>
    rw [hr] at h
    simp only at h
    split at h
    · simp at h
    · simp only [Option.some.injEq, Prod.mk.injEq] at h
      rw [← h.2]
      exact reloc_clus_same _ _ _ _ _ _ hr

theorem emake_lnes_same (fat : Fat) (fname : List Nat) (entcnt checksum : Nat) :
    ∀ (i : Nat) (d : Disk) (dp : Dirent) (off : Nat) (d1 : Disk) (dp1 : Dirent) (off1 : Nat),
    emake_lnes fat fname entcnt checksum i d dp off = some (d1, dp1, off1) →
    SameFile dp dp1 := by
  intro i
  induction i with
  | zero =>
    intro d dp off d1 dp1 off1 h
    simp only [emake_lnes, Option.some.injEq, Prod.mk.injEq] at h
    rw [← h.2.1]
    exact sameFile_refl dp
  | succ k ih =>
    intro d dp off d1 dp1 off1 h
    unfold emake_lnes at h
    cases hp : emake_put fat d dp off (lne_bytes fname entcnt checksum (k + 1)) with
    | none => rw [hp] at h; simp at h
    | some r =>
      obtain ⟨d2, dp2⟩ := r
      rw [hp] at h
      simp only at h
      exact sameFile_trans (emake_put_same _ _ _ _ _ _ _ hp) (ih _ _ _ _ _ _ h)

/-- Source `emake` changes only the cursor of the directory. -/
theorem emake_same (fat : Fat) (d : Disk) (dp ep : Dirent) (off : Nat) (d1 : Disk)
    (dp1 : Dirent) (h : emake fat d dp ep off = some (d1, dp1)) : SameFile dp dp1 := by
  unfold emake at h
  split at h
  · simp at h
  · split at h
    · simp at h
    · split at h
      · exact emake_put_same _ _ _ _ _ _ _ h
      · simp only at h
        split at h
        · simp at h
        · rename_i d2 dp2 off2 hl
          exact sameFile_trans (emake_lnes_same _ _ _ _ _ _ _ _ _ _ _ hl)
            (emake_put_same _ _ _ _ _ _ _ h)

/-- When no entry of the cache matches, `eget` hands out a slot without references, not valid,
with one reference. -/
theorem eget_miss (s : FS) (dp : Ptr) (nm : List Nat) (s1 : FS) (ep : Ptr)
    (hfn : s.lru.find? (cache_hit s dp nm) = none)
    (h : eget s dp (some nm) = some (s1, ep)) :
    ∃ j e par, ep = .slot j ∧ s.entries[j]? = some e ∧ e.ref = 0 ∧ s.get dp = some par
      ∧ s1 = s.set (.slot j)
              { e with ref := 1, dev := par.dev, off := 0, valid := 0, dirty := 0 } := by
  unfold eget at h
  simp only at h
  split at h
  · rename_i i2 heq
    have hfi : s.lru.find? (cache_hit s dp nm) = some i2 := heq
    rw [hfn] at hfi
    simp at hfi
  · split at h
    · simp at h
    · rename_i j hrev
      have hz := List.find?_some hrev
      split at h
      · rename_i e0 par hent0 hpar
        simp only [Option.some.injEq, Prod.mk.injEq] at h
        rw [hent0] at hz
        simp only [decide_eq_true_eq] at hz
        exact ⟨j, e0, par, h.2.symm, hent0, hz, hpar, h.1.symm⟩
      · simp at h

/-- A referenced slot in use is not its own parent. -/
theorem rc_not_self (s : FS) (H : List Ptr) (hinv : Inv s H) (dp : Ptr) (dpe : Dirent)
    (hdp : s.get dp = some dpe) (hok : dp = .root ∨ (dpe.valid ≠ 0 ∧ 0 < dpe.ref)) :
    dp ≠ .root → dpe.parent ≠ dp ∧ dpe.parent ≠ .null := by
  intro hnr
  rcases hok with a | ⟨a, b⟩
  · exact absurd a hnr
  · cases dp with
    | null => simp [FS.get] at hdp
    | root => exact absurd rfl hnr
    | slot k =>
      rcases rc_parent s H hinv k dpe hdp a b with c | ⟨k2, pe, c, d, _⟩
      · rw [c]; simp
      · rw [c]
        refine ⟨?_, by simp⟩
        intro hc
        simp only [Ptr.slot.injEq] at hc
        exact d hc

/-- When `dirlookup` finds no entry in a valid directory, no entry of the cache matches the name
afterwards, and the directory has the reference count it had. -/
theorem dirlookup_null (fat : Fat) (fuel : Nat) (s : FS) (H : List Ptr) (dp : Ptr)
    (dpe : Dirent) (nm : List Nat) (poff : Option Nat) (r : DlRes) (hinv : Inv s H)
    (hdp : s.get dp = some dpe) (hok : dp = .root ∨ (dpe.valid ≠ 0 ∧ 0 < dpe.ref))
    (hv : dpe.valid = 1) (h : dirlookup fat fuel s dp nm poff = some r) (hr : r.ret = .null) :
    r.fs.lru.find? (cache_hit r.fs dp nm) = none
      ∧ ∃ d2, r.fs.get dp = some d2 ∧ d2.valid = dpe.valid ∧ d2.ref = dpe.ref
          ∧ d2.parent = dpe.parent := by
  have hpos : dp = .root ∨ 1 ≤ dpe.ref := by
    rcases hok with a | a
    · exact Or.inl a
    · exact Or.inr (by omega)
  have hself := rc_not_self s H hinv dp dpe hdp hok
  rcases dirlookup_cases fat fuel s dp dpe nm poff r hdp hpos (fun a => (hself a).1) h with
    ⟨_, _, h3⟩ | ⟨h1, _⟩ | ⟨i, e, h1, _⟩ | ⟨i, e, h1, _⟩
    | ⟨j, e, hne, hent, her, _, hfn, hk, hoth, e2, d2, c1, c2, c3, c4, c5⟩
  · exact absurd hv h3
  · exfalso
    rcases h1 with a | ⟨a, b⟩
    · rw [hr] at a
      rw [← a] at hdp
      simp [FS.get] at hdp
    · rw [hr] at b
      exact (hself a).2 b.symm
  · rw [hr] at h1; simp at h1
  · rw [hr] at h1; simp at h1
  · rcases c5 with ⟨x1, _⟩ | ⟨_, x2, _, x5⟩
    · rw [hr] at x1; simp at x1
    · refine ⟨?_, d2, c2, c3, x5, c4⟩
      rw [hk.1]
      rw [List.find?_eq_none]
      intro x hx
      by_cases hxj : x = j
      · subst hxj
        unfold cache_hit
        have c1b : r.fs.entries[x]? = some e2 := c1
        rw [c1b]
        simp [x2]
      · rw [keeps_hit s r.fs (.slot j) dp nm x hk (by simpa using hxj)]
        exact List.find?_eq_none.1 hfn x hx

theorem sameFile_rcv (e e2 : Dirent) (h : SameFile e e2) : rcv e2 = rcv e := by
  unfold SameFile at h
  rw [h]
  rfl

theorem get_disk (s : FS) (d : Disk) (p : Ptr) : ({ s with disk := d } : FS).get p = s.get p := by
  cases p <;> rfl

/-- Source `ealloc` keeps the bookkeeping: the entry returned is one more held reference. -/
theorem ealloc_rc (fat : Fat) (fuel : Nat) (s : FS) (H : List Ptr) (dp : Ptr)
    (name : List Nat) (attr : Nat) (s2 : FS) (ep : Ptr) (hinv : Inv s H) (hlive : Live s dp)
    (h : ealloc fat fuel s dp name attr = some (s2, ep)) :
    Inv s2 (if ep = .null then H else ep :: H) := by
  obtain ⟨dpe, hdp, hok⟩ := rc_live s H hinv dp hlive
  unfold ealloc at h
  rw [hdp] at h
  simp only at h
  split at h
  · simp at h
  · split at h
    · simp only [Option.some.injEq, Prod.mk.injEq] at h
      rw [← h.1, ← h.2, if_pos rfl]
      exact hinv
    · rename_i hv
      have hv1 : dpe.valid = 1 := not_not.1 hv
      cases hf : formatname name with
      | none =>
        rw [hf] at h
        simp only [Option.some.injEq, Prod.mk.injEq] at h
        rw [← h.1, ← h.2, if_pos rfl]
        exact hinv
      | some nm =>
        rw [hf] at h
        simp only at h
        cases hd : dirlookup fat fuel s dp nm (some 0) with
        | none => rw [hd] at h; simp at h
        | some r =>
          rw [hd] at h
          simp only at h
          have hrc := (dirlookup_rc fat fuel s H dp nm (some 0) r hinv hlive hd).1
          by_cases hr : r.ret = .null
          · rw [if_neg (not_not.2 hr)] at h
            rw [if_pos hr] at hrc
            obtain ⟨hfn, d2, hd2, hd2v, hd2r, hd2p⟩ :=
              dirlookup_null fat fuel s H dp dpe nm (some 0) r hinv hdp hok hv1 hd hr
            cases hg : eget r.fs dp (some nm) with
            | none => rw [hg] at h; simp at h
            | some sp =>
              obtain ⟨s1, ep1⟩ := sp
              rw [hg] at h
              simp only at h
              obtain ⟨j, e, par, hep, hent, her, hpar, hs1⟩ := eget_miss r.fs dp nm s1 ep1 hfn hg
              subst hep
              have hne : dp ≠ .slot j := by
                intro hc
                subst hc
                have : some e = some d2 := hent.symm.trans hd2
                simp only [Option.some.injEq] at this
                subst this
                rcases hok with a | a
                · simp at a
                · omega
              have hj1 : s1.get (.slot j) = some
                  { e with ref := 1, dev := par.dev, off := 0, valid := 0, dirty := 0 } := by
                rw [hs1]
                exact FS.get_set_same r.fs (.slot j) e _ hent
              have hd1 : s1.get dp = some d2 := by
                rw [hs1, FS.get_set_other r.fs (.slot j) dp _ hne]
                exact hd2
              rw [hj1] at h
              simp only at h
              have hed : (edup s1 dp).1 = s1.set dp { d2 with ref := d2.ref + 1 } := by
                unfold edup
                rw [hd1]
              rw [hed] at h
              simp only [lt_self_iff_false, if_false] at h
              have hS2 : (s1.set dp { d2 with ref := d2.ref + 1 }).get dp
                  = some { d2 with ref := d2.ref + 1 } := FS.get_set_same s1 dp d2 _ hd1
              rw [hS2] at h
              simp only at h
              have key : ∀ (made : Option (Disk × Dirent)),
                  (∀ d3 e4, made = some (d3, e4) → e4.valid = 0 ∧ e4.ref = 1 ∧ e4.parent = dp) →
                  (match made, some ({ d2 with ref := d2.ref + 1 } : Dirent) with
                    | some (d3, e4), some dpe3 =>
                      match emake fat d3 dpe3 e4 r.poff with
                      | none => none
                      | some (d4, dpe4) =>
                        some ((({ (s1.set dp { d2 with ref := d2.ref + 1 }) with disk := d4 }.set dp
                          dpe4).set (.slot j) { e4 with valid := 1 }), Ptr.slot j)
                    | _, _ => none) = some (s2, ep) →
                  Inv s2 (if ep = .null then H else ep :: H) := by
                intro made hmade hm
                cases made with
                | none => simp at hm
                | some de =>
                  obtain ⟨d3, e4⟩ := de
                  obtain ⟨a1, a2, a3⟩ := hmade d3 e4 rfl
                  simp only at hm
                  cases hem : emake fat d3 { d2 with ref := d2.ref + 1 } e4 r.poff with
                  | none => rw [hem] at hm; simp at hm
                  | some dd =>
                    obtain ⟨d4, dpe4⟩ := dd
                    rw [hem] at hm
                    simp only [Option.some.injEq, Prod.mk.injEq] at hm
                    obtain ⟨hm1, hm2⟩ := hm
                    subst hm2
                    have hn : (Ptr.slot j) ≠ .null := by simp
                    rw [if_neg hn]
                    have hsf := sameFile_rcv _ _ (emake_same _ _ _ _ _ _ _ hem)
                    simp only [rcv, Prod.mk.injEq] at hsf
                    have hT := rc_adopt r.fs H hrc j e { e4 with valid := 1 } dp d2 dpe4 hent her
                      hd2 (by rw [hd2v, hd2r]; exact hok) (by simp) a2 a3 hsf.1 hsf.2.1 hsf.2.2
                    apply rc_meq _ _ _ hT
                    rw [← hm1]
                    intro p
                    have hj0 : (r.fs.set dp dpe4).get (.slot j) = some e := by
                      rw [FS.get_set_other r.fs dp (.slot j) _ (Ne.symm hne)]; exact hent
                    have hj4 : (({ (s1.set dp { d2 with ref := d2.ref + 1 }) with disk := d4 }.set
                        dp dpe4).get (.slot j)) = some
                          { e with ref := 1, dev := par.dev, off := 0, valid := 0, dirty := 0 } := by
                      rw [FS.get_set_other _ dp (.slot j) _ (Ne.symm hne), get_disk,
                        FS.get_set_other _ dp (.slot j) _ (Ne.symm hne)]
                      exact hj1
                    by_cases hpj : p = .slot j
                    · subst hpj
                      rw [FS.get_set_same _ _ _ _ hj4, FS.get_set_same _ _ _ _ hj0]
                    · rw [FS.get_set_other _ (.slot j) p _ hpj, FS.get_set_other _ (.slot j) p _ hpj]
                      by_cases hpd : p = dp
                      · subst hpd
                        have hd3 : ({ (s1.set p { d2 with ref := d2.ref + 1 })
                            with disk := d4 } : FS).get p = some { d2 with ref := d2.ref + 1 } := by
                          rw [get_disk]; exact hS2
                        rw [FS.get_set_same _ _ _ _ hd3, FS.get_set_same _ _ _ _ hd2]
                      · rw [FS.get_set_other _ dp p _ hpd, FS.get_set_other _ dp p _ hpd, get_disk,
                          FS.get_set_other _ dp p _ hpd, hs1, FS.get_set_other _ (.slot j) p _ hpj]
              refine key _ ?_ h
              intro d3 e4 hm
              split at hm
              · cases hac : alloc_clus fat
                    (s1.set dp { d2 with ref := d2.ref + 1 }).disk with
                | none => rw [hac] at hm; simp at hm
                | some cd =>
                  obtain ⟨c, dd1⟩ := cd
                  rw [hac] at hm
                  simp only at hm
                  split at hm
                  · simp at hm
                  · rename_i dd2 e3 hem1
                    have hsf1 := sameFile_rcv _ _ (emake_same _ _ _ _ _ _ _ hem1)
                    have hsf2 := sameFile_rcv _ _ (emake_same _ _ _ _ _ _ _ hm)
                    rw [hsf1] at hsf2
                    simp only [rcv, Prod.mk.injEq] at hsf2
                    exact hsf2
              · simp only [Option.some.injEq, Prod.mk.injEq] at hm
                rw [← hm.2]
                exact ⟨rfl, rfl, rfl⟩
          · rw [if_pos hr] at h
            simp only [Option.some.injEq, Prod.mk.injEq] at h
            rw [← h.1, ← h.2]
            rw [if_neg hr] at hrc ⊢
            exact hrc

theorem exists_bound (f : Nat → Nat) : ∀ (n : Nat), ∃ B, ∀ i, i < n → f i < B := by
  intro n
  induction n with
  | zero => exact ⟨0, fun i hi => absurd hi (Nat.not_lt_zero i)⟩
  | succ m ih =>
    obtain ⟨B, hB⟩ := ih
    refine ⟨max B (f m + 1), ?_⟩
    intro i hi
    by_cases him : i = m
    · subst him
      have := le_max_right B (f i + 1)
      omega
    · have := hB i (by omega)
      have := le_max_left B (f m + 1)
      omega

/-- A referenced slot in use is held, or it has a referenced child that lies below it. -/
theorem rc_active_why (s : FS) (H : List Ptr) (h : Inv s H) (rk : Nat → Nat)
    (hrk : ∀ i e, s.entries[i]? = some e → e.valid ≠ 0 → 0 < e.ref →
      e.parent = .root ∨ ∃ k, e.parent = .slot k ∧ active s k = true ∧ rk k < rk i)
    (i : Nat) (hi : active s i = true) :
    Ptr.slot i ∈ H ∨ ∃ c ec, s.entries[c]? = some ec ∧ ec.valid ≠ 0 ∧ 0 < ec.ref
      ∧ ec.parent = .slot i ∧ rk i < rk c := by
  obtain ⟨e, he, hv, hr⟩ := active_true s i hi
  by_cases hm : Ptr.slot i ∈ H
  · exact Or.inl hm
  · right
    have hc := h.cnt (.slot i) e he
    have h0 : H.count (.slot i) = 0 := List.count_eq_zero.2 hm
    have hp : 0 < pins s (.slot i) := by omega
    obtain ⟨c, ec, hce, hcv, hcr, hcp⟩ := pins_pos s _ hp
    refine ⟨c, ec, hce, hcv, hcr, hcp, ?_⟩
    rcases hrk c ec hce hcv hcr with a | ⟨k, a, _, b⟩
    · rw [hcp] at a; simp at a
    · rw [hcp] at a
      simp only [Ptr.slot.injEq] at a
      subst a
      exact b

theorem active_of (s : FS) (i : Nat) (e : Dirent) (he : s.entries[i]? = some e)
    (hv : e.valid ≠ 0) (hr : 0 < e.ref) : active s i = true := by
  rw [active_eq s i e he]
  simp [hv, hr]

theorem rc_held_active (s : FS) (H : List Ptr) (h : Inv s H) (i : Nat) (hm : Ptr.slot i ∈ H) :
    active s i = true := by
  rcases h.held _ hm with a | ⟨k, e, a, b, c⟩
  · simp at a
  · simp only [Ptr.slot.injEq] at a
    subst a
    have := rc_held_ref s H h _ hm e b
    exact active_of s i e b c (by omega)

/-- The referenced slots in use stay so when the references held stay and the referenced slots in
use keep `valid` and `parent`. -/
theorem active_mono (s s1 : FS) (H H1 : List Ptr) (h : Inv s H) (h1 : Inv s1 H1)
    (hsub : ∀ x ∈ H, x ∈ H1) (hk : Kept s s1) :
    ∀ i, active s i = true → active s1 i = true := by
  obtain ⟨rk, hrk⟩ := h.rank
  obtain ⟨B, hB⟩ := exists_bound rk s.entries.length
  have main : ∀ (m i : Nat), B - rk i ≤ m → active s i = true → active s1 i = true := by
    intro m
    induction m with
    | zero =>
      intro i hm hi
      obtain ⟨e, he, _, _⟩ := active_true s i hi
      have := hB i (entry_lt s i e he)
      omega
    | succ m ih =>
      intro i hm hi
      rcases rc_active_why s H h rk hrk i hi with a | ⟨c, ec, hce, hcv, hcr, hcp, hlt⟩
      · exact rc_held_active s1 H1 h1 i (hsub _ a)
      · have hcB := hB c (entry_lt s c ec hce)
        have hc1 := ih c (by omega) (active_of s c ec hce hcv hcr)
        obtain ⟨e2, hce2, hv2, hp2⟩ := hk c ec hce hcv hcr
        obtain ⟨e3, hce3, hv3, hr3⟩ := active_true s1 c hc1
        rw [hce2] at hce3
        simp only [Option.some.injEq] at hce3
        subst hce3
        obtain ⟨rk1, hrk1⟩ := h1.rank
        rcases hrk1 c e2 hce2 hv3 hr3 with a | ⟨k, a, b, _⟩
        · rw [hp2, hcp] at a; simp at a
        · rw [hp2, hcp] at a
          simp only [Ptr.slot.injEq] at a
          subst a
          exact b
  intro i hi
  exact main (B - rk i) i (le_refl _) hi

/-- With the same references held, a slot that is referenced and in use afterwards was so
before. -/
theorem active_back (s s1 : FS) (H : List Ptr) (h : Inv s H) (h1 : Inv s1 H)
    (hk : Kept s s1) : ∀ i, active s1 i = true → active s i = true := by
  obtain ⟨rk, hrk⟩ := h1.rank
  obtain ⟨B, hB⟩ := exists_bound rk s1.entries.length
  have main : ∀ (m i : Nat), B - rk i ≤ m → active s1 i = true → active s i = true := by
    intro m
    induction m with
    | zero =>
      intro i hm hi
      obtain ⟨e, he, _, _⟩ := active_true s1 i hi
      have := hB i (entry_lt s1 i e he)
      omega
    | succ m ih =>
      intro i hm hi
      rcases rc_active_why s1 H h1 rk hrk i hi with a | ⟨c, ec, hce, hcv, hcr, hcp, hlt⟩
      · exact rc_held_active s H h i a
      · have hcB := hB c (entry_lt s1 c ec hce)
        have hc0 := ih c (by omega) (active_of s1 c ec hce hcv hcr)
        obtain ⟨e0, hce0, hv0, hr0⟩ := active_true s c hc0
        obtain ⟨e2, hce2, hv2, hp2⟩ := hk c e0 hce0 hv0 hr0
        rw [hce] at hce2
        simp only [Option.some.injEq] at hce2
        subst hce2
        obtain ⟨rk0, hrk0⟩ := h.rank
        rcases hrk0 c e0 hce0 hv0 hr0 with a | ⟨k, a, b, _⟩
        · rw [← hp2, hcp] at a; simp at a
        · rw [← hp2, hcp] at a
          simp only [Ptr.slot.injEq] at a
          subst a
          exact b
  intro i hi
  exact main (B - rk i) i (le_refl _) hi

/-- Two states with the same references held, one reached from the other with the referenced
slots in use keeping `valid` and `parent`, have the same reference counts. -/
theorem rc_refs_eq (s s1 : FS) (H : List Ptr) (h : Inv s H) (h1 : Inv s1 H) (hk : Kept s s1)
    (hl : s1.entries.length = s.entries.length) (p : Ptr) (e e1 : Dirent)
    (he : s.get p = some e) (he1 : s1.get p = some e1) : e1.ref = e.ref := by
  have hch : ∀ i, child s1 p i = child s p i := by
    intro i
    cases ha : active s i with
    | true =>
      obtain ⟨e0, hce0, hv0, hr0⟩ := active_true s i ha
      obtain ⟨e2, hce2, hv2, hp2⟩ := hk i e0 hce0 hv0 hr0
      have ha1 := active_mono s s1 H H h h1 (fun _ hx => hx) hk i ha
      obtain ⟨e3, hce3, hv3, hr3⟩ := active_true s1 i ha1
      rw [hce2] at hce3
      simp only [Option.some.injEq] at hce3
      subst hce3
      rw [child_eq s p i e0 hce0, child_eq s1 p i e2 hce2, hp2]
      simp [hv0, hr0, hv3, hr3]
    | false =>
      have ha1 : active s1 i = false := by
        cases hb : active s1 i with
        | false => rfl
        | true =>
          have := active_back s s1 H h h1 hk i hb
          rw [ha] at this
          simp at this
      have f1 : ∀ (t : FS), active t i = false → child t p i = false := by
        intro t ht
        unfold active at ht
        unfold child
        cases hti : t.entries[i]? with
        | none => rfl
        | some et =>
          rw [hti] at ht
          simp only at ht ⊢
          rw [ht]
          rfl
      rw [f1 s ha, f1 s1 ha1]
  have hpins : pins s1 p = pins s p := by
    unfold pins
    rw [hl]
    exact countP_range_same _ _ _ (fun i _ => hch i)
  have c0 := h.cnt p e he
  have c1 := h1.cnt p e1 he1
  rw [hpins] at c1
  omega

theorem kept_refl (s : FS) : Kept s s := fun _ e he _ _ => ⟨e, he, rfl, rfl⟩

theorem kept_sameVP (s0 s s2 : FS) (hk : Kept s0 s) (hvp : SameVP s s2) : Kept s0 s2 := by
  intro i e0 he0 hv0 hr0
  obtain ⟨e, he, hv, hp⟩ := hk i e0 he0 hv0 hr0
  obtain ⟨e2, he2, hv2, hp2⟩ := hvp (.slot i) e he
  exact ⟨e2, he2, hv2.trans hv, hp2.trans hp⟩

theorem kept_mod0 (s0 s s2 : FS) (H H1 : List Ptr) (h0 : Inv s0 H) (h1 : Inv s H1)
    (hsub : ∀ x ∈ H, x ∈ H1) (hk : Kept s0 s) (hm : Mod0 s s2) : Kept s0 s2 := by
  intro i e0 he0 hv0 hr0
  obtain ⟨e, he, hv, hp⟩ := hk i e0 he0 hv0 hr0
  have ha := active_mono s0 s H H1 h0 h1 hsub hk i (active_of s0 i e0 he0 hv0 hr0)
  obtain ⟨e1, he1, _, hr1⟩ := active_true s i ha
  rw [he] at he1
  simp only [Option.some.injEq] at he1
  subst he1
  obtain ⟨e2, he2, hv2, hp2⟩ := hm i e he hr1
  exact ⟨e2, he2, hv2.trans hv, hp2.trans hp⟩

theorem edup_length (s : FS) (x : Ptr) : (edup s x).1.entries.length = s.entries.length := by
  unfold edup
  cases hx : s.get x with
  | none => rfl
  | some e => exact set_length s x _

theorem eput_length (fat : Fat) : ∀ (fuel : Nat) (s : FS) (x : Ptr) (s2 : FS),
    eput fat fuel s x = some s2 → s2.entries.length = s.entries.length := by
  intro fuel
  induction fuel with
  | zero =>
    intro s x s2 h
    have h0 : eput fat 0 s x = none := rfl
    rw [h0] at h
    simp at h
  | succ k ih =>
    intro s x s2 h
    obtain ⟨e, he, hcase⟩ := eput_step fat k s x s2 h
    rcases hcase with ⟨_, hs2⟩ | ⟨_, _, _, s4, hm, hrec⟩
    · rw [hs2]
      exact set_length s x _
    · rw [ih s4 e.parent s2 hrec, meq_length hm]
      exact set_length s x _

theorem dirlookup_length (fat : Fat) (fuel : Nat) (s : FS) (H : List Ptr) (dp : Ptr)
    (nm : List Nat) (poff : Option Nat) (r : DlRes) (hinv : Inv s H) (hlive : Live s dp)
    (h : dirlookup fat fuel s dp nm poff = some r) :
    r.fs.entries.length = s.entries.length := by
  obtain ⟨dpe, hdp, hok⟩ := rc_live s H hinv dp hlive
  have hpos : dp = .root ∨ 1 ≤ dpe.ref := by
    rcases hok with a | a
    · exact Or.inl a
    · exact Or.inr (by omega)
  have hself := rc_not_self s H hinv dp dpe hdp hok
  rcases dirlookup_cases fat fuel s dp dpe nm poff r hdp hpos (fun a => (hself a).1) h with
    ⟨_, h2, _⟩ | ⟨_, h2⟩ | ⟨i, e, _, _, _, _, _, _, h2⟩ | ⟨i, e, _, _, _, _, _, _, h2⟩
    | ⟨j, e, _, _, _, _, _, hk, _⟩
  · rw [h2]
  · rw [h2]; exact edup_length s _
  · rw [h2]; exact set_length s _ _
  · rw [h2, set_length, set_length]
  · exact hk.2.2.1

theorem rc_head_live (s : FS) (H : List Ptr) (x : Ptr) (h : Inv s (x :: H)) :
    Live s x ∧ x ≠ .null := by
  rcases h.held x (List.mem_cons_self _ _) with a | ⟨i, e, a, b, c⟩
  · subst a
    exact ⟨Or.inl rfl, by simp⟩
  · subst a
    have := rc_held_ref s _ h _ (List.mem_cons_self _ _) e b
    exact ⟨Or.inr ⟨i, e, rfl, b, by omega⟩, by simp⟩

/-- The walk of `lookup_path` from an entry the walk holds: it ends with the references held
before and, unless it fails, the entry returned; the slots referenced and in use when the walk
began keep `valid` and `parent`. -/
theorem lookup_loop_rc (fat : Fat) (fuel : Nat) (parent : Bool) (s0 : FS) (H : List Ptr)
    (h0 : Inv s0 H) : ∀ (k : Nat) (s : FS) (entry : Ptr) (path name : List Nat) (r : PathRes),
    Inv s (entry :: H) → Kept s0 s → s.entries.length = s0.entries.length →
    lookup_loop fat fuel parent k s entry path name = some r →
    Inv r.fs (if r.ret = .null then H else r.ret :: H) ∧ Kept s0 r.fs
      ∧ r.fs.entries.length = s0.entries.length := by
  intro k
  induction k with
  | zero => intro s entry path name r _ _ _ h; simp [lookup_loop] at h
  | succ k ih =>
    intro s entry path name r hinv hk hl h
    obtain ⟨hlive, hnn⟩ := rc_head_live s H entry hinv
    have hput : ∀ s1, eput fat fuel s entry = some s1 →
        Inv s1 H ∧ Kept s0 s1 ∧ s1.entries.length = s0.entries.length := by
      intro s1 hp
      have := eput_rc fat fuel s _ entry s1 hinv (List.mem_cons_self _ _) hp
      rw [List.erase_cons_head] at this
      exact ⟨this, kept_sameVP s0 s s1 hk (eput_sameVP fat fuel s entry s1 hp),
        (eput_length fat fuel s entry s1 hp).trans hl⟩
    unfold lookup_loop at h
    cases hs : skipelem path with
    | none =>
      rw [hs] at h
      simp only at h
      split at h
      · cases hp : eput fat fuel s entry with
        | none => rw [hp] at h; simp at h
        | some s1 =>
          rw [hp] at h
          simp only [Option.some.injEq] at h
          subst h
          simp only [if_true]
          exact hput s1 hp
      · simp only [Option.some.injEq] at h
        subst h
        simp only [if_neg hnn]
        exact ⟨hinv, hk, hl⟩
    | some rn =>
      obtain ⟨rest, nm⟩ := rn
      rw [hs] at h
      simp only at h
      cases he : s.get entry with
      | none => rw [he] at h; simp at h
      | some e =>
        rw [he] at h
        simp only at h
        split at h
        · simp at h
        · split at h
          · cases hp : eput fat fuel s entry with
            | none => rw [hp] at h; simp at h
            | some s1 =>
              rw [hp] at h
              simp only [Option.some.injEq] at h
              subst h
              simp only [if_true]
              exact hput s1 hp
          · split at h
            · simp only [Option.some.injEq] at h
              subst h
              simp only [if_neg hnn]
              exact ⟨hinv, hk, hl⟩
            · cases hd : dirlookup fat fuel s entry nm none with
              | none => rw [hd] at h; simp at h
              | some r1 =>
                rw [hd] at h
                simp only at h
                obtain ⟨hinv1, hmod⟩ := dirlookup_rc fat fuel s _ entry nm none r1 hinv hlive hd
                have hl1 := dirlookup_length fat fuel s _ entry nm none r1 hinv hlive hd
                have hk1 : Kept s0 r1.fs := kept_mod0 s0 s r1.fs H (entry :: H) h0 hinv
                  (fun x hx => List.mem_cons_of_mem _ hx) hk hmod
                cases he1 : r1.fs.get entry with
                | none => rw [he1] at h; simp at h
                | some e1 =>
                  rw [he1] at h
                  simp only at h
                  split at h
                  · simp at h
                  · cases hp : eput fat fuel r1.fs entry with
                    | none => rw [hp] at h; simp at h
                    | some s1 =>
                      rw [hp] at h
                      simp only at h
                      have hk2 : Kept s0 s1 :=
                        kept_sameVP s0 r1.fs s1 hk1 (eput_sameVP fat fuel r1.fs entry s1 hp)
                      have hl2 : s1.entries.length = s0.entries.length :=
                        (eput_length fat fuel r1.fs entry s1 hp).trans (hl1.trans hl)
                      by_cases hr : r1.ret = .null
                      · rw [if_pos hr] at h hinv1
                        simp only [Option.some.injEq] at h
                        subst h
                        simp only [if_true]
                        have := eput_rc fat fuel r1.fs _ entry s1 hinv1
                          (List.mem_cons_self _ _) hp
                        rw [List.erase_cons_head] at this
                        exact ⟨this, hk2, hl2⟩
                      · rw [if_neg hr] at h hinv1
                        have hinv2 : Inv s1 (r1.ret :: H) := by
                          have := eput_rc fat fuel r1.fs _ entry s1 hinv1
                            (List.mem_cons_of_mem _ (List.mem_cons_self _ _)) hp
                          by_cases hre : r1.ret = entry
                          · rw [hre] at this ⊢
                            rw [List.erase_cons_head] at this
                            exact this
                          · rw [List.erase_cons_tail (by simpa using hre),
                              List.erase_cons_head] at this
                            exact this
                        exact ih s1 r1.ret rest nm r hinv2 hk2 hl2 h

/-- Source `lookup_path` keeps the bookkeeping; the slots referenced and in use before the call
keep `valid` and `parent`. -/
theorem lookup_path_rc (fat : Fat) (fuel : Nat) (s : FS) (H : List Ptr) (cwd : Ptr)
    (path : List Nat) (parent : Bool) (name : List Nat) (r : PathRes) (hinv : Inv s H)
    (hcwd : Live s cwd) (h : lookup_path fat fuel s cwd path parent name = some r) :
    Inv r.fs (if r.ret = .null then H else r.ret :: H) ∧ Kept s r.fs
      ∧ r.fs.entries.length = s.entries.length := by
  have hstart : ∀ x, Live s x → Inv (edup s x).1 (x :: H) ∧ Kept s (edup s x).1
      ∧ (edup s x).1.entries.length = s.entries.length := by
    intro x hx
    obtain ⟨e, he, hok⟩ := rc_live s H hinv x hx
    exact ⟨edup_rc s H hinv x e he hok, kept_sameVP s s _ (kept_refl s) (sameVP_edup s x),
      edup_length s x⟩
  unfold lookup_path at h
  simp only at h
  split at h
  · obtain ⟨a, b, c⟩ := hstart .root (Or.inl rfl)
    exact lookup_loop_rc fat fuel parent s H hinv _ _ _ _ _ r a b c h
  · split at h
    · obtain ⟨a, b, c⟩ := hstart cwd hcwd
      exact lookup_loop_rc fat fuel parent s H hinv _ _ _ _ _ r a b c h
    · simp only [Option.some.injEq] at h
      subst h
      simp only [if_true]
      exact ⟨hinv, kept_refl s, trivial⟩

/-- The bookkeeping holds in the state `fat32_init` builds, no reference being held. -/
theorem fat32_init_rc (fat : Fat) (n : Nat) (d : Disk) : Inv (fat32_init fat n d) [] := by
  have hz : ∀ (i : Nat) (e : Dirent), (fat32_init fat n d).entries[i]? = some e →
      e = Dirent.zero := by
    intro i e he
    have hm : e ∈ (fat32_init fat n d).entries := by
      obtain ⟨hi, hh⟩ := List.getElem?_eq_some_iff.1 he
      rw [← hh]
      exact List.getElem_mem hi
    simp only [fat32_init, List.mem_replicate] at hm
    exact hm.2
  have hp : ∀ p, pins (fat32_init fat n d) p = 0 := by
    intro p
    unfold pins
    rw [List.countP_eq_zero]
    intro i _
    cases he : (fat32_init fat n d).entries[i]? with
    | none => rw [child_none _ p i he]; simp
    | some e =>
      rw [child_eq _ p i e he, hz i e he]
      simp [Dirent.zero]
  refine ⟨?_, ⟨fun _ => 0, ?_⟩, ?_⟩
  · intro x hx
    simp at hx
  · intro i e he hv
    rw [hz i e he] at hv
    exact absurd rfl hv
  · intro p e he
    rw [hp p]
    cases p with
    | null => simp [FS.get] at he
    | root =>
      simp only [FS.get, Option.some.injEq] at he
      rw [← he]
      rfl
    | slot i =>
      rw [hz i e he]
      rfl

/-- The bookkeeping holds in every state reached from `fat32_init`. -/
theorem cacheReach_rc (fat : Fat) (n : Nat) (s : FS) (H : List Ptr)
    (h : CacheReach fat n s H) : Inv s H := by
  induction h with
  | init d => exact fat32_init_rc fat n d
  | edup s H x _ hx ih =>
    obtain ⟨e, he, hok⟩ := rc_live s H ih x hx
    exact edup_rc s H ih x e he hok
  | eput s H x fuel s1 _ hx hp ih => exact eput_rc fat fuel s H x s1 ih hx hp
  | dirlookup s H dp fuel name poff r _ hdp hd ih =>
    exact (dirlookup_rc fat fuel s H dp name poff r ih hdp hd).1
  | ealloc s H dp fuel name attr s1 p _ hdp he ih =>
    exact ealloc_rc fat fuel s H dp name attr s1 p ih hdp he
  | ename s H cwd fuel path s1 p _ hcwd he ih =>
    unfold Fat32.ename at he
    cases hl : lookup_path fat fuel s cwd path false [] with
    | none => rw [hl] at he; simp at he
    | some r =>
      rw [hl] at he
      simp only [Option.map_some', Option.some.injEq, Prod.mk.injEq] at he
      rw [← he.1, ← he.2]
      exact (lookup_path_rc fat fuel s H cwd path false [] r ih hcwd hl).1
  | enameparent s H cwd fuel path name r _ hcwd he ih =>
    exact (lookup_path_rc fat fuel s H cwd path true name r ih hcwd he).1

/-- A failed `lookup_path` leaves every reference count as it was. -/
theorem lookup_path_restores (fat : Fat) (fuel : Nat) (s : FS) (H : List Ptr) (cwd : Ptr)
    (path : List Nat) (parent : Bool) (name : List Nat) (r : PathRes) (hinv : Inv s H)
    (hcwd : Live s cwd) (h : lookup_path fat fuel s cwd path parent name = some r)
    (hr : r.ret = .null) :
    r.fs.root.ref = s.root.ref
      ∧ ∀ (i : Nat) (e : Dirent), s.entries[i]? = some e →
          ∃ e2, r.fs.entries[i]? = some e2 ∧ e2.ref = e.ref := by
  obtain ⟨h1, hk, hl⟩ := lookup_path_rc fat fuel s H cwd path parent name r hinv hcwd h
  rw [if_pos hr] at h1
  refine ⟨rc_refs_eq s r.fs H hinv h1 hk hl .root s.root r.fs.root rfl rfl, ?_⟩
  intro i e he
  have hi : i < r.fs.entries.length := by
    rw [hl]
    exact entry_lt s i e he
  refine ⟨r.fs.entries[i], List.getElem?_eq_getElem hi, ?_⟩
  exact rc_refs_eq s r.fs H hinv h1 hk hl (.slot i) e _ he (List.getElem?_eq_getElem hi)

/-- When `eget` returns a slot that has a referenced child, the entry in the slot is the one that
was there, with one more reference: the slot has not been taken for another entry. -/
theorem eget_keeps_pinned (s : FS) (H : List Ptr) (hinv : Inv s H) (dp : Ptr)
    (name : Option (List Nat)) (s1 : FS) (j : Nat) (e : Dirent) (he : s.entries[j]? = some e)
    (hp : 0 < pins s (.slot j)) (h : eget s dp name = some (s1, .slot j)) :
    s1.entries[j]? = some { e with ref := e.ref + 1 } := by
  have hc := hinv.cnt (.slot j) e he
  have hr : 0 < e.ref := by omega
  have hg : s.get (.slot j) = some e := he
  unfold eget at h
  simp only at h
  split at h
  · rename_i i heq
    cases hi : s.entries[i]? with
    | none => rw [hi] at h; simp at h
    | some ep =>
      rw [hi] at h
      simp only at h
      split at h
      · split at h
        · simp at h
        · simp only [Option.some.injEq, Prod.mk.injEq, Ptr.slot.injEq] at h
          obtain ⟨_, h2⟩ := h
          subst h2
          rw [he] at hi
          simp only [Option.some.injEq] at hi
          subst hi
          omega
      · simp only [Option.some.injEq, Prod.mk.injEq, Ptr.slot.injEq] at h
        obtain ⟨h1, h2⟩ := h
        subst h2
        rw [he] at hi
        simp only [Option.some.injEq] at hi
        subst hi
        rw [← h1]
        exact FS.get_set_same s (.slot i) e _ hg
  · split at h
    · simp at h
    · rename_i i hrev
      have hz := List.find?_some hrev
      split at h
      · rename_i e0 par hent0 hpar
        simp only [Option.some.injEq, Prod.mk.injEq, Ptr.slot.injEq] at h
        obtain ⟨_, h2⟩ := h
        subst h2
        rw [hent0] at hz he
        simp only [decide_eq_true_eq] at hz
        simp only [Option.some.injEq] at he
        subst he
        omega
      · simp at h

/-- C28: in every state of the entry cache reached from `fat32_init` through `ename`,
`enameparent`, `dirlookup`, `ealloc`, `edup` and `eput` (each `eput` giving up a reference
acquired before, the entries passed to the other calls being `root` or having `ref > 0`), every
slot with `ref > 0` and `valid != 0` has a parent whose `ref` is above 0; the `ref` of every entry
is at least the number of its children with `ref > 0` (`pins` counts the children in use with
`ref > 0`, and every slot with `ref > 0` is in use); and when `eget` returns a slot that has a
referenced child, it is a hit on the entry in the slot and not a recycling of the slot. -/
theorem parent_pinning (fat : Fat) (n : Nat) (s : FS) (H : List Ptr)
    (h : CacheReach fat n s H) :
    (∀ (i : Nat) (e : Dirent), s.entries[i]? = some e → 0 < e.ref → e.valid ≠ 0 →
        ∃ pe, s.get e.parent = some pe ∧ 0 < pe.ref)
      ∧ (∀ (p : Ptr) (pe : Dirent), s.get p = some pe → (pins s p : Int) ≤ pe.ref)
      ∧ (∀ (dp : Ptr) (name : Option (List Nat)) (s1 : FS) (j : Nat) (e : Dirent),
          s.entries[j]? = some e → 0 < pins s (.slot j) → eget s dp name = some (s1, .slot j) →
          s1.entries[j]? = some { e with ref := e.ref + 1 })
      ∧ (∀ (i : Nat) (e : Dirent), s.entries[i]? = some e → 0 < e.ref → e.valid ≠ 0) := by
  have hinv := cacheReach_rc fat n s H h
  refine ⟨?_, ?_, ?_, fun i e he hr => rc_ref_valid s H hinv i e he hr⟩
  · intro i e he hr hv
    rcases rc_parent s H hinv i e he hv hr with a | ⟨k, pe, a, _, b, _, c⟩
    · refine ⟨s.root, by rw [a]; rfl, ?_⟩
      have h1 := pins_ge_one s .root i e he hv hr a
      have h2 := hinv.cnt .root s.root rfl
      omega
    · exact ⟨pe, by rw [a]; exact b, c⟩
  · intro p pe hp
    have := hinv.cnt p pe hp
    omega
  · intro dp name s1 j e he hp hg
    exact eget_keeps_pinned s H hinv dp name s1 j e he hp hg

set_option maxRecDepth 1000000 in
theorem parent_pinning_witness :
    ∃ (s1 : FS), ename demo_fat 4 (fat32_init demo_fat 2 full_fs.disk) .root [0x2f, 0x61, 0]
        = some (s1, .slot 0)
      ∧ CacheReach demo_fat 2 s1 [.slot 0]
      ∧ s1.root.ref = 1 ∧ pins s1 .root = 1
      ∧ (∀ (i : Nat) (e : Dirent), s1.entries[i]? = some e → 0 < e.ref → e.valid ≠ 0 →
          ∃ pe, s1.get e.parent = some pe ∧ 0 < pe.ref)
      ∧ (∀ (p : Ptr) (pe : Dirent), s1.get p = some pe → (pins s1 p : Int) ≤ pe.ref)
      ∧ (∀ (dp : Ptr) (name : Option (List Nat)) (s2 : FS) (j : Nat) (e : Dirent),
          s1.entries[j]? = some e → 0 < pins s1 (.slot j) →
          eget s1 dp name = some (s2, .slot j) →
          s2.entries[j]? = some { e with ref := e.ref + 1 })
      ∧ (∀ (i : Nat) (e : Dirent), s1.entries[i]? = some e → 0 < e.ref → e.valid ≠ 0) := by
  have h1 : (ename demo_fat 4 (fat32_init demo_fat 2 full_fs.disk) .root [0x2f, 0x61, 0]).map
      (fun r => (r.2, r.1.root.ref, pins r.1 .root)) = some (.slot 0, 1, 1) := by decide
  cases hr : ename demo_fat 4 (fat32_init demo_fat 2 full_fs.disk) .root [0x2f, 0x61, 0] with
  | none => rw [hr] at h1; simp at h1
  | some sp =>
    obtain ⟨s1, p⟩ := sp
    rw [hr] at h1
    simp only [Option.map_some', Option.some.injEq, Prod.mk.injEq] at h1
    obtain ⟨hp, hroot, hpins⟩ := h1
    subst hp
    have hreach : CacheReach demo_fat 2 s1 [.slot 0] :=
      CacheReach.ename _ [] .root 4 _ s1 (.slot 0) (CacheReach.init full_fs.disk)
        (Or.inl rfl) hr
    exact ⟨s1, rfl, hreach, hroot, hpins, parent_pinning demo_fat 2 s1 [.slot 0] hreach⟩

/-- C16: in every state of the entry cache reached from `fat32_init`, with a working directory
that is `root` or has `ref > 0`: when `ename(path)` or `enameparent(path, name)` returns NULL, the
`ref` of `root` and of every slot of the entry cache is what it was before the call. -/
theorem failed_lookup_restores_refs (fat : Fat) (n : Nat) (s : FS) (H : List Ptr) (cwd : Ptr)
    (fuel : Nat) (path name : List Nat) (hreach : CacheReach fat n s H) (hcwd : Live s cwd) :
    (∀ (s1 : FS), ename fat fuel s cwd path = some (s1, .null) →
        s1.root.ref = s.root.ref
          ∧ ∀ (i : Nat) (e : Dirent), s.entries[i]? = some e →
              ∃ e2, s1.entries[i]? = some e2 ∧ e2.ref = e.ref)
      ∧ (∀ (r : PathRes), enameparent fat fuel s cwd path name = some r → r.ret = .null →
        r.fs.root.ref = s.root.ref
          ∧ ∀ (i : Nat) (e : Dirent), s.entries[i]? = some e →
              ∃ e2, r.fs.entries[i]? = some e2 ∧ e2.ref = e.ref) := by
  have hinv := cacheReach_rc fat n s H hreach
  refine ⟨?_, ?_⟩
  · intro s1 he
    unfold ename at he
    cases hl : lookup_path fat fuel s cwd path false [] with
    | none => rw [hl] at he; simp at he
    | some r =>
      rw [hl] at he
      simp only [Option.map_some', Option.some.injEq, Prod.mk.injEq] at he
      rw [← he.1]
      exact lookup_path_restores fat fuel s H cwd path false [] r hinv hcwd hl he.2
  · intro r he hr
    exact lookup_path_restores fat fuel s H cwd path true name r hinv hcwd he hr

set_option maxRecDepth 1000000 in
theorem failed_lookup_restores_refs_witness :
    (ename demo_fat 4 (fat32_init demo_fat 2 full_fs.disk) .root
        [0x2f, 0x61, 0x2f, 0x62, 0]).map Prod.snd = some .null
      ∧ (enameparent demo_fat 4 (fat32_init demo_fat 2 full_fs.disk) .root
        [0x2f, 0x61, 0x2f, 0x62, 0] []).map (fun r => r.ret) = some .null
      ∧ (∀ (s1 : FS), ename demo_fat 4 (fat32_init demo_fat 2 full_fs.disk) .root
            [0x2f, 0x61, 0x2f, 0x62, 0] = some (s1, .null) →
          s1.root.ref = (fat32_init demo_fat 2 full_fs.disk).root.ref
            ∧ ∀ (i : Nat) (e : Dirent),
                (fat32_init demo_fat 2 full_fs.disk).entries[i]? = some e →
                ∃ e2, s1.entries[i]? = some e2 ∧ e2.ref = e.ref)
      ∧ (∀ (r : PathRes), enameparent demo_fat 4 (fat32_init demo_fat 2 full_fs.disk) .root
            [0x2f, 0x61, 0x2f, 0x62, 0] [] = some r → r.ret = .null →
          r.fs.root.ref = (fat32_init demo_fat 2 full_fs.disk).root.ref
            ∧ ∀ (i : Nat) (e : Dirent),
                (fat32_init demo_fat 2 full_fs.disk).entries[i]? = some e →
                ∃ e2, r.fs.entries[i]? = some e2 ∧ e2.ref = e.ref) :=
  ⟨by decide, by decide,
    failed_lookup_restores_refs demo_fat 2 (fat32_init demo_fat 2 full_fs.disk) [] .root 4
      [0x2f, 0x61, 0x2f, 0x62, 0] [] (CacheReach.init full_fs.disk) (Or.inl rfl)⟩

end Fat32
